import Mathlib

/-!
qmf: a verification development of the matrix-factorisation core.

Shallow embedding of the C++ sources of `quora/qmf` (dense matrix kernel,
`IdIndex`, `ParallelExecutor`, the BPR and WALS engines, the metrics and their
registry) together with theorems about them.

Conventions of the embedding:

* `Double` is an arbitrary (linearly ordered) field `K`: every statement is
  about exact arithmetic. Definitions are polymorphic, so they evaluate on `ℚ`.
* `size_t`, `int` and `int64_t` values are mathematical integers: every loop
  bound of the sources is the size of an in-memory container, far from the
  point where a machine integer wraps. The exception is the product
  `nrows * ncols` in the constructor of `Matrix`, whose factors are arguments
  and not sizes of containers: it is taken modulo 2^64, as `size_t` arithmetic
  does.
* Containers are lists. Reading outside a container (undefined behaviour in
  the sources) yields 0 and writing outside it does nothing; the theorems are
  about accesses inside the containers.
* Calls into libraries outside the repository (LAPACK `dsysv_`, `<random>`,
  `exp`, `log`, `std::sort`, `std::nth_element`) are parameters of the
  definitions that use them, with their contracts as hypotheses; `std::stoul`
  is written out after the C++ standard, and a `std::string` is the list of its
  characters.
* A fatal `CHECK` is the value `none` of an `Option`; so is a loop that does not
  end within its fuel.
* Worker tasks of the thread pool are pure here, so a parallel call is modelled
  by what every worker computes, in worker order (the order in which the
  futures are collected).
-/

/-- Square matrices of Mathlib, under a name that the program's own `Matrix`
does not shadow. -/
abbrev MathMatrix (n : Nat) (K : Type) := Matrix (Fin n) (Fin n) K

namespace qmf

/-! ## utils/ParallelExecutor -/

/-- A `ParallelExecutor` owns a `ThreadPool` of `nthreads` workers; the pool's
constructor aborts unless `nthreads > 0` (`CHECK_GT(nthreads, 0)`). -/
structure ParallelExecutor where
  nthreads : Nat
  nthreads_pos : 0 < nthreads

/-- The loop `for (taskId = start; taskId < ntasks; taskId += nthreads)` of a
worker task in `ParallelExecutor::execute`: the task ids on which `func` is
called, in call order. -/
def strideTaskIds (nthreads ntasks : Nat) (hpos : 0 < nthreads) (taskId : Nat) : List Nat :=
  if taskId < ntasks then
    taskId :: strideTaskIds nthreads ntasks hpos (taskId + nthreads)
  else []
termination_by ntasks - taskId
decreasing_by omega

/-- Embeds `ParallelExecutor::execute(ntasks, func)`: one worker task per thread id
`0 .. nthreads-1`; entry `threadId` of the result is the sequence of task ids
that worker passes to `func`. -/
def ParallelExecutor.execute (p : ParallelExecutor) (ntasks : Nat) : List (List Nat) :=
  (List.range p.nthreads).map (fun threadId => strideTaskIds p.nthreads ntasks p.nthreads_pos threadId)

/-- The worker loop of `ParallelExecutor::mapReduce(ntasks, ...)`:
`for (taskId = start; taskId < ntasks; taskId += nthreads) res = reducer(res, mapper(taskId));`. -/
def mapReduceWorker {T : Type} (mapper : Nat → T) (reducer : T → T → T)
    (nthreads ntasks : Nat) (hpos : 0 < nthreads) (res : T) (taskId : Nat) : T :=
  if taskId < ntasks then
    mapReduceWorker mapper reducer nthreads ntasks hpos (reducer res (mapper taskId)) (taskId + nthreads)
  else res
termination_by ntasks - taskId
decreasing_by omega

/-- Embeds `ParallelExecutor::mapReduce(ntasks, mapper, reducer, neutral)`: every
worker reduces its stride of task ids starting from `neutral`; the partial
results are accumulated from `neutral` in worker order. -/
def ParallelExecutor.mapReduce {T : Type} (p : ParallelExecutor) (ntasks : Nat)
    (mapper : Nat → T) (reducer : T → T → T) (neutral : T) : T :=
  (List.range p.nthreads).foldl
    (fun res threadId =>
      reducer res (mapReduceWorker mapper reducer p.nthreads ntasks p.nthreads_pos neutral threadId))
    neutral

/-- The block of `elems` a worker of `mapReduce(elems, ...)` accumulates over:
`[elems.begin() + threadId * blockSize,
  elems.begin() + min((threadId + 1) * blockSize, nelems))`
with `blockSize = nelems / nthreads`. -/
def elemsBlock {E : Type} (elems : List E) (nthreads threadId : Nat) : List E :=
  let nelems := elems.length
  let blockSize := nelems / nthreads
  (elems.take (min ((threadId + 1) * blockSize) nelems)).drop (threadId * blockSize)

/-- Embeds `ParallelExecutor::mapReduce(elems, mapper, reducer, neutral)`: every worker
accumulates `reducer(res, mapper(elem))` over its block, starting from
`neutral`; the partial results are accumulated from `neutral` in worker order. -/
def ParallelExecutor.mapReduceElems {T E : Type} (p : ParallelExecutor) (elems : List E)
    (mapper : E → T) (reducer : T → T → T) (neutral : T) : T :=
  (List.range p.nthreads).foldl
    (fun res threadId =>
      reducer res
        ((elemsBlock elems p.nthreads threadId).foldl (fun res elem => reducer res (mapper elem)) neutral))
    neutral

/-- The sequential left fold
`reducer(... reducer(reducer(neutral, mapper(0)), mapper(1)) ..., mapper(ntasks-1))`. -/
def sequentialFold {T : Type} (ntasks : Nat) (mapper : Nat → T) (reducer : T → T → T)
    (neutral : T) : T :=
  (List.range ntasks).foldl (fun res taskId => reducer res (mapper taskId)) neutral

/-! ## Vector.h, Matrix.h, Matrix.cpp -/

/-- Embeds `Vector`: the wrapped `std::vector<Double> data_`. -/
structure Vector (K : Type) where
  data : List K
deriving DecidableEq

/-- Modelled from the spec: the constructor `Vector(n)` (declared in Vector.h,
its definition is not among the sources), a dense `n`-element vector; the
callers (`Vector b(n); b(i) += ...`) rely on the elements starting at zero. -/
def Vector.new {K : Type} [Zero K] (n : Nat) : Vector K :=
  ⟨List.replicate n 0⟩

/-- Embeds `Vector::size`. -/
def Vector.size {K : Type} (v : Vector K) : Nat := v.data.length

/-- Embeds `Vector::operator()(i) const`: reads `data_[i]`. -/
def Vector.get {K : Type} [Zero K] (v : Vector K) (i : Nat) : K := v.data.getD i 0

/-- Assignment through `Double& Vector::operator()(i)`. -/
def Vector.set {K : Type} (v : Vector K) (i : Nat) (x : K) : Vector K := ⟨v.data.set i x⟩

/-- Embeds `Matrix`: row-wise matrix with fields `nrows_`, `ncols_`, `data_`. -/
structure Matrix (K : Type) where
  nrows : Nat
  ncols : Nat
  data : List K
deriving DecidableEq

/-- Embeds `Matrix::index(r, c) = r * ncols_ + c`. -/
def Matrix.index {K : Type} (M : Matrix K) (r c : Nat) : Nat := r * M.ncols + c

/-- Embeds `Matrix::Matrix(nrows, ncols)`: `data_(nrows * ncols, 0.0)` and
`CHECK_GT(nrows * ncols, 0)`. The product `nrows * ncols` of the two `size_t`
arguments is a `size_t`: it is the product modulo 2^64, in the size of `data_`
as in the `CHECK`. The allocation of `data_` is taken to succeed. -/
def Matrix.new {K : Type} [Zero K] (nrows ncols : Nat) : Option (Matrix K) :=
  if (nrows * ncols) % 2 ^ 64 > 0 then
    some ⟨nrows, ncols, List.replicate ((nrows * ncols) % 2 ^ 64) 0⟩
  else none

/-- Embeds `Matrix::operator()(r, c) const`: reads `data_[index(r, c)]`. -/
def Matrix.get {K : Type} [Zero K] (M : Matrix K) (r c : Nat) : K := M.data.getD (M.index r c) 0

/-- Assignment through `Double& Matrix::operator()(r, c)`. -/
def Matrix.set {K : Type} (M : Matrix K) (r c : Nat) (x : K) : Matrix K :=
  { M with data := M.data.set (M.index r c) x }

/-- Embeds `Matrix::transpose`. -/
def Matrix.transpose {K : Type} [Zero K] (M : Matrix K) : Option (Matrix K) :=
  (Matrix.new M.ncols M.nrows).map (fun T =>
    (List.range M.nrows).foldl (fun T i =>
      (List.range M.ncols).foldl (fun T j => T.set j i (M.get i j)) T) T)

/-- The LAPACK routine `dsysv_(uplo, n, nrhs, a, lda, ipiv, b, ldb, work, lwork, info)`,
which is outside the repository: given `uplo n nrhs a lda b ldb lwork` it yields
the overwritten `b` and `info`. -/
abbrev Dsysv (K : Type) := String → Nat → Nat → List K → Nat → List K → Nat → Nat → List K × Int

/-- Embeds `linearSymmetricSolve(Matrix A, Vector b)`; `A` and `b` are taken by value. -/
def linearSymmetricSolve {K : Type} [Zero K] (dsysv : Dsysv K) (A : Matrix K) (b : Vector K) :
    Option (Vector K) :=
  if A.nrows ≠ A.ncols then none
  else if A.nrows ≠ b.size then none
  else
    let n := A.nrows
    let bncols := 1
    match A.transpose with
    | none => none
    | some At =>
      let out := dsysv "Upper" n bncols At.data n b.data n n
      if out.2 ≠ 0 then none else some ⟨out.1⟩

/-! ## utils/IdIndex.h -/

/-- Embeds `IdIndex`: `ids_` (index to id) and `idxMap_` (id to index). -/
structure IdIndex where
  ids : List Int
  idxMap : List (Int × Nat)
deriving DecidableEq

/-- Embeds `IdIndex::missingIdx = std::numeric_limits<size_t>::max()`. -/
def IdIndex.missingIdx : Nat := 2 ^ 64 - 1

/-- The default-constructed `IdIndex`. -/
def IdIndex.empty : IdIndex := ⟨[], []⟩

/-- Embeds `IdIndex::id(idx)`: `ids_[idx]`. -/
def IdIndex.id (ix : IdIndex) (idx : Nat) : Int := ix.ids.getD idx 0

/-- Embeds `IdIndex::idx(id)`: the mapped index, `missingIdx` when `id` is absent. -/
def IdIndex.idx (ix : IdIndex) (id : Int) : Nat :=
  match ix.idxMap.lookup id with
  | some pos => pos
  | none => IdIndex.missingIdx

/-- Embeds `IdIndex::size`. -/
def IdIndex.size (ix : IdIndex) : Nat := ix.ids.length

/-- Modelled from the spec: `IdIndex::getOrSetIdx` (declared in IdIndex.h, its
definition is not among the sources): "`get_or_insert` appends on first sight,
returns the existing index otherwise". The result is the index and the updated
`IdIndex`. -/
def IdIndex.getOrSetIdx (ix : IdIndex) (id : Int) : Nat × IdIndex :=
  match ix.idxMap.lookup id with
  | some pos => (pos, ix)
  | none => (ix.ids.length, ⟨ix.ids ++ [id], (id, ix.ids.length) :: ix.idxMap⟩)

/-! ## FactorData.h -/

/-- Embeds `FactorData`: `withBiases_`, `factors_`, `biases_`. -/
structure FactorData (K : Type) where
  withBiases : Bool
  factors : Matrix K
  biases : Vector K
deriving DecidableEq

/-- Embeds `FactorData::FactorData(nelems, nfactors, withBiases)`. -/
def FactorData.new {K : Type} [Zero K] (nelems nfactors : Nat) (withBiases : Bool) :
    Option (FactorData K) :=
  (Matrix.new nelems nfactors).map (fun factors =>
    ⟨withBiases, factors, Vector.new (if withBiases then nelems else 0)⟩)

/-- Embeds `FactorData::at(idx, fidx)` (read). -/
def FactorData.getAt {K : Type} [Zero K] (fd : FactorData K) (idx fidx : Nat) : K :=
  fd.factors.get idx fidx

/-- Assignment through `Double& FactorData::at(idx, fidx)`. -/
def FactorData.setAt {K : Type} (fd : FactorData K) (idx fidx : Nat) (x : K) : FactorData K :=
  { fd with factors := fd.factors.set idx fidx x }

/-- Embeds `Double FactorData::biasAt(idx) const`: `withBiases_ ? biases_(idx) : 0.0`. -/
def FactorData.biasAt {K : Type} [Zero K] (fd : FactorData K) (idx : Nat) : K :=
  if fd.withBiases then fd.biases.get idx else 0

/-- Read through `Double& FactorData::biasAt(idx)`, the overload chosen on a
non-const `FactorData`: `CHECK(withBiases_)`, then `biases_(idx)`. -/
def FactorData.biasAtRef {K : Type} [Zero K] (fd : FactorData K) (idx : Nat) : Option K :=
  if fd.withBiases then some (fd.biases.get idx) else none

/-- Assignment through `Double& FactorData::biasAt(idx)`: `CHECK(withBiases_)`,
then the write. -/
def FactorData.setBiasAt {K : Type} (fd : FactorData K) (idx : Nat) (x : K) :
    Option (FactorData K) :=
  if fd.withBiases then some { fd with biases := fd.biases.set idx x } else none

/-- Embeds `FactorData::nelems`. -/
def FactorData.nelems {K : Type} (fd : FactorData K) : Nat := fd.factors.nrows

/-- Embeds `FactorData::nfactors`. -/
def FactorData.nfactors {K : Type} (fd : FactorData K) : Nat := fd.factors.ncols

/-! ## DatasetReader.h -/

/-- Embeds `DatasetElem`. -/
structure DatasetElem (K : Type) where
  userId : Int
  itemId : Int
  value : K
deriving DecidableEq

/-! ## wals/WALSEngine -/

/-- Embeds `WALSEngine::Signal`. -/
structure Signal (K : Type) where
  id : Int
  value : K
deriving DecidableEq

/-- Embeds `WALSEngine::SignalGroup`. -/
structure SignalGroup (K : Type) where
  sourceId : Int
  group : List (Signal K)
deriving DecidableEq

/-- The linear system and the running loss that `updateFactorsForOne` has built
when it reaches the call of the solver. -/
structure WALSSystem (K : Type) where
  /-- The right-hand side `b`. -/
  b : Vector K
  /-- The copy `B` of `A` taken before `lambda` is added to the diagonal. -/
  B : Matrix K
  /-- The matrix `A` passed to `linearSymmetricSolve`. -/
  A : Matrix K
  /-- The value of `loss` after the loop over the signals. -/
  loss : K

/-- The body of the loop `for (const auto& signal : signalGroup.group)` of
`WALSEngine::updateFactorsForOne`, on the state `(b, A, loss)`. -/
def accumulateSignal {K : Type} [Field K] (n : Nat) (Y : Matrix K) (rightIndex : IdIndex)
    (alpha : K) (st : Vector K × Matrix K × K) (signal : Signal K) : Vector K × Matrix K × K :=
  let rightIdx := rightIndex.idx signal.id
  let bA := (List.range n).foldl
    (fun (bA : Vector K × Matrix K) i =>
      (bA.1.set i (bA.1.get i + Y.get rightIdx i * (1 + alpha * signal.value)),
       (List.range n).foldl
          (fun (A : Matrix K) j =>
            A.set i j (A.get i j + Y.get rightIdx i * alpha * signal.value * Y.get rightIdx j))
          bA.2))
    (st.1, st.2.1)
  (bA.1, bA.2, st.2.2 + (1 + alpha * signal.value))

/-- Lines 219-237 of `WALSEngine::updateFactorsForOne`: `loss = 0`, `Vector b(n)`,
the loop over the signals of the group, the copy `Matrix B = A`, and the loop
adding `lambda` to the diagonal of `A`. -/
def buildSystem {K : Type} [Field K] (n : Nat) (Y : Matrix K) (rightIndex : IdIndex)
    (signalGroup : SignalGroup K) (A : Matrix K) (alpha lambda : K) : WALSSystem K :=
  let st := signalGroup.group.foldl (accumulateSignal n Y rightIndex alpha) (Vector.new n, A, 0)
  let B := st.2.1
  let A := (List.range n).foldl (fun (A : Matrix K) i => A.set i i (A.get i i + lambda)) st.2.1
  ⟨st.1, B, A, st.2.2⟩

/-- Lines 240-253 of `WALSEngine::updateFactorsForOne`: the two loss loops and
the write of `x` into row `leftIdx` of `X`. The result is the returned loss
and the updated `X`. -/
def finishUpdate {K : Type} [Field K] (n : Nat) (X : Matrix K) (leftIndex : IdIndex)
    (signalGroup : SignalGroup K) (sys : WALSSystem K) (x : Vector K) : K × Matrix K :=
  let loss := (List.range n).foldl
    (fun loss i => (List.range n).foldl (fun loss j => loss + sys.B.get i j * x.get i * x.get j) loss)
    sys.loss
  let loss := (List.range n).foldl (fun loss i => loss - 2 * x.get i * sys.b.get i) loss
  let leftIdx := leftIndex.idx signalGroup.sourceId
  let X := (List.range n).foldl (fun (X : Matrix K) i => X.set leftIdx i (x.get i)) X
  (loss, X)

/-- Embeds `WALSEngine::updateFactorsForOne(X, leftIndex, Y, rightIndex, signalGroup, A,
alpha, lambda)`: `X` is updated in place (here: returned), `A` is taken by
value; the result is `none` when `linearSymmetricSolve` aborts. -/
def updateFactorsForOne {K : Type} [Field K] (dsysv : Dsysv K) (X : Matrix K)
    (leftIndex : IdIndex) (Y : Matrix K) (rightIndex : IdIndex) (signalGroup : SignalGroup K)
    (A : Matrix K) (alpha lambda : K) : Option (K × Matrix K) :=
  let n := X.ncols
  let sys := buildSystem n Y rightIndex signalGroup A alpha lambda
  (linearSymmetricSolve dsysv sys.A sys.b).map (fun x =>
    finishUpdate n X leftIndex signalGroup sys x)

/-- A matrix whose buffer has `nrows * ncols` elements, as every matrix built by
the constructor. -/
def Matrix.WF {K : Type} (M : Matrix K) : Prop := M.data.length = M.nrows * M.ncols

instance {K : Type} (M : Matrix K) : Decidable M.WF :=
  inferInstanceAs (Decidable (M.data.length = M.nrows * M.ncols))

/-- The invariant of an `IdIndex`: every entry `id -> pos` of `idxMap_` points at
the slot of `ids_` that holds `id`. -/
def IdIndex.Inv (ix : IdIndex) : Prop :=
  ∀ id pos, ix.idxMap.lookup id = some pos → ix.ids[pos]? = some id

/-- The id `id` is present in the index. -/
def IdIndex.Present (ix : IdIndex) (id : Int) : Prop :=
  ∃ pos, ix.idxMap.lookup id = some pos

instance (ix : IdIndex) (id : Int) : Decidable (ix.Present id) :=
  decidable_of_iff ((ix.idxMap.lookup id).isSome = true)
    (by simp [IdIndex.Present, Option.isSome_iff_exists])

/-! ### The implicit-feedback objective, as the specification words it -/

/-- The signal of the group whose item is row `j` of the right matrix, if any. -/
def signalAt {K : Type} (rightIndex : IdIndex) (group : List (Signal K)) (j : Nat) :
    Option (Signal K) :=
  group.find? (fun s => rightIndex.idx s.id = j)

/-- The confidence `c_j = 1 + alpha * v_j` for the items of the group, `1` for all
other items. -/
def confidence {K : Type} [Field K] (rightIndex : IdIndex) (group : List (Signal K))
    (alpha : K) (j : Nat) : K :=
  match signalAt rightIndex group j with
  | some s => 1 + alpha * s.value
  | none => 1

/-- The preference `p_j = 1` for the items of the group, `0` for all other items. -/
def preference {K : Type} [Field K] (rightIndex : IdIndex) (group : List (Signal K))
    (j : Nat) : K :=
  match signalAt rightIndex group j with
  | some _ => 1
  | none => 0

/-- The prediction `<x, y_j>` over the `n` factors. -/
def prediction {K : Type} [Field K] (n : Nat) (Y : Matrix K) (x : Nat → K) (j : Nat) : K :=
  ∑ i ∈ Finset.range n, x i * Y.get j i

/-- The per-cell weighted squared residual sum of a row `x`:
`sum_j c_j (p_j - <x, y_j>)^2` over all rows `j` of `Y`. -/
def weightedResidual {K : Type} [Field K] (n : Nat) (Y : Matrix K) (rightIndex : IdIndex)
    (group : List (Signal K)) (alpha : K) (x : Nat → K) : K :=
  ∑ j ∈ Finset.range Y.nrows,
    confidence rightIndex group alpha j * (preference rightIndex group j - prediction n Y x j) ^ 2

/-- The regularised objective `sum_j c_j (p_j - <x, y_j>)^2 + lambda * |x|^2`. -/
def walsObjective {K : Type} [Field K] (n : Nat) (Y : Matrix K) (rightIndex : IdIndex)
    (group : List (Signal K)) (alpha lambda : K) (x : Nat → K) : K :=
  weightedResidual n Y rightIndex group alpha x + lambda * ∑ i ∈ Finset.range n, x i ^ 2

/-! ## `<random>`, `<cmath>` -/

/-- The constructor `std::mt19937(seed)`: the generator state for a seed. -/
abbrev Mt19937 (G : Type) := Int → G

/-- Drawing from `std::uniform_int_distribution<>(a, b)` with a generator:
the drawn value and the advanced generator. -/
abbrev UniformInt (G : Type) := Int → Int → G → Int × G

/-- Drawing from `std::uniform_real_distribution<Double>(a, b)` with a
generator. -/
abbrev UniformReal (G K : Type) := K → K → G → K × G

/-- The contract of `std::uniform_int_distribution`: for `a ≤ b` the drawn value
lies in `[a, b]`. -/
def UniformInt.InRange {G : Type} (dis : UniformInt G) : Prop :=
  ∀ a b g, a ≤ b → a ≤ (dis a b g).1 ∧ (dis a b g).1 ≤ b

/-! ## metrics/MetricsEngine.h -/

/-- Embeds `MetricsConfig`. -/
structure MetricsConfig where
  numTestUsers : Nat
  alwaysCompute : Bool
  seed : Int

/-- Embeds `MetricsEngine`: its configuration, the four metric-name lists and the
recorded series `metricsMap_`. -/
structure MetricsEngine (K : Type) where
  config : MetricsConfig
  log : Bool
  trainMetrics : List String
  trainAvgMetrics : List String
  testMetrics : List String
  testAvgMetrics : List String
  metricsMap : List (String × List (Nat × K))

/-! ## Engine.cpp -/

/-- Embeds `std::vector::resize(n)` on a vector of sets: truncate, or pad with empty
sets. -/
def resizeSets (sets : List (List Nat)) (n : Nat) : List (List Nat) :=
  sets.take n ++ List.replicate (n - sets.length) []

/-- Embeds `sets[i].insert(x)` on a vector of `std::unordered_set<size_t>`. -/
def insertInto (sets : List (List Nat)) (i x : Nat) : List (List Nat) :=
  sets.set i ((sets.getD i []).insert x)

/-- Embeds `Engine::initAvgTestData`. The iteration order of the `std::unordered_set`
(`iterOrder`) and `std::shuffle` belong to the standard library and are
parameters. The result is `(testUsers, testLabels, testScores)`. -/
def initAvgTestData {K G : Type} [Zero K] (iterOrder : List Nat → List Nat)
    (shuffle : List Nat → G → List Nat) (mt : Mt19937 G)
    (testLabels testScores : List (List K)) (testDataset : List (DatasetElem K))
    (userIndex itemIndex : IdIndex) (numTestUsers : Nat) (seed : Int) :
    List Nat × List (List K) × List (List K) :=
  let userSet := testDataset.foldl
    (fun (userSet : List Nat) elem =>
      let uidx := userIndex.idx elem.userId
      let pidx := itemIndex.idx elem.itemId
      if uidx = IdIndex.missingIdx ∨ pidx = IdIndex.missingIdx then userSet
      else userSet.insert uidx)
    []
  let assigned := iterOrder userSet
  let testUsers :=
    if numTestUsers > 0 ∧ numTestUsers < assigned.length then
      (shuffle assigned (mt seed)).take numTestUsers
    else assigned
  let init := (List.range testUsers.length).foldl
    (fun (st : List (Nat × Nat) × List (List K) × List (List K)) i =>
      ((testUsers.getD i 0, i) :: st.1,
        st.2.1 ++ [List.replicate itemIndex.size 0],
        st.2.2 ++ [List.replicate itemIndex.size 0]))
    ([], testLabels, testScores)
  let userMap := init.1
  let labels := testDataset.foldl
    (fun (labels : List (List K)) elem =>
      let uidx := userIndex.idx elem.userId
      let pidx := itemIndex.idx elem.itemId
      if uidx = IdIndex.missingIdx ∨ pidx = IdIndex.missingIdx ∨ (userMap.lookup uidx).isNone then
        labels
      else
        let slot := (userMap.lookup uidx).getD 0
        labels.set slot ((labels.getD slot []).set pidx elem.value))
    init.2.1
  (testUsers, labels, init.2.2)

/-! ## bpr/BPREngine -/

/-- Embeds `BPRConfig`. -/
structure BPRConfig (K : Type) where
  nepochs : Nat
  nfactors : Nat
  initLearningRate : K
  biasLambda : K
  userLambda : K
  itemLambda : K
  decayRate : K
  useBiases : Bool
  initDistributionBound : K
  numNegativeSamples : Nat
  numHogwildThreads : Nat
  shuffleTrainingSet : Bool

/-- Embeds `BPREngine::PosPair`. -/
structure PosPair where
  userIdx : Nat
  posItemIdx : Nat
deriving DecidableEq

/-- Embeds `BPREngine::PosNegTriplet`. -/
structure PosNegTriplet where
  userIdx : Nat
  posItemIdx : Nat
  negItemIdx : Nat
deriving DecidableEq

/-- The data members of `BPREngine`; `G` is the state of a `std::mt19937`. The
`unique_ptr` members are `none` while null. -/
structure BPREngine (K G : Type) where
  config : BPRConfig K
  metricsEngine : Option (MetricsEngine K)
  evalNumNeg : Nat
  evalSeed : Int
  parallel : ParallelExecutor
  gen : G
  learningRate : K
  data : List PosPair
  evalSet : List PosNegTriplet
  testEvalSet : List PosNegTriplet
  itemMap : List (List Nat)
  testItemMap : List (List Nat)
  userIndex : IdIndex
  itemIndex : IdIndex
  userFactors : Option (FactorData K)
  itemFactors : Option (FactorData K)
  testUsers : List Nat
  testLabels : List (List K)
  testScores : List (List K)

/-- Embeds `BPREngine::BPREngine(config, metricsEngine, evalNumNeg, evalSeed, nthreads)`:
`gen0` is the state of `gen_` seeded from `std::random_device`, `lr0` the
indeterminate initial content of `learningRate_`. -/
def BPREngine.new {K G : Type} (config : BPRConfig K) (metricsEngine : Option (MetricsEngine K))
    (evalNumNeg : Nat) (evalSeed : Int) (parallel : ParallelExecutor) (gen0 : G) (lr0 : K) :
    BPREngine K G :=
  { config := config, metricsEngine := metricsEngine, evalNumNeg := evalNumNeg,
    evalSeed := evalSeed, parallel := parallel, gen := gen0, learningRate := lr0,
    data := [], evalSet := [], testEvalSet := [], itemMap := [], testItemMap := [],
    userIndex := IdIndex.empty, itemIndex := IdIndex.empty, userFactors := none,
    itemFactors := none, testUsers := [], testLabels := [], testScores := [] }

/-- Embeds `BPREngine::nusers`. -/
def BPREngine.nusers {K G : Type} (s : BPREngine K G) : Nat := s.userIndex.size

/-- Embeds `BPREngine::nitems`. -/
def BPREngine.nitems {K G : Type} (s : BPREngine K G) : Nat := s.itemIndex.size

/-- The `do { negIdx = dis(gen); } while (userPosSet.count(negIdx) > 0);` loop of
`sampleRandomNegative`, run for at most `fuel` draws: `none` when every one of
them was rejected. -/
def sampleLoop {G : Type} (dis : UniformInt G) (hi : Int) (userPosSet : List Nat) :
    Nat → G → Option (Nat × G)
  | 0, _ => none
  | fuel + 1, gen =>
    let draw := dis 0 hi gen
    let negIdx := draw.1.toNat
    if negIdx ∈ userPosSet then sampleLoop dis hi userPosSet fuel draw.2
    else some (negIdx, draw.2)

/-- Embeds `BPREngine::sampleRandomNegative(userIdx, gen, useTestItemMap)`: `none` when
`.at(userIdx)` throws or the rejection loop does not end within `fuel` draws. -/
def BPREngine.sampleRandomNegative {K G : Type} (dis : UniformInt G) (fuel : Nat)
    (s : BPREngine K G) (userIdx : Nat) (gen : G) (useTestItemMap : Bool) : Option (Nat × G) :=
  match (if useTestItemMap then s.testItemMap[userIdx]? else s.itemMap[userIdx]?) with
  | none => none
  | some userPosSet => sampleLoop dis ((s.nitems : Int) - 1) userPosSet fuel gen

/-- The inner loop `for (i = 0; i < numNeg; ++i) func(PosNegTriplet{...})` shared
by `iterate`, `iterateBlock` and `initTest`, on the pair of the state `func`
acts on and the generator. -/
def BPREngine.sampleTriplets {K G S : Type} (dis : UniformInt G) (fuel : Nat) (s : BPREngine K G)
    (func : S → PosNegTriplet → Option S) (useTestItemMap : Bool) (userIdx posItemIdx : Nat) :
    Nat → S × G → Option (S × G)
  | 0, st => some st
  | numNeg + 1, st =>
    match s.sampleRandomNegative dis fuel userIdx st.2 useTestItemMap with
    | none => none
    | some (negIdx, gen) =>
      match func st.1 ⟨userIdx, posItemIdx, negIdx⟩ with
      | none => none
      | some st1 => BPREngine.sampleTriplets dis fuel s func useTestItemMap userIdx posItemIdx numNeg (st1, gen)

/-- Embeds `BPREngine::iterate(func, numNeg, gen)`: `func` acts on a state `S`; the
result is the final state and generator. -/
def BPREngine.iterate {K G S : Type} (dis : UniformInt G) (fuel : Nat) (s : BPREngine K G)
    (func : S → PosNegTriplet → Option S) (numNeg : Nat) (st : S) (gen : G) : Option (S × G) :=
  s.data.foldlM
    (fun (st : S × G) (elem : PosPair) =>
      BPREngine.sampleTriplets dis fuel s func false elem.userIdx elem.posItemIdx numNeg st)
    (st, gen)

/-- Embeds `FactorData::setFactors(func)` with a `func` that draws from a generator. -/
def FactorData.setFactors {K G : Type} (fd : FactorData K) (func : G → K × G) (gen : G) :
    FactorData K × G :=
  (List.range fd.nelems).foldl
    (fun (st : FactorData K × G) idx =>
      (List.range fd.nfactors).foldl
        (fun (st : FactorData K × G) fidx =>
          ((st.1.setAt idx fidx (func st.2).1), (func st.2).2))
        st)
    (fd, gen)

/-- Embeds `FactorData::setBiases(func)` with a `func` that draws from a generator. -/
def FactorData.setBiases {K G : Type} (fd : FactorData K) (func : G → K × G) (gen : G) :
    FactorData K × G :=
  (List.range fd.biases.size).foldl
    (fun (st : FactorData K × G) idx =>
      ({ st.1 with biases := st.1.biases.set idx (func st.2).1 }, (func st.2).2))
    (fd, gen)

/-- The loop `for (const auto& elem : dataset)` of `BPREngine::init`. -/
def BPREngine.populate {K G : Type} [LinearOrderedField K] (s : BPREngine K G)
    (dataset : List (DatasetElem K)) : BPREngine K G :=
  dataset.foldl
    (fun (s : BPREngine K G) elem =>
      if elem.value < 1 then s
      else
        let u := s.userIndex.getOrSetIdx elem.userId
        let p := s.itemIndex.getOrSetIdx elem.itemId
        { s with userIndex := u.2, itemIndex := p.2, data := s.data ++ [⟨u.1, p.1⟩] })
    s

/-- Embeds `BPREngine::init(dataset)`. -/
def BPREngine.init {K G : Type} [LinearOrderedField K] (mt : Mt19937 G) (dis : UniformInt G)
    (unif : UniformReal G K) (fuel : Nat) (s : BPREngine K G) (dataset : List (DatasetElem K)) :
    Option (BPREngine K G) :=
  if s.userFactors.isSome ∨ s.itemFactors.isSome then none
  else
    let s1 := s.populate dataset
    let s2 := { s1 with
      itemMap := s1.data.foldl
        (fun (itemMap : List (List Nat)) (p : PosPair) => insertInto itemMap p.userIdx p.posItemIdx)
        (resizeSets s1.itemMap s1.userIndex.size) }
    match s2.iterate dis fuel (fun (evalSet : List PosNegTriplet) triplet => some (evalSet ++ [triplet]))
        s2.evalNumNeg s2.evalSet (mt s2.evalSeed) with
    | none => none
    | some (evalSet, _) =>
      let s3 := { s2 with evalSet := evalSet, learningRate := s2.config.initLearningRate }
      match FactorData.new s3.nusers s3.config.nfactors false,
            FactorData.new s3.nitems s3.config.nfactors s3.config.useBiases with
      | some userFactors, some itemFactors =>
        let genUnif := unif (-s3.config.initDistributionBound) s3.config.initDistributionBound
        let u := userFactors.setFactors genUnif s3.gen
        let q := itemFactors.setFactors genUnif u.2
        let qb := if s3.config.useBiases then q.1.setBiases genUnif q.2 else q
        some { s3 with userFactors := some u.1, itemFactors := some qb.1, gen := qb.2 }
      | _, _ => none

/-- The first part of `BPREngine::initTest`: `testItemMap_.resize(userIndex_.size())`
and the loop `for (const auto& elem : testDataset)`; the result is the new
`testItemMap_` and `validElems`. -/
def BPREngine.populateTest {K G : Type} [LinearOrderedField K] (s : BPREngine K G)
    (testDataset : List (DatasetElem K)) : List (List Nat) × List (Nat × Nat) :=
  testDataset.foldl
    (fun (st : List (List Nat) × List (Nat × Nat)) elem =>
      if elem.value < 1 then st
      else
        let uidx := s.userIndex.idx elem.userId
        let pidx := s.itemIndex.idx elem.itemId
        if uidx = IdIndex.missingIdx ∨ pidx = IdIndex.missingIdx then st
        else (insertInto st.1 uidx pidx, st.2 ++ [(uidx, pidx)]))
    (resizeSets s.testItemMap s.userIndex.size, [])

/-- Embeds `BPREngine::initTest(testDataset)`. -/
def BPREngine.initTest {K G : Type} [LinearOrderedField K] (mt : Mt19937 G) (dis : UniformInt G)
    (iterOrder : List Nat → List Nat) (shuffle : List Nat → G → List Nat) (fuel : Nat)
    (s : BPREngine K G) (testDataset : List (DatasetElem K)) : Option (BPREngine K G) :=
  if ¬ s.testEvalSet.isEmpty then none
  else
    let st := s.populateTest testDataset
    let s1 := { s with testItemMap := st.1 }
    let validElems := st.2
    match validElems.foldlM
        (fun (acc : List PosNegTriplet × G) (p : Nat × Nat) =>
          BPREngine.sampleTriplets dis fuel s1
            (fun (testEvalSet : List PosNegTriplet) triplet => some (testEvalSet ++ [triplet]))
            true p.1 p.2 s1.evalNumNeg acc)
        (s1.testEvalSet, mt s1.evalSeed) with
    | none => none
    | some (testEvalSet, _) =>
      let s2 := { s1 with testEvalSet := testEvalSet }
      match s2.metricsEngine with
      | none => some s2
      | some me =>
        if me.testAvgMetrics.isEmpty then some s2
        else
          let r := initAvgTestData iterOrder shuffle mt s2.testLabels s2.testScores testDataset
            s2.userIndex s2.itemIndex me.config.numTestUsers me.config.seed
          some { s2 with testUsers := r.1, testLabels := r.2.1, testScores := r.2.2 }

/-- Embeds `BPREngine::predictDifference(userIdx, posItemIdx, negItemIdx)`; the bias
reads go through the checked accessor, as `itemFactors_` points to a non-const
`FactorData`. -/
def BPREngine.predictDifference {K G : Type} [Field K] (s : BPREngine K G)
    (userIdx posItemIdx negItemIdx : Nat) : Option K :=
  match s.userFactors, s.itemFactors with
  | some userFactors, some itemFactors =>
    let pred : Option K :=
      if s.config.useBiases then
        match itemFactors.biasAtRef posItemIdx, itemFactors.biasAtRef negItemIdx with
        | some bp, some bn => some (0 + (bp - bn))
        | _, _ => none
      else some 0
    pred.map (fun pred =>
      (List.range s.config.nfactors).foldl
        (fun pred i =>
          pred + userFactors.getAt userIdx i
            * (itemFactors.getAt posItemIdx i - itemFactors.getAt negItemIdx i))
        pred)
  | _, _ => none

/-- Embeds `BPREngine::loss(scoreDifference) = log(1.0 + exp(-scoreDifference))`. -/
def BPREngine.loss {K : Type} [Field K] (exp log : K → K) (scoreDifference : K) : K :=
  log (1 + exp (-scoreDifference))

/-- Embeds `BPREngine::lossDerivative(scoreDifference) = 1.0 / (1.0 + exp(scoreDifference))`. -/
def BPREngine.lossDerivative {K : Type} [Field K] (exp : K → K) (scoreDifference : K) : K :=
  1 / (1 + exp scoreDifference)

/-- The block `if (config_.useBiases) { ... }` of `BPREngine::update`. -/
def BPREngine.updateBiases {K : Type} [Field K] (config : BPRConfig K) (lr e : K)
    (itemFactors : FactorData K) (pidx nidx : Nat) : Option (FactorData K) :=
  if config.useBiases then
    match itemFactors.biasAtRef pidx with
    | none => none
    | some bp =>
      match itemFactors.setBiasAt pidx (bp + lr * (e - config.biasLambda * bp)) with
      | none => none
      | some q1 =>
        match q1.biasAtRef nidx with
        | none => none
        | some bn => q1.setBiasAt nidx (bn + lr * (-e - config.biasLambda * bn))
  else some itemFactors

/-- Embeds `BPREngine::update(triplet)`. In exact arithmetic `CHECK(std::isfinite(e))`
always passes. -/
def BPREngine.update {K G : Type} [Field K] (exp : K → K) (s : BPREngine K G)
    (triplet : PosNegTriplet) : Option (BPREngine K G) :=
  let uidx := triplet.userIdx
  let pidx := triplet.posItemIdx
  let nidx := triplet.negItemIdx
  match s.predictDifference uidx pidx nidx, s.userFactors, s.itemFactors with
  | some diff, some userFactors, some itemFactors =>
    let e := BPREngine.lossDerivative exp diff
    let lr := s.learningRate
    match BPREngine.updateBiases s.config lr e itemFactors pidx nidx with
    | none => none
    | some q0 =>
      let u1 := (List.range s.config.nfactors).foldl
        (fun (u : FactorData K) i =>
          u.setAt uidx i (u.getAt uidx i
            + lr * (e * (q0.getAt pidx i - q0.getAt nidx i) - s.config.userLambda * u.getAt uidx i)))
        userFactors
      let q1 := (List.range s.config.nfactors).foldl
        (fun (q : FactorData K) i =>
          q.setAt pidx i (q.getAt pidx i
            + lr * (e * u1.getAt uidx i - s.config.itemLambda * q.getAt pidx i)))
        q0
      let q2 := (List.range s.config.nfactors).foldl
        (fun (q : FactorData K) i =>
          q.setAt nidx i (q.getAt nidx i
            + lr * (-e * u1.getAt uidx i - s.config.itemLambda * q.getAt nidx i)))
        q1
      some { s with userFactors := some u1, itemFactors := some q2 }
  | _, _, _ => none

/-- What the sampling of a negative guarantees for a triplet: the user's positive
set exists, the negative is not in it, and the negative is an item index as
soon as the distribution honours its range. -/
def NegativeOK {K G : Type} (dis : UniformInt G) (s : BPREngine K G) (useTestItemMap : Bool)
    (t : PosNegTriplet) : Prop :=
  ∃ userPosSet,
    (if useTestItemMap then s.testItemMap[t.userIdx]? else s.itemMap[t.userIdx]?) = some userPosSet ∧
    t.negItemIdx ∉ userPosSet ∧ (dis.InRange → 0 < s.nitems → t.negItemIdx < s.nitems)

/-! ## The contract of LAPACK `dsysv_`, in exact arithmetic -/

/-- The matrix is symmetric. -/
def Matrix.Symmetric {K : Type} [Zero K] (A : Matrix K) : Prop :=
  ∀ i, i < A.nrows → ∀ j, j < A.ncols → A.get i j = A.get j i

instance {K : Type} [Zero K] [DecidableEq K] (A : Matrix K) : Decidable A.Symmetric :=
  inferInstanceAs (Decidable (∀ i, i < A.nrows → ∀ j, j < A.ncols → A.get i j = A.get j i))

/-- The matrix is nonsingular: only the zero vector is mapped to zero. -/
def Matrix.Nonsingular {K : Type} [Field K] (A : Matrix K) : Prop :=
  ∀ x : Nat → K, (∀ i, i < A.nrows → ∑ j ∈ Finset.range A.ncols, A.get i j * x j = 0) →
    ∀ j, j < A.ncols → x j = 0

/-- The symmetric matrix that `dsysv_` reads with `uplo = "Upper"`: the upper
triangle of the column-major array `a` with leading dimension `n`, mirrored. -/
def upperSymmetric {K : Type} [Zero K] (n : Nat) (a : List K) (i j : Nat) : K :=
  if i ≤ j then a.getD (i + j * n) 0 else a.getD (j + i * n) 0

/-- The documented behaviour of `dsysv_` in exact arithmetic, for one right-hand
side and `lda = ldb = n`: when the symmetric matrix it reads is nonsingular,
`info` is 0 and `b` is overwritten with the solution. -/
def Dsysv.Exact {K : Type} [Field K] (dsysv : Dsysv K) : Prop :=
  ∀ (n : Nat) (a b : List K) (lwork : Nat), 0 < n → a.length = n * n → b.length = n → 0 < lwork →
    (∀ x : Nat → K,
      (∀ i, i < n → ∑ j ∈ Finset.range n, upperSymmetric n a i j * x j = 0) →
      ∀ j, j < n → x j = 0) →
    (dsysv "Upper" n 1 a n b n lwork).2 = 0 ∧
    (dsysv "Upper" n 1 a n b n lwork).1.length = n ∧
    ∀ i, i < n →
      ∑ j ∈ Finset.range n, upperSymmetric n a i j * (dsysv "Upper" n 1 a n b n lwork).1.getD j 0
        = b.getD i 0

/-- A reference `dsysv_` in exact arithmetic, by Cramer's rule: `info = 1` when
the matrix is singular. -/
def cramerDsysv {K : Type} [Field K] [DecidableEq K] : Dsysv K :=
  fun _ n _ a _ b _ _ =>
    let S : MathMatrix n K := fun i j => upperSymmetric n a i j
    if S.det = 0 then (b, 1)
    else ((List.finRange n).map (fun i => (S.det)⁻¹ * Matrix.cramer S (fun k => b.getD k 0) i), 0)

/-! ## `<algorithm>` -/

/-- The contract of `std::sort(first, last, comp)`, which is outside the
repository: the range is rearranged (a permutation) so that no element comes
before one that `comp` orders in front of it. Elements that `comp` does not
order may come out in any order. -/
def StdSort {α : Type} (comp : α → α → Bool) (sort : List α → List α) : Prop :=
  ∀ l, (sort l).Perm l ∧ (sort l).Pairwise (fun x y => comp y x = false)

/-- The contract of `std::nth_element(first, first + k, last, comp)`, which is
outside the repository: the range is rearranged (a permutation) so that no
element of `[first + k, last)` is ordered by `comp` in front of an element of
`[first, first + k)`. -/
def StdNthElement {α : Type} (comp : α → α → Bool) (nthElement : Nat → List α → List α) : Prop :=
  ∀ k l, k ≤ l.length →
    (nthElement k l).Perm l ∧
    ∀ x ∈ (nthElement k l).take k, ∀ y ∈ (nthElement k l).drop k, comp y x = false

/-- A concrete `std::sort`: insertion sort. -/
def insertionStdSort {α : Type} (comp : α → α → Bool) (l : List α) : List α :=
  l.insertionSort (fun x y => comp y x = false)

/-! ## utils/IdIndex.h: sequences of calls -/

/-- The `IdIndex` after the calls `getOrSetIdx(id)` for the ids of `calls`, in
order, on a default-constructed `IdIndex`. -/
def IdIndex.afterCalls (calls : List Int) : IdIndex :=
  calls.foldl (fun ix id => (ix.getOrSetIdx id).2) IdIndex.empty

/-! ## wals/WALSEngine: initialisation -/

/-- The comparator of `WALSEngine::sortDataset`:
`if (x.userId != y.userId) return x.userId < y.userId; return x.itemId < y.itemId;`. -/
def datasetLess {K : Type} (x y : DatasetElem K) : Bool :=
  if x.userId ≠ y.userId then decide (x.userId < y.userId) else decide (x.itemId < y.itemId)

/-- Embeds `WALSEngine::sortDataset(dataset)`: `std::sort` with the comparator above. -/
def sortDataset {K : Type} (stdSort : (DatasetElem K → DatasetElem K → Bool) →
    List (DatasetElem K) → List (DatasetElem K)) (dataset : List (DatasetElem K)) :
    List (DatasetElem K) :=
  stdSort datasetLess dataset

/-- The constant `InvalidId = std::numeric_limits<int64_t>::min()` of `groupSignals`. -/
def InvalidId : Int := -(2 ^ 63)

/-- The state of the grouping loop of `groupSignals`: `signals`, `prevId`, `group`. -/
structure GroupState (K : Type) where
  signals : List (SignalGroup K)
  prevId : Int
  group : List (Signal K)

/-- The body of the loop `for (const auto& elem : dataset)` of `groupSignals`. -/
def groupStep {K : Type} (st : GroupState K) (elem : DatasetElem K) : GroupState K :=
  let st :=
    if elem.userId ≠ st.prevId then
      let signals :=
        if st.prevId ≠ InvalidId then st.signals ++ [⟨st.prevId, st.group⟩] else st.signals
      ⟨signals, elem.userId, []⟩
    else st
  { st with group := st.group ++ [⟨elem.itemId, elem.value⟩] }

/-- The last loop of `groupSignals`:
`for (i = 0; i < signals.size(); ++i) { idx = index.getOrSetIdx(signals[i].sourceId); CHECK_EQ(idx, i); }`. -/
def indexGroups {K : Type} (signals : List (SignalGroup K)) (index : IdIndex) : Option IdIndex :=
  (List.range signals.length).foldlM
    (fun index i =>
      match signals[i]? with
      | none => none
      | some g =>
        let r := index.getOrSetIdx g.sourceId
        if r.1 = i then some r.2 else none)
    index

/-- Embeds `WALSEngine::groupSignals(signals, index, dataset)`: the three arguments are
updated in place (here: returned); `none` when `CHECK_EQ(idx, i)` fails. -/
def groupSignals {K : Type} (stdSort : (DatasetElem K → DatasetElem K → Bool) →
    List (DatasetElem K) → List (DatasetElem K)) (signals : List (SignalGroup K))
    (index : IdIndex) (dataset : List (DatasetElem K)) :
    Option (List (SignalGroup K) × IdIndex × List (DatasetElem K)) :=
  let dataset := sortDataset stdSort dataset
  let st := dataset.foldl groupStep ⟨signals, InvalidId, []⟩
  let signals :=
    if st.prevId ≠ InvalidId then st.signals ++ [⟨st.prevId, st.group⟩] else st.signals
  (indexGroups signals index).map (fun index => (signals, index, dataset))

/-- Embeds `Matrix::operator+(X)`: `CHECK_EQ` on both dimensions, then the
element-wise sum in a fresh matrix. -/
def Matrix.add {K : Type} [Zero K] [Add K] (M X : Matrix K) : Option (Matrix K) :=
  if M.nrows ≠ X.nrows then none
  else if M.ncols ≠ X.ncols then none
  else
    (Matrix.new M.nrows M.ncols).map (fun S =>
      (List.range M.nrows).foldl (fun S i =>
        (List.range M.ncols).foldl (fun S j => S.set i j (M.get i j + X.get i j)) S) S)

/-- The rows `k` of the loop `for (k = l; k < r; ++k)` in the mapper of
`WALSEngine::computeXtX`, with `l = taskId * taskSize` and
`r = min(nrows, (taskId + 1) * taskSize)`. -/
def xtxChunk (nrows taskSize taskId : Nat) : List Nat :=
  let l := taskId * taskSize
  let r := min nrows ((taskId + 1) * taskSize)
  List.range' l (r - l)

/-- The mapper of `WALSEngine::computeXtX`: the local matrix of the rows of the
chunk of `taskId`. -/
def xtxTask {K : Type} [Field K] (X : Matrix K) (taskSize taskId : Nat) : Option (Matrix K) :=
  let ncols := X.ncols
  (Matrix.new ncols ncols).map (fun XtX =>
    (xtxChunk X.nrows taskSize taskId).foldl (fun XtX k =>
      (List.range ncols).foldl (fun XtX i =>
        (List.range ncols).foldl (fun (XtX : Matrix K) j =>
          XtX.set i j (XtX.get i j + X.get k i * X.get k j)) XtX) XtX) XtX)

/-- The reducer `S + X` of `WALSEngine::computeXtX`; an operand that was never
built (a fatal `CHECK` in a worker) leaves no result. -/
def xtxReduce {K : Type} [Field K] (S X : Option (Matrix K)) : Option (Matrix K) :=
  S.bind (fun S => X.bind (fun X => S.add X))

/-- Embeds `WALSEngine::computeXtX(X)` on the executor `parallel_`. -/
def computeXtX {K : Type} [Field K] (parallel : ParallelExecutor) (X : Matrix K) :
    Option (Matrix K) :=
  let nrows := X.nrows
  let ntasks := parallel.nthreads
  let taskSize := (nrows + ntasks - 1) / ntasks
  match Matrix.new X.ncols X.ncols with
  | none => none
  | some O => parallel.mapReduce ntasks (xtxTask X taskSize) xtxReduce (some O)

/-! ## metrics/Metrics -/

/-- The comparator `std::greater<std::pair<Double, bool>>`: `x > y`, which is
`y < x` for the lexicographic `operator<` of `std::pair`,
`y.first < x.first || (!(x.first < y.first) && y.second < x.second)`; on `bool`,
`false < true`. -/
def pairGreater {K : Type} [LinearOrderedField K] (x y : K × Bool) : Bool :=
  decide (y.1 < x.1) || (!decide (x.1 < y.1) && (!y.2 && x.2))

/-- The vector `scored` of the ranking metrics:
`for (i = 0; i < labels.size(); ++i) scored.emplace_back(scores[i], labels[i] > 0.0);`. -/
def scoredPairs {K : Type} [LinearOrderedField K] (labels scores : List K) : List (K × Bool) :=
  (List.range labels.length).map (fun i => (scores.getD i 0, decide (labels.getD i 0 > 0)))

/-- The counter of the ranking metrics:
`for (i = 0; i < labels.size(); ++i) if (labels[i] > 0.0) ++pos;`. -/
def countPositive {K : Type} [LinearOrderedField K] (labels : List K) : Nat :=
  (List.range labels.length).foldl (fun pos i => if labels.getD i 0 > 0 then pos + 1 else pos) 0

/-- Embeds `MeanSquaredError::compute(labels, scores)`. -/
def MeanSquaredError.compute {K : Type} [LinearOrderedField K] (labels scores : List K) :
    Option K :=
  if labels.length ≠ scores.length then none
  else if ¬ labels.length > 0 then none
  else
    let sum := (List.range labels.length).foldl
      (fun sum i => sum + (labels.getD i 0 - scores.getD i 0) ^ 2) 0
    some (sum / labels.length)

/-- Embeds `AUC::compute(labels, scores)`; the loop state is `(tp, auc)`. -/
def AUC.compute {K : Type} [LinearOrderedField K]
    (stdSort : (K × Bool → K × Bool → Bool) → List (K × Bool) → List (K × Bool))
    (labels scores : List K) : Option K :=
  if labels.length ≠ scores.length then none
  else
    let scored := scoredPairs labels scores
    let pos := countPositive labels
    let neg := labels.length - pos
    if pos = 0 ∨ neg = 0 then some 1
    else
      let scored := stdSort pairGreater scored
      let st := scored.foldl
        (fun (st : Nat × K) p =>
          if p.2 then (st.1 + 1, st.2) else (st.1, st.2 + (st.1 : K) / (pos : K) / (neg : K)))
        (0, 0)
      some st.2

/-- Embeds `Precision::compute(labels, scores)` of a `Precision(k)`. -/
def Precision.compute {K : Type} [LinearOrderedField K]
    (nthElement : (K × Bool → K × Bool → Bool) → Nat → List (K × Bool) → List (K × Bool))
    (k : Nat) (labels scores : List K) : Option K :=
  if labels.length ≠ scores.length then none
  else if ¬ labels.length ≥ k then none
  else
    let scored := nthElement pairGreater k (scoredPairs labels scores)
    let pos := (scored.take k).countP (fun p => p.2)
    some ((pos : K) / (k : K))

/-- Embeds `Recall::compute(labels, scores)` of a `Recall(k)`. -/
def Recall.compute {K : Type} [LinearOrderedField K]
    (nthElement : (K × Bool → K × Bool → Bool) → Nat → List (K × Bool) → List (K × Bool))
    (k : Nat) (labels scores : List K) : Option K :=
  if labels.length ≠ scores.length then none
  else if ¬ labels.length ≥ k then none
  else
    let totalPos := countPositive labels
    if ¬ totalPos > 0 then none
    else
      let scored := nthElement pairGreater k (scoredPairs labels scores)
      let pos := (scored.take k).countP (fun p => p.2)
      some ((pos : K) / (totalPos : K))

/-- Embeds `AveragePrecision::compute(labels, scores)`; the loop state is `(ap, pos)`. -/
def AveragePrecision.compute {K : Type} [LinearOrderedField K]
    (stdSort : (K × Bool → K × Bool → Bool) → List (K × Bool) → List (K × Bool))
    (labels scores : List K) : Option K :=
  if labels.length ≠ scores.length then none
  else
    let totalPos := countPositive labels
    if ¬ totalPos > 0 then none
    else
      let scored := stdSort pairGreater (scoredPairs labels scores)
      let st := (List.range scored.length).foldl
        (fun (st : K × Nat) i =>
          if (scored.getD i (0, false)).2 then
            (st.1 + ((st.2 + 1 : Nat) : K) / ((i + 1 : Nat) : K), st.2 + 1)
          else st)
        (0, 0)
      some (st.1 / (totalPos : K))

/-- Embeds `Metric::compute(labels, scores)` on vectors of vectors: the sequential
average of the per-user `compute`, which is the virtual method `metric`. -/
def Metric.compute {K : Type} [LinearOrderedField K] (metric : List K → List K → Option K)
    (labels scores : List (List K)) : Option K :=
  if labels.length ≠ scores.length then none
  else if ¬ labels.length > 0 then none
  else
    ((List.range labels.length).foldlM
      (fun sum i => (metric (labels.getD i []) (scores.getD i [])).map (fun v => sum + v))
      (0 : K)).map (fun sum => sum / (labels.length : K))

/-- The reducer `std::plus<Double>` on the results of worker tasks; a task that
hit a fatal `CHECK` leaves no result. -/
def plusResults {K : Type} [LinearOrderedField K] (a b : Option K) : Option K :=
  a.bind (fun a => b.map (fun b => a + b))

/-- Embeds `Metric::compute(labels, scores, parallel)`: the average through
`ParallelExecutor::mapReduce`. -/
def Metric.computeParallel {K : Type} [LinearOrderedField K]
    (metric : List K → List K → Option K) (labels scores : List (List K))
    (parallel : ParallelExecutor) : Option K :=
  if labels.length ≠ scores.length then none
  else if ¬ labels.length > 0 then none
  else
    (parallel.mapReduce labels.length
      (fun taskId => metric (labels.getD taskId []) (scores.getD taskId []))
      plusResults (some 0)).map (fun tot => tot / (labels.length : K))

/-! ### The ranking metrics, as the specification words them -/

/-- The entries `(score, label > 0)` of a label vector and a score vector. -/
def rankEntries {K : Type} [LinearOrderedField K] (labels scores : List K) : List (K × Bool) :=
  List.zipWith (fun l s => (s, decide (0 < l))) labels scores

/-- The entries in descending `(score, label)` order. -/
def rankDescending {K : Type} [LinearOrderedField K] (entries : List (K × Bool)) :
    List (K × Bool) :=
  insertionStdSort pairGreater entries

/-- For every negative entry of `ranked`, in order, the number `tp` of positives
placed before it. -/
def positivesBeforeNegatives {K : Type} (ranked : List (K × Bool)) : List Nat :=
  (List.range ranked.length).filterMap (fun i =>
    match ranked[i]? with
    | some (_, false) => some ((ranked.take i).countP (fun p => p.2))
    | _ => none)

/-- The number of (positive, negative) pairs of entries whose positive score is
at least the negative score. -/
def concordantPairs {K : Type} [LinearOrderedField K] (entries : List (K × Bool)) : Nat :=
  (((entries.filter (fun p => p.2)).product (entries.filter (fun n => !n.2))).countP
    (fun pn => decide (pn.2.1 ≤ pn.1.1)))

/-- For every positive entry of `ranked`, at 1-based rank `i`, in order:
(the number of positives at ranks `≤ i`) / `i`, counted as if `rank0` entries,
`pos0` of them positive, were ranked in front of `ranked`. -/
def precisionAtPositivesFrom {K : Type} [LinearOrderedField K] (rank0 pos0 : Nat)
    (ranked : List (K × Bool)) : List K :=
  (List.range ranked.length).filterMap (fun i =>
    match ranked[i]? with
    | some (_, true) =>
      some (((pos0 + (ranked.take (i + 1)).countP (fun p => p.2) : Nat) : K)
        / ((rank0 + (i + 1) : Nat) : K))
    | _ => none)

/-- For every positive entry of `ranked`, at 1-based rank `i`, in order:
(the number of positives at ranks `≤ i`) / `i`. -/
def precisionAtPositives {K : Type} [LinearOrderedField K] (ranked : List (K × Bool)) : List K :=
  precisionAtPositivesFrom 0 0 ranked

/-- A concrete `std::nth_element`: a full sort. -/
def sortNthElement {α : Type} (comp : α → α → Bool) (_k : Nat) (l : List α) : List α :=
  insertionStdSort comp l

/-! ## `<string>`, `<cstdlib>`

A `std::string` is the list of its characters. -/

/-- Embeds `std::string::find(c)`: the position of the first `c`, `none` for `npos`. -/
def stringFind (c : Char) : List Char → Option Nat
  | [] => none
  | x :: xs => if x = c then some 0 else (stringFind c xs).map (fun pos => pos + 1)

/-- The predicate `isspace` of the "C" locale: space, `\t`, `\n`, `\v`, `\f`, `\r`. -/
def isspace (c : Char) : Bool :=
  c.toNat = 32 || (9 ≤ c.toNat && c.toNat ≤ 13)

/-- The value of a decimal digit character. -/
def digitValue (c : Char) : Nat := c.toNat - 48

/-- The value of a string of decimal digits. -/
def decimalValue (digits : List Char) : Nat :=
  digits.foldl (fun v c => 10 * v + digitValue c) 0

/-- The constant `ULONG_MAX` of an LP64 platform (`unsigned long` is `size_t`). -/
def ULONG_MAX : Nat := 2 ^ 64 - 1

/-- The library function `std::stoul(str)` (base 10), which is outside the
repository, as the C++ standard defines it through `strtoul`: leading white
space is skipped, one sign `+` or `-` is accepted, then the longest run of
decimal digits is converted and whatever follows is ignored; without a digit
`std::invalid_argument` is thrown, with a digit run above `ULONG_MAX`
`std::out_of_range` (both are `none` here); after a `-` the value is negated in
`unsigned long`. -/
def stoul (str : List Char) : Option Nat :=
  let s := str.dropWhile isspace
  let signed : Bool × List Char :=
    match s with
    | '-' :: rest => (true, rest)
    | '+' :: rest => (false, rest)
    | _ => (false, s)
  let digits := signed.2.takeWhile Char.isDigit
  if digits = [] then none
  else if decimalValue digits > ULONG_MAX then none
  else some (if signed.1 then (2 ^ 64 - decimalValue digits) % 2 ^ 64 else decimalValue digits)

/-! ## metrics/MetricsManager -/

/-- The objects a `std::unique_ptr<Metric>` of the registry points to: the
concrete subclasses of `Metric` with their constructor arguments. -/
inductive Metric where
  | MeanSquaredError : Metric
  | AUC : Metric
  | Precision (k : Nat) : Metric
  | Recall (k : Nat) : Metric
  | AveragePrecision : Metric
deriving DecidableEq

/-- Embeds `detail::parseAtKMetric(name, metricName, k)`: `none` when it returns
`false`, otherwise the values written to `metricName` and `k`. -/
def parseAtKMetric (name : List Char) : Option (List Char × Nat) :=
  match stringFind '@' name with
  | none => none
  | some pos =>
    if pos = 0 then none
    else
      let metricName := name.take pos
      match stoul (name.drop (pos + 1)) with
      | none => none
      | some k => some (metricName, k)

/-- Embeds `MetricsManager`: the map `metrics_` from names to metric objects. -/
structure MetricsManager where
  metrics : List (List Char × Metric)
deriving DecidableEq

/-- Embeds `MetricsManager::registerMetric<MetricT>(name, args...)`:
`metrics_.emplace`, which leaves an existing entry of `name` alone. -/
def MetricsManager.registerMetric (m : MetricsManager) (name : List Char) (metric : Metric) :
    MetricsManager :=
  match m.metrics.lookup name with
  | some _ => m
  | none => ⟨(name, metric) :: m.metrics⟩

/-- Embeds `MetricsManager::init`. -/
def MetricsManager.init (m : MetricsManager) : MetricsManager :=
  ((m.registerMetric "mse".toList Metric.MeanSquaredError).registerMetric "auc".toList
    Metric.AUC).registerMetric "ap".toList Metric.AveragePrecision

/-- Embeds `MetricsManager::MetricsManager()`: an empty map, then `init()`. -/
def MetricsManager.new : MetricsManager := MetricsManager.init ⟨[]⟩

/-- Embeds `MetricsManager::initFromName(name)`; `metrics_` is `mutable`, so the
updated manager is returned with the result. -/
def MetricsManager.initFromName (m : MetricsManager) (name : List Char) :
    Bool × MetricsManager :=
  match parseAtKMetric name with
  | none => (false, m)
  | some (str, k) =>
    if str = "p".toList then (true, m.registerMetric name (Metric.Precision k))
    else if str = "r".toList then (true, m.registerMetric name (Metric.Recall k))
    else (false, m)

/-- Embeds `MetricsManager::exists(name)`. -/
def MetricsManager.exists (m : MetricsManager) (name : List Char) : Bool × MetricsManager :=
  match m.metrics.lookup name with
  | some _ => (true, m)
  | none => m.initFromName name

/-- Embeds `MetricsManager::getMetric(name)`: `none` is `kNullMetricPtr`. -/
def MetricsManager.getMetric (m : MetricsManager) (name : List Char) :
    Option Metric × MetricsManager :=
  let r := m.exists name
  if r.1 then (r.2.metrics.lookup name, r.2) else (none, r.2)

/-! ## Engine.cpp: test scores and saved factors -/

/-- A call `parallel.execute(ntasks, func)` whose `func` updates shared state
`S`: the calls `func(taskId)` of the workers take effect one after the other, the
traces of the workers taken in worker order. -/
def ParallelExecutor.executeOn {S : Type} (p : ParallelExecutor) (ntasks : Nat)
    (func : S → Nat → S) (s : S) : S :=
  (p.execute ntasks).flatten.foldl func s

/-- The lambda `func` of `Engine::computeTestScores`, as an update of
`testScores`. -/
def computeTestScoresTask {K : Type} [Field K] (testUsers : List Nat)
    (userFactors itemFactors : FactorData K) (testScores : List (List K)) (taskId : Nat) :
    List (List K) :=
  let uidx := testUsers.getD taskId 0
  let nfactors := userFactors.nfactors
  let scores := (List.range itemFactors.nelems).foldl
    (fun (scores : List K) idx =>
      let scores := scores.set idx (if itemFactors.withBiases then itemFactors.biasAt idx else 0)
      (List.range nfactors).foldl
        (fun (scores : List K) fidx =>
          scores.set idx
            (scores.getD idx 0 + userFactors.getAt uidx fidx * itemFactors.getAt idx fidx))
        scores)
    (testScores.getD taskId [])
  testScores.set taskId scores

/-- Embeds `Engine::computeTestScores(testScores, testUsers, userFactors,
itemFactors, parallel)`; the result is the updated `testScores`. -/
def computeTestScores {K : Type} [Field K] (testScores : List (List K)) (testUsers : List Nat)
    (userFactors itemFactors : FactorData K) (parallel : ParallelExecutor) : List (List K) :=
  let ntasks := testUsers.length
  parallel.executeOn ntasks (computeTestScoresTask testUsers userFactors itemFactors) testScores

/-- An output stream `std::ostream`: the characters written so far and the two
pieces of formatting state `saveFactors` sets, the `std::fixed` flag and the
precision. -/
structure OStream where
  text : List Char
  fixed : Bool
  precision : Nat
deriving DecidableEq

/-- Appends characters to the stream. -/
def OStream.write (out : OStream) (s : List Char) : OStream :=
  { out with text := out.text ++ s }

/-- Embeds `Engine::saveFactors(factorData, index, out)`. The inserters of the
standard library are parameters: `showInt` is `operator<<(int64_t)` and
`showDouble fixed precision` is `operator<<(double)` on a stream with that
formatting state. `CHECK_EQ` failing is `none`. -/
def saveFactors {K : Type} [Zero K] (showInt : Int → List Char)
    (showDouble : Bool → Nat → K → List Char) (factorData : FactorData K) (index : IdIndex)
    (out : OStream) : Option OStream :=
  if factorData.nelems ≠ index.size then none
  else
    let out := { out with fixed := true }
    let out := { out with precision := 9 }
    some ((List.range factorData.nelems).foldl
      (fun (out : OStream) idx =>
        let id := index.id idx
        let out := out.write (showInt id)
        let out :=
          if factorData.withBiases then
            (out.write [' ']).write (showDouble out.fixed out.precision (factorData.biasAt idx))
          else out
        let out := (List.range factorData.nfactors).foldl
          (fun (out : OStream) fidx =>
            (out.write [' ']).write
              (showDouble out.fixed out.precision (factorData.getAt idx fidx)))
          out
        out.write [Char.ofNat 10])
      out)

/-- The line of row `r` as the specification words it: the id, then, if biases
are present, a space and the bias, then for each factor a space and the factor
value, every number in fixed notation with 9 fractional digits, then a newline. -/
def savedLine {K : Type} [Zero K] (showInt : Int → List Char)
    (showDouble : Bool → Nat → K → List Char) (factorData : FactorData K) (index : IdIndex)
    (r : Nat) : List Char :=
  showInt (index.id r)
    ++ (if factorData.withBiases then ' ' :: showDouble true 9 (factorData.biasAt r) else [])
    ++ ((List.range factorData.nfactors).map
        (fun f => ' ' :: showDouble true 9 (factorData.getAt r f))).flatten
    ++ [Char.ofNat 10]

/-! ## Engine.cpp: the loops of `initAvgTestData` -/

/-- The set `userSet` after the first loop of `Engine::initAvgTestData`. -/
def collectTestUsers {K : Type} (testDataset : List (DatasetElem K))
    (userIndex itemIndex : IdIndex) : List Nat :=
  testDataset.foldl
    (fun (userSet : List Nat) elem =>
      let uidx := userIndex.idx elem.userId
      let pidx := itemIndex.idx elem.itemId
      if uidx = IdIndex.missingIdx ∨ pidx = IdIndex.missingIdx then userSet
      else userSet.insert uidx)
    []

/-- The vector `testUsers` of `Engine::initAvgTestData` after `assign` and the
optional `shuffle` and `erase`. -/
def selectTestUsers {K G : Type} (iterOrder : List Nat → List Nat)
    (shuffle : List Nat → G → List Nat) (mt : Mt19937 G) (testDataset : List (DatasetElem K))
    (userIndex itemIndex : IdIndex) (numTestUsers : Nat) (seed : Int) : List Nat :=
  let assigned := iterOrder (collectTestUsers testDataset userIndex itemIndex)
  if numTestUsers > 0 ∧ numTestUsers < assigned.length then
    (shuffle assigned (mt seed)).take numTestUsers
  else assigned

/-- The map `userMap` of `Engine::initAvgTestData`: `userMap[testUsers[i]] = i`
for `i = 0 .. testUsers.size() - 1`, the latest assignment in front. -/
def testUserMap (testUsers : List Nat) : List (Nat × Nat) :=
  ((List.range testUsers.length).map (fun i => (testUsers.getD i 0, i))).reverse

/-- The body of the last loop of `Engine::initAvgTestData`. -/
def labelStep {K : Type} (userMap : List (Nat × Nat)) (userIndex itemIndex : IdIndex)
    (labels : List (List K)) (elem : DatasetElem K) : List (List K) :=
  let uidx := userIndex.idx elem.userId
  let pidx := itemIndex.idx elem.itemId
  if uidx = IdIndex.missingIdx ∨ pidx = IdIndex.missingIdx ∨ (userMap.lookup uidx).isNone then
    labels
  else
    let slot := (userMap.lookup uidx).getD 0
    labels.set slot ((labels.getD slot []).set pidx elem.value)

/-! ## wals/WALSEngine: the engine -/

/-- Embeds `WALSConfig`. -/
structure WALSConfig (K : Type) where
  nepochs : Nat
  nfactors : Nat
  regularizationLambda : K
  confidenceWeight : K
  initDistributionBound : K

/-- The data members of `WALSEngine`. The `unique_ptr` members are `none` while
null. -/
structure WALSEngine (K : Type) where
  config : WALSConfig K
  metricsEngine : Option (MetricsEngine K)
  parallel : ParallelExecutor
  userIndex : IdIndex
  itemIndex : IdIndex
  userFactors : Option (FactorData K)
  itemFactors : Option (FactorData K)
  userSignals : List (SignalGroup K)
  itemSignals : List (SignalGroup K)
  testUsers : List Nat
  testLabels : List (List K)
  testScores : List (List K)

/-- Embeds `WALSEngine::WALSEngine(config, metricsEngine, nthreads)`. -/
def WALSEngine.new {K : Type} (config : WALSConfig K) (metricsEngine : Option (MetricsEngine K))
    (parallel : ParallelExecutor) : WALSEngine K :=
  { config := config, metricsEngine := metricsEngine, parallel := parallel,
    userIndex := IdIndex.empty, itemIndex := IdIndex.empty, userFactors := none,
    itemFactors := none, userSignals := [], itemSignals := [], testUsers := [],
    testLabels := [], testScores := [] }

/-- Embeds `WALSEngine::nusers`. -/
def WALSEngine.nusers {K : Type} (s : WALSEngine K) : Nat := s.userIndex.size

/-- Embeds `WALSEngine::nitems`. -/
def WALSEngine.nitems {K : Type} (s : WALSEngine K) : Nat := s.itemIndex.size

/-- Embeds `WALSEngine::init(dataset)`; `gen0` is the state of the local
`std::mt19937 gen(rd())` seeded from `std::random_device`. -/
def WALSEngine.init {K G : Type} [Field K]
    (stdSort : (DatasetElem K → DatasetElem K → Bool) → List (DatasetElem K) →
      List (DatasetElem K))
    (unif : UniformReal G K) (gen0 : G) (s : WALSEngine K) (dataset : List (DatasetElem K)) :
    Option (WALSEngine K) :=
  if ¬ (s.userFactors.isNone ∧ s.itemFactors.isNone) then none
  else
    match groupSignals stdSort s.userSignals s.userIndex dataset with
    | none => none
    | some (userSignals, userIndex, mutableDataset) =>
      let mutableDataset := mutableDataset.map
        (fun elem => { elem with userId := elem.itemId, itemId := elem.userId })
      match groupSignals stdSort s.itemSignals s.itemIndex mutableDataset with
      | none => none
      | some (itemSignals, itemIndex, _) =>
        let s1 := { s with userSignals := userSignals, userIndex := userIndex,
                           itemSignals := itemSignals, itemIndex := itemIndex }
        match FactorData.new s1.nusers s1.config.nfactors false with
        | none => none
        | some userFactors =>
          match FactorData.new s1.nitems s1.config.nfactors false with
          | none => none
          | some itemFactors =>
            let genUnif := unif (-s1.config.initDistributionBound) s1.config.initDistributionBound
            some { s1 with userFactors := some userFactors,
                           itemFactors := some (itemFactors.setFactors genUnif gen0).1 }

/-- Embeds `WALSEngine::initTest(testDataset)`. -/
def WALSEngine.initTest {K G : Type} [Zero K] (mt : Mt19937 G) (iterOrder : List Nat → List Nat)
    (shuffle : List Nat → G → List Nat) (s : WALSEngine K) (testDataset : List (DatasetElem K)) :
    Option (WALSEngine K) :=
  if ¬ s.testUsers.isEmpty then none
  else
    match s.metricsEngine with
    | none => some s
    | some me =>
      if me.testAvgMetrics.isEmpty then some s
      else
        let r := initAvgTestData iterOrder shuffle mt s.testLabels s.testScores testDataset
          s.userIndex s.itemIndex me.config.numTestUsers me.config.seed
        some { s with testUsers := r.1, testLabels := r.2.1, testScores := r.2.2 }

/-! ## bpr/BPREngine: the stages of `init` -/

/-- The call `iterate(..., evalNumNeg_, std::mt19937(evalSeed_))` of
`BPREngine::init` that fills `evalSet_`, after the ingestion loop and the
construction of the item map: the evaluation set and the generator it leaves,
`none` when the sampling does not return. -/
def BPREngine.initEvalSet {K G : Type} [LinearOrderedField K] (mt : Mt19937 G)
    (dis : UniformInt G) (fuel : Nat) (s : BPREngine K G) (dataset : List (DatasetElem K)) :
    Option (List PosNegTriplet × G) :=
  let s1 := s.populate dataset
  let s2 := { s1 with
    itemMap := s1.data.foldl
      (fun (itemMap : List (List Nat)) (p : PosPair) => insertInto itemMap p.userIdx p.posItemIdx)
      (resizeSets s1.itemMap s1.userIndex.size) }
  s2.iterate dis fuel (fun (evalSet : List PosNegTriplet) triplet => some (evalSet ++ [triplet]))
    s2.evalNumNeg s2.evalSet (mt s2.evalSeed)

/-! ## wals/WALSEngine: the interactions held by the groups -/

/-- The groups `signals` holds when the loop of `groupSignals` has reached the
state `st` and the group under construction is closed:
`if (prevId != InvalidId) signals.emplace_back(SignalGroup{prevId, group});`. -/
def GroupState.closed {K : Type} (st : GroupState K) : List (SignalGroup K) :=
  if st.prevId ≠ InvalidId then st.signals ++ [⟨st.prevId, st.group⟩] else st.signals

/-- The triples `(g.sourceId, s.id, s.value)` over all groups `g` and their
signals `s`, in order. -/
def signalTriples {K : Type} (signals : List (SignalGroup K)) : List (Int × Int × K) :=
  signals.flatMap (fun g => g.group.map (fun s => (g.sourceId, s.id, s.value)))

/-- The triples `(userId, itemId, value)` of the dataset elements, in order. -/
def datasetTriples {K : Type} (dataset : List (DatasetElem K)) : List (Int × Int × K) :=
  dataset.map (fun e => (e.userId, e.itemId, e.value))

/-! ## metrics/MetricsEngine: recording -/

/-- The virtual method `Metric::compute(labels, scores)` on one pair of vectors,
by the dynamic type of the metric. -/
def Metric.computeOne {K : Type} [LinearOrderedField K]
    (stdSort : (K × Bool → K × Bool → Bool) → List (K × Bool) → List (K × Bool))
    (nthElement : (K × Bool → K × Bool → Bool) → Nat → List (K × Bool) → List (K × Bool)) :
    Metric → List K → List K → Option K
  | Metric.MeanSquaredError => MeanSquaredError.compute
  | Metric.AUC => AUC.compute stdSort
  | Metric.Precision k => Precision.compute nthElement k
  | Metric.Recall k => Recall.compute nthElement k
  | Metric.AveragePrecision => AveragePrecision.compute stdSort

/-- Embeds `MetricsEngine::recordMetric(metricKey, epoch, val)`:
`metricsMap_[metricKey].emplace_back(epoch, val)`. -/
def MetricsEngine.recordMetric {K : Type} (me : MetricsEngine K) (metricKey : String)
    (epoch : Nat) (val : K) : MetricsEngine K :=
  { me with
    metricsMap :=
      match me.metricsMap.lookup metricKey with
      | some _ =>
        me.metricsMap.map
          (fun kv => if kv.1 = metricKey then (kv.1, kv.2 ++ [(epoch, val)]) else kv)
      | none => me.metricsMap ++ [(metricKey, [(epoch, val)])] }

/-- Embeds `MetricsEngine::computeAndRecordTestAvgMetrics(epoch, labels, scores,
parallel)`, that is `computeAndRecordMetrics(testAvgMetrics_, "test_avg_", ...)`;
`mm` is the registry `MetricsManager::get()`. A failing `CHECK` is `none`. -/
def MetricsEngine.computeAndRecordTestAvgMetrics {K : Type} [LinearOrderedField K]
    (stdSort : (K × Bool → K × Bool → Bool) → List (K × Bool) → List (K × Bool))
    (nthElement : (K × Bool → K × Bool → Bool) → Nat → List (K × Bool) → List (K × Bool))
    (me : MetricsEngine K) (mm : MetricsManager) (epoch : Nat) (labels scores : List (List K))
    (parallel : ParallelExecutor) : Option (MetricsEngine K × MetricsManager) :=
  me.testAvgMetrics.foldlM
    (fun (st : MetricsEngine K × MetricsManager) metric =>
      let r := st.2.getMetric metric.toList
      match r.1 with
      | none => none
      | some m =>
        (Metric.computeParallel (m.computeOne stdSort nthElement) labels scores parallel).map
          (fun val => (st.1.recordMetric ("test_avg_" ++ metric) epoch val, r.2)))
    (me, mm)

/-! ## bpr/BPREngine: evaluation and optimisation -/

/-- The lambda `evalLoss` of `BPREngine::evaluate`. -/
def BPREngine.evalLoss {K G : Type} [Field K] (exp log : K → K) (s : BPREngine K G)
    (triplet : PosNegTriplet) : Option K :=
  (s.predictDifference triplet.userIdx triplet.posItemIdx triplet.negItemIdx).map
    (BPREngine.loss exp log)

/-- The value `trainEvalLoss` of `BPREngine::evaluate`; `none` when a worker hit a
fatal `CHECK`. -/
def BPREngine.trainEvalLoss {K G : Type} [LinearOrderedField K] (exp log : K → K)
    (s : BPREngine K G) : Option K :=
  if s.evalSet.isEmpty then some (-1)
  else
    (s.parallel.mapReduceElems s.evalSet (s.evalLoss exp log) plusResults (some 0)).map
      (fun sum => sum / (s.evalSet.length : K))

/-- The value `testEvalLoss` of `BPREngine::evaluate`. -/
def BPREngine.testEvalLoss {K G : Type} [LinearOrderedField K] (exp log : K → K)
    (s : BPREngine K G) : Option K :=
  if s.testEvalSet.isEmpty then some (-1)
  else
    (s.parallel.mapReduceElems s.testEvalSet (s.evalLoss exp log) plusResults (some 0)).map
      (fun sum => sum / (s.testEvalSet.length : K))

/-- Embeds `BPREngine::evaluate(epoch)` as an update of the engine and of the
metric registry; the two losses are computed and logged only. -/
def BPREngine.evaluate {K G : Type} [LinearOrderedField K] (exp log : K → K)
    (stdSort : (K × Bool → K × Bool → Bool) → List (K × Bool) → List (K × Bool))
    (nthElement : (K × Bool → K × Bool → Bool) → Nat → List (K × Bool) → List (K × Bool))
    (s : BPREngine K G) (mm : MetricsManager) (epoch : Nat) :
    Option (BPREngine K G × MetricsManager) :=
  match s.trainEvalLoss exp log, s.testEvalLoss exp log with
  | some _, some _ =>
    match s.metricsEngine with
    | none => some (s, mm)
    | some me =>
      if ¬ me.testAvgMetrics.isEmpty ∧ ¬ s.testUsers.isEmpty
          ∧ (me.config.alwaysCompute ∨ epoch = s.config.nepochs) then
        match s.userFactors, s.itemFactors with
        | some userFactors, some itemFactors =>
          let testScores :=
            computeTestScores s.testScores s.testUsers userFactors itemFactors s.parallel
          (me.computeAndRecordTestAvgMetrics stdSort nthElement mm epoch s.testLabels testScores
            s.parallel).map
            (fun r => ({ s with testScores := testScores, metricsEngine := some r.1 }, r.2))
        | _, _ => none
      else some (s, mm)
  | _, _ => none

/-- Embeds `BPREngine::iterateBlock(func, start, end, numNeg, gen)`. -/
def BPREngine.iterateBlock {K G S : Type} (dis : UniformInt G) (fuel : Nat) (s : BPREngine K G)
    (func : S → PosNegTriplet → Option S) (start stop : Nat) (numNeg : Nat) (st : S × G) :
    Option (S × G) :=
  (List.range' start (stop - start)).foldlM
    (fun (st : S × G) i =>
      match s.data[i]? with
      | none => none
      | some elem =>
        BPREngine.sampleTriplets dis fuel s func false elem.userIdx elem.posItemIdx numNeg st)
    st

/-- The part `// run SGD` of an epoch of `BPREngine::optimize`, for a lambda
`updateOne` that acts on a state `S`: `iterate` on the whole of `data_`, or
`numHogwildThreads` tasks `iterateBlock` handed to `parallel_.execute`, whose
calls take effect one after the other in worker order. The indexes, `data_` and
the item map, which the sampling reads, are those of `s`. -/
def BPREngine.runSGD {K G S : Type} (dis : UniformInt G) (fuel : Nat) (s : BPREngine K G)
    (updateOne : S → PosNegTriplet → Option S) (st : S) (gen : G) : Option (S × G) :=
  if s.config.numHogwildThreads ≤ 1 then
    s.iterate dis fuel updateOne s.config.numNegativeSamples st gen
  else
    let numTasks := s.config.numHogwildThreads
    let blockSize := s.data.length / numTasks
    s.parallel.executeOn numTasks
      (fun (acc : Option (S × G)) taskId =>
        acc.bind (fun acc =>
          s.iterateBlock dis fuel updateOne (taskId * blockSize)
            (min s.data.length ((taskId + 1) * blockSize)) s.config.numNegativeSamples acc))
      (some (st, gen))

/-- The positions `i` of `data_` that the task `taskId` of the Hogwild branch
passes through: `for (i = taskId * blockSize; i < min(data_.size(),
(taskId + 1) * blockSize); ++i)`. -/
def hogwildBlock (dataSize numTasks taskId : Nat) : List Nat :=
  let blockSize := dataSize / numTasks
  List.range' (taskId * blockSize)
    (min dataSize ((taskId + 1) * blockSize) - taskId * blockSize)

/-- Embeds `BPREngine::shuffle`; `shuffleData` is `std::shuffle` with the
generator `gen_`. -/
def BPREngine.shuffle {K G : Type} (shuffleData : List PosPair → G → List PosPair × G)
    (s : BPREngine K G) : BPREngine K G :=
  { s with data := (shuffleData s.data s.gen).1, gen := (shuffleData s.data s.gen).2 }

/-- The body of the loop `for (epoch = 1; epoch <= config_.nepochs; ++epoch)` of
`BPREngine::optimize`. -/
def BPREngine.epoch {K G : Type} [LinearOrderedField K] (exp log : K → K) (dis : UniformInt G)
    (fuel : Nat)
    (stdSort : (K × Bool → K × Bool → Bool) → List (K × Bool) → List (K × Bool))
    (nthElement : (K × Bool → K × Bool → Bool) → Nat → List (K × Bool) → List (K × Bool))
    (shuffleData : List PosPair → G → List PosPair × G)
    (st : BPREngine K G × MetricsManager) (epoch : Nat) :
    Option (BPREngine K G × MetricsManager) :=
  match st.1.runSGD dis fuel (fun (e : BPREngine K G) triplet => e.update exp triplet) st.1
      st.1.gen with
  | none => none
  | some (s1, gen) =>
    match ({ s1 with gen := gen } : BPREngine K G).evaluate exp log stdSort nthElement st.2
        epoch with
    | none => none
    | some (s2, mm) =>
      let s3 :=
        if s2.config.decayRate < 1 then
          { s2 with learningRate := s2.learningRate * s2.config.decayRate }
        else s2
      let s4 := if s3.config.shuffleTrainingSet then s3.shuffle shuffleData else s3
      some (s4, mm)

/-- The first `n` epochs of the loop of `BPREngine::optimize`. -/
def BPREngine.runEpochs {K G : Type} [LinearOrderedField K] (exp log : K → K)
    (dis : UniformInt G) (fuel : Nat)
    (stdSort : (K × Bool → K × Bool → Bool) → List (K × Bool) → List (K × Bool))
    (nthElement : (K × Bool → K × Bool → Bool) → Nat → List (K × Bool) → List (K × Bool))
    (shuffleData : List PosPair → G → List PosPair × G)
    (s : BPREngine K G) (mm : MetricsManager) (n : Nat) :
    Option (BPREngine K G × MetricsManager) :=
  (List.range' 1 n).foldlM (BPREngine.epoch exp log dis fuel stdSort nthElement shuffleData)
    (s, mm)

/-- Embeds `BPREngine::optimize`. -/
def BPREngine.optimize {K G : Type} [LinearOrderedField K] (exp log : K → K)
    (dis : UniformInt G) (fuel : Nat)
    (stdSort : (K × Bool → K × Bool → Bool) → List (K × Bool) → List (K × Bool))
    (nthElement : (K × Bool → K × Bool → Bool) → Nat → List (K × Bool) → List (K × Bool))
    (shuffleData : List PosPair → G → List PosPair × G)
    (s : BPREngine K G) (mm : MetricsManager) : Option (BPREngine K G × MetricsManager) :=
  if ¬ (s.userFactors.isSome ∧ s.itemFactors.isSome) then none
  else s.runEpochs exp log dis fuel stdSort nthElement shuffleData mm s.config.nepochs

/-- The learning rate of the epoch `e` (counted from 1) in the words of the
specification: `initLearningRate * decayRate^(e-1)` when `decayRate < 1`, and
`initLearningRate` otherwise. -/
def BPRConfig.scheduledRate {K : Type} [LinearOrderedField K] (config : BPRConfig K) (e : Nat) :
    K :=
  if config.decayRate < 1 then config.initLearningRate * config.decayRate ^ (e - 1)
  else config.initLearningRate

/-! ## Data of the unit tests -/

/-- The right matrix of `TEST(WALSEngine, updateFactorsForOne)`: 2 items, 3
factors, every entry 0.1. -/
def testY : Matrix ℚ := ⟨2, 3, [1/10, 1/10, 1/10, 1/10, 1/10, 1/10]⟩

/-- The left matrix of the test: 3 users, 3 factors, all zero. -/
def testX : Matrix ℚ := ⟨3, 3, [0, 0, 0, 0, 0, 0, 0, 0, 0]⟩

/-- The matrix `YtY` as the test computes it. -/
def testYtY : Matrix ℚ := ⟨3, 3, [1/50, 1/50, 1/50, 1/50, 1/50, 1/50, 1/50, 1/50, 1/50]⟩

/-- The user index of the test: ids 0, 1, 2 inserted in order. -/
def testUserIndex : IdIndex :=
  (((IdIndex.empty.getOrSetIdx 0).2.getOrSetIdx 1).2.getOrSetIdx 2).2

/-- The item index of the test: ids 0, 1 inserted in order. -/
def testItemIndex : IdIndex := ((IdIndex.empty.getOrSetIdx 0).2.getOrSetIdx 1).2

/-- The signal group of the test: user 0 with items 0 and 1, both of value 1. -/
def testSignalGroup : SignalGroup ℚ := ⟨0, [⟨0, 1⟩, ⟨1, 1⟩]⟩

/-- The exact solution of the test system, `x = (5/14, 5/14, 5/14)`. -/
def testSolution : Vector ℚ := ⟨[5/14, 5/14, 5/14]⟩

/-- A stand-in for `dsysv_` that reports success with `testSolution`. -/
def testDsysv : Dsysv ℚ := fun _ _ _ _ _ _ _ _ => (testSolution.data, 0)

/-- A stand-in for `std::mt19937(seed)`: the state is a counter starting at the
seed. -/
def testMt : Mt19937 Nat := fun seed => seed.toNat

/-- A stand-in for `std::uniform_int_distribution<>(a, b)`: the counter reduced
into `[a, b]`. -/
def testUniformInt : UniformInt Nat := fun a b g => (a + (g : Int) % (b - a + 1), g + 1)

/-- A stand-in for `std::uniform_real_distribution<Double>(a, b)`. -/
def testUniformReal : UniformReal Nat ℚ := fun a b g => (a + (b - a) * ((g % 11 : Nat) : ℚ) / 10, g + 1)

/-- A stand-in for `exp`, exact at 0. -/
def testExp : ℚ → ℚ := fun x => 1 + x

/-- The configuration of `TEST(BPREngine, init)` (with 2 factors). -/
def testBPRConfig : BPRConfig ℚ :=
  { nepochs := 1, nfactors := 2, initLearningRate := 1/10, biasLambda := 1, userLambda := 1/40,
    itemLambda := 1/400, decayRate := 1, useBiases := true, initDistributionBound := 1/10,
    numNegativeSamples := 1, numHogwildThreads := 1, shuffleTrainingSet := false }

/-- The training dataset of `TEST(BPREngine, init)`. -/
def testTrainDataset : List (DatasetElem ℚ) :=
  [⟨3, 2, 1⟩, ⟨5, 2, 1⟩, ⟨3, 4, 1⟩, ⟨6, 2, 1⟩, ⟨7, 10, 1⟩]

/-- The test dataset of `TEST(BPREngine, init)`. -/
def testTestDataset : List (DatasetElem ℚ) :=
  [⟨5, 4, 1⟩, ⟨3, 10, 1⟩, ⟨6, 12, 1⟩, ⟨8, 13, 1⟩]

/-- The engine of `TEST(BPREngine, init)` (`evalNumNeg = 2`, seed 42) after
`init`, with at most 10 draws per sampled negative. -/
def testBPRInit : Option (BPREngine ℚ Nat) :=
  (BPREngine.new testBPRConfig none 2 42 ⟨16, by decide⟩ 0 0).init
    testMt testUniformInt testUniformReal 10 testTrainDataset

/-- The engine of `TEST(BPREngine, init)` after `init` and `initTest`. -/
def testBPRInitTest : Option (BPREngine ℚ Nat) :=
  testBPRInit.bind (fun s => s.initTest testMt testUniformInt id (fun l _ => l) 10 testTestDataset)

/-- An initialised engine with one user and two items, for a single `update`. -/
def testBPREngine : BPREngine ℚ Nat :=
  { BPREngine.new testBPRConfig none 2 42 ⟨16, by decide⟩ 0 (1/10) with
    userFactors := some ⟨false, ⟨1, 2, [0, 0]⟩, ⟨[]⟩⟩,
    itemFactors := some ⟨true, ⟨2, 2, [1, 0, 0, 1]⟩, ⟨[0, 0]⟩⟩ }

/-- A symmetric nonsingular matrix of order 2. -/
def testA : Matrix ℚ := ⟨2, 2, [2, 1, 1, 2]⟩

/-- A right-hand side of length 2. -/
def testB : Vector ℚ := ⟨[3, 3]⟩

/-- The train dataset of `TEST(WALSEngine, init)`, shuffled. -/
def testWALSDataset : List (DatasetElem ℚ) :=
  [⟨2, 3, 1⟩, ⟨1, 2, 1⟩, ⟨3, 4, 1⟩, ⟨1, 1, 1⟩, ⟨2, 1, 1⟩, ⟨1, 3, 1⟩]

/-- A matrix with 5 rows and 2 columns, for `computeXtX`. -/
def testGramX : Matrix ℚ := ⟨5, 2, [1, 2, 3, 4, 5, 6, 7, 8, 9, 10]⟩

/-- Labels of `TEST(TestMetrics, AUC)`. -/
def testLabels : List ℚ := [1, 0, 1]

/-- Scores of `TEST(TestMetrics, AUC)`. -/
def testScores : List ℚ := [3, 2, 0]

/-- Labels of the last case of `TEST(TestMetrics, Precision)` and `Recall`. -/
def testLabels2 : List ℚ := [0, 1, 0]

/-- Scores of the case before the last of `TEST(TestMetrics, Precision)`. -/
def testScores2 : List ℚ := [3, 2, 1]

/-- Per-user labels of the averaged case of `TEST(TestMetrics, MeanSquaredError)`. -/
def testAvgLabels : List (List ℚ) := [[1, 0], [1, 0, 1]]

/-- Per-user scores of the averaged case of `TEST(TestMetrics, MeanSquaredError)`. -/
def testAvgScores : List (List ℚ) := [[1 / 2, 1 / 2], [0, 1, 2]]

/-- The user index of `TEST(Engine, initAvgTestData)`. -/
def testEngineUserIndex : IdIndex := IdIndex.afterCalls [1, 2, 3]

/-- The item index of `TEST(Engine, initAvgTestData)`. -/
def testEngineItemIndex : IdIndex := IdIndex.afterCalls [1, 2, 4, 3]

/-- The test dataset of `TEST(Engine, initAvgTestData)`. -/
def testEngineDataset : List (DatasetElem ℚ) := [⟨1, 4, 1⟩, ⟨2, 1, 1⟩, ⟨4, 2, 1⟩, ⟨1, 5, 1⟩]

/-- The result of `initAvgTestData` in `TEST(Engine, initAvgTestData)`, the
`unordered_set` iterated in insertion order. -/
def testEngineAvgData : List Nat × List (List ℚ) × List (List ℚ) :=
  initAvgTestData id (fun l (_ : Nat) => l) testMt [] [] testEngineDataset testEngineUserIndex
    testEngineItemIndex 0 0

/-- User factors with 4 rows and 3 factors, filled with 1, 2, ... row by row, as
in `TEST(Engine, computeTestScores)`. -/
def testScoreUserFactors : FactorData ℚ :=
  ⟨false, ⟨4, 3, [1, 2, 3, 4, 5, 6, 7, 8, 9, 10, 11, 12]⟩, ⟨[]⟩⟩

/-- Item factors with 2 rows, 3 factors and biases. -/
def testScoreItemFactors : FactorData ℚ := ⟨true, ⟨2, 3, [13, 14, 15, 16, 17, 18]⟩, ⟨[19, 20]⟩⟩

/-- The index of `TEST(Engine, saveFactors)`. -/
def testSaveIndex : IdIndex := IdIndex.afterCalls [3, 5]

/-- The factors of `TEST(Engine, saveFactors)`, without biases. -/
def testSaveFactors : FactorData ℚ := ⟨false, ⟨2, 3, [0, 1, 2, 3, 4, 5]⟩, ⟨[]⟩⟩

/-- The factors of `TEST(Engine, saveFactors)`, with biases. -/
def testSaveFactorsBiased : FactorData ℚ := ⟨true, ⟨2, 3, [0, 1, 2, 3, 4, 5]⟩, ⟨[5, 6]⟩⟩

/-- A stand-in for `operator<<(int64_t)`: the decimal digits, with a sign when
negative. -/
def testShowInt (i : Int) : List Char :=
  if i < 0 then '-' :: Nat.toDigits 10 i.natAbs else Nat.toDigits 10 i.natAbs

/-- A stand-in for `operator<<(double)`: in fixed notation the decimal expansion
rounded to `precision` fractional digits, otherwise the rounded integer part. -/
def testShowDouble (fixed : Bool) (precision : Nat) (x : ℚ) : List Char :=
  let p := if fixed then precision else 0
  let scaled := (abs x * 10 ^ p + 1 / 2).floor.toNat
  let frac := Nat.toDigits 10 (scaled % 10 ^ p)
  (if x < 0 then ['-'] else []) ++ Nat.toDigits 10 (scaled / 10 ^ p)
    ++ (if 0 < p then '.' :: (List.replicate (p - frac.length) '0' ++ frac) else [])

/-- The configuration of `TEST(WALSEngine, init)` (with 2 factors). -/
def testWALSConfig : WALSConfig ℚ :=
  { nepochs := 1, nfactors := 2, regularizationLambda := 1/20, confidenceWeight := 40,
    initDistributionBound := 1/100 }

/-- A metrics engine with the test average metric `auc`, as in
`TEST(WALSEngine, initTest)`. -/
def testMetricsEngine : MetricsEngine ℚ :=
  { config := ⟨0, false, 0⟩, log := true, trainMetrics := [], trainAvgMetrics := [],
    testMetrics := [], testAvgMetrics := ["auc"], metricsMap := [] }

/-- The engine of `TEST(WALSEngine, init)` after `init`. -/
def testWALSInit : Option (WALSEngine ℚ) :=
  (WALSEngine.new testWALSConfig none ⟨16, by decide⟩).init insertionStdSort testUniformReal
    (0 : Nat) testWALSDataset

/-- The engine of `TEST(BPREngine, init)` with the metrics engine above. -/
def testBPRInitMetrics : Option (BPREngine ℚ Nat) :=
  (BPREngine.new testBPRConfig (some testMetricsEngine) 2 42 ⟨16, by decide⟩ 0 0).init
    testMt testUniformInt testUniformReal 10 testTrainDataset

/-- A test dataset whose only element has known ids and a value below 1. -/
def testLowValueDataset : List (DatasetElem ℚ) := [⟨3, 2, 1/2⟩]

/-- A stand-in for `log`, exact at 1. -/
def testLog : ℚ → ℚ := fun x => x - 1

/-- The configuration of `TEST(BPREngine, init)` with 2 epochs and decay rate
1/2. -/
def testDecayConfig : BPRConfig ℚ :=
  { testBPRConfig with nepochs := 2, decayRate := 1 / 2 }

/-- The engine of `TEST(BPREngine, init)` with the configuration above, after
`init`. -/
def testDecayInit : Option (BPREngine ℚ Nat) :=
  (BPREngine.new testDecayConfig none 2 42 ⟨16, by decide⟩ 0 0).init
    testMt testUniformInt testUniformReal 10 testTrainDataset

/-- A stand-in for `exp` that is positive everywhere and exact at 0. -/
def testExpPos : ℚ → ℚ := fun x => if 0 ≤ x then 1 + x else 1 / (1 - x)

/-- The configuration of `TEST(BPREngine, init)` without regularisation. -/
def testPlainConfig : BPRConfig ℚ :=
  { testBPRConfig with biasLambda := 0, userLambda := 0, itemLambda := 0 }

/-- An initialised engine without regularisation, with one user and two items. -/
def testPlainEngine : BPREngine ℚ Nat :=
  { BPREngine.new testPlainConfig none 2 42 ⟨16, by decide⟩ 0 (1/10) with
    userFactors := some ⟨false, ⟨1, 2, [1, 0]⟩, ⟨[]⟩⟩,
    itemFactors := some ⟨true, ⟨2, 2, [1, 0, 0, 1]⟩, ⟨[0, 0]⟩⟩ }

/-- The configuration of `TEST(BPREngine, init)` with `nfactors = 0`. -/
def testZeroConfig : BPRConfig ℚ := { testBPRConfig with nfactors := 0 }

/-- The configuration of `TEST(BPREngine, init)` with `nfactors = 2^63`. -/
def testWideConfig : BPRConfig ℚ := { testBPRConfig with nfactors := 2 ^ 63 }

/-- A dataset of 2 interactions of 2 users with 2 items. -/
def testTwoUsersDataset : List (DatasetElem ℚ) := [⟨1, 1, 1⟩, ⟨2, 2, 1⟩]

/-- A dataset in which one user id is `INT64_MIN`, the value of `InvalidId`. -/
def testSentinelDataset : List (DatasetElem ℚ) := [⟨1, 5, 1⟩, ⟨InvalidId, 5, 1⟩, ⟨1, 7, 1⟩]

/-- The configuration of `TEST(BPREngine, init)` with 2 Hogwild threads and 2
negative samples per pair. -/
def testHogwildConfig : BPRConfig ℚ :=
  { testBPRConfig with numHogwildThreads := 2, numNegativeSamples := 2 }

/-- An engine with 2 Hogwild threads, a pool of 3 workers and 5 training pairs. -/
def testHogwildEngine : BPREngine ℚ Nat :=
  { BPREngine.new testHogwildConfig none 2 42 ⟨3, by decide⟩ 0 (1/10) with
    data := [⟨0, 0⟩, ⟨1, 0⟩, ⟨0, 1⟩, ⟨2, 0⟩, ⟨3, 2⟩],
    itemMap := [[1, 0], [0], [0], [2]],
    userIndex := IdIndex.afterCalls [3, 5, 6, 7],
    itemIndex := IdIndex.afterCalls [2, 4, 10] }

/-! ## Theorems: ParallelExecutor -/

theorem strideTaskIds_eq (nthreads ntasks : Nat) (hpos : 0 < nthreads) (taskId : Nat) :
    strideTaskIds nthreads ntasks hpos taskId
      = (List.range ((ntasks - taskId + nthreads - 1) / nthreads)).map (fun q => taskId + q * nthreads) := by
  induction taskId using strideTaskIds.induct nthreads ntasks hpos with
  | case1 t hlt ih =>
    rw [strideTaskIds, if_pos hlt, ih]
    have hq : (ntasks - t + nthreads - 1) / nthreads
        = (ntasks - (t + nthreads) + nthreads - 1) / nthreads + 1 := by
      by_cases hle : t + nthreads ≤ ntasks
      · have : ntasks - t + nthreads - 1 = (ntasks - (t + nthreads) + nthreads - 1) + nthreads := by omega
        rw [this, Nat.add_div_right _ hpos]
      · have h1 : ntasks - (t + nthreads) + nthreads - 1 = nthreads - 1 := by omega
        have h2 : ntasks - t + nthreads - 1 = (ntasks - t - 1) + nthreads := by omega
        rw [h1, h2, Nat.add_div_right _ hpos, Nat.div_eq_of_lt (by omega), Nat.div_eq_of_lt (by omega)]
    rw [hq, List.range_succ_eq_map]
    simp only [List.map_cons, List.map_map, Nat.zero_mul, Nat.add_zero, List.cons.injEq, true_and]
    apply List.map_congr_left
    intro q _
    simp only [Function.comp, Nat.succ_mul]
    omega
  | case2 t hge =>
    rw [strideTaskIds, if_neg hge]
    have : (ntasks - t + nthreads - 1) / nthreads = 0 := by
      apply Nat.div_eq_of_lt; omega
    rw [this]; rfl

theorem mem_strideTaskIds (nthreads ntasks : Nat) (hpos : 0 < nthreads) (t : Nat) (ht : t < nthreads)
    (i : Nat) : i ∈ strideTaskIds nthreads ntasks hpos t ↔ i < ntasks ∧ i % nthreads = t := by
  rw [strideTaskIds_eq, List.mem_map]
  constructor
  · rintro ⟨q, hq, rfl⟩
    rw [List.mem_range, Nat.lt_iff_add_one_le, Nat.le_div_iff_mul_le hpos, Nat.add_mul, Nat.one_mul] at hq
    refine ⟨?_, ?_⟩
    · generalize q * nthreads = m at hq ⊢
      omega
    · rw [Nat.add_mul_mod_self_right, Nat.mod_eq_of_lt ht]
  · rintro ⟨hi, rfl⟩
    refine ⟨i / nthreads, ?_, ?_⟩
    · rw [List.mem_range, Nat.lt_iff_add_one_le, Nat.le_div_iff_mul_le hpos, Nat.add_mul, Nat.one_mul]
      have := Nat.mod_add_div i nthreads
      rw [Nat.mul_comm] at this
      generalize i / nthreads * nthreads = m at this ⊢
      generalize i % nthreads = r at this ht ⊢
      omega
    · have := Nat.mod_add_div i nthreads
      rw [Nat.mul_comm] at this
      exact this

theorem strideTaskIds_sorted (nthreads ntasks : Nat) (hpos : 0 < nthreads) (t : Nat) :
    (strideTaskIds nthreads ntasks hpos t).Sorted (· < ·) := by
  rw [strideTaskIds_eq]
  refine (List.pairwise_map).2 ?_
  refine (List.pairwise_lt_range _).imp ?_
  intro a b hab
  have : a * nthreads < b * nthreads := Nat.mul_lt_mul_of_pos_right hab hpos
  omega

theorem strideTaskIds_eq_filter (nthreads ntasks : Nat) (hpos : 0 < nthreads) (t : Nat)
    (ht : t < nthreads) :
    strideTaskIds nthreads ntasks hpos t
      = (List.range ntasks).filter (fun i => i % nthreads = t) := by
  apply List.eq_of_perm_of_sorted (r := (· < ·)) _ (strideTaskIds_sorted _ _ _ _)
  · exact (List.pairwise_lt_range ntasks).filter _
  · refine (List.perm_ext_iff_of_nodup (strideTaskIds_sorted _ _ _ _).nodup
      ((List.nodup_range ntasks).filter _)).2 ?_
    intro i
    rw [mem_strideTaskIds _ _ _ _ ht]
    simp

theorem filter_residues_perm (nthreads : Nat) (l : List Nat) (k : Nat) :
    (((List.range k).map (fun t => l.filter (fun i => i % nthreads = t))).flatten).Perm
      (l.filter (fun i => i % nthreads < k)) := by
  induction k with
  | zero => simp
  | succ k ih =>
    rw [List.range_succ, List.map_append, List.flatten_append]
    simp only [List.map_cons, List.map_nil, List.flatten_cons, List.flatten_nil, List.append_nil]
    refine (ih.append_right _).trans ?_
    clear ih
    induction l with
    | nil => simp
    | cons a l ihl =>
      simp only [List.filter_cons]
      by_cases h1 : a % nthreads < k
      · have h2 : ¬ a % nthreads = k := by omega
        have h3 : a % nthreads < k + 1 := by omega
        simp only [h1, h2, h3, decide_True, decide_False, if_true, List.cons_append]
        exact ihl.cons a
      · by_cases h2 : a % nthreads = k
        · have h3 : a % nthreads < k + 1 := by omega
          rw [if_neg (by simpa using h1), if_pos (by simpa using h2), if_pos (by simpa using h3)]
          exact List.perm_middle.trans (ihl.cons a)
        · have h3 : ¬ a % nthreads < k + 1 := by omega
          simpa only [h1, h2, h3, decide_True, decide_False, if_false] using ihl

theorem execute_flatten_perm (p : ParallelExecutor) (ntasks : Nat) :
    (p.execute ntasks).flatten.Perm (List.range ntasks) := by
  have h : p.execute ntasks
      = (List.range p.nthreads).map (fun t => (List.range ntasks).filter (fun i => i % p.nthreads = t)) := by
    unfold ParallelExecutor.execute
    apply List.map_congr_left
    intro t ht
    exact strideTaskIds_eq_filter _ _ _ _ (List.mem_range.1 ht)
  rw [h]
  refine (filter_residues_perm p.nthreads (List.range ntasks) p.nthreads).trans ?_
  rw [List.filter_eq_self.2]
  intro i _
  simpa using Nat.mod_lt i p.nthreads_pos

theorem mapReduceWorker_eq {T : Type} (mapper : Nat → T) (reducer : T → T → T)
    (nthreads ntasks : Nat) (hpos : 0 < nthreads) (res : T) (taskId : Nat) :
    mapReduceWorker mapper reducer nthreads ntasks hpos res taskId
      = (strideTaskIds nthreads ntasks hpos taskId).foldl (fun r i => reducer r (mapper i)) res := by
  induction res, taskId using mapReduceWorker.induct mapper reducer nthreads ntasks hpos with
  | case1 r t hlt ih =>
    rw [mapReduceWorker, if_pos hlt, ih, strideTaskIds.eq_1 nthreads ntasks hpos t, if_pos hlt]; rfl
  | case2 r t hge =>
    rw [mapReduceWorker, if_neg hge, strideTaskIds, if_neg hge]; rfl

theorem reducer_foldl {T E : Type} (mapper : E → T) (reducer : T → T → T)
    (hassoc : ∀ a b c, reducer (reducer a b) c = reducer a (reducer b c)) (a b : T) (l : List E) :
    reducer a (l.foldl (fun r e => reducer r (mapper e)) b)
      = l.foldl (fun r e => reducer r (mapper e)) (reducer a b) := by
  induction l generalizing b with
  | nil => rfl
  | cons x l ih => simp only [List.foldl_cons]; rw [ih, hassoc]

theorem foldl_partials {T E : Type} (mapper : E → T) (reducer : T → T → T) (neutral : T)
    (hassoc : ∀ a b c, reducer (reducer a b) c = reducer a (reducer b c))
    (hneutral : ∀ a, reducer a neutral = a) (acc : T) (L : List (List E)) :
    L.foldl (fun res l => reducer res (l.foldl (fun r e => reducer r (mapper e)) neutral)) acc
      = L.flatten.foldl (fun r e => reducer r (mapper e)) acc := by
  induction L generalizing acc with
  | nil => rfl
  | cons l L ih =>
    simp only [List.foldl_cons, List.flatten_cons, List.foldl_append]
    rw [ih, reducer_foldl mapper reducer hassoc, hneutral]

theorem mapReduce_eq_foldl_execute {T : Type} (p : ParallelExecutor) (ntasks : Nat)
    (mapper : Nat → T) (reducer : T → T → T) (neutral : T)
    (hassoc : ∀ a b c, reducer (reducer a b) c = reducer a (reducer b c))
    (hneutral : ∀ a, reducer a neutral = a) :
    p.mapReduce ntasks mapper reducer neutral
      = (p.execute ntasks).flatten.foldl (fun r i => reducer r (mapper i)) neutral := by
  rw [← foldl_partials mapper reducer neutral hassoc hneutral]
  unfold ParallelExecutor.mapReduce ParallelExecutor.execute
  rw [List.foldl_map]
  congr 1
  funext res t
  rw [mapReduceWorker_eq]

/-- C7: for every executor (thread count `N ≥ 1`) and every `ntasks`,
`execute(ntasks, fn)` runs `N` workers; worker `t` calls `fn` exactly on the ids
`t, t+N, t+2N, ...` below `ntasks` (the ids `i < ntasks` with `i % N = t`, in
ascending order), and all workers together call `fn` on each id of
`[0, ntasks)` exactly once and on nothing else. -/
theorem execute_visits_each_task_once (p : ParallelExecutor) (ntasks : Nat) :
    (p.execute ntasks).length = p.nthreads ∧
    (∀ t, t < p.nthreads →
      (p.execute ntasks)[t]? = some ((List.range ntasks).filter (fun i => i % p.nthreads = t)) ∧
      (p.execute ntasks)[t]?
        = some ((List.range ((ntasks - t + p.nthreads - 1) / p.nthreads)).map (fun q => t + q * p.nthreads))) ∧
    (p.execute ntasks).flatten.Perm (List.range ntasks) ∧
    (∀ i, (p.execute ntasks).flatten.count i = if i < ntasks then 1 else 0) := by
  refine ⟨by simp [ParallelExecutor.execute], ?_, execute_flatten_perm p ntasks, ?_⟩
  · intro t ht
    have hget : (p.execute ntasks)[t]? = some (strideTaskIds p.nthreads ntasks p.nthreads_pos t) := by
      simp [ParallelExecutor.execute, List.getElem?_range ht]
    exact ⟨by rw [hget, strideTaskIds_eq_filter _ _ _ _ ht], by rw [hget, strideTaskIds_eq]⟩
  · intro i
    rw [(execute_flatten_perm p ntasks).count_eq]
    by_cases hi : i < ntasks
    · rw [if_pos hi]
      exact List.count_eq_one_of_mem (List.nodup_range ntasks) (List.mem_range.2 hi)
    · rw [if_neg hi]
      exact List.count_eq_zero_of_not_mem (by simpa using hi)

/-- C8 (counterexample): list concatenation is associative with identity `[]`,
yet with 2 threads and 3 tasks `mapReduce` returns `[0, 2, 1]` while the
sequential left fold is `[0, 1, 2]`. -/
theorem mapReduce_ne_sequentialFold_of_assoc :
    (∀ a b c : List Nat, (a ++ b) ++ c = a ++ (b ++ c)) ∧
    (∀ a : List Nat, a ++ [] = a ∧ [] ++ a = a) ∧
    (ParallelExecutor.mk 2 (by decide)).mapReduce 3 (fun i => [i]) (fun a b => a ++ b) [] = [0, 2, 1] ∧
    sequentialFold 3 (fun i => [i]) (fun a b => a ++ b) [] = [0, 1, 2] ∧
    (ParallelExecutor.mk 2 (by decide)).mapReduce 3 (fun i => [i]) (fun a b => a ++ b) []
      ≠ sequentialFold 3 (fun i => [i]) (fun a b => a ++ b) [] := by
  have h1 : (ParallelExecutor.mk 2 (by decide)).mapReduce 3 (fun i => [i]) (fun a b => a ++ b) []
      = [0, 2, 1] := by
    simp only [ParallelExecutor.mapReduce, mapReduceWorker_eq, strideTaskIds_eq]
    decide
  have h2 : sequentialFold 3 (fun i => [i]) (fun a b => a ++ b) [] = [0, 1, 2] := by decide
  refine ⟨List.append_assoc, fun a => ⟨List.append_nil a, List.nil_append a⟩, h1, h2, ?_⟩
  rw [h1, h2]; decide

/-- C8 (amended): for every executor (thread count `N ≥ 1`), every `ntasks`,
every mapper and every associative and commutative reducer whose identity is
`neutral`, `mapReduce(ntasks, mapper, reducer, neutral)` equals the sequential
left fold `reducer(... reducer(reducer(neutral, mapper(0)), mapper(1)) ...,
mapper(ntasks-1))`. -/
theorem mapReduce_eq_sequentialFold {T : Type} (p : ParallelExecutor) (ntasks : Nat)
    (mapper : Nat → T) (reducer : T → T → T) (neutral : T)
    (hassoc : ∀ a b c, reducer (reducer a b) c = reducer a (reducer b c))
    (hcomm : ∀ a b, reducer a b = reducer b a)
    (hneutral : ∀ a, reducer a neutral = a) :
    p.mapReduce ntasks mapper reducer neutral = sequentialFold ntasks mapper reducer neutral := by
  rw [mapReduce_eq_foldl_execute p ntasks mapper reducer neutral hassoc hneutral]
  unfold sequentialFold
  apply (execute_flatten_perm p ntasks).foldl_eq'
  intro x _ y _ z
  rw [hassoc, hassoc, hcomm (mapper x)]

theorem mapReduce_eq_sequentialFold_witness :
    (ParallelExecutor.mk 4 (by decide)).mapReduce 10 (fun i => i * i) (fun a b => a + b) 0
      = sequentialFold 10 (fun i => i * i) (fun a b => a + b) 0 :=
  mapReduce_eq_sequentialFold (ParallelExecutor.mk 4 (by decide)) 10 (fun i => i * i)
    (fun a b => a + b) 0 (fun a b c => Nat.add_assoc a b c) (fun a b => Nat.add_comm a b)
    (fun a => Nat.add_zero a)

/-- C9 (evaluation at the failing input): with 2 threads, `elems = [1, 2, 3]`,
the identity mapper and addition from 0, `mapReduce(elems, ...)` returns 3: the
block size is `3 / 2 = 1`, the workers take `[1]` and `[2]`, and the element 3
is never mapped, whereas the fold over all elements is 6. -/
theorem mapReduceElems_drops_tail :
    elemsBlock [1, 2, 3] 2 0 = [1] ∧ elemsBlock [1, 2, 3] 2 1 = [2] ∧
    (ParallelExecutor.mk 2 (by decide)).mapReduceElems [1, 2, 3] (fun e => e) (fun a b => a + b) 0 = 3 ∧
    [1, 2, 3].foldl (fun res e => res + (fun e => e) e) 0 = 6 := by
  decide

/-! ## Theorems: storage lemmas -/

theorem getD_set_list {K : Type} (d : List K) (i j : Nat) (v z : K) :
    (d.set i v).getD j z = if i = j ∧ i < d.length then v else d.getD j z := by
  simp only [List.getD_eq_getElem?_getD, List.getElem?_set]
  by_cases h : i = j
  · subst h
    by_cases hi : i < d.length
    · simp [hi]
    · simp [hi, List.getElem?_eq_none (Nat.le_of_not_lt hi)]
  · simp [h]

theorem index_inj {n r c r2 c2 : Nat} (hc : c < n) (hc2 : c2 < n)
    (h : r * n + c = r2 * n + c2) : r = r2 ∧ c = c2 := by
  have h1 : (r * n + c) / n = r := by
    rw [Nat.mul_comm, Nat.mul_add_div (by omega), Nat.div_eq_of_lt hc, Nat.add_zero]
  have h2 : (r2 * n + c2) / n = r2 := by
    rw [Nat.mul_comm, Nat.mul_add_div (by omega), Nat.div_eq_of_lt hc2, Nat.add_zero]
  have hr : r = r2 := by rw [← h1, ← h2, h]
  subst hr
  exact ⟨rfl, by omega⟩

theorem index_lt {n m r c : Nat} (hr : r < n) (hc : c < m) : r * m + c < n * m := by
  have : (r + 1) * m ≤ n * m := Nat.mul_le_mul_right m hr
  rw [Nat.add_mul, Nat.one_mul] at this
  omega

theorem Matrix.get_set {K : Type} [Zero K] (M : Matrix K) (hwf : M.WF) {r c r2 c2 : Nat} (v : K)
    (hr : r < M.nrows) (hc : c < M.ncols) (hc2 : c2 < M.ncols) :
    (M.set r c v).get r2 c2 = if r2 = r ∧ c2 = c then v else M.get r2 c2 := by
  unfold Matrix.get Matrix.set Matrix.index
  simp only [getD_set_list]
  have hlt : r * M.ncols + c < M.data.length := by rw [hwf]; exact index_lt hr hc
  by_cases h : r * M.ncols + c = r2 * M.ncols + c2
  · obtain ⟨h1, h2⟩ := index_inj hc hc2 h
    simp [h1, h2, hlt, h ▸ hlt]
  · have : ¬ (r2 = r ∧ c2 = c) := by
      rintro ⟨rfl, rfl⟩; exact h rfl
    simp [h, this]

theorem Matrix.set_dims {K : Type} (M : Matrix K) (r c : Nat) (v : K) :
    (M.set r c v).nrows = M.nrows ∧ (M.set r c v).ncols = M.ncols ∧
    (M.set r c v).data.length = M.data.length := by
  simp [Matrix.set]

/-- Effect of a loop that rewrites the cells listed in `l`, each from its own
previous content. -/
theorem Matrix.foldl_modify {K : Type} [Zero K] (g : Nat × Nat → K → K) (l : List (Nat × Nat))
    (M : Matrix K) (hwf : M.WF) (hl : ∀ p ∈ l, p.1 < M.nrows ∧ p.2 < M.ncols) (hnd : l.Nodup) :
    (l.foldl (fun M p => M.set p.1 p.2 (g p (M.get p.1 p.2))) M).nrows = M.nrows ∧
    (l.foldl (fun M p => M.set p.1 p.2 (g p (M.get p.1 p.2))) M).ncols = M.ncols ∧
    (l.foldl (fun M p => M.set p.1 p.2 (g p (M.get p.1 p.2))) M).WF ∧
    ∀ r c, c < M.ncols →
      (l.foldl (fun M p => M.set p.1 p.2 (g p (M.get p.1 p.2))) M).get r c
        = if (r, c) ∈ l then g (r, c) (M.get r c) else M.get r c := by
  induction l generalizing M with
  | nil => simp [hwf]
  | cons p l ih =>
    simp only [List.foldl_cons]
    obtain ⟨hp1, hp2⟩ := hl p (List.mem_cons_self _ _)
    have hd := M.set_dims p.1 p.2 (g p (M.get p.1 p.2))
    have hwf1 : (M.set p.1 p.2 (g p (M.get p.1 p.2))).WF := by
      unfold Matrix.WF; rw [hd.1, hd.2.1, hd.2.2]; exact hwf
    have hl1 : ∀ q ∈ l, q.1 < (M.set p.1 p.2 (g p (M.get p.1 p.2))).nrows ∧
        q.2 < (M.set p.1 p.2 (g p (M.get p.1 p.2))).ncols := by
      intro q hq; rw [hd.1, hd.2.1]; exact hl q (List.mem_cons_of_mem _ hq)
    obtain ⟨i1, i2, i3, i4⟩ := ih _ hwf1 hl1 (List.nodup_cons.1 hnd).2
    refine ⟨i1.trans hd.1, i2.trans hd.2.1, i3, ?_⟩
    intro r c hc
    rw [i4 r c (by rw [hd.2.1]; exact hc), Matrix.get_set M hwf _ hp1 hp2 hc]
    by_cases hrc : (r, c) = p
    · subst hrc
      simp [(List.nodup_cons.1 hnd).1]
    · have hne : ¬ (r = p.1 ∧ c = p.2) := by
        rintro ⟨h1, h2⟩; exact hrc (Prod.ext h1 h2)
      simp [hne, hrc]

theorem foldl_product {S A B : Type} (F : S → A → B → S) (l1 : List A) (l2 : List B) (s : S) :
    l1.foldl (fun s i => l2.foldl (fun s j => F s i j) s) s
      = (l1.product l2).foldl (fun s p => F s p.1 p.2) s := by
  induction l1 generalizing s with
  | nil => rfl
  | cons a l1 ih =>
    have hp : (a :: l1).product l2 = l2.map (fun b => (a, b)) ++ l1.product l2 :=
      List.product_cons a l1 l2
    rw [hp, List.foldl_append, List.foldl_cons, ih, List.foldl_map]

theorem foldl_pair {S T A : Type} (f : S → A → S) (g : T → A → T) (l : List A) (s : S) (t : T) :
    l.foldl (fun (st : S × T) a => (f st.1 a, g st.2 a)) (s, t) = (l.foldl f s, l.foldl g t) := by
  induction l generalizing s t with
  | nil => rfl
  | cons a l ih => simp only [List.foldl_cons]; rw [ih]

theorem Vector.get_set_elem {K : Type} [Zero K] (v : Vector K) (i j : Nat) (x : K) (hi : i < v.size) :
    (v.set i x).get j = if j = i then x else v.get j := by
  unfold Vector.get Vector.set
  simp only [getD_set_list]
  have : i < v.data.length := hi
  by_cases h : i = j
  · simp [h, h ▸ this]
  · have : ¬ j = i := fun e => h e.symm
    simp [h, this]

/-- Effect of a loop `for i in l: v(i) = g(i, v(i))` over distinct indices. -/
theorem Vector.foldl_modify_elems {K : Type} [Zero K] (g : Nat → K → K) (l : List Nat)
    (v : Vector K) (hl : ∀ i ∈ l, i < v.size) (hnd : l.Nodup) :
    (l.foldl (fun v i => v.set i (g i (v.get i))) v).size = v.size ∧
    ∀ j, (l.foldl (fun v i => v.set i (g i (v.get i))) v).get j
        = if j ∈ l then g j (v.get j) else v.get j := by
  induction l generalizing v with
  | nil => simp
  | cons i l ih =>
    simp only [List.foldl_cons]
    have hi := hl i (List.mem_cons_self _ _)
    have hs : (v.set i (g i (v.get i))).size = v.size := by simp [Vector.set, Vector.size]
    obtain ⟨i1, i2⟩ := ih (v.set i (g i (v.get i)))
      (fun j hj => by rw [hs]; exact hl j (List.mem_cons_of_mem _ hj)) (List.nodup_cons.1 hnd).2
    refine ⟨i1.trans hs, ?_⟩
    intro j
    rw [i2 j, Vector.get_set_elem v i j _ hi]
    by_cases hji : j = i
    · subst hji
      simp [(List.nodup_cons.1 hnd).1]
    · simp [hji]

/-! ## Theorems: WALS per-row update -/

theorem mem_product_range {n m r c : Nat} :
    (r, c) ∈ (List.range n).product (List.range m) ↔ r < n ∧ c < m := by
  have h := @List.mem_product _ _ (List.range n) (List.range m) r c
  rw [List.mem_range, List.mem_range] at h
  exact h

theorem accumulateSignal_spec {K : Type} [Field K] (n : Nat) (Y : Matrix K) (rightIndex : IdIndex)
    (alpha : K) (b : Vector K) (A : Matrix K) (loss : K) (signal : Signal K)
    (hb : b.size = n) (hA : A.WF) (hAr : A.nrows = n) (hAc : A.ncols = n) :
    (accumulateSignal n Y rightIndex alpha (b, A, loss) signal).1.size = n ∧
    (accumulateSignal n Y rightIndex alpha (b, A, loss) signal).2.1.WF ∧
    (accumulateSignal n Y rightIndex alpha (b, A, loss) signal).2.1.nrows = n ∧
    (accumulateSignal n Y rightIndex alpha (b, A, loss) signal).2.1.ncols = n ∧
    (∀ i, i < n → (accumulateSignal n Y rightIndex alpha (b, A, loss) signal).1.get i
      = b.get i + Y.get (rightIndex.idx signal.id) i * (1 + alpha * signal.value)) ∧
    (∀ i j, i < n → j < n → (accumulateSignal n Y rightIndex alpha (b, A, loss) signal).2.1.get i j
      = A.get i j + Y.get (rightIndex.idx signal.id) i * alpha * signal.value
          * Y.get (rightIndex.idx signal.id) j) ∧
    (accumulateSignal n Y rightIndex alpha (b, A, loss) signal).2.2
      = loss + (1 + alpha * signal.value) := by
  have hfold := foldl_pair
    (fun (v : Vector K) i =>
      v.set i (v.get i + Y.get (rightIndex.idx signal.id) i * (1 + alpha * signal.value)))
    (fun (A : Matrix K) i => (List.range n).foldl
      (fun (A : Matrix K) j =>
        A.set i j (A.get i j + Y.get (rightIndex.idx signal.id) i * alpha * signal.value
          * Y.get (rightIndex.idx signal.id) j)) A)
    (List.range n) b A
  have hacc : accumulateSignal n Y rightIndex alpha (b, A, loss) signal
      = (_, _, loss + (1 + alpha * signal.value)) :=
    congrArg (fun bA : Vector K × Matrix K => (bA.1, bA.2, loss + (1 + alpha * signal.value))) hfold
  rw [hacc]
  simp only
  have hv := Vector.foldl_modify_elems
    (fun i x => x + Y.get (rightIndex.idx signal.id) i * (1 + alpha * signal.value))
    (List.range n) b (fun i hi => by rw [hb]; exact List.mem_range.1 hi) (List.nodup_range n)
  rw [foldl_product
    (fun (A : Matrix K) i j =>
        A.set i j (A.get i j + Y.get (rightIndex.idx signal.id) i * alpha * signal.value
          * Y.get (rightIndex.idx signal.id) j))]
  have hm := Matrix.foldl_modify
    (fun p x => x + Y.get (rightIndex.idx signal.id) p.1 * alpha * signal.value
          * Y.get (rightIndex.idx signal.id) p.2)
    ((List.range n).product (List.range n)) A hA
    (fun p hp => by
      rw [hAr, hAc]; exact mem_product_range.1 hp)
    ((List.nodup_range n).product (List.nodup_range n))
  refine ⟨hv.1.trans hb, hm.2.2.1, hm.1.trans hAr, hm.2.1.trans hAc, ?_, ?_, ?_⟩
  · intro i hi
    rw [hv.2 i, if_pos (List.mem_range.2 hi)]
  · intro i j hi hj
    rw [hm.2.2.2 i j (by rw [hAc]; exact hj), if_pos (mem_product_range.2 ⟨hi, hj⟩)]
  · trivial

theorem foldl_accumulateSignal_spec {K : Type} [Field K] (n : Nat) (Y : Matrix K)
    (rightIndex : IdIndex) (alpha : K) (group : List (Signal K)) (b : Vector K) (A : Matrix K)
    (loss : K) (hb : b.size = n) (hA : A.WF) (hAr : A.nrows = n) (hAc : A.ncols = n) :
    (group.foldl (accumulateSignal n Y rightIndex alpha) (b, A, loss)).1.size = n ∧
    (group.foldl (accumulateSignal n Y rightIndex alpha) (b, A, loss)).2.1.WF ∧
    (group.foldl (accumulateSignal n Y rightIndex alpha) (b, A, loss)).2.1.nrows = n ∧
    (group.foldl (accumulateSignal n Y rightIndex alpha) (b, A, loss)).2.1.ncols = n ∧
    (∀ i, i < n → (group.foldl (accumulateSignal n Y rightIndex alpha) (b, A, loss)).1.get i
      = b.get i + (group.map (fun s =>
          Y.get (rightIndex.idx s.id) i * (1 + alpha * s.value))).sum) ∧
    (∀ i j, i < n → j < n →
      (group.foldl (accumulateSignal n Y rightIndex alpha) (b, A, loss)).2.1.get i j
      = A.get i j + (group.map (fun s =>
          Y.get (rightIndex.idx s.id) i * alpha * s.value * Y.get (rightIndex.idx s.id) j)).sum) ∧
    (group.foldl (accumulateSignal n Y rightIndex alpha) (b, A, loss)).2.2
      = loss + (group.map (fun s => 1 + alpha * s.value)).sum := by
  induction group generalizing b A loss with
  | nil => simp [hb, hA, hAr, hAc]
  | cons s group ih =>
    simp only [List.foldl_cons, List.map_cons, List.sum_cons]
    have hs := accumulateSignal_spec n Y rightIndex alpha b A loss s hb hA hAr hAc
    rcases hst : accumulateSignal n Y rightIndex alpha (b, A, loss) s with ⟨b1, A1, l1⟩
    rw [hst] at hs
    simp only at hs
    obtain ⟨a1, a2, a3, a4, a5, a6, a7⟩ := hs
    obtain ⟨i1, i2, i3, i4, i5, i6, i7⟩ := ih b1 A1 l1 a1 a2 a3 a4
    refine ⟨i1, i2, i3, i4, ?_, ?_, ?_⟩
    · intro i hi
      rw [i5 i hi, a5 i hi, add_assoc]
    · intro i j hi hj
      rw [i6 i j hi hj, a6 i j hi hj, add_assoc]
    · rw [i7, a7, add_assoc]

theorem Vector.get_new {K : Type} [Zero K] (n i : Nat) : (Vector.new n : Vector K).get i = 0 := by
  unfold Vector.get Vector.new
  rw [List.getD_eq_getElem?_getD]
  by_cases h : i < n
  · simp [List.getElem?_replicate, h]
  · simp [List.getElem?_replicate, h]

theorem Vector.size_new {K : Type} [Zero K] (n : Nat) : (Vector.new n : Vector K).size = n := by
  simp [Vector.size, Vector.new]

/-- What `updateFactorsForOne` has built when it calls the solver: `b`, `B`, the
regularised `A` and the partial loss, entry by entry. -/
theorem buildSystem_spec {K : Type} [Field K] (n : Nat) (Y : Matrix K) (rightIndex : IdIndex)
    (sg : SignalGroup K) (A : Matrix K) (alpha lambda : K)
    (hA : A.WF) (hAr : A.nrows = n) (hAc : A.ncols = n) :
    (buildSystem n Y rightIndex sg A alpha lambda).b.size = n ∧
    (buildSystem n Y rightIndex sg A alpha lambda).A.WF ∧
    (buildSystem n Y rightIndex sg A alpha lambda).A.nrows = n ∧
    (buildSystem n Y rightIndex sg A alpha lambda).A.ncols = n ∧
    (∀ i, i < n → (buildSystem n Y rightIndex sg A alpha lambda).b.get i
      = (sg.group.map (fun s => Y.get (rightIndex.idx s.id) i * (1 + alpha * s.value))).sum) ∧
    (∀ i j, i < n → j < n → (buildSystem n Y rightIndex sg A alpha lambda).B.get i j
      = A.get i j + (sg.group.map (fun s =>
          Y.get (rightIndex.idx s.id) i * alpha * s.value * Y.get (rightIndex.idx s.id) j)).sum) ∧
    (∀ i j, i < n → j < n → (buildSystem n Y rightIndex sg A alpha lambda).A.get i j
      = (buildSystem n Y rightIndex sg A alpha lambda).B.get i j + (if i = j then lambda else 0)) ∧
    (buildSystem n Y rightIndex sg A alpha lambda).loss
      = (sg.group.map (fun s => 1 + alpha * s.value)).sum := by
  obtain ⟨i1, i2, i3, i4, i5, i6, i7⟩ := foldl_accumulateSignal_spec n Y rightIndex alpha sg.group
    (Vector.new n) A 0 (Vector.size_new n) hA hAr hAc
  have hdiag : ∀ M : Matrix K,
      (List.range n).foldl (fun (A : Matrix K) i => A.set i i (A.get i i + lambda)) M
        = ((List.range n).map (fun i => (i, i))).foldl
            (fun M p => M.set p.1 p.2 ((fun (_ : Nat × Nat) x => x + lambda) p (M.get p.1 p.2))) M := by
    intro M; rw [List.foldl_map]
  have hm := Matrix.foldl_modify (fun (_ : Nat × Nat) (x : K) => x + lambda)
    ((List.range n).map (fun i => (i, i)))
    (sg.group.foldl (accumulateSignal n Y rightIndex alpha) (Vector.new n, A, 0)).2.1 i2
    (fun p hp => by
      obtain ⟨i, hi, rfl⟩ := List.mem_map.1 hp
      rw [i3, i4]; exact ⟨List.mem_range.1 hi, List.mem_range.1 hi⟩)
    ((List.nodup_range n).map (fun a b h => (Prod.ext_iff.1 h).1))
  unfold buildSystem
  simp only [hdiag]
  refine ⟨i1, hm.2.2.1, hm.1.trans i3, hm.2.1.trans i4, ?_, ?_, ?_, ?_⟩
  · intro i hi; rw [i5 i hi, Vector.get_new, zero_add]
  · intro i j hi hj; exact i6 i j hi hj
  · intro i j hi hj
    rw [hm.2.2.2 i j (by rw [i4]; exact hj)]
    by_cases hij : i = j
    · subst hij
      rw [if_pos (List.mem_map.2 ⟨i, List.mem_range.2 hi, rfl⟩), if_pos rfl]
    · rw [if_neg, if_neg hij, add_zero]
      intro hmem
      obtain ⟨k, _, hk⟩ := List.mem_map.1 hmem
      exact hij ((Prod.ext_iff.1 hk).1.symm.trans (Prod.ext_iff.1 hk).2)
  · rw [i7, zero_add]

open Finset in
theorem cross_sum {K : Type} [Field K] (N k : Nat) (y : Nat → Nat → K) (c p x d : Nat → K) :
    ∑ j ∈ range N, c j * (p j - ∑ i ∈ range k, x i * y j i) * (∑ i ∈ range k, d i * y j i)
      = ∑ i ∈ range k, d i *
          ((∑ j ∈ range N, c j * p j * y j i)
            - ∑ l ∈ range k, (∑ j ∈ range N, c j * y j i * y j l) * x l) := by
  have inner : ∀ i, (∑ j ∈ range N, c j * p j * y j i)
        - ∑ l ∈ range k, (∑ j ∈ range N, c j * y j i * y j l) * x l
      = ∑ j ∈ range N, c j * (p j - ∑ l ∈ range k, x l * y j l) * y j i := by
    intro i
    have : ∑ l ∈ range k, (∑ j ∈ range N, c j * y j i * y j l) * x l
        = ∑ j ∈ range N, c j * (∑ l ∈ range k, x l * y j l) * y j i := by
      simp only [sum_mul, mul_sum]
      rw [sum_comm]
      refine sum_congr rfl fun j _ => sum_congr rfl fun l _ => by ring
    rw [this, ← sum_sub_distrib]
    refine sum_congr rfl fun j _ => by ring
  simp only [inner]
  simp only [mul_sum]
  rw [sum_comm]
  refine sum_congr rfl fun i _ => sum_congr rfl fun j _ => by ring

open Finset in
/-- Normal equations: the quadratic expansion of the weighted least-squares
objective around a solution `x` of `(G + lambda I) x = bb`. -/
theorem quadratic_expansion {K : Type} [Field K] (N k : Nat) (y : Nat → Nat → K)
    (c p x z : Nat → K) (lam : K)
    (hsol : ∀ i, i < k →
      ∑ l ∈ range k, ((∑ j ∈ range N, c j * y j i * y j l) + (if i = l then lam else 0)) * x l
        = ∑ j ∈ range N, c j * p j * y j i) :
    (∑ j ∈ range N, c j * (p j - ∑ i ∈ range k, z i * y j i) ^ 2) + lam * ∑ i ∈ range k, z i ^ 2
      = (∑ j ∈ range N, c j * (p j - ∑ i ∈ range k, x i * y j i) ^ 2) + lam * ∑ i ∈ range k, x i ^ 2
        + ((∑ j ∈ range N, c j * (∑ i ∈ range k, (z i - x i) * y j i) ^ 2)
            + lam * ∑ i ∈ range k, (z i - x i) ^ 2) := by
  -- the cross term vanishes
  have hcross : ∑ j ∈ range N, c j * (p j - ∑ i ∈ range k, x i * y j i)
        * (∑ i ∈ range k, (z i - x i) * y j i)
      = lam * ∑ i ∈ range k, x i * (z i - x i) := by
    rw [cross_sum N k y c p x (fun i => z i - x i), mul_sum]
    refine sum_congr rfl fun i hi => ?_
    have hs := hsol i (mem_range.1 hi)
    simp only [add_mul, sum_add_distrib] at hs
    have hd : ∑ l ∈ range k, (if i = l then lam else 0) * x l = lam * x i := by
      simp only [ite_mul, zero_mul]
      rw [sum_ite_eq, if_pos hi]
    rw [hd] at hs
    rw [← hs]; ring
  have hz : ∀ j, ∑ i ∈ range k, z i * y j i
      = (∑ i ∈ range k, x i * y j i) + ∑ i ∈ range k, (z i - x i) * y j i := by
    intro j; rw [← sum_add_distrib]; refine sum_congr rfl fun i _ => by ring
  have e1 : ∑ j ∈ range N, c j * (p j - ∑ i ∈ range k, z i * y j i) ^ 2
      = (∑ j ∈ range N, c j * (p j - ∑ i ∈ range k, x i * y j i) ^ 2)
        + (∑ j ∈ range N, c j * (∑ i ∈ range k, (z i - x i) * y j i) ^ 2)
        - 2 * ∑ j ∈ range N, c j * (p j - ∑ i ∈ range k, x i * y j i)
            * (∑ i ∈ range k, (z i - x i) * y j i) := by
    rw [mul_sum, ← sum_add_distrib, ← sum_sub_distrib]
    refine sum_congr rfl fun j _ => ?_
    rw [hz j]; ring
  have e2 : ∑ i ∈ range k, z i ^ 2
      = (∑ i ∈ range k, x i ^ 2) + (∑ i ∈ range k, (z i - x i) ^ 2)
        + 2 * ∑ i ∈ range k, x i * (z i - x i) := by
    rw [mul_sum, ← sum_add_distrib, ← sum_add_distrib]
    refine sum_congr rfl fun i _ => by ring
  rw [e1, e2, hcross]; ring

open Finset in
/-- The loss formula: weighted residual sum of squares as
`sum c p^2 + x^T G x - 2 x^T bb`. -/
theorem residual_expansion {K : Type} [Field K] (N k : Nat) (y : Nat → Nat → K)
    (c p x : Nat → K) :
    ∑ j ∈ range N, c j * (p j - ∑ i ∈ range k, x i * y j i) ^ 2
      = (∑ j ∈ range N, c j * p j ^ 2)
        + (∑ i ∈ range k, ∑ l ∈ range k, (∑ j ∈ range N, c j * y j i * y j l) * x i * x l)
        - ∑ i ∈ range k, 2 * x i * ∑ j ∈ range N, c j * p j * y j i := by
  have h := cross_sum N k y c p x x
  have h2 : ∑ j ∈ range N, c j * (p j - ∑ i ∈ range k, x i * y j i) ^ 2
      = (∑ j ∈ range N, c j * p j ^ 2)
        - (∑ j ∈ range N, c j * (p j - ∑ i ∈ range k, x i * y j i) * (∑ i ∈ range k, x i * y j i))
        - ∑ j ∈ range N, c j * p j * (∑ i ∈ range k, x i * y j i) := by
    rw [← sum_sub_distrib, ← sum_sub_distrib]
    refine sum_congr rfl fun j _ => by ring
  have h3 : ∑ j ∈ range N, c j * p j * (∑ i ∈ range k, x i * y j i)
      = ∑ i ∈ range k, x i * ∑ j ∈ range N, c j * p j * y j i := by
    simp only [mul_sum]
    rw [sum_comm]
    refine sum_congr rfl fun i _ => sum_congr rfl fun j _ => by ring
  have h4 : ∑ i ∈ range k, x i *
        ((∑ j ∈ range N, c j * p j * y j i)
          - ∑ l ∈ range k, (∑ j ∈ range N, c j * y j i * y j l) * x l)
      = (∑ i ∈ range k, x i * ∑ j ∈ range N, c j * p j * y j i)
        - ∑ i ∈ range k, ∑ l ∈ range k, (∑ j ∈ range N, c j * y j i * y j l) * x i * x l := by
    rw [← sum_sub_distrib]
    refine sum_congr rfl fun i _ => ?_
    rw [mul_sub]
    congr 1
    rw [mul_sum]
    refine sum_congr rfl fun l _ => by ring
  have h5 : ∑ i ∈ range k, 2 * x i * ∑ j ∈ range N, c j * p j * y j i
      = 2 * ∑ i ∈ range k, x i * ∑ j ∈ range N, c j * p j * y j i := by
    rw [mul_sum]
    refine sum_congr rfl fun i _ => by ring
  rw [h2, h, h3, h4, h5]; ring

open Finset in
/-- Summing over the rows of `Y` a quantity carried by the signal of each row is
summing over the signals, when the signals sit on distinct rows below `N`. -/
theorem sum_rows_signalAt {K : Type} [Field K] (rightIndex : IdIndex) (N : Nat)
    (F : Signal K → K) (group : List (Signal K))
    (hnd : (group.map (fun s => rightIndex.idx s.id)).Nodup)
    (hlt : ∀ s ∈ group, rightIndex.idx s.id < N) :
    ∑ j ∈ range N, (match signalAt rightIndex group j with
        | some s => F s
        | none => 0)
      = (group.map F).sum := by
  induction group with
  | nil => simp [signalAt]
  | cons a g ih =>
    have hnd2 := List.nodup_cons.1 (by simpa using hnd : ((rightIndex.idx a.id) ::
      g.map (fun s => rightIndex.idx s.id)).Nodup)
    have ih2 := ih hnd2.2 (fun s hs => hlt s (List.mem_cons_of_mem _ hs))
    have hnone : signalAt rightIndex g (rightIndex.idx a.id) = none := by
      unfold signalAt
      rw [List.find?_eq_none]
      intro s hs hidx
      exact hnd2.1 (List.mem_map.2 ⟨s, hs, by simpa using hidx⟩)
    have hpt : ∀ j, (match signalAt rightIndex (a :: g) j with
          | some s => F s
          | none => 0)
        = (if rightIndex.idx a.id = j then F a else 0)
          + (match signalAt rightIndex g j with
              | some s => F s
              | none => 0) := by
      intro j
      by_cases h : rightIndex.idx a.id = j
      · subst h
        have : signalAt rightIndex (a :: g) (rightIndex.idx a.id) = some a := by
          simp [signalAt, List.find?_cons]
        rw [this, hnone]; simp
      · have : signalAt rightIndex (a :: g) j = signalAt rightIndex g j := by
          simp [signalAt, List.find?_cons, h]
        rw [this, if_neg h, zero_add]
    simp only [hpt, sum_add_distrib, ih2, List.map_cons, List.sum_cons]
    rw [sum_ite_eq, if_pos (mem_range.2 (hlt a (List.mem_cons_self _ _)))]

theorem signalAt_idx {K : Type} (rightIndex : IdIndex) (group : List (Signal K)) (j : Nat)
    (s : Signal K) (h : signalAt rightIndex group j = some s) : rightIndex.idx s.id = j := by
  have := List.find?_some h
  simpa using this

open Finset in
/-- Row form of the right-hand side: `sum_j c_j p_j y_j = sum_s (1 + alpha v_s) y_s`. -/
theorem rhs_row_form {K : Type} [Field K] (Y : Matrix K) (rightIndex : IdIndex)
    (group : List (Signal K)) (alpha : K) (i : Nat)
    (hnd : (group.map (fun s => rightIndex.idx s.id)).Nodup)
    (hlt : ∀ s ∈ group, rightIndex.idx s.id < Y.nrows) :
    ∑ j ∈ range Y.nrows,
        confidence rightIndex group alpha j * preference rightIndex group j * Y.get j i
      = (group.map (fun s => Y.get (rightIndex.idx s.id) i * (1 + alpha * s.value))).sum := by
  rw [← sum_rows_signalAt rightIndex Y.nrows _ group hnd hlt]
  refine sum_congr rfl fun j _ => ?_
  unfold confidence preference
  cases h : signalAt rightIndex group j with
  | none => simp
  | some s => simp only [signalAt_idx rightIndex group j s h]; ring

open Finset in
/-- Row form of the matrix: `sum_j c_j y_j y_j^T = Y^T Y + sum_s alpha v_s y_s y_s^T`. -/
theorem gram_row_form {K : Type} [Field K] (Y : Matrix K) (rightIndex : IdIndex)
    (group : List (Signal K)) (alpha : K) (i l : Nat)
    (hnd : (group.map (fun s => rightIndex.idx s.id)).Nodup)
    (hlt : ∀ s ∈ group, rightIndex.idx s.id < Y.nrows) :
    ∑ j ∈ range Y.nrows, confidence rightIndex group alpha j * Y.get j i * Y.get j l
      = (∑ r ∈ range Y.nrows, Y.get r i * Y.get r l)
        + (group.map (fun s =>
            Y.get (rightIndex.idx s.id) i * alpha * s.value * Y.get (rightIndex.idx s.id) l)).sum := by
  rw [← sum_rows_signalAt rightIndex Y.nrows _ group hnd hlt, ← sum_add_distrib]
  refine sum_congr rfl fun j _ => ?_
  unfold confidence
  cases h : signalAt rightIndex group j with
  | none => simp
  | some s => simp only [signalAt_idx rightIndex group j s h]; ring

open Finset in
/-- The constant term: `sum_j c_j p_j^2 = sum_s (1 + alpha v_s)`. -/
theorem const_row_form {K : Type} [Field K] (N : Nat) (rightIndex : IdIndex)
    (group : List (Signal K)) (alpha : K)
    (hnd : (group.map (fun s => rightIndex.idx s.id)).Nodup)
    (hlt : ∀ s ∈ group, rightIndex.idx s.id < N) :
    ∑ j ∈ range N, confidence rightIndex group alpha j * preference rightIndex group j ^ 2
      = (group.map (fun s => 1 + alpha * s.value)).sum := by
  rw [← sum_rows_signalAt rightIndex N _ group hnd hlt]
  refine sum_congr rfl fun j _ => ?_
  unfold confidence preference
  cases h : signalAt rightIndex group j with
  | none => simp
  | some s => simp

theorem IdIndex.idx_of_lookup (ix : IdIndex) (id : Int) (pos : Nat)
    (h : ix.idxMap.lookup id = some pos) : ix.idx id = pos := by
  unfold IdIndex.idx; rw [h]

/-- Distinct present ids of a well-formed index sit on distinct indices below
its size. -/
theorem IdIndex.idx_distinct {K : Type} (ix : IdIndex) (hinv : ix.Inv) (group : List (Signal K))
    (hnd : (group.map (fun s => s.id)).Nodup) (hpres : ∀ s ∈ group, ix.Present s.id) :
    (group.map (fun s => ix.idx s.id)).Nodup ∧ ∀ s ∈ group, ix.idx s.id < ix.size := by
  have hget : ∀ s ∈ group, ix.ids[ix.idx s.id]? = some s.id := by
    intro s hs
    obtain ⟨pos, hpos⟩ := hpres s hs
    rw [ix.idx_of_lookup s.id pos hpos]
    exact hinv s.id pos hpos
  constructor
  · have hmap : group.map (fun s => ix.idx s.id) = (group.map (fun s => s.id)).map ix.idx := by
      rw [List.map_map]; rfl
    rw [hmap]
    apply List.Nodup.map_on _ hnd
    intro a ha b hb hab
    obtain ⟨s, hs, rfl⟩ := List.mem_map.1 ha
    obtain ⟨t, ht, rfl⟩ := List.mem_map.1 hb
    have h1 := hget s hs
    have h2 := hget t ht
    simp only at hab
    rw [hab, h2] at h1
    exact (Option.some.inj h1).symm
  · intro s hs
    have := hget s hs
    by_contra hge
    rw [List.getElem?_eq_none (Nat.le_of_not_lt hge)] at this
    exact Option.noConfusion this

theorem foldl_add_eq {K A : Type} [AddCommMonoid K] (f : A → K) (l : List A) (init : K) :
    l.foldl (fun acc a => acc + f a) init = init + (l.map f).sum := by
  induction l generalizing init with
  | nil => simp
  | cons a l ih => simp only [List.foldl_cons, List.map_cons, List.sum_cons]; rw [ih, add_assoc]

theorem foldl_sub_eq {K A : Type} [AddCommGroup K] (f : A → K) (l : List A) (init : K) :
    l.foldl (fun acc a => acc - f a) init = init - (l.map f).sum := by
  induction l generalizing init with
  | nil => simp
  | cons a l ih =>
    simp only [List.foldl_cons, List.map_cons, List.sum_cons]; rw [ih]; abel

theorem foldl_foldl_add_eq {K A B : Type} [AddCommMonoid K] (f : A → B → K) (l1 : List A)
    (l2 : List B) (init : K) :
    l1.foldl (fun acc a => l2.foldl (fun acc b => acc + f a b) acc) init
      = init + (l1.map (fun a => (l2.map (f a)).sum)).sum := by
  induction l1 generalizing init with
  | nil => simp
  | cons a l ih =>
    simp only [List.foldl_cons, List.map_cons, List.sum_cons]
    rw [ih, foldl_add_eq, add_assoc]

theorem sum_map_range {K : Type} [AddCommMonoid K] (f : Nat → K) (n : Nat) :
    ((List.range n).map f).sum = ∑ i ∈ Finset.range n, f i := by
  induction n with
  | zero => simp
  | succ n ih => rw [List.range_succ, List.map_append, List.sum_append, ih, Finset.sum_range_succ]; simp

/-- What the tail of `updateFactorsForOne` returns: the loss formula and the
matrix `X` with row `leftIdx` overwritten by `x`. -/
theorem finishUpdate_spec {K : Type} [Field K] (X : Matrix K) (leftIndex : IdIndex)
    (sg : SignalGroup K) (sys : WALSSystem K) (x : Vector K) (hX : X.WF)
    (hleft : leftIndex.idx sg.sourceId < X.nrows) :
    (finishUpdate X.ncols X leftIndex sg sys x).1
      = sys.loss
        + (∑ i ∈ Finset.range X.ncols, ∑ j ∈ Finset.range X.ncols,
            sys.B.get i j * x.get i * x.get j)
        - ∑ i ∈ Finset.range X.ncols, 2 * x.get i * sys.b.get i ∧
    (finishUpdate X.ncols X leftIndex sg sys x).2.nrows = X.nrows ∧
    (finishUpdate X.ncols X leftIndex sg sys x).2.ncols = X.ncols ∧
    (finishUpdate X.ncols X leftIndex sg sys x).2.WF ∧
    ∀ r c, c < X.ncols → (finishUpdate X.ncols X leftIndex sg sys x).2.get r c
      = if r = leftIndex.idx sg.sourceId then x.get c else X.get r c := by
  have hrow : (List.range X.ncols).foldl
        (fun (X : Matrix K) i => X.set (leftIndex.idx sg.sourceId) i (x.get i)) X
      = ((List.range X.ncols).map (fun i => (leftIndex.idx sg.sourceId, i))).foldl
          (fun M p => M.set p.1 p.2 ((fun (q : Nat × Nat) (_ : K) => x.get q.2) p (M.get p.1 p.2)))
          X := by
    rw [List.foldl_map]
  have hm := Matrix.foldl_modify (fun (q : Nat × Nat) (_ : K) => x.get q.2)
    ((List.range X.ncols).map (fun i => (leftIndex.idx sg.sourceId, i))) X hX
    (fun p hp => by
      obtain ⟨i, hi, rfl⟩ := List.mem_map.1 hp
      exact ⟨hleft, List.mem_range.1 hi⟩)
    ((List.nodup_range _).map (fun a b h => (Prod.ext_iff.1 h).2))
  unfold finishUpdate
  simp only [hrow]
  refine ⟨?_, hm.1, hm.2.1, hm.2.2.1, ?_⟩
  · rw [foldl_sub_eq, foldl_foldl_add_eq, sum_map_range, sum_map_range]
    simp only [sum_map_range]
  · intro r c hc
    rw [hm.2.2.2 r c hc]
    by_cases hr : r = leftIndex.idx sg.sourceId
    · rw [if_pos hr, if_pos]
      exact List.mem_map.2 ⟨c, List.mem_range.2 hc, by rw [hr]⟩
    · rw [if_neg hr, if_neg]
      intro hmem
      obtain ⟨i, _, hi⟩ := List.mem_map.1 hmem
      exact hr (Prod.ext_iff.1 hi).1.symm

theorem IdIndex.inv_empty : IdIndex.empty.Inv := by
  intro id pos h
  simp [IdIndex.empty] at h

theorem IdIndex.inv_getOrSetIdx (ix : IdIndex) (hinv : ix.Inv) (id : Int) :
    (ix.getOrSetIdx id).2.Inv := by
  unfold IdIndex.getOrSetIdx
  cases h : ix.idxMap.lookup id with
  | some pos => exact hinv
  | none =>
    intro id2 pos2 h2
    simp only [List.lookup_cons] at h2
    by_cases he : id2 = id
    · subst he
      simp only [beq_self_eq_true] at h2
      have : pos2 = ix.ids.length := (Option.some.inj h2).symm
      subst this
      simp
    · have hb : (id2 == id) = false := by simpa using he
      rw [hb] at h2
      have h3 := hinv id2 pos2 h2
      have hlt : pos2 < ix.ids.length := by
        by_contra hge
        rw [List.getElem?_eq_none (Nat.le_of_not_lt hge)] at h3
        exact Option.noConfusion h3
      simp only
      rw [List.getElem?_append_left hlt]
      exact h3

theorem confidence_nonneg {K : Type} [LinearOrderedField K] (rightIndex : IdIndex)
    (group : List (Signal K)) (alpha : K) (halpha : 0 ≤ alpha)
    (hvalue : ∀ s ∈ group, 0 ≤ s.value) (j : Nat) : 0 ≤ confidence rightIndex group alpha j := by
  unfold confidence
  cases h : signalAt rightIndex group j with
  | none => exact zero_le_one
  | some s =>
    have hs : s ∈ group := List.mem_of_find?_eq_some h
    have := mul_nonneg halpha (hvalue s hs)
    simp only
    linarith

/-- The system handed to the solver, in row form: its matrix is
`sum_j c_j y_j y_j^T + lambda I` and its right-hand side `sum_j c_j p_j y_j`. -/
theorem buildSystem_row_form {K : Type} [Field K] (n : Nat) (Y : Matrix K) (rightIndex : IdIndex)
    (sg : SignalGroup K) (A : Matrix K) (alpha lambda : K)
    (hA : A.WF) (hAr : A.nrows = n) (hAc : A.ncols = n)
    (hYtY : ∀ i, i < n → ∀ j, j < n →
      A.get i j = ∑ r ∈ Finset.range Y.nrows, Y.get r i * Y.get r j)
    (hinv : rightIndex.Inv) (hsize : rightIndex.size = Y.nrows)
    (hdistinct : (sg.group.map (fun s => s.id)).Nodup)
    (hpresent : ∀ s ∈ sg.group, rightIndex.Present s.id) :
    (∀ i l, i < n → l < n → (buildSystem n Y rightIndex sg A alpha lambda).B.get i l
      = ∑ j ∈ Finset.range Y.nrows, confidence rightIndex sg.group alpha j * Y.get j i * Y.get j l) ∧
    (∀ i l, i < n → l < n → (buildSystem n Y rightIndex sg A alpha lambda).A.get i l
      = (∑ j ∈ Finset.range Y.nrows, confidence rightIndex sg.group alpha j * Y.get j i * Y.get j l)
        + (if i = l then lambda else 0)) ∧
    (∀ i, i < n → (buildSystem n Y rightIndex sg A alpha lambda).b.get i
      = ∑ j ∈ Finset.range Y.nrows,
          confidence rightIndex sg.group alpha j * preference rightIndex sg.group j * Y.get j i) ∧
    (buildSystem n Y rightIndex sg A alpha lambda).loss
      = ∑ j ∈ Finset.range Y.nrows,
          confidence rightIndex sg.group alpha j * preference rightIndex sg.group j ^ 2 := by
  obtain ⟨hnd, hlt⟩ := rightIndex.idx_distinct hinv sg.group hdistinct hpresent
  rw [hsize] at hlt
  obtain ⟨_, _, _, _, hb, hB, hA2, hloss⟩ := buildSystem_spec n Y rightIndex sg A alpha lambda hA hAr hAc
  have hB2 : ∀ i l, i < n → l < n → (buildSystem n Y rightIndex sg A alpha lambda).B.get i l
      = ∑ j ∈ Finset.range Y.nrows, confidence rightIndex sg.group alpha j * Y.get j i * Y.get j l := by
    intro i l hi hl
    rw [hB i l hi hl, hYtY i hi l hl, gram_row_form Y rightIndex sg.group alpha i l hnd hlt]
  refine ⟨hB2, ?_, ?_, ?_⟩
  · intro i l hi hl
    rw [hA2 i l hi hl, hB2 i l hi hl]
  · intro i hi
    rw [hb i hi, rhs_row_form Y rightIndex sg.group alpha i hnd hlt]
  · rw [hloss, const_row_form Y.nrows rightIndex sg.group alpha hnd hlt]

/-- C1: for every right matrix `Y`, `lambda > 0`, `alpha ≥ 0` and signal group
whose items are distinct, present in `rightIndex` (the index of the rows of
`Y`) and have values `≥ 0`, when `updateFactorsForOne` is given `A = Y^T Y`,
every exact solution `x` of the system `A' x = b` that it builds and hands to
the solver is the unique minimiser over `R^k` of
`sum_j c_j (p_j - <x, y_j>)^2 + lambda |x|^2`; the function returns with `x`
written through `finishUpdate` whenever the solver returns `x`. -/
theorem updateFactorsForOne_unique_minimiser {K : Type} [LinearOrderedField K]
    (X Y : Matrix K) (rightIndex : IdIndex) (sg : SignalGroup K) (A : Matrix K) (alpha lambda : K)
    (hA : A.WF) (hAr : A.nrows = X.ncols) (hAc : A.ncols = X.ncols)
    (hYtY : ∀ i, i < X.ncols → ∀ j, j < X.ncols →
      A.get i j = ∑ r ∈ Finset.range Y.nrows, Y.get r i * Y.get r j)
    (hlam : 0 < lambda) (halpha : 0 ≤ alpha)
    (hinv : rightIndex.Inv) (hsize : rightIndex.size = Y.nrows)
    (hdistinct : (sg.group.map (fun s => s.id)).Nodup)
    (hpresent : ∀ s ∈ sg.group, rightIndex.Present s.id)
    (hvalue : ∀ s ∈ sg.group, 0 ≤ s.value)
    (x : Vector K)
    (hexact : ∀ i, i < X.ncols →
      ∑ l ∈ Finset.range X.ncols,
          (buildSystem X.ncols Y rightIndex sg A alpha lambda).A.get i l * x.get l
        = (buildSystem X.ncols Y rightIndex sg A alpha lambda).b.get i) :
    (∀ z : Nat → K,
      walsObjective X.ncols Y rightIndex sg.group alpha lambda x.get
        ≤ walsObjective X.ncols Y rightIndex sg.group alpha lambda z ∧
      (walsObjective X.ncols Y rightIndex sg.group alpha lambda z
          ≤ walsObjective X.ncols Y rightIndex sg.group alpha lambda x.get →
        ∀ i, i < X.ncols → z i = x.get i)) ∧
    (∀ (dsysv : Dsysv K) (leftIndex : IdIndex),
      linearSymmetricSolve dsysv (buildSystem X.ncols Y rightIndex sg A alpha lambda).A
          (buildSystem X.ncols Y rightIndex sg A alpha lambda).b = some x →
      updateFactorsForOne dsysv X leftIndex Y rightIndex sg A alpha lambda
        = some (finishUpdate X.ncols X leftIndex sg
            (buildSystem X.ncols Y rightIndex sg A alpha lambda) x)) := by
  obtain ⟨_, hA2, hb, _⟩ := buildSystem_row_form X.ncols Y rightIndex sg A alpha lambda hA hAr hAc
    hYtY hinv hsize hdistinct hpresent
  have hsol : ∀ i, i < X.ncols →
      ∑ l ∈ Finset.range X.ncols,
          ((∑ j ∈ Finset.range Y.nrows, confidence rightIndex sg.group alpha j * Y.get j i * Y.get j l)
            + (if i = l then lambda else 0)) * x.get l
        = ∑ j ∈ Finset.range Y.nrows,
            confidence rightIndex sg.group alpha j * preference rightIndex sg.group j * Y.get j i := by
    intro i hi
    rw [← hb i hi, ← hexact i hi]
    refine Finset.sum_congr rfl fun l hl => ?_
    rw [hA2 i l hi (Finset.mem_range.1 hl)]
  refine ⟨?_, ?_⟩
  · intro z
    have hq := quadratic_expansion Y.nrows X.ncols (fun j i => Y.get j i)
      (confidence rightIndex sg.group alpha) (preference rightIndex sg.group) x.get z lambda hsol
    have hobj : walsObjective X.ncols Y rightIndex sg.group alpha lambda z
        = walsObjective X.ncols Y rightIndex sg.group alpha lambda x.get
          + ((∑ j ∈ Finset.range Y.nrows, confidence rightIndex sg.group alpha j
                * (∑ i ∈ Finset.range X.ncols, (z i - x.get i) * Y.get j i) ^ 2)
              + lambda * ∑ i ∈ Finset.range X.ncols, (z i - x.get i) ^ 2) := hq
    have h1 : 0 ≤ ∑ j ∈ Finset.range Y.nrows, confidence rightIndex sg.group alpha j
                * (∑ i ∈ Finset.range X.ncols, (z i - x.get i) * Y.get j i) ^ 2 :=
      Finset.sum_nonneg fun j _ =>
        mul_nonneg (confidence_nonneg rightIndex sg.group alpha halpha hvalue j) (sq_nonneg _)
    have h2 : 0 ≤ ∑ i ∈ Finset.range X.ncols, (z i - x.get i) ^ 2 :=
      Finset.sum_nonneg fun i _ => sq_nonneg _
    have h3 : 0 ≤ lambda * ∑ i ∈ Finset.range X.ncols, (z i - x.get i) ^ 2 :=
      mul_nonneg hlam.le h2
    refine ⟨by rw [hobj]; linarith, ?_⟩
    intro hle i hi
    rw [hobj] at hle
    have h4 : lambda * ∑ i ∈ Finset.range X.ncols, (z i - x.get i) ^ 2 = 0 := by linarith
    have h5 : ∑ i ∈ Finset.range X.ncols, (z i - x.get i) ^ 2 = 0 := by
      rcases mul_eq_zero.1 h4 with h | h
      · exact absurd h hlam.ne'
      · exact h
    have h6 := (Finset.sum_eq_zero_iff_of_nonneg (fun i _ => sq_nonneg (z i - x.get i))).1 h5 i
      (Finset.mem_range.2 hi)
    have h7 : z i - x.get i = 0 := by
      simpa using h6
    linarith
  · intro dsysv leftIndex hsolve
    unfold updateFactorsForOne
    simp only [hsolve, Option.map_some']

theorem weightedResidual_congr {K : Type} [Field K] (n : Nat) (Y : Matrix K)
    (rightIndex : IdIndex) (group : List (Signal K)) (alpha : K) (x z : Nat → K)
    (h : ∀ i, i < n → x i = z i) :
    weightedResidual n Y rightIndex group alpha x = weightedResidual n Y rightIndex group alpha z := by
  unfold weightedResidual prediction
  refine Finset.sum_congr rfl fun j _ => ?_
  have : ∑ i ∈ Finset.range n, x i * Y.get j i = ∑ i ∈ Finset.range n, z i * Y.get j i :=
    Finset.sum_congr rfl fun i hi => by rw [h i (Finset.mem_range.1 hi)]
  rw [this]

/-- C2: `updateFactorsForOne(X, leftIndex, Y, rightIndex, group, A, alpha, lambda)`
forms `A' = A + sum_s alpha v_s y_s y_s^T + lambda I` and
`b = sum_s (1 + alpha v_s) y_s` (with `y_s` the row `rightIndex.idx(s.id)` of
`Y`), passes them to the solver, and when the solver returns `x` it returns `X`
with row `leftIndex.idx(group.sourceId)` replaced by `x` and every other row
unchanged; when the solver aborts nothing is returned. `Y` is read only. -/
theorem updateFactorsForOne_effect {K : Type} [Field K] (dsysv : Dsysv K) (X : Matrix K)
    (leftIndex : IdIndex) (Y : Matrix K) (rightIndex : IdIndex) (sg : SignalGroup K)
    (A : Matrix K) (alpha lambda : K)
    (hX : X.WF) (hleft : leftIndex.idx sg.sourceId < X.nrows)
    (hA : A.WF) (hAr : A.nrows = X.ncols) (hAc : A.ncols = X.ncols) :
    (buildSystem X.ncols Y rightIndex sg A alpha lambda).A.nrows = X.ncols ∧
    (buildSystem X.ncols Y rightIndex sg A alpha lambda).A.ncols = X.ncols ∧
    (buildSystem X.ncols Y rightIndex sg A alpha lambda).b.size = X.ncols ∧
    (∀ i j, i < X.ncols → j < X.ncols →
      (buildSystem X.ncols Y rightIndex sg A alpha lambda).A.get i j
        = A.get i j
          + (sg.group.map (fun s =>
              alpha * s.value * (Y.get (rightIndex.idx s.id) i * Y.get (rightIndex.idx s.id) j))).sum
          + (if i = j then lambda else 0)) ∧
    (∀ i, i < X.ncols →
      (buildSystem X.ncols Y rightIndex sg A alpha lambda).b.get i
        = (sg.group.map (fun s => (1 + alpha * s.value) * Y.get (rightIndex.idx s.id) i)).sum) ∧
    (linearSymmetricSolve dsysv (buildSystem X.ncols Y rightIndex sg A alpha lambda).A
        (buildSystem X.ncols Y rightIndex sg A alpha lambda).b = none →
      updateFactorsForOne dsysv X leftIndex Y rightIndex sg A alpha lambda = none) ∧
    (∀ x, linearSymmetricSolve dsysv (buildSystem X.ncols Y rightIndex sg A alpha lambda).A
        (buildSystem X.ncols Y rightIndex sg A alpha lambda).b = some x →
      ∃ loss X2, updateFactorsForOne dsysv X leftIndex Y rightIndex sg A alpha lambda
          = some (loss, X2) ∧
        X2.nrows = X.nrows ∧ X2.ncols = X.ncols ∧ X2.data.length = X.data.length ∧
        (∀ c, c < X.ncols → X2.get (leftIndex.idx sg.sourceId) c = x.get c) ∧
        (∀ r c, r ≠ leftIndex.idx sg.sourceId → c < X.ncols → X2.get r c = X.get r c)) := by
  obtain ⟨hbs, _, hAr2, hAc2, hb, hB, hA2, _⟩ :=
    buildSystem_spec X.ncols Y rightIndex sg A alpha lambda hA hAr hAc
  refine ⟨hAr2, hAc2, hbs, ?_, ?_, ?_, ?_⟩
  · intro i j hi hj
    rw [hA2 i j hi hj, hB i j hi hj]
    congr 2
    refine congrArg List.sum (List.map_congr_left fun s _ => by ring)
  · intro i hi
    rw [hb i hi]
    refine congrArg List.sum (List.map_congr_left fun s _ => by ring)
  · intro hnone
    unfold updateFactorsForOne
    simp only [hnone, Option.map_none']
  · intro x hsolve
    obtain ⟨_, f2, f3, f4, f5⟩ := finishUpdate_spec X leftIndex sg
      (buildSystem X.ncols Y rightIndex sg A alpha lambda) x hX hleft
    refine ⟨(finishUpdate X.ncols X leftIndex sg
        (buildSystem X.ncols Y rightIndex sg A alpha lambda) x).1,
      (finishUpdate X.ncols X leftIndex sg
        (buildSystem X.ncols Y rightIndex sg A alpha lambda) x).2, ?_, f2, f3, ?_, ?_, ?_⟩
    · unfold updateFactorsForOne
      simp only [hsolve, Option.map_some']
    · rw [f4, f2, f3]; exact hX.symm
    · intro c hc; rw [f5 _ c hc, if_pos rfl]
    · intro r c hr hc; rw [f5 r c hc, if_neg hr]

/-- C3: when `A` is passed as `Y^T Y` and the items of the group are distinct
and present in `rightIndex` (the index of the rows of `Y`), the loss returned
by `updateFactorsForOne` equals, for the vector `x` it has written to the left
row (whatever the solver returned), the per-cell weighted squared residual sum
`sum_j c_j (p_j - <x, y_j>)^2` over all rows `j` of `Y`. -/
theorem updateFactorsForOne_loss {K : Type} [Field K] (dsysv : Dsysv K) (X : Matrix K)
    (leftIndex : IdIndex) (Y : Matrix K) (rightIndex : IdIndex) (sg : SignalGroup K)
    (A : Matrix K) (alpha lambda : K)
    (hX : X.WF) (hleft : leftIndex.idx sg.sourceId < X.nrows)
    (hA : A.WF) (hAr : A.nrows = X.ncols) (hAc : A.ncols = X.ncols)
    (hYtY : ∀ i, i < X.ncols → ∀ j, j < X.ncols →
      A.get i j = ∑ r ∈ Finset.range Y.nrows, Y.get r i * Y.get r j)
    (hinv : rightIndex.Inv) (hsize : rightIndex.size = Y.nrows)
    (hdistinct : (sg.group.map (fun s => s.id)).Nodup)
    (hpresent : ∀ s ∈ sg.group, rightIndex.Present s.id)
    (loss : K) (X2 : Matrix K)
    (hres : updateFactorsForOne dsysv X leftIndex Y rightIndex sg A alpha lambda = some (loss, X2)) :
    loss = weightedResidual X.ncols Y rightIndex sg.group alpha
      (fun i => X2.get (leftIndex.idx sg.sourceId) i) := by
  unfold updateFactorsForOne at hres
  cases hsolve : linearSymmetricSolve dsysv (buildSystem X.ncols Y rightIndex sg A alpha lambda).A
      (buildSystem X.ncols Y rightIndex sg A alpha lambda).b with
  | none => simp [hsolve] at hres
  | some x =>
    simp only [hsolve, Option.map_some', Option.some.injEq] at hres
    obtain ⟨f1, _, _, _, f5⟩ := finishUpdate_spec X leftIndex sg
      (buildSystem X.ncols Y rightIndex sg A alpha lambda) x hX hleft
    rw [hres] at f1 f5
    simp only at f1 f5
    obtain ⟨hB, _, hb, hloss⟩ := buildSystem_row_form X.ncols Y rightIndex sg A alpha lambda
      hA hAr hAc hYtY hinv hsize hdistinct hpresent
    rw [weightedResidual_congr X.ncols Y rightIndex sg.group alpha _ x.get
      (fun i hi => by rw [f5 _ i hi, if_pos rfl])]
    rw [f1, hloss]
    unfold weightedResidual prediction
    rw [residual_expansion Y.nrows X.ncols (fun j i => Y.get j i)
      (confidence rightIndex sg.group alpha) (preference rightIndex sg.group) x.get]
    congr 1
    · congr 1
      refine Finset.sum_congr rfl fun i hi => Finset.sum_congr rfl fun l hl => ?_
      rw [hB i l (Finset.mem_range.1 hi) (Finset.mem_range.1 hl)]
    · refine Finset.sum_congr rfl fun i hi => ?_
      rw [hb i (Finset.mem_range.1 hi)]

theorem testItemIndex_inv : testItemIndex.Inv :=
  IdIndex.inv_getOrSetIdx _ (IdIndex.inv_getOrSetIdx _ IdIndex.inv_empty 0) 1

theorem testSignalGroup_present : ∀ s ∈ testSignalGroup.group, testItemIndex.Present s.id := by
  intro s hs
  simp only [testSignalGroup, List.mem_cons, List.mem_singleton, List.not_mem_nil, or_false] at hs
  rcases hs with rfl | rfl
  · exact ⟨0, by decide⟩
  · exact ⟨1, by decide⟩

theorem updateFactorsForOne_unique_minimiser_witness :
    (0 : ℚ) < 1 ∧ testItemIndex.size = testY.nrows ∧
    (∀ i, i < 3 → ∑ l ∈ Finset.range 3,
        (buildSystem 3 testY testItemIndex testSignalGroup testYtY 1 1).A.get i l * testSolution.get l
      = (buildSystem 3 testY testItemIndex testSignalGroup testYtY 1 1).b.get i) ∧
    ∀ z : Nat → ℚ,
      walsObjective 3 testY testItemIndex testSignalGroup.group 1 1 testSolution.get
        ≤ walsObjective 3 testY testItemIndex testSignalGroup.group 1 1 z ∧
      (walsObjective 3 testY testItemIndex testSignalGroup.group 1 1 z
          ≤ walsObjective 3 testY testItemIndex testSignalGroup.group 1 1 testSolution.get →
        ∀ i, i < 3 → z i = testSolution.get i) :=
  ⟨by norm_num, by decide, by decide!,
    (updateFactorsForOne_unique_minimiser testX testY testItemIndex testSignalGroup testYtY 1 1
      (by decide) (by decide) (by decide) (by decide!) (by norm_num) (by norm_num)
      testItemIndex_inv (by decide) (by decide) testSignalGroup_present (by decide!)
      testSolution (by decide!)).1⟩

theorem updateFactorsForOne_effect_witness :
    testX.WF ∧ testUserIndex.idx testSignalGroup.sourceId < testX.nrows ∧ testYtY.WF ∧
    ∃ loss X2, updateFactorsForOne testDsysv testX testUserIndex testY testItemIndex
        testSignalGroup testYtY 1 1 = some (loss, X2) ∧
      X2.nrows = testX.nrows ∧ X2.ncols = testX.ncols ∧ X2.data.length = testX.data.length ∧
      (∀ c, c < testX.ncols →
        X2.get (testUserIndex.idx testSignalGroup.sourceId) c = testSolution.get c) ∧
      (∀ r c, r ≠ testUserIndex.idx testSignalGroup.sourceId → c < testX.ncols →
        X2.get r c = testX.get r c) :=
  ⟨by decide, by decide, by decide,
    (updateFactorsForOne_effect testDsysv testX testUserIndex testY testItemIndex testSignalGroup
      testYtY 1 1 (by decide) (by decide) (by decide) (by decide) (by decide)).2.2.2.2.2.2
      testSolution (by decide!)⟩

theorem updateFactorsForOne_loss_witness :
    updateFactorsForOne testDsysv testX testUserIndex testY testItemIndex testSignalGroup
        testYtY 1 1 = some (625/196, ⟨3, 3, [5/14, 5/14, 5/14, 0, 0, 0, 0, 0, 0]⟩) ∧
    (625/196 : ℚ) = weightedResidual testX.ncols testY testItemIndex testSignalGroup.group 1
      (fun i => (⟨3, 3, [5/14, 5/14, 5/14, 0, 0, 0, 0, 0, 0]⟩ : Matrix ℚ).get
        (testUserIndex.idx testSignalGroup.sourceId) i) :=
  ⟨by decide!,
    updateFactorsForOne_loss testDsysv testX testUserIndex testY testItemIndex testSignalGroup
      testYtY 1 1 (by decide) (by decide) (by decide) (by decide) (by decide) (by decide!)
      testItemIndex_inv (by decide) (by decide) testSignalGroup_present
      (625/196) ⟨3, 3, [5/14, 5/14, 5/14, 0, 0, 0, 0, 0, 0]⟩ (by decide!)⟩

/-! ## Theorems: BPR update -/

theorem FactorData.foldl_setAt_eq {K : Type} [Zero K] (g : Nat → K → K) (r : Nat) (l : List Nat)
    (fd : FactorData K) :
    l.foldl (fun (fd : FactorData K) i => fd.setAt r i (g i (fd.getAt r i))) fd
      = { fd with factors := l.foldl (fun (M : Matrix K) i => M.set r i (g i (M.get r i))) fd.factors } := by
  induction l generalizing fd with
  | nil => rfl
  | cons a l ih =>
    simp only [List.foldl_cons]
    rw [ih]
    rfl

/-- Effect of a loop `for (i = 0; i < n; ++i) fd.at(r, i) = g(i, fd.at(r, i))`. -/
theorem FactorData.foldl_setAt_row {K : Type} [Zero K] (g : Nat → K → K) (n r : Nat)
    (fd : FactorData K) (hwf : fd.factors.WF) (hr : r < fd.factors.nrows)
    (hn : n ≤ fd.factors.ncols) :
    ((List.range n).foldl (fun (fd : FactorData K) i => fd.setAt r i (g i (fd.getAt r i))) fd).withBiases
      = fd.withBiases ∧
    ((List.range n).foldl (fun (fd : FactorData K) i => fd.setAt r i (g i (fd.getAt r i))) fd).biases
      = fd.biases ∧
    ((List.range n).foldl (fun (fd : FactorData K) i => fd.setAt r i (g i (fd.getAt r i))) fd).factors.nrows
      = fd.factors.nrows ∧
    ((List.range n).foldl (fun (fd : FactorData K) i => fd.setAt r i (g i (fd.getAt r i))) fd).factors.ncols
      = fd.factors.ncols ∧
    ((List.range n).foldl (fun (fd : FactorData K) i => fd.setAt r i (g i (fd.getAt r i))) fd).factors.WF ∧
    ∀ r2 c, c < fd.factors.ncols →
      ((List.range n).foldl (fun (fd : FactorData K) i => fd.setAt r i (g i (fd.getAt r i))) fd).getAt r2 c
        = if r2 = r ∧ c < n then g c (fd.getAt r c) else fd.getAt r2 c := by
  rw [FactorData.foldl_setAt_eq]
  have hrow : (List.range n).foldl (fun (M : Matrix K) i => M.set r i (g i (M.get r i))) fd.factors
      = ((List.range n).map (fun i => (r, i))).foldl
          (fun M p => M.set p.1 p.2 ((fun (q : Nat × Nat) (x : K) => g q.2 x) p (M.get p.1 p.2)))
          fd.factors := by
    rw [List.foldl_map]
  have hm := Matrix.foldl_modify (fun (q : Nat × Nat) (x : K) => g q.2 x)
    ((List.range n).map (fun i => (r, i))) fd.factors hwf
    (fun p hp => by
      obtain ⟨i, hi, rfl⟩ := List.mem_map.1 hp
      exact ⟨hr, Nat.lt_of_lt_of_le (List.mem_range.1 hi) hn⟩)
    ((List.nodup_range _).map (fun a b h => (Prod.ext_iff.1 h).2))
  rw [hrow]
  refine ⟨rfl, rfl, hm.1, hm.2.1, hm.2.2.1, ?_⟩
  intro r2 c hc
  unfold FactorData.getAt
  simp only
  rw [hm.2.2.2 r2 c hc]
  by_cases h : r2 = r ∧ c < n
  · rw [if_pos h, if_pos (List.mem_map.2 ⟨c, List.mem_range.2 h.2, by rw [h.1]⟩), h.1]
  · rw [if_neg h, if_neg]
    intro hmem
    obtain ⟨i, hi, hi2⟩ := List.mem_map.1 hmem
    exact h ⟨(Prod.mk.inj hi2).1.symm, (Prod.mk.inj hi2).2 ▸ List.mem_range.1 hi⟩

theorem BPREngine.predictDifference_eq {K G : Type} [Field K] (s : BPREngine K G)
    (U Q : FactorData K) (u i j : Nat) (hU : s.userFactors = some U) (hQ : s.itemFactors = some Q)
    (hbias : Q.withBiases = s.config.useBiases) :
    s.predictDifference u i j
      = some ((if s.config.useBiases then Q.biases.get i - Q.biases.get j else 0)
          + ∑ f ∈ Finset.range s.config.nfactors, U.getAt u f * (Q.getAt i f - Q.getAt j f)) := by
  unfold BPREngine.predictDifference
  rw [hU, hQ]
  simp only
  cases hb : s.config.useBiases with
  | false =>
    simp only [Bool.false_eq_true, if_false, Option.map_some', foldl_add_eq, sum_map_range]
  | true =>
    have hw : Q.withBiases = true := by rw [hbias, hb]
    simp only [FactorData.biasAtRef, hw, if_true, Option.map_some', foldl_add_eq, sum_map_range,
      zero_add]

theorem BPREngine.updateBiases_spec {K : Type} [Field K] (config : BPRConfig K) (lr e : K)
    (Q : FactorData K) (i j : Nat) (hij : i ≠ j) (hbias : Q.withBiases = config.useBiases)
    (hi : config.useBiases = true → i < Q.biases.size)
    (hj : config.useBiases = true → j < Q.biases.size) :
    ∃ q0, BPREngine.updateBiases config lr e Q i j = some q0 ∧ q0.factors = Q.factors ∧
      q0.withBiases = Q.withBiases ∧ q0.biases.size = Q.biases.size ∧
      (config.useBiases = false → q0.biases = Q.biases) ∧
      (config.useBiases = true → ∀ r, q0.biases.get r
        = if r = i then Q.biases.get i + lr * (e - config.biasLambda * Q.biases.get i)
          else if r = j then Q.biases.get j + lr * (-e - config.biasLambda * Q.biases.get j)
          else Q.biases.get r) := by
  unfold BPREngine.updateBiases
  cases hb : config.useBiases with
  | false =>
    exact ⟨Q, by simp, rfl, rfl, rfl, fun _ => rfl, fun h => by simp at h⟩
  | true =>
    have hw : Q.withBiases = true := by rw [hbias, hb]
    have hi2 := hi hb
    have hj2 := hj hb
    simp only [FactorData.biasAtRef, FactorData.setBiasAt, hw, if_true]
    refine ⟨_, rfl, rfl, hw.symm ▸ rfl, ?_, fun h => by simp at h, ?_⟩
    · simp [Vector.size, Vector.set]
    · intro _ r
      have hs : (Q.biases.set i (Q.biases.get i + lr * (e - config.biasLambda * Q.biases.get i))).size
          = Q.biases.size := by simp [Vector.size, Vector.set]
      simp only
      rw [Vector.get_set_elem _ j r _ (by rw [hs]; exact hj2), Vector.get_set_elem _ i j _ hi2,
        if_neg (show ¬ j = i from fun h => hij h.symm), Vector.get_set_elem _ i r _ hi2]
      by_cases hri : r = i
      · have hrj : r ≠ j := hri ▸ hij
        simp [hri, hij]
      · by_cases hrj : r = j
        · simp [hrj, Ne.symm hij]
        · simp [hri, hrj]

/-- C4: the BPR SGD step. For a triplet `(u, i, j)` with `i ≠ j` on an
initialised engine (factor matrices of `nfactors` columns, biases present iff
`useBiases`), with `xhat = predictDifference(u, i, j)` and
`e = 1 / (1 + exp(xhat))` computed before the step, `update` returns the engine
with new factors such that for every factor `f`:
`p'_{u,f} = p_{u,f} + eta (e (q_{i,f} - q_{j,f}) - lambda_u p_{u,f})`,
`q'_{i,f} = q_{i,f} + eta (e p'_{u,f} - lambda_q q_{i,f})`,
`q'_{j,f} = q_{j,f} + eta (-e p'_{u,f} - lambda_q q_{j,f})`;
iff `useBiases`, `b'_i = b_i + eta (e - lambda_b b_i)` and
`b'_j = b_j + eta (-e - lambda_b b_j)`; every other factor and bias, and every
other member of the engine, is unchanged. -/
theorem BPREngine.update_step {K G : Type} [Field K] (exp : K → K) (s : BPREngine K G)
    (U Q : FactorData K) (u i j : Nat)
    (hU : s.userFactors = some U) (hQ : s.itemFactors = some Q)
    (hUwf : U.factors.WF) (hQwf : Q.factors.WF)
    (hUc : U.factors.ncols = s.config.nfactors) (hQc : Q.factors.ncols = s.config.nfactors)
    (hu : u < U.factors.nrows) (hi : i < Q.factors.nrows) (hj : j < Q.factors.nrows)
    (hij : i ≠ j) (hbias : Q.withBiases = s.config.useBiases)
    (hbsize : s.config.useBiases = true → Q.biases.size = Q.factors.nrows) :
    ∃ xhat U2 Q2,
      s.predictDifference u i j = some xhat ∧
      xhat = (if s.config.useBiases then Q.biases.get i - Q.biases.get j else 0)
          + ∑ f ∈ Finset.range s.config.nfactors, U.getAt u f * (Q.getAt i f - Q.getAt j f) ∧
      s.update exp ⟨u, i, j⟩ = some { s with userFactors := some U2, itemFactors := some Q2 } ∧
      (∀ f, f < s.config.nfactors → U2.getAt u f = U.getAt u f + s.learningRate
        * (1 / (1 + exp xhat) * (Q.getAt i f - Q.getAt j f) - s.config.userLambda * U.getAt u f)) ∧
      (∀ f, f < s.config.nfactors → Q2.getAt i f = Q.getAt i f + s.learningRate
        * (1 / (1 + exp xhat) * U2.getAt u f - s.config.itemLambda * Q.getAt i f)) ∧
      (∀ f, f < s.config.nfactors → Q2.getAt j f = Q.getAt j f + s.learningRate
        * (-(1 / (1 + exp xhat)) * U2.getAt u f - s.config.itemLambda * Q.getAt j f)) ∧
      (∀ r f, r ≠ u → f < s.config.nfactors → U2.getAt r f = U.getAt r f) ∧
      (∀ r f, r ≠ i → r ≠ j → f < s.config.nfactors → Q2.getAt r f = Q.getAt r f) ∧
      (s.config.useBiases = true →
        Q2.biases.get i = Q.biases.get i + s.learningRate
          * (1 / (1 + exp xhat) - s.config.biasLambda * Q.biases.get i) ∧
        Q2.biases.get j = Q.biases.get j + s.learningRate
          * (-(1 / (1 + exp xhat)) - s.config.biasLambda * Q.biases.get j) ∧
        ∀ r, r ≠ i → r ≠ j → Q2.biases.get r = Q.biases.get r) ∧
      (s.config.useBiases = false → Q2.biases = Q.biases) ∧
      U2.biases = U.biases ∧ U2.withBiases = U.withBiases ∧ Q2.withBiases = Q.withBiases ∧
      Q2.biases.size = Q.biases.size ∧
      U2.factors.nrows = U.factors.nrows ∧ U2.factors.ncols = U.factors.ncols ∧
      U2.factors.data.length = U.factors.data.length ∧
      Q2.factors.nrows = Q.factors.nrows ∧ Q2.factors.ncols = Q.factors.ncols ∧
      Q2.factors.data.length = Q.factors.data.length := by
  have hpd := BPREngine.predictDifference_eq s U Q u i j hU hQ hbias
  obtain ⟨e, he⟩ : ∃ e, e = BPREngine.lossDerivative exp
      ((if s.config.useBiases then Q.biases.get i - Q.biases.get j else 0)
        + ∑ f ∈ Finset.range s.config.nfactors, U.getAt u f * (Q.getAt i f - Q.getAt j f)) :=
    ⟨_, rfl⟩
  have he2 : 1 / (1 + exp ((if s.config.useBiases then Q.biases.get i - Q.biases.get j else 0)
        + ∑ f ∈ Finset.range s.config.nfactors, U.getAt u f * (Q.getAt i f - Q.getAt j f))) = e := by
    rw [he]; rfl
  obtain ⟨q0, hq0, hq0f, hq0w, hq0s, hq0n, hq0b⟩ := BPREngine.updateBiases_spec s.config
    s.learningRate e Q i j hij hbias (fun h => by rw [hbsize h]; exact hi)
    (fun h => by rw [hbsize h]; exact hj)
  have hq0get : ∀ r c, q0.getAt r c = Q.getAt r c := by
    intro r c; unfold FactorData.getAt; rw [hq0f]
  have hq0wf : q0.factors.WF := by rw [hq0f]; exact hQwf
  -- the three loops
  obtain ⟨U2, hU2⟩ : ∃ U2, U2 = (List.range s.config.nfactors).foldl
      (fun (fd : FactorData K) f =>
        fd.setAt u f (fd.getAt u f + s.learningRate
          * (e * (q0.getAt i f - q0.getAt j f) - s.config.userLambda * fd.getAt u f))) U :=
    ⟨_, rfl⟩
  have hu2 := FactorData.foldl_setAt_row
    (fun f x => x + s.learningRate * (e * (q0.getAt i f - q0.getAt j f) - s.config.userLambda * x))
    s.config.nfactors u U hUwf hu (by rw [hUc])
  rw [← hU2] at hu2
  obtain ⟨u1, u2, u3, u4, u5, u6⟩ := hu2
  obtain ⟨Q1, hQ1⟩ : ∃ Q1, Q1 = (List.range s.config.nfactors).foldl
      (fun (fd : FactorData K) f =>
        fd.setAt i f (fd.getAt i f + s.learningRate
          * (e * U2.getAt u f - s.config.itemLambda * fd.getAt i f))) q0 :=
    ⟨_, rfl⟩
  have hq1 := FactorData.foldl_setAt_row
    (fun f x => x + s.learningRate * (e * U2.getAt u f - s.config.itemLambda * x))
    s.config.nfactors i q0 hq0wf (by rw [hq0f]; exact hi) (by rw [hq0f, hQc])
  rw [← hQ1] at hq1
  obtain ⟨a1, a2, a3, a4, a5, a6⟩ := hq1
  obtain ⟨Q2, hQ2⟩ : ∃ Q2, Q2 = (List.range s.config.nfactors).foldl
      (fun (fd : FactorData K) f =>
        fd.setAt j f (fd.getAt j f + s.learningRate
          * (-e * U2.getAt u f - s.config.itemLambda * fd.getAt j f))) Q1 :=
    ⟨_, rfl⟩
  have hq2 := FactorData.foldl_setAt_row
    (fun f x => x + s.learningRate * (-e * U2.getAt u f - s.config.itemLambda * x))
    s.config.nfactors j Q1 a5 (by rw [a3, hq0f]; exact hj) (by rw [a4, hq0f, hQc])
  rw [← hQ2] at hq2
  obtain ⟨b1, b2, b3, b4, b5, b6⟩ := hq2
  refine ⟨_, U2, Q2, hpd, rfl, ?_, ?_, ?_, ?_, ?_, ?_, ?_, ?_, ?_⟩
  all_goals try simp only [he2]
  · unfold BPREngine.update
    simp only [hpd, hU, hQ, ← he, hq0, ← hU2, ← hQ1, ← hQ2]
  · intro f hf
    rw [u6 u f (by rw [hUc]; exact hf), if_pos ⟨rfl, hf⟩]
    simp only [hq0get]
  · intro f hf
    rw [b6 i f (by rw [a4, hq0f, hQc]; exact hf), if_neg (fun h => hij h.1),
      a6 i f (by rw [hq0f, hQc]; exact hf), if_pos ⟨rfl, hf⟩]
    simp only [hq0get]
  · intro f hf
    rw [b6 j f (by rw [a4, hq0f, hQc]; exact hf), if_pos ⟨rfl, hf⟩,
      a6 j f (by rw [hq0f, hQc]; exact hf), if_neg (fun h => hij h.1.symm)]
    simp only [hq0get]
  · intro r f hr hf
    rw [u6 r f (by rw [hUc]; exact hf), if_neg (fun h => hr h.1)]
  · intro r f hri hrj hf
    rw [b6 r f (by rw [a4, hq0f, hQc]; exact hf), if_neg (fun h => hrj h.1),
      a6 r f (by rw [hq0f, hQc]; exact hf), if_neg (fun h => hri h.1), hq0get]
  · intro hb
    rw [b2, a2]
    have h := hq0b hb
    refine ⟨?_, ?_, ?_⟩
    · rw [h i, if_pos rfl]
    · rw [h j, if_neg (fun h => hij h.symm), if_pos rfl]
    · intro r hri hrj
      rw [h r, if_neg hri, if_neg hrj]
  · intro hb
    rw [b2, a2]; exact hq0n hb
  · refine ⟨u2, u1, ?_, ?_, u3, u4, ?_, ?_, ?_, ?_⟩
    · rw [b1, a1, hq0w]
    · rw [b2, a2, hq0s]
    · rw [u5, u3, u4]; exact hUwf.symm
    · rw [b3, a3, hq0f]
    · rw [b4, a4, hq0f]
    · rw [b5, b3, b4, a3, a4, hq0f]; exact hQwf.symm

/-! ## Theorems: BPR evaluation sets -/

theorem sampleLoop_some {G : Type} (dis : UniformInt G) (hi : Int) (userPosSet : List Nat)
    (fuel : Nat) (g : G) (n : Nat) (g2 : G)
    (h : sampleLoop dis hi userPosSet fuel g = some (n, g2)) :
    n ∉ userPosSet ∧ (dis.InRange → 0 ≤ hi → (n : Int) ≤ hi) := by
  induction fuel generalizing g with
  | zero => simp [sampleLoop] at h
  | succ fuel ih =>
    simp only [sampleLoop] at h
    by_cases hm : (dis 0 hi g).1.toNat ∈ userPosSet
    · rw [if_pos hm] at h
      exact ih _ h
    · rw [if_neg hm] at h
      simp only [Option.some.injEq, Prod.mk.injEq] at h
      obtain ⟨rfl, _⟩ := h
      refine ⟨hm, fun hdis hhi => ?_⟩
      have := hdis 0 hi g hhi
      rw [Int.toNat_of_nonneg this.1]
      exact this.2

theorem BPREngine.sampleRandomNegative_some {K G : Type} (dis : UniformInt G) (fuel : Nat)
    (s : BPREngine K G) (u : Nat) (g : G) (useTest : Bool) (n : Nat) (g2 : G)
    (h : s.sampleRandomNegative dis fuel u g useTest = some (n, g2)) (p : Nat) :
    NegativeOK dis s useTest ⟨u, p, n⟩ := by
  unfold BPREngine.sampleRandomNegative at h
  unfold NegativeOK
  simp only
  cases hset : (if useTest then s.testItemMap[u]? else s.itemMap[u]?) with
  | none => rw [hset] at h; simp at h
  | some userPosSet =>
    rw [hset] at h
    simp only at h
    obtain ⟨h1, h2⟩ := sampleLoop_some dis _ userPosSet fuel g n g2 h
    refine ⟨userPosSet, rfl, h1, fun hdis hpos => ?_⟩
    have := h2 hdis (by omega)
    omega

theorem BPREngine.sampleTriplets_push {K G : Type} (dis : UniformInt G) (fuel : Nat)
    (s : BPREngine K G) (useTest : Bool) (u p : Nat) (numNeg : Nat) (l : List PosNegTriplet)
    (g : G) (l2 : List PosNegTriplet) (g2 : G)
    (h : BPREngine.sampleTriplets dis fuel s
        (fun (es : List PosNegTriplet) t => some (es ++ [t])) useTest u p numNeg (l, g)
      = some (l2, g2)) :
    ∃ ts, l2 = l ++ ts ∧ ts.length = numNeg ∧
      ∀ t ∈ ts, t.userIdx = u ∧ t.posItemIdx = p ∧ NegativeOK dis s useTest t := by
  induction numNeg generalizing l g with
  | zero =>
    simp only [BPREngine.sampleTriplets, Option.some.injEq, Prod.mk.injEq] at h
    exact ⟨[], by simp [h.1], rfl, by simp⟩
  | succ numNeg ih =>
    simp only [BPREngine.sampleTriplets] at h
    cases hs : s.sampleRandomNegative dis fuel u g useTest with
    | none => rw [hs] at h; simp at h
    | some r =>
      obtain ⟨n, g1⟩ := r
      rw [hs] at h
      simp only at h
      obtain ⟨ts, h1, h2, h3⟩ := ih _ _ h
      refine ⟨⟨u, p, n⟩ :: ts, by rw [h1, List.append_assoc]; rfl, by simp [h2], ?_⟩
      intro t ht
      rcases List.mem_cons.1 ht with rfl | ht
      · exact ⟨rfl, rfl, BPREngine.sampleRandomNegative_some dis fuel s u g useTest n g1 hs p⟩
      · exact h3 t ht

theorem BPREngine.foldlM_sampleTriplets {K G A : Type} (dis : UniformInt G) (fuel : Nat)
    (s : BPREngine K G) (useTest : Bool) (pu pp : A → Nat) (numNeg : Nat) (pairs : List A)
    (l : List PosNegTriplet) (g : G) (l2 : List PosNegTriplet) (g2 : G)
    (h : pairs.foldlM
        (fun (acc : List PosNegTriplet × G) (a : A) =>
          BPREngine.sampleTriplets dis fuel s
            (fun (es : List PosNegTriplet) t => some (es ++ [t])) useTest (pu a) (pp a) numNeg acc)
        (l, g) = some (l2, g2)) :
    ∃ ts, l2 = l ++ ts ∧
      ts.map (fun t => (t.userIdx, t.posItemIdx))
        = pairs.flatMap (fun a => List.replicate numNeg (pu a, pp a)) ∧
      ∀ t ∈ ts, (∃ a ∈ pairs, pu a = t.userIdx ∧ pp a = t.posItemIdx) ∧
        NegativeOK dis s useTest t := by
  induction pairs generalizing l g with
  | nil =>
    simp only [List.foldlM_nil, pure, Option.some.injEq, Prod.mk.injEq] at h
    exact ⟨[], by simp [h.1], by simp, by simp⟩
  | cons a pairs ih =>
    rw [List.foldlM_cons] at h
    cases hs : BPREngine.sampleTriplets dis fuel s
        (fun (es : List PosNegTriplet) t => some (es ++ [t])) useTest (pu a) (pp a) numNeg (l, g) with
    | none => rw [hs] at h; simp [bind, Option.bind] at h
    | some r =>
      obtain ⟨l1, g1⟩ := r
      rw [hs] at h
      simp only [bind, Option.bind] at h
      obtain ⟨ts1, e1, len1, ok1⟩ := BPREngine.sampleTriplets_push dis fuel s useTest (pu a) (pp a)
        numNeg l g l1 g1 hs
      obtain ⟨ts, e2, m2, ok2⟩ := ih l1 g1 h
      refine ⟨ts1 ++ ts, by rw [e2, e1, List.append_assoc], ?_, ?_⟩
      · rw [List.map_append, m2, List.flatMap_cons]
        congr 1
        rw [List.eq_replicate_iff]
        refine ⟨by rw [List.length_map, len1], ?_⟩
        intro b hb
        obtain ⟨t, ht, rfl⟩ := List.mem_map.1 hb
        have hk := ok1 t ht
        rw [hk.1, hk.2.1]
      · intro t ht
        rcases List.mem_append.1 ht with ht | ht
        · have := ok1 t ht
          exact ⟨⟨a, List.mem_cons_self _ _, this.1.symm, this.2.1.symm⟩, this.2.2⟩
        · obtain ⟨⟨b, hb, hb2⟩, hok⟩ := ok2 t ht
          exact ⟨⟨b, List.mem_cons_of_mem _ hb, hb2⟩, hok⟩

theorem IdIndex.lookup_lt (ix : IdIndex) (hinv : ix.Inv) (id : Int) (pos : Nat)
    (h : ix.idxMap.lookup id = some pos) : pos < ix.size := by
  have h3 := hinv id pos h
  by_contra hge
  rw [List.getElem?_eq_none (Nat.le_of_not_lt hge)] at h3
  exact Option.noConfusion h3

theorem IdIndex.getOrSetIdx_spec (ix : IdIndex) (hinv : ix.Inv) (id : Int) :
    (ix.getOrSetIdx id).2.Inv ∧ (ix.getOrSetIdx id).1 < (ix.getOrSetIdx id).2.size ∧
    ix.size ≤ (ix.getOrSetIdx id).2.size ∧ (ix.getOrSetIdx id).2.size ≤ ix.size + 1 := by
  refine ⟨ix.inv_getOrSetIdx hinv id, ?_⟩
  unfold IdIndex.getOrSetIdx
  cases h : ix.idxMap.lookup id with
  | some pos => exact ⟨ix.lookup_lt hinv id pos h, Nat.le_refl _, Nat.le_succ _⟩
  | none => simp [IdIndex.size]

theorem IdIndex.idx_ne_missing (ix : IdIndex) (hinv : ix.Inv) (id : Int)
    (h : ix.idx id ≠ IdIndex.missingIdx) : ix.idx id < ix.size ∧ ix.Present id := by
  unfold IdIndex.idx at h ⊢
  cases hl : ix.idxMap.lookup id with
  | none => rw [hl] at h; exact absurd rfl h
  | some pos => exact ⟨ix.lookup_lt hinv id pos hl, pos, hl⟩

theorem IdIndex.present_iff (ix : IdIndex) (hinv : ix.Inv) (hsize : ix.size ≤ IdIndex.missingIdx)
    (id : Int) : ix.Present id ↔ ix.idx id ≠ IdIndex.missingIdx := by
  constructor
  · rintro ⟨pos, hpos⟩
    have := ix.lookup_lt hinv id pos hpos
    rw [ix.idx_of_lookup id pos hpos]
    omega
  · intro h
    exact (ix.idx_ne_missing hinv id h).2

theorem insertInto_length (sets : List (List Nat)) (i x : Nat) :
    (insertInto sets i x).length = sets.length := by
  simp [insertInto]

theorem insertInto_getD (sets : List (List Nat)) (i x u : Nat) (hi : i < sets.length) :
    (insertInto sets i x).getD u [] = if u = i then (sets.getD i []).insert x else sets.getD u [] := by
  unfold insertInto
  rw [getD_set_list]
  by_cases h : i = u
  · subst h; simp [hi]
  · have : ¬ u = i := fun e => h e.symm
    simp [h, this]

theorem insertInto_mono (sets : List (List Nat)) (i x u y : Nat) (h : y ∈ sets.getD u []) :
    y ∈ (insertInto sets i x).getD u [] := by
  by_cases hi : i < sets.length
  · rw [insertInto_getD sets i x u hi]
    by_cases hu : u = i
    · subst hu; rw [if_pos rfl]; exact List.mem_insert_iff.2 (Or.inr h)
    · rw [if_neg hu]; exact h
  · unfold insertInto
    rw [List.set_eq_of_length_le (Nat.le_of_not_lt hi)]
    exact h

/-- The item map built by `init`: one set per user, holding every item paired
with that user in `data`. -/
theorem foldl_insertInto_spec (data : List PosPair) (sets : List (List Nat))
    (h : ∀ p ∈ data, p.userIdx < sets.length) :
    (data.foldl (fun (im : List (List Nat)) (p : PosPair) => insertInto im p.userIdx p.posItemIdx)
      sets).length = sets.length ∧
    (∀ u y, y ∈ sets.getD u [] →
      y ∈ (data.foldl (fun (im : List (List Nat)) (p : PosPair) =>
        insertInto im p.userIdx p.posItemIdx) sets).getD u []) ∧
    ∀ p ∈ data, p.posItemIdx ∈ (data.foldl (fun (im : List (List Nat)) (p : PosPair) =>
        insertInto im p.userIdx p.posItemIdx) sets).getD p.userIdx [] := by
  induction data generalizing sets with
  | nil => simp
  | cons a data ih =>
    simp only [List.foldl_cons]
    have ha := h a (List.mem_cons_self _ _)
    obtain ⟨i1, i2, i3⟩ := ih (insertInto sets a.userIdx a.posItemIdx)
      (fun p hp => by rw [insertInto_length]; exact h p (List.mem_cons_of_mem _ hp))
    refine ⟨by rw [i1, insertInto_length], ?_, ?_⟩
    · intro u y hy
      exact i2 u y (insertInto_mono sets _ _ u y hy)
    · intro p hp
      rcases List.mem_cons.1 hp with rfl | hp
      · apply i2
        rw [insertInto_getD sets _ _ _ ha, if_pos rfl]
        exact List.mem_insert_iff.2 (Or.inl rfl)
      · exact i3 p hp

theorem resizeSets_length (sets : List (List Nat)) (n : Nat) : (resizeSets sets n).length = n := by
  simp only [resizeSets, List.length_append, List.length_take, List.length_replicate]
  omega

theorem getElem?_of_lt_getD (sets : List (List Nat)) (u : Nat) (h : u < sets.length) :
    sets[u]? = some (sets.getD u []) := by
  rw [List.getD_eq_getElem?_getD, List.getElem?_eq_getElem h]; rfl

theorem BPREngine.sampleRandomNegative_congr {K G : Type} (dis : UniformInt G) (fuel : Nat)
    (s t : BPREngine K G) (h1 : s.itemMap = t.itemMap) (h2 : s.testItemMap = t.testItemMap)
    (h3 : s.itemIndex = t.itemIndex) (u : Nat) (g : G) (useTest : Bool) :
    s.sampleRandomNegative dis fuel u g useTest = t.sampleRandomNegative dis fuel u g useTest := by
  unfold BPREngine.sampleRandomNegative BPREngine.nitems
  rw [h1, h2, h3]

theorem BPREngine.sampleTriplets_congr {K G S : Type} (dis : UniformInt G) (fuel : Nat)
    (s t : BPREngine K G) (h1 : s.itemMap = t.itemMap) (h2 : s.testItemMap = t.testItemMap)
    (h3 : s.itemIndex = t.itemIndex) (func : S → PosNegTriplet → Option S) (useTest : Bool)
    (u p numNeg : Nat) (st : S × G) :
    BPREngine.sampleTriplets dis fuel s func useTest u p numNeg st
      = BPREngine.sampleTriplets dis fuel t func useTest u p numNeg st := by
  induction numNeg generalizing st with
  | zero => rfl
  | succ n ih =>
    simp only [BPREngine.sampleTriplets]
    rw [BPREngine.sampleRandomNegative_congr dis fuel s t h1 h2 h3]
    cases t.sampleRandomNegative dis fuel u st.2 useTest with
    | none => rfl
    | some r =>
      obtain ⟨n1, g1⟩ := r
      simp only
      cases func st.1 ⟨u, p, n1⟩ with
      | none => rfl
      | some st1 => exact ih _

/-- The ingestion loop of `init` only touches the two indexes and `data`, keeps
the indexes well formed and every pair of `data` inside them. -/
theorem BPREngine.populate_spec {K G : Type} [LinearOrderedField K]
    (dataset : List (DatasetElem K)) (s : BPREngine K G)
    (hU : s.userIndex.Inv) (hI : s.itemIndex.Inv)
    (hd : ∀ p ∈ s.data, p.userIdx < s.userIndex.size ∧ p.posItemIdx < s.itemIndex.size)
    (hus : s.userIndex.size ≤ s.data.length) (his : s.itemIndex.size ≤ s.data.length) :
    ∃ ui ii d, s.populate dataset = { s with userIndex := ui, itemIndex := ii, data := d } ∧
      ui.Inv ∧ ii.Inv ∧ (∀ p ∈ d, p.userIdx < ui.size ∧ p.posItemIdx < ii.size) ∧
      ui.size ≤ d.length ∧ ii.size ≤ d.length ∧ d.length ≤ s.data.length + dataset.length := by
  induction dataset generalizing s with
  | nil => exact ⟨s.userIndex, s.itemIndex, s.data, rfl, hU, hI, hd, hus, his, Nat.le_add_right _ _⟩
  | cons e rest ih =>
    unfold BPREngine.populate
    rw [List.foldl_cons]
    by_cases hv : e.value < 1
    · rw [if_pos hv]
      obtain ⟨ui, ii, d, h1, h2, h3, h4, h5, h6, h7⟩ := ih s hU hI hd hus his
      refine ⟨ui, ii, d, h1, h2, h3, h4, h5, h6, ?_⟩
      simp only [List.length_cons]; omega
    · rw [if_neg hv]
      obtain ⟨u1, u2, u3, u4⟩ := s.userIndex.getOrSetIdx_spec hU e.userId
      obtain ⟨p1, p2, p3, p4⟩ := s.itemIndex.getOrSetIdx_spec hI e.itemId
      obtain ⟨ui, ii, d, h1, h2, h3, h4, h5, h6, h7⟩ := ih
        { s with userIndex := (s.userIndex.getOrSetIdx e.userId).2,
                 itemIndex := (s.itemIndex.getOrSetIdx e.itemId).2,
                 data := s.data ++ [⟨(s.userIndex.getOrSetIdx e.userId).1,
                                     (s.itemIndex.getOrSetIdx e.itemId).1⟩] }
        u1 p1
        (by
          intro p hp
          rcases List.mem_append.1 hp with hp | hp
          · have := hd p hp
            exact ⟨Nat.lt_of_lt_of_le this.1 u3, Nat.lt_of_lt_of_le this.2 p3⟩
          · rw [List.mem_singleton] at hp
            subst hp
            exact ⟨u2, p2⟩)
        (by simp only [List.length_append, List.length_singleton]; omega)
        (by simp only [List.length_append, List.length_singleton]; omega)
      refine ⟨ui, ii, d, h1, h2, h3, h4, h5, h6, ?_⟩
      simp only [List.length_append, List.length_singleton, List.length_cons, List.length_nil] at h7 ⊢
      omega

/-- What a successful `init` leaves behind, from any engine whose indexes are
well formed. -/
theorem BPREngine.init_some {K G : Type} [LinearOrderedField K] (mt : Mt19937 G)
    (dis : UniformInt G) (unif : UniformReal G K) (fuel : Nat) (s sf : BPREngine K G)
    (dataset : List (DatasetElem K))
    (hU : s.userIndex.Inv) (hI : s.itemIndex.Inv)
    (hd : ∀ p ∈ s.data, p.userIdx < s.userIndex.size ∧ p.posItemIdx < s.itemIndex.size)
    (hus : s.userIndex.size ≤ s.data.length) (his : s.itemIndex.size ≤ s.data.length)
    (h : s.init mt dis unif fuel dataset = some sf) :
    ∃ g,
      sf.userIndex.Inv ∧ sf.itemIndex.Inv ∧
      (∀ p ∈ sf.data, p.userIdx < sf.userIndex.size ∧ p.posItemIdx < sf.itemIndex.size) ∧
      sf.userIndex.size ≤ sf.data.length ∧ sf.itemIndex.size ≤ sf.data.length ∧
      sf.data.length ≤ s.data.length + dataset.length ∧
      sf.itemMap = sf.data.foldl
        (fun (itemMap : List (List Nat)) (p : PosPair) => insertInto itemMap p.userIdx p.posItemIdx)
        (resizeSets s.itemMap sf.userIndex.size) ∧
      sf.data.foldlM
        (fun (st : List PosNegTriplet × G) (elem : PosPair) =>
          BPREngine.sampleTriplets dis fuel sf
            (fun (evalSet : List PosNegTriplet) triplet => some (evalSet ++ [triplet]))
            false elem.userIdx elem.posItemIdx s.evalNumNeg st)
        (s.evalSet, mt s.evalSeed) = some (sf.evalSet, g) ∧
      sf.evalNumNeg = s.evalNumNeg ∧ sf.evalSeed = s.evalSeed ∧
      sf.testItemMap = s.testItemMap ∧ sf.testEvalSet = s.testEvalSet ∧
      sf.metricsEngine = s.metricsEngine := by
  obtain ⟨ui, ii, d, hp, h2, h3, h4, h5, h6, h7⟩ := s.populate_spec dataset hU hI hd hus his
  unfold BPREngine.init at h
  by_cases hc : s.userFactors.isSome ∨ s.itemFactors.isSome
  · rw [if_pos hc] at h; exact Option.noConfusion h
  · rw [if_neg hc, hp] at h
    simp only at h
    split at h
    · exact Option.noConfusion h
    · rename_i es g hit
      split at h
      · rename_i uf itf _ _
        have hsf := (Option.some.inj h).symm
        subst hsf
        refine ⟨g, h2, h3, h4, h5, h6, h7, rfl, ?_, rfl, rfl, rfl, rfl, rfl⟩
        unfold BPREngine.iterate at hit
        simp only at hit ⊢
        rw [← hit]
        congr 1
        funext st elem
        apply BPREngine.sampleTriplets_congr <;> rfl
      · exact Option.noConfusion h

/-- The first loop of `initTest`: `validElems` holds one pair for each test
element of value at least 1 whose ids are both indexed, and the test item map
holds every such pair. -/
theorem BPREngine.populateTest_spec {K G : Type} [LinearOrderedField K] (s : BPREngine K G)
    (hU : s.userIndex.Inv) (hI : s.itemIndex.Inv) (testDataset : List (DatasetElem K)) :
    (s.populateTest testDataset).1.length = s.userIndex.size ∧
    (∀ q ∈ (s.populateTest testDataset).2, q.1 < s.userIndex.size ∧ q.2 < s.itemIndex.size ∧
      q.2 ∈ (s.populateTest testDataset).1.getD q.1 []) ∧
    (s.populateTest testDataset).2.length
      = (testDataset.filter (fun e => decide (1 ≤ e.value ∧
          s.userIndex.idx e.userId ≠ IdIndex.missingIdx ∧
          s.itemIndex.idx e.itemId ≠ IdIndex.missingIdx))).length := by
  have key : ∀ (td : List (DatasetElem K)) (tm : List (List Nat)) (ve : List (Nat × Nat)),
      tm.length = s.userIndex.size →
      (∀ q ∈ ve, q.1 < s.userIndex.size ∧ q.2 < s.itemIndex.size ∧ q.2 ∈ tm.getD q.1 []) →
      (td.foldl
        (fun (st : List (List Nat) × List (Nat × Nat)) (elem : DatasetElem K) =>
          if elem.value < 1 then st
          else
            if s.userIndex.idx elem.userId = IdIndex.missingIdx
                ∨ s.itemIndex.idx elem.itemId = IdIndex.missingIdx then st
            else (insertInto st.1 (s.userIndex.idx elem.userId) (s.itemIndex.idx elem.itemId),
                  st.2 ++ [(s.userIndex.idx elem.userId, s.itemIndex.idx elem.itemId)]))
        (tm, ve)).1.length = s.userIndex.size ∧
      (∀ q ∈ (td.foldl
        (fun (st : List (List Nat) × List (Nat × Nat)) (elem : DatasetElem K) =>
          if elem.value < 1 then st
          else
            if s.userIndex.idx elem.userId = IdIndex.missingIdx
                ∨ s.itemIndex.idx elem.itemId = IdIndex.missingIdx then st
            else (insertInto st.1 (s.userIndex.idx elem.userId) (s.itemIndex.idx elem.itemId),
                  st.2 ++ [(s.userIndex.idx elem.userId, s.itemIndex.idx elem.itemId)]))
        (tm, ve)).2, q.1 < s.userIndex.size ∧ q.2 < s.itemIndex.size ∧
          q.2 ∈ (td.foldl
        (fun (st : List (List Nat) × List (Nat × Nat)) (elem : DatasetElem K) =>
          if elem.value < 1 then st
          else
            if s.userIndex.idx elem.userId = IdIndex.missingIdx
                ∨ s.itemIndex.idx elem.itemId = IdIndex.missingIdx then st
            else (insertInto st.1 (s.userIndex.idx elem.userId) (s.itemIndex.idx elem.itemId),
                  st.2 ++ [(s.userIndex.idx elem.userId, s.itemIndex.idx elem.itemId)]))
        (tm, ve)).1.getD q.1 []) ∧
      (td.foldl
        (fun (st : List (List Nat) × List (Nat × Nat)) (elem : DatasetElem K) =>
          if elem.value < 1 then st
          else
            if s.userIndex.idx elem.userId = IdIndex.missingIdx
                ∨ s.itemIndex.idx elem.itemId = IdIndex.missingIdx then st
            else (insertInto st.1 (s.userIndex.idx elem.userId) (s.itemIndex.idx elem.itemId),
                  st.2 ++ [(s.userIndex.idx elem.userId, s.itemIndex.idx elem.itemId)]))
        (tm, ve)).2.length
        = ve.length + (td.filter (fun e => decide (1 ≤ e.value ∧
            s.userIndex.idx e.userId ≠ IdIndex.missingIdx ∧
            s.itemIndex.idx e.itemId ≠ IdIndex.missingIdx))).length := by
    intro td
    induction td with
    | nil => intro tm ve h1 h2; exact ⟨h1, h2, by simp⟩
    | cons e td ih =>
      intro tm ve h1 h2
      simp only [List.foldl_cons]
      by_cases hv : e.value < 1
      · have hv2 : ¬ (1 ≤ e.value) := not_le.2 hv
        rw [if_pos hv, List.filter_cons_of_neg (by rw [decide_eq_true_eq]; exact fun h => hv2 h.1)]
        exact ih tm ve h1 h2
      · have hv2 : 1 ≤ e.value := not_lt.1 hv
        by_cases hm : s.userIndex.idx e.userId = IdIndex.missingIdx
            ∨ s.itemIndex.idx e.itemId = IdIndex.missingIdx
        · have hm2 : ¬ (s.userIndex.idx e.userId ≠ IdIndex.missingIdx ∧
              s.itemIndex.idx e.itemId ≠ IdIndex.missingIdx) := by
            rintro ⟨a, b⟩; rcases hm with h | h
            · exact a h
            · exact b h
          rw [if_neg hv, if_pos hm,
            List.filter_cons_of_neg (by rw [decide_eq_true_eq]; exact fun h => hm2 h.2)]
          exact ih tm ve h1 h2
        · have hm2 : s.userIndex.idx e.userId ≠ IdIndex.missingIdx ∧
              s.itemIndex.idx e.itemId ≠ IdIndex.missingIdx :=
            ⟨fun h => hm (Or.inl h), fun h => hm (Or.inr h)⟩
          have hu := (s.userIndex.idx_ne_missing hU e.userId hm2.1).1
          have hp := (s.itemIndex.idx_ne_missing hI e.itemId hm2.2).1
          rw [if_neg hv, if_neg hm,
            List.filter_cons_of_pos (by rw [decide_eq_true_eq]; exact ⟨hv2, hm2⟩)]
          obtain ⟨i1, i2, i3⟩ := ih (insertInto tm (s.userIndex.idx e.userId) (s.itemIndex.idx e.itemId))
            (ve ++ [(s.userIndex.idx e.userId, s.itemIndex.idx e.itemId)])
            (by rw [insertInto_length]; exact h1)
            (by
              intro q hq
              rcases List.mem_append.1 hq with hq | hq
              · have := h2 q hq
                exact ⟨this.1, this.2.1, insertInto_mono tm _ _ q.1 q.2 this.2.2⟩
              · rw [List.mem_singleton] at hq
                subst hq
                refine ⟨hu, hp, ?_⟩
                rw [insertInto_getD tm _ _ _ (by rw [h1]; exact hu), if_pos rfl]
                exact List.mem_insert_iff.2 (Or.inl rfl))
          refine ⟨i1, i2, ?_⟩
          rw [i3, List.length_append, List.length_singleton, List.length_cons]
          omega
  have := key testDataset (resizeSets s.testItemMap s.userIndex.size) []
    (resizeSets_length _ _) (by simp)
  simpa [BPREngine.populateTest] using this

/-- What a successful `initTest` leaves behind. -/
theorem BPREngine.initTest_some {K G : Type} [LinearOrderedField K] (mt : Mt19937 G)
    (dis : UniformInt G) (iterOrder : List Nat → List Nat) (shuffle : List Nat → G → List Nat)
    (fuel : Nat) (s sf : BPREngine K G) (testDataset : List (DatasetElem K))
    (h : s.initTest mt dis iterOrder shuffle fuel testDataset = some sf) :
    s.testEvalSet = [] ∧
    ∃ g,
      (s.populateTest testDataset).2.foldlM
        (fun (acc : List PosNegTriplet × G) (p : Nat × Nat) =>
          BPREngine.sampleTriplets dis fuel sf
            (fun (testEvalSet : List PosNegTriplet) triplet => some (testEvalSet ++ [triplet]))
            true p.1 p.2 s.evalNumNeg acc)
        ([], mt s.evalSeed) = some (sf.testEvalSet, g) ∧
      sf.testItemMap = (s.populateTest testDataset).1 ∧ sf.itemMap = s.itemMap ∧
      sf.itemIndex = s.itemIndex ∧ sf.userIndex = s.userIndex ∧ sf.data = s.data ∧
      sf.evalSet = s.evalSet ∧ sf.evalNumNeg = s.evalNumNeg ∧
      sf.userFactors = s.userFactors ∧ sf.itemFactors = s.itemFactors := by
  unfold BPREngine.initTest at h
  by_cases he : ¬ s.testEvalSet.isEmpty
  · rw [if_pos he] at h; exact Option.noConfusion h
  · rw [if_neg he] at h
    have hempty : s.testEvalSet = [] := by
      simpa [List.isEmpty_iff] using he
    refine ⟨hempty, ?_⟩
    simp only at h
    split at h
    · exact Option.noConfusion h
    · rename_i tes g hit
      rw [hempty] at hit
      have hfold : ∀ sf2 : BPREngine K G, sf2.itemMap = s.itemMap →
          sf2.testItemMap = (s.populateTest testDataset).1 → sf2.itemIndex = s.itemIndex →
          (s.populateTest testDataset).2.foldlM
            (fun (acc : List PosNegTriplet × G) (p : Nat × Nat) =>
              BPREngine.sampleTriplets dis fuel sf2
                (fun (testEvalSet : List PosNegTriplet) triplet => some (testEvalSet ++ [triplet]))
                true p.1 p.2 s.evalNumNeg acc)
            ([], mt s.evalSeed) = some (tes, g) := by
        intro sf2 e1 e2 e3
        rw [← hit]
        congr 1
        funext acc p
        apply BPREngine.sampleTriplets_congr
        · exact e1
        · exact e2
        · exact e3
      split at h
      · have hsf := (Option.some.inj h).symm
        subst hsf
        exact ⟨g, hfold _ rfl rfl rfl, rfl, rfl, rfl, rfl, rfl, rfl, rfl, rfl, rfl⟩
      · split at h
        · have hsf := (Option.some.inj h).symm
          subst hsf
          exact ⟨g, hfold _ rfl rfl rfl, rfl, rfl, rfl, rfl, rfl, rfl, rfl, rfl, rfl⟩
        · have hsf := (Option.some.inj h).symm
          subst hsf
          exact ⟨g, hfold _ rfl rfl rfl, rfl, rfl, rfl, rfl, rfl, rfl, rfl, rfl, rfl⟩

theorem BPREngine.new_inv {K G : Type} (config : BPRConfig K)
    (metricsEngine : Option (MetricsEngine K)) (evalNumNeg : Nat) (evalSeed : Int)
    (parallel : ParallelExecutor) (gen0 : G) (lr0 : K) :
    (BPREngine.new config metricsEngine evalNumNeg evalSeed parallel gen0 lr0).userIndex.Inv ∧
    (BPREngine.new config metricsEngine evalNumNeg evalSeed parallel gen0 lr0).itemIndex.Inv ∧
    (∀ p ∈ (BPREngine.new config metricsEngine evalNumNeg evalSeed parallel gen0 lr0).data,
      p.userIdx < (BPREngine.new config metricsEngine evalNumNeg evalSeed parallel gen0 lr0).userIndex.size ∧
      p.posItemIdx
        < (BPREngine.new config metricsEngine evalNumNeg evalSeed parallel gen0 lr0).itemIndex.size) := by
  refine ⟨IdIndex.inv_empty, IdIndex.inv_empty, ?_⟩
  intro p hp
  simp [BPREngine.new] at hp

/-- C5: BPR sampled negatives are never positives. For every training dataset,
test dataset and generator for which `init` (and `initTest`) return, every
triplet `(u, i, n)` of `eval_set` has `i ∈ item_map[u]`, `n < nitems` and
`n ∉ item_map[u]`, and every triplet of `test_eval_set` has
`i ∈ test_item_map[u]` and `n ∉ test_item_map[u]`. The bound `n < nitems` uses
the range contract of `std::uniform_int_distribution`. -/
theorem BPREngine.sampled_negatives_not_positive {K G : Type} [LinearOrderedField K]
    (mt : Mt19937 G) (dis : UniformInt G) (unif : UniformReal G K)
    (iterOrder : List Nat → List Nat) (shuffle : List Nat → G → List Nat)
    (hdis : dis.InRange)
    (config : BPRConfig K) (metricsEngine : Option (MetricsEngine K)) (evalNumNeg : Nat)
    (evalSeed : Int) (parallel : ParallelExecutor) (gen0 : G) (lr0 : K)
    (fuel : Nat) (dataset : List (DatasetElem K)) (s1 : BPREngine K G)
    (hinit : (BPREngine.new config metricsEngine evalNumNeg evalSeed parallel gen0 lr0).init
      mt dis unif fuel dataset = some s1) :
    (∀ t ∈ s1.evalSet, ∃ userPosSet, s1.itemMap[t.userIdx]? = some userPosSet ∧
      t.posItemIdx ∈ userPosSet ∧ t.negItemIdx < s1.nitems ∧ t.negItemIdx ∉ userPosSet) ∧
    ∀ (fuel2 : Nat) (testDataset : List (DatasetElem K)) (s2 : BPREngine K G),
      s1.initTest mt dis iterOrder shuffle fuel2 testDataset = some s2 →
      ∀ t ∈ s2.testEvalSet, ∃ userPosSet, s2.testItemMap[t.userIdx]? = some userPosSet ∧
        t.posItemIdx ∈ userPosSet ∧ t.negItemIdx ∉ userPosSet := by
  obtain ⟨n1, n2, n3⟩ := BPREngine.new_inv config metricsEngine evalNumNeg evalSeed parallel gen0 lr0
  obtain ⟨g, hU, hI, hd, _, _, _, him, hfold, _, _, _, _, _⟩ := BPREngine.init_some mt dis unif fuel
    _ s1 dataset n1 n2 n3 (Nat.le_refl _) (Nat.le_refl _) hinit
  constructor
  · obtain ⟨ts, e1, _, ok⟩ := BPREngine.foldlM_sampleTriplets dis fuel s1 false
      PosPair.userIdx PosPair.posItemIdx _ s1.data _ _ _ _ hfold
    have e2 : s1.evalSet = ts := by rw [e1]; rfl
    intro t ht
    rw [e2] at ht
    obtain ⟨⟨a, ha, hau, hap⟩, userPosSet, hset, hnot, hlt⟩ := ok t ht
    have hda := hd a ha
    obtain ⟨f1, _, f3⟩ := foldl_insertInto_spec s1.data
      (resizeSets (BPREngine.new config metricsEngine evalNumNeg evalSeed parallel gen0 lr0).itemMap
        s1.userIndex.size)
      (fun p hp => by rw [resizeSets_length]; exact (hd p hp).1)
    rw [← him] at f1 f3
    rw [resizeSets_length] at f1
    have hget := getElem?_of_lt_getD s1.itemMap t.userIdx (by rw [f1, ← hau]; exact hda.1)
    simp only [Bool.false_eq_true, if_false] at hset
    rw [hget] at hset
    have hs := Option.some.inj hset
    refine ⟨userPosSet, by rw [hget, hs], ?_, hlt hdis (Nat.lt_of_le_of_lt (Nat.zero_le _) hda.2), hnot⟩
    rw [← hs, ← hau, ← hap]
    exact f3 a ha
  · intro fuel2 testDataset s2 htest
    obtain ⟨_, g2, hfold2, htm, _, hii, hui, _⟩ := BPREngine.initTest_some mt dis iterOrder shuffle
      fuel2 s1 s2 testDataset htest
    obtain ⟨p1, p2, _⟩ := s1.populateTest_spec hU hI testDataset
    obtain ⟨ts, e1, _, ok⟩ := BPREngine.foldlM_sampleTriplets dis fuel2 s2 true
      Prod.fst Prod.snd _ _ _ _ _ _ hfold2
    have e2 : s2.testEvalSet = ts := by rw [e1]; rfl
    intro t ht
    rw [e2] at ht
    obtain ⟨⟨a, ha, hau, hap⟩, userPosSet, hset, hnot, _⟩ := ok t ht
    have hq := p2 a ha
    have hget := getElem?_of_lt_getD s2.testItemMap t.userIdx
      (by rw [htm, p1, ← hau]; exact hq.1)
    simp only [if_true] at hset
    rw [hget] at hset
    have hs := Option.some.inj hset
    refine ⟨userPosSet, by rw [hget, hs], ?_, hnot⟩
    rw [← hs, htm, ← hau, ← hap]
    exact hq.2.2

/-- C6: evaluation-set sizes. After `init`, `eval_set` holds `evalNumNeg`
consecutive triplets per positive pair, in `data` order, so
`|eval_set| = evalNumNeg * |data|`; after `initTest`,
`|test_eval_set| = evalNumNeg *` (number of test elements with value `≥ 1` whose
user id and item id are both present in the training indexes). -/
theorem BPREngine.eval_set_sizes {K G : Type} [LinearOrderedField K]
    (mt : Mt19937 G) (dis : UniformInt G) (unif : UniformReal G K)
    (iterOrder : List Nat → List Nat) (shuffle : List Nat → G → List Nat)
    (config : BPRConfig K) (metricsEngine : Option (MetricsEngine K)) (evalNumNeg : Nat)
    (evalSeed : Int) (parallel : ParallelExecutor) (gen0 : G) (lr0 : K)
    (fuel : Nat) (dataset : List (DatasetElem K)) (s1 : BPREngine K G)
    (hlen : dataset.length < 2 ^ 64)
    (hinit : (BPREngine.new config metricsEngine evalNumNeg evalSeed parallel gen0 lr0).init
      mt dis unif fuel dataset = some s1) :
    s1.evalSet.length = evalNumNeg * s1.data.length ∧
    s1.evalSet.map (fun t => (t.userIdx, t.posItemIdx))
      = s1.data.flatMap (fun p => List.replicate evalNumNeg (p.userIdx, p.posItemIdx)) ∧
    ∀ (fuel2 : Nat) (testDataset : List (DatasetElem K)) (s2 : BPREngine K G),
      s1.initTest mt dis iterOrder shuffle fuel2 testDataset = some s2 →
      s2.testEvalSet.length = evalNumNeg *
        (testDataset.filter (fun e => decide (1 ≤ e.value ∧ s1.userIndex.Present e.userId ∧
          s1.itemIndex.Present e.itemId))).length := by
  obtain ⟨n1, n2, n3⟩ := BPREngine.new_inv config metricsEngine evalNumNeg evalSeed parallel gen0 lr0
  obtain ⟨g, hU, hI, hd, hus, his, hdl, him, hfold, hnn, _, _, _, _⟩ := BPREngine.init_some mt dis
    unif fuel _ s1 dataset n1 n2 n3 (Nat.le_refl _) (Nat.le_refl _) hinit
  have hflat : ∀ {A : Type} (l : List A) (f : A → Nat × Nat) (k : Nat),
      (l.flatMap (fun a => List.replicate k (f a))).length = k * l.length := by
    intro A l f k
    induction l with
    | nil => simp
    | cons a l ih =>
      rw [List.flatMap_cons, List.length_append, ih, List.length_replicate, List.length_cons]
      ring
  obtain ⟨ts, e1, m1, _⟩ := BPREngine.foldlM_sampleTriplets dis fuel s1 false
    PosPair.userIdx PosPair.posItemIdx _ s1.data _ _ _ _ hfold
  have e2 : s1.evalSet = ts := by rw [e1]; rfl
  have hmap : s1.evalSet.map (fun t => (t.userIdx, t.posItemIdx))
      = s1.data.flatMap (fun p => List.replicate evalNumNeg (p.userIdx, p.posItemIdx)) := by
    rw [e2, m1]; rfl
  refine ⟨?_, hmap, ?_⟩
  · have := congrArg List.length hmap
    rw [List.length_map, hflat] at this
    exact this
  · intro fuel2 testDataset s2 htest
    obtain ⟨_, g2, hfold2, _⟩ := BPREngine.initTest_some mt dis iterOrder shuffle
      fuel2 s1 s2 testDataset htest
    obtain ⟨_, _, p3⟩ := s1.populateTest_spec hU hI testDataset
    obtain ⟨ts2, e3, m2, _⟩ := BPREngine.foldlM_sampleTriplets dis fuel2 s2 true
      Prod.fst Prod.snd _ _ _ _ _ _ hfold2
    have e4 : s2.testEvalSet = ts2 := by rw [e3]; rfl
    have hl := congrArg List.length m2
    rw [List.length_map, hflat, ← e4, p3, hnn] at hl
    rw [hl]
    have hdl2 : s1.data.length ≤ dataset.length := by
      simpa [BPREngine.new] using hdl
    have hmiss : IdIndex.missingIdx = 2 ^ 64 - 1 := rfl
    have hfilter : (fun (e : DatasetElem K) => decide (1 ≤ e.value ∧
          s1.userIndex.idx e.userId ≠ IdIndex.missingIdx ∧
          s1.itemIndex.idx e.itemId ≠ IdIndex.missingIdx))
        = (fun (e : DatasetElem K) => decide (1 ≤ e.value ∧ s1.userIndex.Present e.userId ∧
          s1.itemIndex.Present e.itemId)) := by
      funext e
      apply decide_eq_decide.2
      rw [s1.userIndex.present_iff hU (by rw [hmiss]; omega),
        s1.itemIndex.present_iff hI (by rw [hmiss]; omega)]
    rw [hfilter]
    rfl

/-! ## Theorems: BPR on the unit-test data -/

theorem BPREngine.update_step_witness :
    testBPREngine.predictDifference 0 0 1 = some 0 ∧
    ∃ U2 Q2, testBPREngine.update testExp ⟨0, 0, 1⟩
        = some { testBPREngine with userFactors := some U2, itemFactors := some Q2 } ∧
      U2.getAt 0 0 = 1/20 ∧ Q2.biases.get 0 = 1/20 := by
  obtain ⟨xhat, U2, Q2, h1, h2, h3, h4, _, _, _, _, h9, _⟩ :=
    BPREngine.update_step testExp testBPREngine ⟨false, ⟨1, 2, [0, 0]⟩, ⟨[]⟩⟩
      ⟨true, ⟨2, 2, [1, 0, 0, 1]⟩, ⟨[0, 0]⟩⟩ 0 0 1 rfl rfl (by decide) (by decide) rfl rfl
      (by decide) (by decide) (by decide) (by decide) rfl (fun _ => rfl)
  have hx : xhat = 0 := by rw [h2]; decide!
  subst hx
  refine ⟨h1, U2, Q2, h3, ?_, ?_⟩
  · rw [h4 0 (by decide)]; decide!
  · rw [(h9 rfl).1]; decide!

theorem testUniformInt_inRange : UniformInt.InRange testUniformInt := by
  intro a b g hab
  have hpos : 0 < b - a + 1 := by omega
  have h1 := Int.emod_nonneg (g : Int) (ne_of_gt hpos)
  have h2 := Int.emod_lt_of_pos (g : Int) hpos
  simp only [testUniformInt]
  constructor <;> omega

theorem testBPRInitTest_isSome : testBPRInitTest.isSome = true := by decide!

theorem testBPRInitTest_some :
    ∃ s1 s2, testBPRInit = some s1 ∧
      s1.initTest testMt testUniformInt id (fun l _ => l) 10 testTestDataset = some s2 := by
  obtain ⟨s2, h⟩ := Option.isSome_iff_exists.1 testBPRInitTest_isSome
  obtain ⟨s1, h1, h2⟩ := Option.bind_eq_some.1 h
  exact ⟨s1, s2, h1, h2⟩

theorem BPREngine.sampled_negatives_not_positive_witness :
    UniformInt.InRange testUniformInt ∧
    ∃ s1 s2, testBPRInit = some s1 ∧
      s1.initTest testMt testUniformInt id (fun l _ => l) 10 testTestDataset = some s2 ∧
      (∀ t ∈ s1.evalSet, ∃ userPosSet, s1.itemMap[t.userIdx]? = some userPosSet ∧
        t.posItemIdx ∈ userPosSet ∧ t.negItemIdx < s1.nitems ∧ t.negItemIdx ∉ userPosSet) ∧
      ∀ t ∈ s2.testEvalSet, ∃ userPosSet, s2.testItemMap[t.userIdx]? = some userPosSet ∧
        t.posItemIdx ∈ userPosSet ∧ t.negItemIdx ∉ userPosSet := by
  obtain ⟨s1, s2, h1, h2⟩ := testBPRInitTest_some
  have h := BPREngine.sampled_negatives_not_positive testMt testUniformInt testUniformReal id
    (fun l _ => l) testUniformInt_inRange testBPRConfig none 2 42 ⟨16, by decide⟩ 0 0 10
    testTrainDataset s1 h1
  exact ⟨testUniformInt_inRange, s1, s2, h1, h2, h.1, h.2 10 testTestDataset s2 h2⟩

theorem BPREngine.eval_set_sizes_witness :
    testTrainDataset.length < 2 ^ 64 ∧
    ∃ s1 s2, testBPRInit = some s1 ∧
      s1.initTest testMt testUniformInt id (fun l _ => l) 10 testTestDataset = some s2 ∧
      s1.evalSet.length = 2 * s1.data.length ∧
      s2.testEvalSet.length = 2 *
        (testTestDataset.filter (fun e => decide (1 ≤ e.value ∧ s1.userIndex.Present e.userId ∧
          s1.itemIndex.Present e.itemId))).length := by
  obtain ⟨s1, s2, h1, h2⟩ := testBPRInitTest_some
  have h := BPREngine.eval_set_sizes testMt testUniformInt testUniformReal id
    (fun l _ => l) testBPRConfig none 2 42 ⟨16, by decide⟩ 0 0 10
    testTrainDataset s1 (by decide) h1
  exact ⟨by decide, s1, s2, h1, h2, h.1, h.2.2 10 testTestDataset s2 h2⟩

/-! ## Theorems: symmetric solver -/

/-- On a product below 2^64 the `size_t` product of the constructor is the
product. -/
theorem Matrix.new_of_lt {K : Type} [Zero K] (nrows ncols : Nat)
    (hb : nrows * ncols < 2 ^ 64) :
    (Matrix.new nrows ncols : Option (Matrix K))
      = if nrows * ncols > 0 then some ⟨nrows, ncols, List.replicate (nrows * ncols) 0⟩
        else none := by
  unfold Matrix.new
  rw [Nat.mod_eq_of_lt hb]

theorem Matrix.new_spec {K : Type} [Zero K] (nrows ncols : Nat) (h : 0 < nrows * ncols)
    (hb : nrows * ncols < 2 ^ 64) :
    ∃ M : Matrix K, Matrix.new nrows ncols = some M ∧ M.nrows = nrows ∧ M.ncols = ncols ∧ M.WF ∧
      ∀ r c, M.get r c = 0 := by
  refine ⟨⟨nrows, ncols, List.replicate (nrows * ncols) 0⟩,
    by rw [Matrix.new_of_lt nrows ncols hb, if_pos h], rfl, rfl, by simp [Matrix.WF], ?_⟩
  intro r c
  unfold Matrix.get
  rw [List.getD_eq_getElem?_getD]
  by_cases hlt : Matrix.index (⟨nrows, ncols, List.replicate (nrows * ncols) 0⟩ : Matrix K) r c
      < nrows * ncols
  · simp [List.getElem?_replicate, hlt]
  · simp [List.getElem?_replicate, hlt]

/-- The method `transpose` succeeds on a matrix with positive dimensions and
fewer than 2^64 elements, and swaps the indices. -/
theorem Matrix.transpose_spec {K : Type} [Zero K] (M : Matrix K) (hr : 0 < M.nrows)
    (hc : 0 < M.ncols) (hb : M.nrows * M.ncols < 2 ^ 64) :
    ∃ T, M.transpose = some T ∧ T.nrows = M.ncols ∧ T.ncols = M.nrows ∧ T.WF ∧
      ∀ i j, i < M.nrows → j < M.ncols → T.get j i = M.get i j := by
  obtain ⟨T0, h0, h1, h2, h3, _⟩ := Matrix.new_spec (K := K) M.ncols M.nrows (Nat.mul_pos hc hr)
    (by rw [Nat.mul_comm]; exact hb)
  have hloop : (List.range M.nrows).foldl (fun (T : Matrix K) i =>
        (List.range M.ncols).foldl (fun (T : Matrix K) j => T.set j i (M.get i j)) T) T0
      = (((List.range M.nrows).product (List.range M.ncols)).map (fun p => (p.2, p.1))).foldl
          (fun T q => T.set q.1 q.2 ((fun (q : Nat × Nat) (_ : K) => M.get q.2 q.1) q (T.get q.1 q.2)))
          T0 := by
    rw [foldl_product (fun (T : Matrix K) i j => T.set j i (M.get i j)), List.foldl_map]
  have hm := Matrix.foldl_modify (fun (q : Nat × Nat) (_ : K) => M.get q.2 q.1)
    (((List.range M.nrows).product (List.range M.ncols)).map (fun p => (p.2, p.1))) T0 h3
    (fun q hq => by
      obtain ⟨p, hp, rfl⟩ := List.mem_map.1 hq
      have := mem_product_range.1 (show (p.1, p.2) ∈ _ from hp)
      rw [h1, h2]; exact ⟨this.2, this.1⟩)
    (((List.nodup_range _).product (List.nodup_range _)).map
      (fun a b h => Prod.ext (Prod.mk.inj h).2 (Prod.mk.inj h).1))
  refine ⟨_, by unfold Matrix.transpose; rw [h0, Option.map_some', hloop], hm.1.trans h1,
    hm.2.1.trans h2, hm.2.2.1, ?_⟩
  intro i j hi hj
  rw [hm.2.2.2 j i (by rw [h2]; exact hi), if_pos]
  exact List.mem_map.2 ⟨(i, j), mem_product_range.2 ⟨hi, hj⟩, rfl⟩

theorem sum_range_fin {K : Type} [AddCommMonoid K] (n : Nat) (f : Nat → K) :
    ∑ j ∈ Finset.range n, f j = ∑ j : Fin n, f j := by
  rw [Finset.sum_range]

/-- The Cramer-rule reference solver honours the contract of `dsysv_`. -/
theorem cramerDsysv_exact {K : Type} [Field K] [DecidableEq K] :
    Dsysv.Exact (cramerDsysv : Dsysv K) := by
  intro n a b lwork hn ha hb hl hns
  obtain ⟨S, hS⟩ : ∃ S : MathMatrix n K, S = fun (i j : Fin n) => upperSymmetric n a i j :=
    ⟨_, rfl⟩
  have hSij : ∀ (i j : Fin n), upperSymmetric n a i j = S i j := by
    intro i j; rw [hS]
  have hdet : S.det ≠ 0 := by
    intro hzero
    obtain ⟨v, hv, hSv⟩ := Matrix.exists_mulVec_eq_zero_iff.2 hzero
    apply hv
    funext k
    have := hns (fun j => if h : j < n then v ⟨j, h⟩ else 0) (by
      intro i hi
      rw [sum_range_fin]
      have h2 := congrFun hSv ⟨i, hi⟩
      simp only [Matrix.mulVec, Matrix.dotProduct, Pi.zero_apply] at h2
      rw [← h2]
      refine Finset.sum_congr rfl fun j _ => ?_
      rw [hSij ⟨i, hi⟩ j]
      simp) k.1 k.2
    simpa using this
  have hcall : cramerDsysv "Upper" n 1 a n b n lwork
      = ((List.finRange n).map (fun i => (S.det)⁻¹ * Matrix.cramer S (fun k => b.getD k 0) i), 0) := by
    unfold cramerDsysv
    simp only [← hS, hdet, if_false]
  rw [hcall]
  refine ⟨rfl, by simp, ?_⟩
  intro i hi
  rw [sum_range_fin]
  have hc := Matrix.mulVec_cramer S (fun k : Fin n => b.getD k 0)
  have h2 := congrFun hc ⟨i, hi⟩
  simp only [Matrix.mulVec, Matrix.dotProduct, Pi.smul_apply, smul_eq_mul] at h2
  have h3 : ∀ j : Fin n,
      ((List.finRange n).map (fun i => (S.det)⁻¹
        * Matrix.cramer S (fun k => b.getD k 0) i)).getD j 0
      = (S.det)⁻¹ * Matrix.cramer S (fun k => b.getD k 0) j := by
    intro j
    rw [List.getD_eq_getElem?_getD, List.getElem?_map, List.getElem?_eq_getElem (by simp)]
    simp
  have h4 : ∑ j : Fin n, upperSymmetric n a i j
        * ((List.finRange n).map (fun i => (S.det)⁻¹
            * Matrix.cramer S (fun k => b.getD k 0) i)).getD j 0
      = (S.det)⁻¹ * ∑ j : Fin n, S ⟨i, hi⟩ j * Matrix.cramer S (fun k => b.getD k 0) j := by
    rw [Finset.mul_sum]
    refine Finset.sum_congr rfl fun j _ => ?_
    rw [h3 j, hSij ⟨i, hi⟩ j]; ring
  rw [h4, h2, ← mul_assoc, inv_mul_cancel₀ hdet, one_mul]

/-- C10: `linearSymmetricSolve(A, b)`, in exact arithmetic and with `dsysv_`
honouring its contract. It aborts when `A` is not square, when the length of
`b` differs from the order of `A`, and when `dsysv_` reports `info ≠ 0`; for a
symmetric nonsingular `A` of order `n` (its `n * n` elements are in a
`std::vector`, so there are fewer than 2^64 of them) and `b` of length `n` it
returns a vector `x` of length `n` with `A x = b`. `A` and `b` are passed by
value: the caller's objects are not touched. -/
theorem linearSymmetricSolve_spec {K : Type} [Field K] (dsysv : Dsysv K)
    (hexact : Dsysv.Exact dsysv) (A : Matrix K) (b : Vector K) (hwf : A.WF)
    (hr : 0 < A.nrows) (hc : 0 < A.ncols) :
    (A.nrows ≠ A.ncols → linearSymmetricSolve dsysv A b = none) ∧
    (A.nrows ≠ b.size → linearSymmetricSolve dsysv A b = none) ∧
    (∀ At, A.nrows = A.ncols → A.nrows = b.size → A.transpose = some At →
      (dsysv "Upper" A.nrows 1 At.data A.nrows b.data A.nrows A.nrows).2 ≠ 0 →
      linearSymmetricSolve dsysv A b = none) ∧
    (A.nrows = A.ncols → A.nrows = b.size → A.nrows * A.ncols < 2 ^ 64 → A.Symmetric →
      A.Nonsingular →
      ∃ x, linearSymmetricSolve dsysv A b = some x ∧ x.size = A.nrows ∧
        ∀ i, i < A.nrows → ∑ j ∈ Finset.range A.ncols, A.get i j * x.get j = b.get i) := by
  refine ⟨?_, ?_, ?_, ?_⟩
  · intro h
    unfold linearSymmetricSolve
    rw [if_pos h]
  · intro h
    unfold linearSymmetricSolve
    by_cases h1 : A.nrows ≠ A.ncols
    · rw [if_pos h1]
    · rw [if_neg h1, if_pos h]
  · intro At h1 h2 h3 h4
    unfold linearSymmetricSolve
    rw [if_neg (not_not.2 h1), if_neg (not_not.2 h2)]
    simp only [h3]
    rw [if_pos h4]
  · intro h1 h2 hsize hsym hns
    obtain ⟨T, hT, t1, t2, t3, t4⟩ := A.transpose_spec hr hc hsize
    have hlen : T.data.length = A.nrows * A.nrows := by
      rw [t3, t1, t2, ← h1]
    have hup : ∀ i j, i < A.nrows → j < A.nrows → upperSymmetric A.nrows T.data i j = A.get i j := by
      intro i j hi hj
      unfold upperSymmetric
      by_cases hij : i ≤ j
      · rw [if_pos hij, ← t4 i j hi (h1 ▸ hj)]
        unfold Matrix.get Matrix.index
        rw [t2, Nat.add_comm]
      · rw [if_neg hij, hsym i hi j (h1 ▸ hj), ← t4 j i hj (h1 ▸ hi)]
        unfold Matrix.get Matrix.index
        rw [t2, Nat.add_comm]
    have hns2 : ∀ x : Nat → K,
        (∀ i, i < A.nrows →
          ∑ j ∈ Finset.range A.nrows, upperSymmetric A.nrows T.data i j * x j = 0) →
        ∀ j, j < A.nrows → x j = 0 := by
      intro x hx j hj
      refine hns x (fun i hi => ?_) j (h1 ▸ hj)
      rw [← hx i hi, ← h1]
      refine Finset.sum_congr rfl fun l hl => ?_
      rw [hup i l hi (Finset.mem_range.1 hl)]
    obtain ⟨e1, e2, e3⟩ := hexact A.nrows T.data b.data A.nrows hr hlen h2.symm hr hns2
    refine ⟨⟨(dsysv "Upper" A.nrows 1 T.data A.nrows b.data A.nrows A.nrows).1⟩, ?_, e2, ?_⟩
    · unfold linearSymmetricSolve
      rw [if_neg (not_not.2 h1), if_neg (not_not.2 h2)]
      simp only [hT]
      rw [if_neg (not_not.2 e1)]
    · intro i hi
      rw [← h1]
      have := e3 i hi
      unfold Vector.get
      rw [← this]
      refine Finset.sum_congr rfl fun l hl => ?_
      rw [hup i l hi (Finset.mem_range.1 hl)]

theorem testA_nonsingular : testA.Nonsingular := by
  intro x hx j hj
  have h0 := hx 0 (by decide)
  have h1 := hx 1 (by decide)
  have e00 : testA.get 0 0 = 2 := by decide!
  have e01 : testA.get 0 1 = 1 := by decide!
  have e10 : testA.get 1 0 = 1 := by decide!
  have e11 : testA.get 1 1 = 2 := by decide!
  have hc : testA.ncols = 2 := rfl
  rw [hc] at h0 h1 hj
  simp only [Finset.sum_range_succ, Finset.sum_range_zero, zero_add, e00, e01, e10, e11] at h0 h1
  interval_cases j
  · linarith
  · linarith

theorem linearSymmetricSolve_spec_witness :
    testA.WF ∧ testA.Symmetric ∧
    linearSymmetricSolve cramerDsysv testA testB = some ⟨[1, 1]⟩ ∧
    linearSymmetricSolve cramerDsysv testA ⟨[3, 3, 3]⟩ = none ∧
    ∃ x, linearSymmetricSolve cramerDsysv testA testB = some x ∧ x.size = testA.nrows ∧
      ∀ i, i < testA.nrows →
        ∑ j ∈ Finset.range testA.ncols, testA.get i j * x.get j = testB.get i :=
  ⟨by decide, by decide!, by decide!, by decide!,
    (linearSymmetricSolve_spec cramerDsysv cramerDsysv_exact testA testB (by decide) (by decide)
      (by decide)).2.2.2 rfl rfl (by decide) (by decide!) testA_nonsingular⟩

/-! ## Theorems: IdIndex -/

/-- The converse of `IdIndex.Inv`: every slot of `ids_` is mapped back by `idxMap_`. -/
theorem IdIndex.cov_getOrSetIdx (ix : IdIndex)
    (hcov : ∀ i x, ix.ids[i]? = some x → ix.idxMap.lookup x = some i) (id : Int) :
    ∀ i x, (ix.getOrSetIdx id).2.ids[i]? = some x → (ix.getOrSetIdx id).2.idxMap.lookup x = some i := by
  unfold IdIndex.getOrSetIdx
  cases h : ix.idxMap.lookup id with
  | some pos => exact hcov
  | none =>
    intro i x hx
    simp only at hx ⊢
    by_cases hi : i < ix.ids.length
    · rw [List.getElem?_append_left hi] at hx
      have hl := hcov i x hx
      have hne : (x == id) = false := by
        apply beq_false_of_ne
        rintro rfl
        rw [h] at hl; exact Option.noConfusion hl
      rw [List.lookup_cons, hne]; exact hl
    · have hge : ix.ids.length ≤ i := Nat.le_of_not_lt hi
      rw [List.getElem?_append_right hge] at hx
      have h0 : i - ix.ids.length = 0 := by
        by_contra hne
        rw [List.getElem?_eq_none (by simp; omega)] at hx
        exact Option.noConfusion hx
      rw [h0] at hx
      simp only [List.getElem?_cons_zero, Option.some.injEq] at hx
      subst hx
      rw [List.lookup_cons, beq_self_eq_true]
      simp only [Option.some.injEq]
      omega

theorem IdIndex.mem_ids_iff (ix : IdIndex) (hinv : ix.Inv)
    (hcov : ∀ i x, ix.ids[i]? = some x → ix.idxMap.lookup x = some i) (x : Int) :
    x ∈ ix.ids ↔ ∃ pos, ix.idxMap.lookup x = some pos := by
  constructor
  · intro hx
    obtain ⟨i, hi⟩ := List.getElem?_of_mem hx
    exact ⟨i, hcov i x hi⟩
  · rintro ⟨pos, hpos⟩
    exact List.getElem?_mem (hinv x pos hpos)

theorem IdIndex.ids_getOrSetIdx (ix : IdIndex) (hinv : ix.Inv)
    (hcov : ∀ i x, ix.ids[i]? = some x → ix.idxMap.lookup x = some i) (id : Int) :
    (id ∈ ix.ids → ix.getOrSetIdx id = (ix.idx id, ix)) ∧
    (id ∉ ix.ids → ix.getOrSetIdx id = (ix.size, ⟨ix.ids ++ [id], (id, ix.size) :: ix.idxMap⟩)) := by
  constructor
  · intro hmem
    obtain ⟨pos, hpos⟩ := (ix.mem_ids_iff hinv hcov id).1 hmem
    unfold IdIndex.getOrSetIdx IdIndex.idx
    rw [hpos]
  · intro hmem
    have hnone : ix.idxMap.lookup id = none := by
      cases h : ix.idxMap.lookup id with
      | none => rfl
      | some pos => exact absurd ((ix.mem_ids_iff hinv hcov id).2 ⟨pos, h⟩) hmem
    unfold IdIndex.getOrSetIdx IdIndex.size
    rw [hnone]

/-- What a sequence of `getOrSetIdx` calls on an empty index has built: both
directions of the invariant, and `ids_` holds exactly the ids of the calls. -/
theorem IdIndex.afterCalls_spec (calls : List Int) :
    (IdIndex.afterCalls calls).Inv ∧
    (∀ i x, (IdIndex.afterCalls calls).ids[i]? = some x →
      (IdIndex.afterCalls calls).idxMap.lookup x = some i) ∧
    (∀ x, x ∈ (IdIndex.afterCalls calls).ids ↔ x ∈ calls) := by
  induction calls using List.reverseRecOn with
  | nil =>
    refine ⟨IdIndex.inv_empty, ?_, ?_⟩
    · intro i x h; simp [IdIndex.afterCalls, IdIndex.empty] at h
    · intro x; simp [IdIndex.afterCalls, IdIndex.empty]
  | append_singleton calls id ih =>
    obtain ⟨hinv, hcov, hmem⟩ := ih
    have hstep : IdIndex.afterCalls (calls ++ [id])
        = ((IdIndex.afterCalls calls).getOrSetIdx id).2 := by
      simp [IdIndex.afterCalls, List.foldl_append]
    rw [hstep]
    refine ⟨IdIndex.inv_getOrSetIdx _ hinv id, IdIndex.cov_getOrSetIdx _ hcov id, ?_⟩
    intro x
    obtain ⟨h1, h2⟩ := IdIndex.ids_getOrSetIdx _ hinv hcov id
    by_cases hid : id ∈ (IdIndex.afterCalls calls).ids
    · rw [h1 hid]
      simp only [List.mem_append, List.mem_singleton, hmem]
      constructor
      · intro h; exact Or.inl h
      · rintro (h | rfl)
        · exact h
        · exact (hmem x).1 hid
    · rw [h2 hid]
      simp only [List.mem_append, List.mem_singleton, hmem]

theorem IdIndex.afterCalls_append (calls more : List Int) :
    IdIndex.afterCalls (calls ++ more)
      = more.foldl (fun ix id => (ix.getOrSetIdx id).2) (IdIndex.afterCalls calls) := by
  simp [IdIndex.afterCalls, List.foldl_append]

/-- Later calls never reassign: the lookup of a present id is stable. -/
theorem IdIndex.lookup_stable (more : List Int) (ix : IdIndex) (x : Int) (pos : Nat)
    (h : ix.idxMap.lookup x = some pos) :
    (more.foldl (fun ix id => (ix.getOrSetIdx id).2) ix).idxMap.lookup x = some pos := by
  induction more generalizing ix with
  | nil => exact h
  | cons id more ih =>
    simp only [List.foldl_cons]
    apply ih
    unfold IdIndex.getOrSetIdx
    cases hl : ix.idxMap.lookup id with
    | some p => exact h
    | none =>
      have hne : (x == id) = false := by
        apply beq_false_of_ne
        rintro rfl
        rw [hl] at h; exact Option.noConfusion h
      simp only [List.lookup_cons, hne]; exact h

/-- C20: on the index built by any sequence `calls` of `getOrSetIdx` calls from
an empty `IdIndex`: a further call with a new id returns `size()` and grows the
index by one; a call with an inserted id returns its index and changes nothing,
and that index is the one assigned first (later calls keep it); every inserted
`x` has `idx(x) < size()` and `id(idx(x)) = x`; every `i < size()` is the index
of the inserted id `id(i)` (no gaps); an id never inserted has
`idx = missingIdx`, the maximal `size_t`. -/
theorem IdIndex.getOrSetIdx_sequence (calls : List Int) :
    (∀ y, y ∉ calls →
      ((IdIndex.afterCalls calls).getOrSetIdx y).1 = (IdIndex.afterCalls calls).size ∧
      ((IdIndex.afterCalls calls).getOrSetIdx y).2.size = (IdIndex.afterCalls calls).size + 1 ∧
      (IdIndex.afterCalls (calls ++ [y])).idx y = (IdIndex.afterCalls calls).size) ∧
    (∀ x, x ∈ calls →
      (IdIndex.afterCalls calls).getOrSetIdx x
        = ((IdIndex.afterCalls calls).idx x, IdIndex.afterCalls calls)) ∧
    (∀ x, x ∈ calls → ∀ more,
      (IdIndex.afterCalls (calls ++ more)).idx x = (IdIndex.afterCalls calls).idx x) ∧
    (∀ x, x ∈ calls →
      (IdIndex.afterCalls calls).idx x < (IdIndex.afterCalls calls).size ∧
      (IdIndex.afterCalls calls).id ((IdIndex.afterCalls calls).idx x) = x) ∧
    (∀ i, i < (IdIndex.afterCalls calls).size →
      (IdIndex.afterCalls calls).id i ∈ calls ∧
      (IdIndex.afterCalls calls).idx ((IdIndex.afterCalls calls).id i) = i) ∧
    (∀ y, y ∉ calls → (IdIndex.afterCalls calls).idx y = IdIndex.missingIdx) ∧
    IdIndex.missingIdx = 2 ^ 64 - 1 := by
  obtain ⟨hinv, hcov, hmem⟩ := IdIndex.afterCalls_spec calls
  obtain ⟨ix, hix⟩ : ∃ ix, ix = IdIndex.afterCalls calls := ⟨_, rfl⟩
  rw [← hix] at hinv hcov hmem ⊢
  refine ⟨?_, ?_, ?_, ?_, ?_, ?_, rfl⟩
  · intro y hy
    have hnot : y ∉ ix.ids := fun h => hy ((hmem y).1 h)
    have h2 := (ix.ids_getOrSetIdx hinv hcov y).2 hnot
    refine ⟨by rw [h2], by rw [h2]; simp [IdIndex.size], ?_⟩
    rw [IdIndex.afterCalls_append, ← hix]
    simp only [List.foldl_cons, List.foldl_nil]
    rw [h2]
    simp [IdIndex.idx]
  · intro x hx
    exact (ix.ids_getOrSetIdx hinv hcov x).1 ((hmem x).2 hx)
  · intro x hx more
    obtain ⟨pos, hpos⟩ := (ix.mem_ids_iff hinv hcov x).1 ((hmem x).2 hx)
    rw [IdIndex.afterCalls_append, ← hix]
    rw [IdIndex.idx_of_lookup _ x pos (IdIndex.lookup_stable more ix x pos hpos),
      ix.idx_of_lookup x pos hpos]
  · intro x hx
    obtain ⟨pos, hpos⟩ := (ix.mem_ids_iff hinv hcov x).1 ((hmem x).2 hx)
    rw [ix.idx_of_lookup x pos hpos]
    refine ⟨ix.lookup_lt hinv x pos hpos, ?_⟩
    unfold IdIndex.id
    rw [List.getD_eq_getElem?_getD, hinv x pos hpos]; rfl
  · intro i hi
    have hi2 : i < ix.ids.length := hi
    have hget : ix.ids[i]? = some (ix.id i) := by
      unfold IdIndex.id
      rw [List.getD_eq_getElem?_getD, List.getElem?_eq_getElem hi2]; rfl
    exact ⟨(hmem _).1 (List.getElem?_mem hget), ix.idx_of_lookup _ i (hcov i _ hget)⟩
  · intro y hy
    have hnot : y ∉ ix.ids := fun h => hy ((hmem y).1 h)
    unfold IdIndex.idx
    cases h : ix.idxMap.lookup y with
    | none => rfl
    | some pos => exact absurd ((ix.mem_ids_iff hinv hcov y).2 ⟨pos, h⟩) hnot

theorem IdIndex.getOrSetIdx_sequence_witness :
    (IdIndex.afterCalls [1, 2, 4, 3, 2]).size = 4 ∧
    (IdIndex.afterCalls [1, 2, 4, 3, 2]).idx 4 = 2 ∧
    (IdIndex.afterCalls [1, 2, 4, 3, 2]).idx 5 = 18446744073709551615 ∧
    (∀ x, x ∈ [1, 2, 4, 3, 2] →
      (IdIndex.afterCalls [1, 2, 4, 3, 2]).idx x < (IdIndex.afterCalls [1, 2, 4, 3, 2]).size ∧
      (IdIndex.afterCalls [1, 2, 4, 3, 2]).id ((IdIndex.afterCalls [1, 2, 4, 3, 2]).idx x) = x) :=
  ⟨by decide, by decide, by decide, (IdIndex.getOrSetIdx_sequence [1, 2, 4, 3, 2]).2.2.2.1⟩

/-! ## Theorems: WALS grouping of the signals -/

theorem datasetLess_false {K : Type} {x y : DatasetElem K} (h : datasetLess y x = false) :
    x.userId ≤ y.userId ∧ (y.userId = x.userId → x.itemId ≤ y.itemId) := by
  unfold datasetLess at h
  by_cases hu : y.userId = x.userId
  · simp only [hu, ne_eq, not_true_eq_false, if_false, decide_eq_false_iff_not, not_lt] at h
    exact ⟨by omega, fun _ => h⟩
  · simp only [ne_eq, hu, not_false_eq_true, if_true, decide_eq_false_iff_not, not_lt] at h
    exact ⟨h, fun e => absurd e hu⟩

/-- The invariant of the grouping loop of `groupSignals` over a sorted dataset:
the groups closed so far have strictly ascending source ids, all below the ids
still to come, and every group (also the open one) has ascending signal ids. -/
theorem groupStep_foldl_inv {K : Type} (rest : List (DatasetElem K))
    (hsorted : rest.Pairwise (fun x y => datasetLess y x = false)) (st : GroupState K)
    (h1 : (st.signals.map (fun g => g.sourceId)).Pairwise (fun a b => a < b))
    (h2 : ∀ g ∈ st.signals, ∀ e ∈ rest, g.sourceId < e.userId)
    (h3 : st.prevId ≠ InvalidId →
      (∀ g ∈ st.signals, g.sourceId < st.prevId) ∧ ∀ e ∈ rest, st.prevId ≤ e.userId)
    (h4 : (st.group.map (fun s => s.id)).Pairwise (fun a b => a ≤ b))
    (h4r : ∀ s ∈ st.group, ∀ e ∈ rest, e.userId = st.prevId → s.id ≤ e.itemId)
    (h5 : ∀ g ∈ st.signals, (g.group.map (fun s => s.id)).Pairwise (fun a b => a ≤ b)) :
    (((rest.foldl groupStep st).signals.map (fun g => g.sourceId)).Pairwise (fun a b => a < b)) ∧
    ((rest.foldl groupStep st).prevId ≠ InvalidId →
      ∀ g ∈ (rest.foldl groupStep st).signals, g.sourceId < (rest.foldl groupStep st).prevId) ∧
    (((rest.foldl groupStep st).group.map (fun s => s.id)).Pairwise (fun a b => a ≤ b)) ∧
    (∀ g ∈ (rest.foldl groupStep st).signals,
      (g.group.map (fun s => s.id)).Pairwise (fun a b => a ≤ b)) := by
  induction rest generalizing st with
  | nil => exact ⟨h1, fun h => (h3 h).1, h4, h5⟩
  | cons e rest ih =>
    simp only [List.foldl_cons]
    obtain ⟨hhead, htail⟩ := List.pairwise_cons.1 hsorted
    have hle : ∀ e2 ∈ rest, e.userId ≤ e2.userId := fun e2 he2 => (datasetLess_false (hhead e2 he2)).1
    have hit : ∀ e2 ∈ rest, e2.userId = e.userId → e.itemId ≤ e2.itemId :=
      fun e2 he2 => (datasetLess_false (hhead e2 he2)).2
    have hmem : e ∈ e :: rest := List.mem_cons_self _ _
    by_cases hu : e.userId = st.prevId
    · -- the element continues the open group
      have hst : groupStep st e = { st with group := st.group ++ [⟨e.itemId, e.value⟩] } := by
        unfold groupStep
        simp only [if_neg (show ¬ e.userId ≠ st.prevId from not_not.2 hu)]
      rw [hst]
      apply ih htail
      · exact h1
      · exact fun g hg e2 he2 => h2 g hg e2 (List.mem_cons_of_mem _ he2)
      · intro hp
        exact ⟨(h3 hp).1, fun e2 he2 => (h3 hp).2 e2 (List.mem_cons_of_mem _ he2)⟩
      · simp only [List.map_append, List.map_cons, List.map_nil]
        rw [List.pairwise_append]
        refine ⟨h4, List.pairwise_singleton _ _, ?_⟩
        intro a ha b hb
        obtain ⟨s, hs, rfl⟩ := List.mem_map.1 ha
        rw [List.mem_singleton] at hb; subst hb
        exact h4r s hs e hmem hu
      · intro s hs e2 he2 heq
        simp only at heq
        rcases List.mem_append.1 hs with hs | hs
        · exact h4r s hs e2 (List.mem_cons_of_mem _ he2) heq
        · rw [List.mem_singleton] at hs; subst hs
          exact hit e2 he2 (heq.trans hu.symm)
      · exact h5
    · by_cases hp : st.prevId = InvalidId
      · -- nothing to close
        have hst : groupStep st e = ⟨st.signals, e.userId, [⟨e.itemId, e.value⟩]⟩ := by
          unfold groupStep
          simp only [if_pos (show e.userId ≠ st.prevId from hu),
            if_neg (show ¬ st.prevId ≠ InvalidId from not_not.2 hp), List.nil_append]
        rw [hst]
        apply ih htail
        · exact h1
        · exact fun g hg e2 he2 => h2 g hg e2 (List.mem_cons_of_mem _ he2)
        · intro _
          exact ⟨fun g hg => h2 g hg e hmem, hle⟩
        · exact List.pairwise_singleton _ _
        · intro s hs e2 he2 heq
          rw [List.mem_singleton] at hs; subst hs
          exact hit e2 he2 heq
        · exact h5
      · -- the open group is closed and a new one starts
        have hst : groupStep st e
            = ⟨st.signals ++ [⟨st.prevId, st.group⟩], e.userId, [⟨e.itemId, e.value⟩]⟩ := by
          unfold groupStep
          simp only [if_pos (show e.userId ≠ st.prevId from hu),
            if_pos (show st.prevId ≠ InvalidId from hp), List.nil_append]
        rw [hst]
        obtain ⟨h3a, h3b⟩ := h3 hp
        have hlt : st.prevId < e.userId := by
          have := h3b e hmem
          omega
        apply ih htail
        · simp only [List.map_append, List.map_cons, List.map_nil]
          rw [List.pairwise_append]
          refine ⟨h1, List.pairwise_singleton _ _, ?_⟩
          intro a ha b hb
          obtain ⟨g, hg, rfl⟩ := List.mem_map.1 ha
          rw [List.mem_singleton] at hb; subst hb
          exact h3a g hg
        · intro g hg e2 he2
          rcases List.mem_append.1 hg with hg | hg
          · exact h2 g hg e2 (List.mem_cons_of_mem _ he2)
          · rw [List.mem_singleton] at hg; subst hg
            have := hle e2 he2
            simp only; omega
        · intro _
          refine ⟨?_, hle⟩
          intro g hg
          rcases List.mem_append.1 hg with hg | hg
          · exact h2 g hg e hmem
          · rw [List.mem_singleton] at hg; subst hg
            exact hlt
        · exact List.pairwise_singleton _ _
        · intro s hs e2 he2 heq
          rw [List.mem_singleton] at hs; subst hs
          exact hit e2 he2 heq
        · intro g hg
          rcases List.mem_append.1 hg with hg | hg
          · exact h5 g hg
          · rw [List.mem_singleton] at hg; subst hg
            exact h4

theorem IdIndex.afterCalls_ids_of_nodup (calls : List Int) (hnd : calls.Nodup) :
    (IdIndex.afterCalls calls).ids = calls := by
  induction calls using List.reverseRecOn with
  | nil => rfl
  | append_singleton calls id ih =>
    have hnd2 := List.nodup_append.1 hnd
    obtain ⟨hinv, hcov, hmem⟩ := IdIndex.afterCalls_spec calls
    have hnot : id ∉ (IdIndex.afterCalls calls).ids := by
      intro h
      exact hnd2.2.2 ((hmem id).1 h) (List.mem_singleton_self id)
    rw [IdIndex.afterCalls_append]
    simp only [List.foldl_cons, List.foldl_nil]
    rw [((IdIndex.afterCalls calls).ids_getOrSetIdx hinv hcov id).2 hnot, ih hnd2.1]

/-- The index loop of `groupSignals` on groups with distinct source ids and an
empty index: no `CHECK_EQ` fails and the index holds the source ids in order. -/
theorem indexGroups_of_nodup {K : Type} (signals : List (SignalGroup K))
    (hnd : (signals.map (fun g => g.sourceId)).Nodup) :
    indexGroups signals IdIndex.empty
      = some (IdIndex.afterCalls (signals.map (fun g => g.sourceId))) := by
  have key : ∀ n, n ≤ signals.length →
      (List.range n).foldlM
        (fun index i =>
          match signals[i]? with
          | none => none
          | some g =>
            let r := IdIndex.getOrSetIdx index g.sourceId
            if r.1 = i then some r.2 else none)
        IdIndex.empty
      = some (IdIndex.afterCalls ((signals.take n).map (fun g => g.sourceId))) := by
    intro n
    induction n with
    | zero => intro _; rfl
    | succ n ih =>
      intro hn
      have hlt : n < signals.length := hn
      rw [List.range_succ, List.foldlM_append, ih (Nat.le_of_lt hlt)]
      have htake : signals.take (n + 1) = signals.take n ++ [signals[n]] := by
        rw [List.take_succ, List.getElem?_eq_getElem hlt]; rfl
      have hnd1 : ((signals.take (n + 1)).map (fun g => g.sourceId)).Nodup := by
        have hsub : ((signals.take (n + 1)).map (fun g => g.sourceId)).Sublist
            (signals.map (fun g => g.sourceId)) := (List.take_sublist _ _).map _
        exact hsub.nodup hnd
      rw [htake, List.map_append] at hnd1
      have hnd2 := List.nodup_append.1 hnd1
      obtain ⟨hinv, hcov, hmem⟩ :=
        IdIndex.afterCalls_spec ((signals.take n).map (fun g => g.sourceId))
      have hnot : signals[n].sourceId ∉
          (IdIndex.afterCalls ((signals.take n).map (fun g => g.sourceId))).ids := by
        intro h
        exact hnd2.2.2 ((hmem _).1 h) (by simp)
      have hstep := ((IdIndex.afterCalls ((signals.take n).map (fun g => g.sourceId))).ids_getOrSetIdx
        hinv hcov signals[n].sourceId).2 hnot
      have hsize : (IdIndex.afterCalls ((signals.take n).map (fun g => g.sourceId))).size = n := by
        unfold IdIndex.size
        rw [IdIndex.afterCalls_ids_of_nodup _ hnd2.1]
        simp [Nat.min_eq_left (Nat.le_of_lt hlt)]
      simp only [Option.bind_eq_bind, Option.some_bind, List.foldlM_cons, List.foldlM_nil,
        List.getElem?_eq_getElem hlt, Option.pure_def, Option.bind_some]
      rw [hstep, hsize]
      simp only [if_true]
      rw [htake, List.map_append, IdIndex.afterCalls_append]
      simp only [List.map_cons, List.map_nil, List.foldl_cons, List.foldl_nil]
      rw [hstep, hsize]
  have := key signals.length (Nat.le_refl _)
  rw [List.take_length] at this
  exact this

theorem datasetLess_eq_false_iff {K : Type} (x y : DatasetElem K) :
    datasetLess y x = false
      ↔ x.userId < y.userId ∨ (x.userId = y.userId ∧ x.itemId ≤ y.itemId) := by
  unfold datasetLess
  by_cases hu : y.userId = x.userId
  · rw [if_neg (not_not.2 hu), decide_eq_false_iff_not]; omega
  · rw [if_pos hu, decide_eq_false_iff_not]; omega

/-- Insertion sort meets the contract of `std::sort` for the comparator of
`sortDataset`. -/
theorem insertionStdSort_datasetLess {K : Type} :
    StdSort (datasetLess : DatasetElem K → DatasetElem K → Bool) (insertionStdSort datasetLess) := by
  intro l
  haveI : IsTotal (DatasetElem K) (fun x y => datasetLess y x = false) := ⟨by
    intro a b
    rw [datasetLess_eq_false_iff, datasetLess_eq_false_iff]
    omega⟩
  haveI : IsTrans (DatasetElem K) (fun x y => datasetLess y x = false) := ⟨by
    intro a b c
    rw [datasetLess_eq_false_iff, datasetLess_eq_false_iff, datasetLess_eq_false_iff]
    omega⟩
  exact ⟨List.perm_insertionSort _ l, List.sorted_insertionSort _ l⟩

/-- C11: for every dataset (and every `std::sort` meeting its contract),
`groupSignals` on an empty `signals` vector and an empty `IdIndex` returns (no
`CHECK_EQ(idx, i)` fails) groups such that the position of every group `g` in
`signals` is `index.idx(g.sourceId)`, so that distinct groups have distinct
indices (factor rows); the index has exactly one entry per group, the groups
are in strictly ascending `sourceId`, and within each group the signals are in
ascending `id`. -/
theorem groupSignals_positions_sorted {K : Type}
    (stdSort : (DatasetElem K → DatasetElem K → Bool) → List (DatasetElem K) → List (DatasetElem K))
    (hsort : StdSort datasetLess (stdSort datasetLess)) (dataset : List (DatasetElem K)) :
    ∃ signals index sorted,
      groupSignals stdSort [] IdIndex.empty dataset = some (signals, index, sorted) ∧
      (∀ i g, signals[i]? = some g → index.idx g.sourceId = i) ∧
      (∀ (i j : Nat) (g h : SignalGroup K), signals[i]? = some g → signals[j]? = some h →
        index.idx g.sourceId = index.idx h.sourceId → i = j) ∧
      index.size = signals.length ∧
      (signals.map (fun g => g.sourceId)).Pairwise (fun a b => a < b) ∧
      (∀ g ∈ signals, (g.group.map (fun s => s.id)).Pairwise (fun a b => a ≤ b)) := by
  obtain ⟨_, hsorted⟩ := hsort dataset
  obtain ⟨st, hst⟩ : ∃ st : GroupState K,
      st = (stdSort datasetLess dataset).foldl groupStep ⟨[], InvalidId, []⟩ := ⟨_, rfl⟩
  have hinv := groupStep_foldl_inv (stdSort datasetLess dataset) hsorted ⟨[], InvalidId, []⟩
    List.Pairwise.nil (fun g hg => absurd hg (List.not_mem_nil g))
    (fun h => absurd rfl h) List.Pairwise.nil (fun s hs => absurd hs (List.not_mem_nil s))
    (fun g hg => absurd hg (List.not_mem_nil g))
  rw [← hst] at hinv
  obtain ⟨i1, i2, i3, i4⟩ := hinv
  obtain ⟨signals, hsig⟩ : ∃ signals : List (SignalGroup K), signals =
      if st.prevId ≠ InvalidId then st.signals ++ [⟨st.prevId, st.group⟩] else st.signals :=
    ⟨_, rfl⟩
  have hasc : (signals.map (fun g => g.sourceId)).Pairwise (fun a b => a < b) := by
    rw [hsig]
    by_cases hp : st.prevId ≠ InvalidId
    · rw [if_pos hp]
      simp only [List.map_append, List.map_cons, List.map_nil]
      rw [List.pairwise_append]
      refine ⟨i1, List.pairwise_singleton _ _, ?_⟩
      intro a ha b hb
      obtain ⟨g, hg, rfl⟩ := List.mem_map.1 ha
      rw [List.mem_singleton] at hb; subst hb
      exact i2 hp g hg
    · rw [if_neg hp]; exact i1
  have hgrp : ∀ g ∈ signals, (g.group.map (fun s => s.id)).Pairwise (fun a b => a ≤ b) := by
    rw [hsig]
    by_cases hp : st.prevId ≠ InvalidId
    · rw [if_pos hp]
      intro g hg
      rcases List.mem_append.1 hg with hg | hg
      · exact i4 g hg
      · rw [List.mem_singleton] at hg; subst hg
        exact i3
    · rw [if_neg hp]; exact i4
  have hnd : (signals.map (fun g => g.sourceId)).Nodup :=
    hasc.imp (fun h => ne_of_lt h)
  have hrun : groupSignals stdSort [] IdIndex.empty dataset
      = some (signals, IdIndex.afterCalls (signals.map (fun g => g.sourceId)),
          stdSort datasetLess dataset) := by
    unfold groupSignals sortDataset
    simp only
    rw [← hst, ← hsig, indexGroups_of_nodup signals hnd]
    rfl
  obtain ⟨_, hcov, _⟩ := IdIndex.afterCalls_spec (signals.map (fun g => g.sourceId))
  have hids := IdIndex.afterCalls_ids_of_nodup _ hnd
  have hpos : ∀ i g, signals[i]? = some g →
      (IdIndex.afterCalls (signals.map (fun g => g.sourceId))).idx g.sourceId = i := by
    intro i g hg
    apply IdIndex.idx_of_lookup
    apply hcov i
    rw [hids, List.getElem?_map, hg]; rfl
  refine ⟨signals, _, _, hrun, hpos, ?_, ?_, hasc, hgrp⟩
  · intro i j g h hg hh heq
    rw [hpos i g hg, hpos j h hh] at heq
    exact heq
  · unfold IdIndex.size
    rw [hids, List.length_map]

theorem groupSignals_positions_sorted_witness :
    StdSort (datasetLess : DatasetElem ℚ → DatasetElem ℚ → Bool) (insertionStdSort datasetLess) ∧
    groupSignals insertionStdSort [] IdIndex.empty testWALSDataset
      = some ([⟨1, [⟨1, 1⟩, ⟨2, 1⟩, ⟨3, 1⟩]⟩, ⟨2, [⟨1, 1⟩, ⟨3, 1⟩]⟩, ⟨3, [⟨4, 1⟩]⟩],
          ⟨[1, 2, 3], [(3, 2), (2, 1), (1, 0)]⟩,
          [⟨1, 1, 1⟩, ⟨1, 2, 1⟩, ⟨1, 3, 1⟩, ⟨2, 1, 1⟩, ⟨2, 3, 1⟩, ⟨3, 4, 1⟩]) ∧
    ∃ signals index sorted,
      groupSignals insertionStdSort [] IdIndex.empty testWALSDataset
        = some (signals, index, sorted) ∧
      (∀ i g, signals[i]? = some g → index.idx g.sourceId = i) ∧
      (∀ (i j : Nat) (g h : SignalGroup ℚ), signals[i]? = some g → signals[j]? = some h →
        index.idx g.sourceId = index.idx h.sourceId → i = j) ∧
      index.size = signals.length ∧
      (signals.map (fun g => g.sourceId)).Pairwise (fun a b => a < b) ∧
      (∀ g ∈ signals, (g.group.map (fun s => s.id)).Pairwise (fun a b => a ≤ b)) :=
  ⟨insertionStdSort_datasetLess, by decide!,
    groupSignals_positions_sorted insertionStdSort insertionStdSort_datasetLess testWALSDataset⟩

/-! ## Theorems: WALS Gram matrix -/

/-- The operator `+` succeeds on two matrices of one shape with fewer than 2^64
elements and adds element-wise. -/
theorem Matrix.add_spec {K : Type} [Zero K] [Add K] (M X : Matrix K) (hr : 0 < M.nrows)
    (hc : 0 < M.ncols) (hb : M.nrows * M.ncols < 2 ^ 64) (hXr : X.nrows = M.nrows)
    (hXc : X.ncols = M.ncols) :
    ∃ S, M.add X = some S ∧ S.nrows = M.nrows ∧ S.ncols = M.ncols ∧ S.WF ∧
      ∀ i j, i < M.nrows → j < M.ncols → S.get i j = M.get i j + X.get i j := by
  obtain ⟨S0, h0, h1, h2, h3, _⟩ := Matrix.new_spec (K := K) M.nrows M.ncols (Nat.mul_pos hr hc)
    hb
  have hm := Matrix.foldl_modify (fun (p : Nat × Nat) (_ : K) => M.get p.1 p.2 + X.get p.1 p.2)
    ((List.range M.nrows).product (List.range M.ncols)) S0 h3
    (fun p hp => by rw [h1, h2]; exact mem_product_range.1 hp)
    ((List.nodup_range _).product (List.nodup_range _))
  have hrun : M.add X = some (((List.range M.nrows).product (List.range M.ncols)).foldl
      (fun S p => S.set p.1 p.2 ((fun (p : Nat × Nat) (_ : K) => M.get p.1 p.2 + X.get p.1 p.2) p
        (S.get p.1 p.2))) S0) := by
    unfold Matrix.add
    rw [if_neg (not_not.2 hXr.symm), if_neg (not_not.2 hXc.symm), h0, Option.map_some',
      foldl_product (fun (S : Matrix K) i j => S.set i j (M.get i j + X.get i j))]
  refine ⟨_, hrun, hm.1.trans h1, hm.2.1.trans h2, hm.2.2.1, ?_⟩
  intro i j hi hj
  rw [hm.2.2.2 i j (by rw [h2]; exact hj), if_pos (mem_product_range.2 ⟨hi, hj⟩)]

/-- The row loop of the mapper of `computeXtX` adds, to every cell, the
products of the rows it visits. -/
theorem xtxRows_spec {K : Type} [Field K] (X : Matrix K) (rows : List Nat) (M : Matrix K)
    (hwf : M.WF) (hMr : M.nrows = X.ncols) (hMc : M.ncols = X.ncols) :
    (rows.foldl (fun XtX k =>
      (List.range X.ncols).foldl (fun XtX i =>
        (List.range X.ncols).foldl (fun (XtX : Matrix K) j =>
          XtX.set i j (XtX.get i j + X.get k i * X.get k j)) XtX) XtX) M).nrows = X.ncols ∧
    (rows.foldl (fun XtX k =>
      (List.range X.ncols).foldl (fun XtX i =>
        (List.range X.ncols).foldl (fun (XtX : Matrix K) j =>
          XtX.set i j (XtX.get i j + X.get k i * X.get k j)) XtX) XtX) M).ncols = X.ncols ∧
    (rows.foldl (fun XtX k =>
      (List.range X.ncols).foldl (fun XtX i =>
        (List.range X.ncols).foldl (fun (XtX : Matrix K) j =>
          XtX.set i j (XtX.get i j + X.get k i * X.get k j)) XtX) XtX) M).WF ∧
    ∀ i j, i < X.ncols → j < X.ncols →
      (rows.foldl (fun XtX k =>
        (List.range X.ncols).foldl (fun XtX i =>
          (List.range X.ncols).foldl (fun (XtX : Matrix K) j =>
            XtX.set i j (XtX.get i j + X.get k i * X.get k j)) XtX) XtX) M).get i j
        = M.get i j + (rows.map (fun k => X.get k i * X.get k j)).sum := by
  induction rows generalizing M with
  | nil => simp [hwf, hMr, hMc]
  | cons k rows ih =>
    simp only [List.foldl_cons, List.map_cons, List.sum_cons]
    rw [foldl_product (fun (XtX : Matrix K) i j => XtX.set i j (XtX.get i j + X.get k i * X.get k j))]
    have hm := Matrix.foldl_modify (fun (p : Nat × Nat) (x : K) => x + X.get k p.1 * X.get k p.2)
      ((List.range X.ncols).product (List.range X.ncols)) M hwf
      (fun p hp => by rw [hMr, hMc]; exact mem_product_range.1 hp)
      ((List.nodup_range _).product (List.nodup_range _))
    obtain ⟨i1, i2, i3, i4⟩ := ih _ hm.2.2.1 (hm.1.trans hMr) (hm.2.1.trans hMc)
    refine ⟨i1, i2, i3, ?_⟩
    intro i j hi hj
    rw [i4 i j hi hj, hm.2.2.2 i j (by rw [hMc]; exact hj),
      if_pos (mem_product_range.2 ⟨hi, hj⟩), add_assoc]

theorem xtxTask_spec {K : Type} [Field K] (X : Matrix K) (hc : 0 < X.ncols)
    (hk : X.ncols * X.ncols < 2 ^ 64) (taskSize taskId : Nat) :
    ∃ M, xtxTask X taskSize taskId = some M ∧ M.nrows = X.ncols ∧ M.ncols = X.ncols ∧ M.WF ∧
      ∀ i j, i < X.ncols → j < X.ncols →
        M.get i j = ((xtxChunk X.nrows taskSize taskId).map (fun k => X.get k i * X.get k j)).sum := by
  obtain ⟨M0, h0, h1, h2, h3, h4⟩ := Matrix.new_spec (K := K) X.ncols X.ncols (Nat.mul_pos hc hc)
    hk
  obtain ⟨i1, i2, i3, i4⟩ := xtxRows_spec X (xtxChunk X.nrows taskSize taskId) M0 h3 h1 h2
  refine ⟨_, by unfold xtxTask; simp only; rw [h0, Option.map_some'], i1, i2, i3, ?_⟩
  intro i j hi hj
  rw [i4 i j hi hj, h4, zero_add]

/-- With as many tasks as threads every worker runs exactly its own task. -/
theorem mapReduce_one_task_each {T : Type} (p : ParallelExecutor) (mapper : Nat → T)
    (reducer : T → T → T) (neutral : T) :
    p.mapReduce p.nthreads mapper reducer neutral
      = (List.range p.nthreads).foldl
          (fun res t => reducer res (reducer neutral (mapper t))) neutral := by
  unfold ParallelExecutor.mapReduce
  apply List.foldl_ext
  intro res t ht
  have hlt : t < p.nthreads := List.mem_range.1 ht
  rw [mapReduceWorker, if_pos hlt, mapReduceWorker, if_neg (by omega)]

/-- The chunks of the first `t` tasks are the rows below `min nrows (t * taskSize)`. -/
theorem xtxChunk_upto (nrows taskSize t : Nat) :
    ((List.range t).map (xtxChunk nrows taskSize)).flatten = List.range (min nrows (t * taskSize)) := by
  induction t with
  | zero => simp
  | succ t ih =>
    rw [List.range_succ, List.map_append, List.flatten_append, ih]
    simp only [List.map_cons, List.map_nil, List.flatten_cons, List.flatten_nil, List.append_nil]
    unfold xtxChunk
    simp only
    have hmul : (t + 1) * taskSize = t * taskSize + taskSize := by rw [Nat.add_mul, Nat.one_mul]
    rw [hmul]
    by_cases h : t * taskSize ≤ nrows
    · rw [Nat.min_eq_right h, List.range_eq_range', List.range_eq_range']
      have := @List.range'_append 0 (t * taskSize) (min nrows (t * taskSize + taskSize) - t * taskSize) 1
      simp only [Nat.zero_add, Nat.one_mul] at this
      rw [this]
      congr 1
      omega
    · have h1 : min nrows (t * taskSize) = nrows := by omega
      have h2 : min nrows (t * taskSize + taskSize) = nrows := by omega
      rw [h1, h2]
      have h3 : nrows - t * taskSize = 0 := by omega
      rw [h3]; simp

theorem ceil_block_covers (nrows ntasks : Nat) (hpos : 0 < ntasks) :
    min nrows (ntasks * ((nrows + ntasks - 1) / ntasks)) = nrows := by
  have h1 := Nat.div_add_mod (nrows + ntasks - 1) ntasks
  have h2 := Nat.mod_lt (nrows + ntasks - 1) hpos
  have h3 : nrows ≤ ntasks * ((nrows + ntasks - 1) / ntasks) := by omega
  omega

/-- The reduction of `computeXtX` over the first `t` workers holds the Gram
sums of the rows below `min nrows (t * taskSize)`. -/
theorem xtxFold_spec {K : Type} [Field K] (X : Matrix K) (hc : 0 < X.ncols)
    (hk : X.ncols * X.ncols < 2 ^ 64) (O : Matrix K)
    (hOr : O.nrows = X.ncols) (hOc : O.ncols = X.ncols) (hOwf : O.WF) (hO : ∀ r c, O.get r c = 0)
    (taskSize t : Nat) :
    ∃ R, (List.range t).foldl
        (fun res t => xtxReduce res (xtxReduce (some O) (xtxTask X taskSize t))) (some O) = some R ∧
      R.nrows = X.ncols ∧ R.ncols = X.ncols ∧ R.WF ∧
      ∀ i j, i < X.ncols → j < X.ncols →
        R.get i j
          = ((List.range (min X.nrows (t * taskSize))).map (fun k => X.get k i * X.get k j)).sum := by
  induction t with
  | zero =>
    refine ⟨O, rfl, hOr, hOc, hOwf, ?_⟩
    intro i j _ _
    simp [hO]
  | succ t ih =>
    obtain ⟨R, hR, hRr, hRc, hRwf, hRget⟩ := ih
    obtain ⟨M, hM, hMr, hMc, _, hMget⟩ := xtxTask_spec X hc hk taskSize t
    obtain ⟨S1, hS1, hS1r, hS1c, _, hS1get⟩ := Matrix.add_spec O M (by rw [hOr]; exact hc)
      (by rw [hOc]; exact hc) (by rw [hOr, hOc]; exact hk) (by rw [hMr, hOr]) (by rw [hMc, hOc])
    obtain ⟨S2, hS2, hS2r, hS2c, hS2wf, hS2get⟩ := Matrix.add_spec R S1 (by rw [hRr]; exact hc)
      (by rw [hRc]; exact hc) (by rw [hRr, hRc]; exact hk) (by rw [hS1r, hOr, hRr])
      (by rw [hS1c, hOc, hRc])
    refine ⟨S2, ?_, hS2r.trans hRr, hS2c.trans hRc, hS2wf, ?_⟩
    · rw [List.range_succ, List.foldl_append, hR]
      simp only [List.foldl_cons, List.foldl_nil, xtxReduce, hM, Option.some_bind, hS1, hS2]
    · intro i j hi hj
      rw [hS2get i j (by rw [hRr]; exact hi) (by rw [hRc]; exact hj),
        hS1get i j (by rw [hOr]; exact hi) (by rw [hOc]; exact hj), hO, zero_add,
        hRget i j hi hj, hMget i j hi hj, ← xtxChunk_upto X.nrows taskSize (t + 1),
        ← xtxChunk_upto X.nrows taskSize t, List.range_succ, List.map_append,
        List.flatten_append, List.map_append, List.sum_append]
      simp

/-- C12 (the claim as stated fails): a matrix `X` with 1 row and `k = 2^32`
columns has `2^32` elements, but the `size_t` product `k * k` of the constructor
call `Matrix O(X.ncols(), X.ncols())` is `2^64 mod 2^64 = 0`: the constructor
is fatal on `CHECK_GT(nrows * ncols, 0)` and `computeXtX(X)` returns no
matrix. -/
theorem computeXtX_fatal_on_wide_matrix :
    (Matrix.new (2 ^ 32) (2 ^ 32) : Option (Matrix ℚ)) = none ∧
    ∀ parallel : ParallelExecutor,
      computeXtX parallel (⟨1, 2 ^ 32, List.replicate (2 ^ 32) 0⟩ : Matrix ℚ) = none := by
  have h : (Matrix.new (2 ^ 32) (2 ^ 32) : Option (Matrix ℚ)) = none := by
    unfold Matrix.new
    rw [if_neg (by decide)]
  refine ⟨h, fun parallel => ?_⟩
  unfold computeXtX
  simp only [h]

/-- C12 (amended): for every matrix `X` with `n` rows and `k ≥ 1` columns such
that `k * k < 2^64` and every executor (thread count `T ≥ 1`, also `T > n` or
`T` not dividing `n`), `computeXtX(X)` returns the `k × k` matrix whose entry
`(i, j)` is the sum over all rows `r` in `[0, n)` of `X(r,i) * X(r,j)`, in exact
arithmetic: the chunks `[t*c, min(n, (t+1)*c))`, `c = (n + T - 1) / T`, of the
`T` tasks list every row of `[0, n)` exactly once, in order. -/
theorem computeXtX_eq_gram {K : Type} [Field K] (parallel : ParallelExecutor) (X : Matrix K)
    (hc : 0 < X.ncols) (hk : X.ncols * X.ncols < 2 ^ 64) :
    (∃ M, computeXtX parallel X = some M ∧ M.nrows = X.ncols ∧ M.ncols = X.ncols ∧ M.WF ∧
      ∀ i j, i < X.ncols → j < X.ncols →
        M.get i j = ∑ r ∈ Finset.range X.nrows, X.get r i * X.get r j) ∧
    ((List.range parallel.nthreads).map
      (xtxChunk X.nrows ((X.nrows + parallel.nthreads - 1) / parallel.nthreads))).flatten
      = List.range X.nrows := by
  have hcover := ceil_block_covers X.nrows parallel.nthreads parallel.nthreads_pos
  constructor
  · obtain ⟨O, h0, h1, h2, h3, h4⟩ := Matrix.new_spec (K := K) X.ncols X.ncols (Nat.mul_pos hc hc)
      hk
    obtain ⟨R, hR, hRr, hRc, hRwf, hRget⟩ := xtxFold_spec X hc hk O h1 h2 h3 h4
      ((X.nrows + parallel.nthreads - 1) / parallel.nthreads) parallel.nthreads
    refine ⟨R, ?_, hRr, hRc, hRwf, ?_⟩
    · unfold computeXtX
      simp only
      rw [h0]
      simp only
      rw [mapReduce_one_task_each, hR]
    · intro i j hi hj
      rw [hRget i j hi hj, hcover, sum_map_range]
  · rw [xtxChunk_upto, hcover]

theorem computeXtX_eq_gram_witness :
    testGramX.ncols * testGramX.ncols < 2 ^ 64 ∧
    computeXtX ⟨3, by decide⟩ testGramX = some ⟨2, 2, [165, 190, 190, 220]⟩ ∧
    computeXtX ⟨7, by decide⟩ testGramX = some ⟨2, 2, [165, 190, 190, 220]⟩ ∧
    (∃ M, computeXtX ⟨3, by decide⟩ testGramX = some M ∧ M.nrows = testGramX.ncols ∧
      M.ncols = testGramX.ncols ∧ M.WF ∧
      ∀ i j, i < testGramX.ncols → j < testGramX.ncols →
        M.get i j = ∑ r ∈ Finset.range testGramX.nrows, testGramX.get r i * testGramX.get r j) ∧
    ((List.range 3).map (xtxChunk testGramX.nrows ((testGramX.nrows + 3 - 1) / 3))).flatten
      = List.range testGramX.nrows :=
  ⟨by decide, by decide!, by decide!,
    computeXtX_eq_gram ⟨3, by decide⟩ testGramX (by decide) (by decide)⟩

/-! ## Theorems: ranking metrics -/

theorem pairGreater_eq_false_iff {K : Type} [LinearOrderedField K] (x y : K × Bool) :
    pairGreater y x = false ↔ y.1 < x.1 ∨ (y.1 = x.1 ∧ (y.2 = true → x.2 = true)) := by
  rcases x with ⟨a, b⟩
  rcases y with ⟨c, d⟩
  unfold pairGreater
  rcases lt_trichotomy a c with h | h | h
  · have h1 : ¬ c < a := not_lt_of_lt h
    have h2 : ¬ c = a := fun e => h1 (e ▸ h)
    simp [h, h1, h2]
  · subst h
    cases b <;> cases d <;> simp
  · have h1 : ¬ a < c := not_lt_of_lt h
    simp [h, h1]

theorem pairGreater_total {K : Type} [LinearOrderedField K] :
    IsTotal (K × Bool) (fun x y => pairGreater y x = false) := ⟨by
  intro x y
  rw [pairGreater_eq_false_iff, pairGreater_eq_false_iff]
  rcases lt_trichotomy x.1 y.1 with h | h | h
  · exact Or.inr (Or.inl h)
  · by_cases hx : x.2 = true
    · exact Or.inl (Or.inr ⟨h.symm, fun _ => hx⟩)
    · exact Or.inr (Or.inr ⟨h, fun e => absurd e hx⟩)
  · exact Or.inl (Or.inl h)⟩

theorem pairGreater_trans {K : Type} [LinearOrderedField K] :
    IsTrans (K × Bool) (fun x y => pairGreater y x = false) := ⟨by
  intro x y z
  rw [pairGreater_eq_false_iff, pairGreater_eq_false_iff, pairGreater_eq_false_iff]
  rintro (h1 | ⟨h1, h1b⟩) (h2 | ⟨h2, h2b⟩)
  · exact Or.inl (lt_trans h2 h1)
  · exact Or.inl (h2 ▸ h1)
  · exact Or.inl (h1 ▸ h2)
  · exact Or.inr ⟨h2.trans h1, fun e => h1b (h2b e)⟩⟩

theorem pairGreater_antisymm {K : Type} [LinearOrderedField K] :
    IsAntisymm (K × Bool) (fun x y => pairGreater y x = false) := ⟨by
  intro x y
  rw [pairGreater_eq_false_iff, pairGreater_eq_false_iff]
  rintro (h1 | ⟨h1, h1b⟩) (h2 | ⟨h2, h2b⟩)
  · exact absurd h2 (not_lt_of_lt h1)
  · rw [h2] at h1; exact absurd h1 (lt_irrefl _)
  · rw [h1] at h2; exact absurd h2 (lt_irrefl _)
  · apply Prod.ext h2
    by_cases hx : x.2 = true
    · rw [hx, h2b hx]
    · by_cases hy : y.2 = true
      · exact absurd (h1b hy) hx
      · rw [Bool.not_eq_true] at hx hy
        rw [hx, hy]⟩

/-- Insertion sort meets the contract of `std::sort` for `std::greater` on pairs. -/
theorem insertionStdSort_pairGreater {K : Type} [LinearOrderedField K] :
    StdSort (pairGreater : K × Bool → K × Bool → Bool) (insertionStdSort pairGreater) := by
  intro l
  haveI := pairGreater_total (K := K)
  haveI := pairGreater_trans (K := K)
  exact ⟨List.perm_insertionSort _ l, List.sorted_insertionSort _ l⟩

/-- Descending `(score, label)` order is unique: every `std::sort` returns it. -/
theorem stdSort_eq_rankDescending {K : Type} [LinearOrderedField K]
    (stdSort : (K × Bool → K × Bool → Bool) → List (K × Bool) → List (K × Bool))
    (hsort : StdSort pairGreater (stdSort pairGreater)) (l : List (K × Bool)) :
    stdSort pairGreater l = rankDescending l := by
  haveI := pairGreater_antisymm (K := K)
  obtain ⟨hp, hs⟩ := hsort l
  obtain ⟨hp2, hs2⟩ := insertionStdSort_pairGreater l
  exact List.eq_of_perm_of_sorted (hp.trans hp2.symm) hs hs2

/-- The first `k` elements after `std::nth_element` are, up to their order, the
first `k` elements of the descending order. -/
theorem nthElement_take_perm {K : Type} [LinearOrderedField K]
    (nthElement : (K × Bool → K × Bool → Bool) → Nat → List (K × Bool) → List (K × Bool))
    (hnth : StdNthElement pairGreater (nthElement pairGreater)) (k : Nat) (l : List (K × Bool))
    (hk : k ≤ l.length) :
    ((nthElement pairGreater k l).take k).Perm ((rankDescending l).take k) := by
  haveI := pairGreater_antisymm (K := K)
  obtain ⟨hp, hsplit⟩ := hnth k l hk
  obtain ⟨a, ha⟩ : ∃ a, a = nthElement pairGreater k l := ⟨_, rfl⟩
  rw [← ha] at hp hsplit ⊢
  obtain ⟨hpA, hsA⟩ := insertionStdSort_pairGreater (a.take k)
  obtain ⟨hpB, hsB⟩ := insertionStdSort_pairGreater (a.drop k)
  obtain ⟨hpL, hsL⟩ := insertionStdSort_pairGreater l
  have hsorted : (insertionStdSort pairGreater (a.take k) ++ insertionStdSort pairGreater (a.drop k)).Pairwise
      (fun x y => pairGreater y x = false) := by
    rw [List.pairwise_append]
    refine ⟨hsA, hsB, ?_⟩
    intro x hx y hy
    exact hsplit x (hpA.subset hx) y (hpB.subset hy)
  have hperm : (insertionStdSort pairGreater (a.take k) ++ insertionStdSort pairGreater (a.drop k)).Perm
      (rankDescending l) := by
    have h1 : (insertionStdSort pairGreater (a.take k) ++ insertionStdSort pairGreater (a.drop k)).Perm
        (a.take k ++ a.drop k) := hpA.append hpB
    rw [List.take_append_drop] at h1
    exact (h1.trans hp).trans hpL.symm
  have heq := List.eq_of_perm_of_sorted hperm hsorted hsL
  have hlen : (insertionStdSort pairGreater (a.take k)).length = k := by
    rw [hpA.length_eq, List.length_take, hp.length_eq]; omega
  rw [← heq, List.take_left' hlen]
  exact hpA.symm

theorem foldl_range_getD {S A : Type} (g : S → A → S) (d : A) (l : List A) (s : S) :
    (List.range l.length).foldl (fun s i => g s (l.getD i d)) s = l.foldl g s := by
  induction l using List.reverseRecOn generalizing s with
  | nil => rfl
  | append_singleton l x ih =>
    rw [List.length_append, List.length_singleton, List.range_succ, List.foldl_append,
      List.foldl_append]
    have h1 : (List.range l.length).foldl (fun s i => g s ((l ++ [x]).getD i d)) s
        = (List.range l.length).foldl (fun s i => g s (l.getD i d)) s := by
      apply List.foldl_ext
      intro a i hi
      have hlt : i < l.length := List.mem_range.1 hi
      rw [List.getD_eq_getElem?_getD, List.getD_eq_getElem?_getD, List.getElem?_append_left hlt]
    rw [h1, ih]
    simp [List.getD_eq_getElem?_getD]

theorem foldl_count {A : Type} (q : A → Prop) [DecidablePred q] (l : List A) (c : Nat) :
    l.foldl (fun pos x => if q x then pos + 1 else pos) c = c + l.countP (fun x => decide (q x)) := by
  induction l generalizing c with
  | nil => rfl
  | cons x l ih =>
    rw [List.foldl_cons, ih, List.countP_cons]
    by_cases hq : q x
    · simp [hq]; omega
    · simp [hq]

theorem countPositive_eq {K : Type} [LinearOrderedField K] (labels : List K) :
    countPositive labels = labels.countP (fun l => decide (0 < l)) := by
  unfold countPositive
  rw [foldl_range_getD (fun pos (l : K) => if l > 0 then pos + 1 else pos) 0 labels 0,
    foldl_count (fun l : K => l > 0), Nat.zero_add]

theorem scoredPairs_eq_rankEntries {K : Type} [LinearOrderedField K] (labels scores : List K)
    (hlen : labels.length = scores.length) :
    scoredPairs labels scores = rankEntries labels scores := by
  unfold scoredPairs rankEntries
  apply List.ext_getElem
  · simp [hlen]
  · intro i h1 h2
    have hi : i < labels.length := by simpa using h1
    have hi2 : i < scores.length := hlen ▸ hi
    rw [List.getElem_map, List.getElem_zipWith, List.getElem_range,
      List.getD_eq_getElem _ _ hi, List.getD_eq_getElem _ _ hi2]

theorem countP_rankEntries {K : Type} [LinearOrderedField K] (labels scores : List K)
    (hlen : labels.length = scores.length) :
    (rankEntries labels scores).length = labels.length ∧
    (rankEntries labels scores).countP (fun p => p.2) = labels.countP (fun l => decide (0 < l)) ∧
    (rankEntries labels scores).countP (fun p => !p.2)
      = labels.length - labels.countP (fun l => decide (0 < l)) := by
  unfold rankEntries
  induction labels generalizing scores with
  | nil => simp
  | cons l labels ih =>
    cases scores with
    | nil => simp at hlen
    | cons s scores =>
      obtain ⟨i1, i2, i3⟩ := ih scores (by simpa using hlen)
      have hle := List.countP_le_length (fun l : K => decide (0 < l)) (l := labels)
      simp only [List.zipWith_cons_cons, List.length_cons, List.countP_cons, i1, i2, i3]
      refine ⟨trivial, trivial, ?_⟩
      by_cases h : 0 < l
      · simp [h]
      · simp [h]; omega

theorem positivesBeforeNegatives_cons {K : Type} (p : K × Bool) (L : List (K × Bool)) :
    positivesBeforeNegatives (p :: L)
      = if p.2 then (positivesBeforeNegatives L).map (fun t => t + 1)
        else 0 :: positivesBeforeNegatives L := by
  rcases p with ⟨s, b⟩
  unfold positivesBeforeNegatives
  rw [List.length_cons, List.range_succ_eq_map, List.filterMap_cons, List.filterMap_map]
  cases b
  · simp only [List.getElem?_cons_zero, List.take_zero, List.countP_nil, Bool.false_eq_true,
      if_false]
    congr 1
    apply List.filterMap_congr
    intro i _
    simp only [Function.comp, List.getElem?_cons_succ, List.take_succ_cons, List.countP_cons,
      Bool.false_eq_true, if_false, Nat.add_zero]
  · simp only [List.getElem?_cons_zero, if_true, List.map_filterMap]
    apply List.filterMap_congr
    intro i _
    simp only [Function.comp, List.getElem?_cons_succ, List.take_succ_cons, List.countP_cons,
      if_true]
    rcases L[i]? with _ | ⟨s2, b2⟩
    · rfl
    · cases b2 <;> rfl

theorem sum_map_cast_div {K : Type} [LinearOrderedField K] (l : List Nat) (c : K) :
    (l.map (fun t : Nat => (t : K) / c)).sum = ((l.sum : Nat) : K) / c := by
  induction l with
  | nil => simp
  | cons t l ih => simp only [List.map_cons, List.sum_cons, ih, Nat.cast_add, add_div]

theorem length_positivesBeforeNegatives {K : Type} (L : List (K × Bool)) :
    (positivesBeforeNegatives L).length = L.countP (fun n => !n.2) := by
  induction L with
  | nil => rfl
  | cons p L ih =>
    rw [positivesBeforeNegatives_cons, List.countP_cons]
    by_cases hp : p.2 = true
    · simp [hp, ih]
    · rw [Bool.not_eq_true] at hp
      simp [hp, ih]

/-- The loop of `AUC::compute` over any list, from any state: `tp` counts the
positives and `auc` collects `tp / pos / neg` at every negative. -/
theorem auc_foldl {K : Type} [LinearOrderedField K] (pos neg : Nat) (L : List (K × Bool))
    (tp0 : Nat) (a0 : K) :
    L.foldl
        (fun (st : Nat × K) p =>
          if p.2 then (st.1 + 1, st.2) else (st.1, st.2 + (st.1 : K) / (pos : K) / (neg : K)))
        (tp0, a0)
      = (tp0 + L.countP (fun p => p.2),
          a0 + ((positivesBeforeNegatives L).map
            (fun t => ((tp0 + t : Nat) : K) / ((pos : K) * (neg : K)))).sum) := by
  induction L generalizing tp0 a0 with
  | nil => simp [positivesBeforeNegatives]
  | cons p L ih =>
    rw [List.foldl_cons, positivesBeforeNegatives_cons, List.countP_cons]
    by_cases hp : p.2 = true
    · simp only [hp, if_true]
      rw [ih, List.map_map]
      have hmap : (positivesBeforeNegatives L).map
            (fun t => ((tp0 + 1 + t : Nat) : K) / ((pos : K) * (neg : K)))
          = (positivesBeforeNegatives L).map
            ((fun t => ((tp0 + t : Nat) : K) / ((pos : K) * (neg : K))) ∘ fun t => t + 1) := by
        apply List.map_congr_left
        intro t _
        simp only [Function.comp]
        rw [show tp0 + 1 + t = tp0 + (t + 1) by omega]
      rw [hmap, show tp0 + 1 + List.countP (fun p => p.2) L
        = tp0 + (List.countP (fun p => p.2) L + 1) by omega]
    · rw [Bool.not_eq_true] at hp
      simp only [hp, Bool.false_eq_true, if_false]
      rw [ih, List.map_cons, List.sum_cons, Nat.add_zero, Nat.add_zero, div_div, add_assoc]

theorem countP_product {A B : Type} (q : A × B → Bool) (l1 : List A) (l2 : List B) :
    (l1.product l2).countP q = (l1.map (fun a => l2.countP (fun b => q (a, b)))).sum := by
  induction l1 with
  | nil => rfl
  | cons a l1 ih =>
    have hp : (a :: l1).product l2 = l2.map (fun b => (a, b)) ++ l1.product l2 :=
      List.product_cons a l1 l2
    rw [hp, List.countP_append, ih, List.map_cons, List.sum_cons, List.countP_map]
    rfl

theorem concordantPairs_perm {K : Type} [LinearOrderedField K] {L1 L2 : List (K × Bool)}
    (h : L1.Perm L2) : concordantPairs L1 = concordantPairs L2 := by
  unfold concordantPairs
  exact ((h.filter _).product (h.filter _)).countP_eq _

/-- On a list in descending `(score, label)` order the numbers `tp` at the
negatives add up to the number of concordant pairs. -/
theorem sum_positivesBeforeNegatives {K : Type} [LinearOrderedField K] (L : List (K × Bool))
    (hs : L.Pairwise (fun x y => pairGreater y x = false)) :
    (positivesBeforeNegatives L).sum = concordantPairs L := by
  induction L with
  | nil => rfl
  | cons p L ih =>
    obtain ⟨hhead, htail⟩ := List.pairwise_cons.1 hs
    have ih2 := ih htail
    unfold concordantPairs at ih2 ⊢
    rw [countP_product] at ih2 ⊢
    rw [positivesBeforeNegatives_cons]
    by_cases hp : p.2 = true
    · have hall : (L.filter (fun n => !n.2)).countP (fun b => decide (b.1 ≤ p.1))
          = (positivesBeforeNegatives L).length := by
        have hlen : L.countP (fun n : K × Bool => !n.2) = (L.filter (fun n => !n.2)).length :=
          List.countP_eq_length_filter _ _
        rw [length_positivesBeforeNegatives, hlen]
        apply List.countP_eq_length.2
        intro n hn
        have hn1 := (List.mem_filter.1 hn).1
        rcases (pairGreater_eq_false_iff p n).1 (hhead n hn1) with h | h
        · exact decide_eq_true (le_of_lt h)
        · exact decide_eq_true (le_of_eq h.1)
      have hsum : ((positivesBeforeNegatives L).map (fun t => t + 1)).sum
          = (positivesBeforeNegatives L).sum + (positivesBeforeNegatives L).length := by
        generalize positivesBeforeNegatives L = l
        induction l with
        | nil => rfl
        | cons t l ihl => simp only [List.map_cons, List.sum_cons, List.length_cons, ihl]; omega
      simp only [hp, if_true, List.filter_cons_of_pos, Bool.not_true, Bool.false_eq_true,
        not_false_eq_true, List.filter_cons_of_neg, List.map_cons, List.sum_cons]
      rw [hsum, ih2, hall]
      exact Nat.add_comm _ _
    · rw [Bool.not_eq_true] at hp
      have hf1 : (p :: L).filter (fun q => q.2) = L.filter (fun q => q.2) :=
        List.filter_cons_of_neg (by simp [hp])
      have hf2 : (p :: L).filter (fun n => !n.2) = p :: L.filter (fun n => !n.2) :=
        List.filter_cons_of_pos (by simp [hp])
      rw [if_neg (by simp [hp]), List.sum_cons, Nat.zero_add, ih2, hf1, hf2]
      congr 1
      apply List.map_congr_left
      intro a ha
      obtain ⟨ha1, ha2⟩ := List.mem_filter.1 ha
      rw [List.countP_cons]
      have hlt : ¬ p.1 ≤ a.1 := by
        rcases (pairGreater_eq_false_iff p a).1 (hhead a ha1) with h | h
        · exact not_le_of_lt h
        · have := h.2 ha2
          rw [hp] at this
          exact absurd this (by simp)
      simp [hlt]

theorem countP_not_positive {K : Type} [LinearOrderedField K] (labels : List K) :
    labels.countP (fun l => !decide (0 < l))
      = labels.length - labels.countP (fun l => decide (0 < l)) := by
  induction labels with
  | nil => rfl
  | cons l labels ih =>
    have hle := List.countP_le_length (fun l : K => decide (0 < l)) (l := labels)
    rw [List.countP_cons, List.countP_cons, List.length_cons, ih]
    by_cases h : 0 < l
    · simp [h]
    · simp [h]; omega

theorem concordantPairs_all {K : Type} [LinearOrderedField K] (entries : List (K × Bool))
    (h : ∀ p ∈ entries, ∀ n ∈ entries, p.2 = true → n.2 = false → n.1 ≤ p.1) :
    concordantPairs entries
      = entries.countP (fun p => p.2) * entries.countP (fun n => !n.2) := by
  unfold concordantPairs
  rw [List.countP_eq_length_filter (fun p : K × Bool => p.2),
    List.countP_eq_length_filter (fun n : K × Bool => !n.2), ← List.length_product]
  apply List.countP_eq_length.2
  rintro ⟨p, n⟩ hpn
  have hmem := @List.mem_product _ _ (entries.filter (fun p => p.2))
    (entries.filter (fun n => !n.2)) p n
  obtain ⟨hp, hn⟩ := hmem.1 hpn
  obtain ⟨hp1, hp2⟩ := List.mem_filter.1 hp
  obtain ⟨hn1, hn2⟩ := List.mem_filter.1 hn
  exact decide_eq_true (h p hp1 n hn1 hp2 (by simpa using hn2))

theorem concordantPairs_none {K : Type} [LinearOrderedField K] (entries : List (K × Bool))
    (h : ∀ p ∈ entries, ∀ n ∈ entries, p.2 = true → n.2 = false → p.1 < n.1) :
    concordantPairs entries = 0 := by
  unfold concordantPairs
  apply List.countP_eq_zero.2
  rintro ⟨p, n⟩ hpn
  have hmem := @List.mem_product _ _ (entries.filter (fun p => p.2))
    (entries.filter (fun n => !n.2)) p n
  obtain ⟨hp, hn⟩ := hmem.1 hpn
  obtain ⟨hp1, hp2⟩ := List.mem_filter.1 hp
  obtain ⟨hn1, hn2⟩ := List.mem_filter.1 hn
  have := h p hp1 n hn1 hp2 (by simpa using hn2)
  simpa using this

/-- C13: for label and score vectors of one length, `AUC::compute` returns 1
when there is no positive (`label > 0`) or no negative entry; otherwise it is
the sum, over the negatives taken in descending `(score, label)` order, of
`tp / (pos * neg)`, `tp` the number of positives placed before that negative,
which is the number of (positive, negative) pairs with positive score `≥`
negative score divided by `pos * neg`; it is 1 when every positive outscores
every negative and 0 when every negative outscores every positive. -/
theorem AUC.compute_pair_fraction {K : Type} [LinearOrderedField K]
    (stdSort : (K × Bool → K × Bool → Bool) → List (K × Bool) → List (K × Bool))
    (hsort : StdSort pairGreater (stdSort pairGreater)) (labels scores : List K)
    (hlen : labels.length = scores.length) :
    ((labels.countP (fun l => decide (0 < l)) = 0 ∨ labels.countP (fun l => !decide (0 < l)) = 0) →
      AUC.compute stdSort labels scores = some 1) ∧
    (labels.countP (fun l => decide (0 < l)) ≠ 0 → labels.countP (fun l => !decide (0 < l)) ≠ 0 →
      AUC.compute stdSort labels scores
        = some (((positivesBeforeNegatives (rankDescending (rankEntries labels scores))).map
            (fun tp : Nat => (tp : K) /
              ((labels.countP (fun l => decide (0 < l)) : K)
                * (labels.countP (fun l => !decide (0 < l)) : K)))).sum) ∧
      AUC.compute stdSort labels scores
        = some ((concordantPairs (rankEntries labels scores) : K) /
            ((labels.countP (fun l => decide (0 < l)) : K)
              * (labels.countP (fun l => !decide (0 < l)) : K))) ∧
      ((∀ p ∈ rankEntries labels scores, ∀ n ∈ rankEntries labels scores,
          p.2 = true → n.2 = false → n.1 < p.1) →
        AUC.compute stdSort labels scores = some 1) ∧
      ((∀ p ∈ rankEntries labels scores, ∀ n ∈ rankEntries labels scores,
          p.2 = true → n.2 = false → p.1 < n.1) →
        AUC.compute stdSort labels scores = some 0)) := by
  have hneg := countP_not_positive labels
  obtain ⟨_, hcp, hcn⟩ := countP_rankEntries labels scores hlen
  constructor
  · intro h
    unfold AUC.compute
    rw [if_neg (not_not.2 hlen)]
    simp only
    rw [countPositive_eq, ← hneg, if_pos h]
  · intro hpos hnegne
    have hrun : AUC.compute stdSort labels scores
        = some (((positivesBeforeNegatives (rankDescending (rankEntries labels scores))).map
            (fun tp : Nat => (tp : K) /
              ((labels.countP (fun l => decide (0 < l)) : K)
                * (labels.countP (fun l => !decide (0 < l)) : K)))).sum) := by
      unfold AUC.compute
      rw [if_neg (not_not.2 hlen)]
      simp only
      rw [countPositive_eq, ← hneg, if_neg (by rintro (h | h) <;> contradiction),
        scoredPairs_eq_rankEntries labels scores hlen,
        stdSort_eq_rankDescending stdSort hsort, auc_foldl]
      simp only [Nat.zero_add, zero_add]
    have hval : ((positivesBeforeNegatives (rankDescending (rankEntries labels scores))).map
            (fun tp : Nat => (tp : K) /
              ((labels.countP (fun l => decide (0 < l)) : K)
                * (labels.countP (fun l => !decide (0 < l)) : K)))).sum
        = (concordantPairs (rankEntries labels scores) : K) /
            ((labels.countP (fun l => decide (0 < l)) : K)
              * (labels.countP (fun l => !decide (0 < l)) : K)) := by
      obtain ⟨hperm, hsorted⟩ := insertionStdSort_pairGreater (rankEntries labels scores)
      rw [sum_map_cast_div]
      unfold rankDescending
      rw [sum_positivesBeforeNegatives _ hsorted, concordantPairs_perm hperm]
    have hne : ((labels.countP (fun l => decide (0 < l)) : K)
        * (labels.countP (fun l => !decide (0 < l)) : K)) ≠ 0 :=
      mul_ne_zero (Nat.cast_ne_zero.2 hpos) (Nat.cast_ne_zero.2 hnegne)
    refine ⟨hrun, by rw [hrun, hval], ?_, ?_⟩
    · intro hall
      rw [hrun, hval, concordantPairs_all _ (fun p hp n hn h1 h2 => le_of_lt (hall p hp n hn h1 h2)),
        hcp, hcn, ← hneg, Nat.cast_mul, div_self hne]
    · intro hnone
      rw [hrun, hval, concordantPairs_none _ hnone, Nat.cast_zero, zero_div]

theorem AUC.compute_pair_fraction_witness :
    StdSort (pairGreater : ℚ × Bool → ℚ × Bool → Bool) (insertionStdSort pairGreater) ∧
    testLabels.length = testScores.length ∧
    AUC.compute insertionStdSort testLabels testScores = some (1 / 2) ∧
    concordantPairs (rankEntries testLabels testScores) = 1 ∧
    positivesBeforeNegatives (rankDescending (rankEntries testLabels testScores)) = [1] ∧
    AUC.compute insertionStdSort testLabels testScores
      = some ((concordantPairs (rankEntries testLabels testScores) : ℚ) /
          ((testLabels.countP (fun l => decide (0 < l)) : ℚ)
            * (testLabels.countP (fun l => !decide (0 < l)) : ℚ))) :=
  ⟨insertionStdSort_pairGreater, by decide, by decide!, by decide!, by decide!,
    ((AUC.compute_pair_fraction insertionStdSort insertionStdSort_pairGreater testLabels testScores
      (by decide)).2 (by decide!) (by decide!)).2.1⟩

/-- Insertion sort meets the contract of `std::nth_element` for `std::greater`
on pairs. -/
theorem sortNthElement_pairGreater {K : Type} [LinearOrderedField K] :
    StdNthElement (pairGreater : K × Bool → K × Bool → Bool) (sortNthElement pairGreater) := by
  intro k l _
  obtain ⟨hp, hs⟩ := insertionStdSort_pairGreater l
  refine ⟨hp, ?_⟩
  intro x hx y hy
  have hsplit : (insertionStdSort pairGreater l).take k ++ (insertionStdSort pairGreater l).drop k
      = insertionStdSort pairGreater l := List.take_append_drop k _
  rw [← hsplit, List.pairwise_append] at hs
  exact hs.2.2 x hx y hy

/-- The count of `Precision::compute` and `Recall::compute`: the positives among
the first `k` elements after `std::nth_element` are the positives among the `k`
greatest entries. -/
theorem countP_nthElement_take {K : Type} [LinearOrderedField K]
    (nthElement : (K × Bool → K × Bool → Bool) → Nat → List (K × Bool) → List (K × Bool))
    (hnth : StdNthElement pairGreater (nthElement pairGreater)) (k : Nat) (labels scores : List K)
    (hlen : labels.length = scores.length) (hk : k ≤ labels.length) :
    ((nthElement pairGreater k (scoredPairs labels scores)).take k).countP (fun p => p.2)
      = ((rankDescending (rankEntries labels scores)).take k).countP (fun p => p.2) := by
  rw [scoredPairs_eq_rankEntries labels scores hlen]
  apply List.Perm.countP_eq
  apply nthElement_take_perm nthElement hnth
  rw [(countP_rankEntries labels scores hlen).1]
  exact hk

/-- C14: for every `k ≥ 1` and label and score vectors of one length `n`:
when `n ≥ k`, `Precision(k)::compute` returns (the number of entries with
`label > 0` among the first `k` entries of the descending `(score, label)`
order) / `k`, whichever way `std::nth_element` arranges the entries (any two
implementations give one value); when `n < k` it fails fatally. -/
theorem Precision.compute_counts_top_k {K : Type} [LinearOrderedField K]
    (nthElement : (K × Bool → K × Bool → Bool) → Nat → List (K × Bool) → List (K × Bool))
    (hnth : StdNthElement pairGreater (nthElement pairGreater)) (k : Nat) (_hk : 1 ≤ k)
    (labels scores : List K) (hlen : labels.length = scores.length) :
    (k ≤ labels.length →
      Precision.compute nthElement k labels scores
        = some ((((rankDescending (rankEntries labels scores)).take k).countP (fun p => p.2) : Nat)
            / (k : K)) ∧
      ∀ nthElement2 : (K × Bool → K × Bool → Bool) → Nat → List (K × Bool) → List (K × Bool),
        StdNthElement pairGreater (nthElement2 pairGreater) →
        Precision.compute nthElement2 k labels scores = Precision.compute nthElement k labels scores) ∧
    (labels.length < k → Precision.compute nthElement k labels scores = none) := by
  have hrun : ∀ nth : (K × Bool → K × Bool → Bool) → Nat → List (K × Bool) → List (K × Bool),
      StdNthElement pairGreater (nth pairGreater) → k ≤ labels.length →
      Precision.compute nth k labels scores
        = some ((((rankDescending (rankEntries labels scores)).take k).countP (fun p => p.2) : Nat)
            / (k : K)) := by
    intro nth h hle
    unfold Precision.compute
    rw [if_neg (not_not.2 hlen), if_neg (not_not.2 hle)]
    simp only
    rw [countP_nthElement_take nth h k labels scores hlen hle]
  constructor
  · intro hle
    refine ⟨hrun nthElement hnth hle, ?_⟩
    intro nth2 h2
    rw [hrun nth2 h2 hle, hrun nthElement hnth hle]
  · intro hlt
    unfold Precision.compute
    rw [if_neg (not_not.2 hlen), if_pos (by omega)]

/-- C15: for every `k` and label and score vectors of one length `n`,
`Recall(k)::compute` fails fatally iff `n < k` or no label is `> 0`; otherwise
it returns (the number of positives among the first `k` entries of the
descending `(score, label)` order) / (the number of positives), so that, for
`k ≥ 1`, `k * P@k = totalPositives * R@k`; and `R@n = 1`. -/
theorem Recall.compute_ratio_top_k {K : Type} [LinearOrderedField K]
    (nthElement : (K × Bool → K × Bool → Bool) → Nat → List (K × Bool) → List (K × Bool))
    (hnth : StdNthElement pairGreater (nthElement pairGreater)) (k : Nat)
    (labels scores : List K) (hlen : labels.length = scores.length) :
    (Recall.compute nthElement k labels scores = none
      ↔ labels.length < k ∨ labels.countP (fun l => decide (0 < l)) = 0) ∧
    (k ≤ labels.length → labels.countP (fun l => decide (0 < l)) ≠ 0 →
      Recall.compute nthElement k labels scores
        = some ((((rankDescending (rankEntries labels scores)).take k).countP (fun p => p.2) : Nat)
            / (labels.countP (fun l => decide (0 < l)) : K)) ∧
      (1 ≤ k → ∃ p r, Precision.compute nthElement k labels scores = some p ∧
        Recall.compute nthElement k labels scores = some r ∧
        (k : K) * p = (labels.countP (fun l => decide (0 < l)) : K) * r)) ∧
    (labels.countP (fun l => decide (0 < l)) ≠ 0 →
      Recall.compute nthElement labels.length labels scores = some 1) := by
  have hrun : ∀ k, k ≤ labels.length → labels.countP (fun l => decide (0 < l)) ≠ 0 →
      Recall.compute nthElement k labels scores
        = some ((((rankDescending (rankEntries labels scores)).take k).countP (fun p => p.2) : Nat)
            / (labels.countP (fun l => decide (0 < l)) : K)) := by
    intro k hle hpos
    unfold Recall.compute
    rw [if_neg (not_not.2 hlen), if_neg (not_not.2 hle)]
    simp only
    rw [countPositive_eq, if_neg (not_not.2 (Nat.pos_of_ne_zero hpos)),
      countP_nthElement_take nthElement hnth k labels scores hlen hle]
  refine ⟨?_, ?_, ?_⟩
  · constructor
    · intro hnone
      by_contra hcon
      rw [not_or, not_lt] at hcon
      rw [hrun k hcon.1 hcon.2] at hnone
      exact Option.noConfusion hnone
    · rintro (hlt | hzero)
      · unfold Recall.compute
        rw [if_neg (not_not.2 hlen), if_pos (by omega)]
      · unfold Recall.compute
        rw [if_neg (not_not.2 hlen)]
        by_cases hle : labels.length ≥ k
        · rw [if_neg (not_not.2 hle)]
          simp only
          rw [countPositive_eq, if_pos (by omega)]
        · rw [if_pos hle]
  · intro hle hpos
    refine ⟨hrun k hle hpos, ?_⟩
    intro hk
    have hP : Precision.compute nthElement k labels scores
        = some ((((rankDescending (rankEntries labels scores)).take k).countP (fun p => p.2) : Nat)
            / (k : K)) := by
      unfold Precision.compute
      rw [if_neg (not_not.2 hlen), if_neg (not_not.2 hle)]
      simp only
      rw [countP_nthElement_take nthElement hnth k labels scores hlen hle]
    refine ⟨_, _, hP, hrun k hle hpos, ?_⟩
    have hk0 : (k : K) ≠ 0 := Nat.cast_ne_zero.2 (by omega)
    have hp0 : (labels.countP (fun l => decide (0 < l)) : K) ≠ 0 := Nat.cast_ne_zero.2 hpos
    rw [mul_div_cancel₀ _ hk0, mul_div_cancel₀ _ hp0]
  · intro hpos
    rw [hrun labels.length (Nat.le_refl _) hpos]
    obtain ⟨hl, hcp, _⟩ := countP_rankEntries labels scores hlen
    obtain ⟨hperm, _⟩ := insertionStdSort_pairGreater (rankEntries labels scores)
    have hlen2 : (rankDescending (rankEntries labels scores)).length = labels.length := by
      unfold rankDescending; rw [hperm.length_eq, hl]
    rw [← hlen2, List.take_length]
    unfold rankDescending
    rw [hperm.countP_eq, hcp, div_self (Nat.cast_ne_zero.2 hpos)]

theorem Precision.compute_counts_top_k_witness :
    StdNthElement (pairGreater : ℚ × Bool → ℚ × Bool → Bool) (sortNthElement pairGreater) ∧
    testLabels2.length = testScores2.length ∧
    Precision.compute sortNthElement 2 testLabels2 testScores2 = some (1 / 2) ∧
    Precision.compute sortNthElement 2 testLabels2 testScores2
      = some ((((rankDescending (rankEntries testLabels2 testScores2)).take 2).countP
          (fun p => p.2) : Nat) / ((2 : Nat) : ℚ)) ∧
    Precision.compute sortNthElement 4 testLabels2 testScores2 = none :=
  ⟨sortNthElement_pairGreater, by decide, by decide!,
    ((Precision.compute_counts_top_k sortNthElement sortNthElement_pairGreater 2 (by decide)
      testLabels2 testScores2 (by decide)).1 (by decide)).1,
    by decide!⟩

theorem Recall.compute_ratio_top_k_witness :
    StdNthElement (pairGreater : ℚ × Bool → ℚ × Bool → Bool) (sortNthElement pairGreater) ∧
    testLabels.length = testScores.length ∧
    Recall.compute sortNthElement 1 testLabels testScores = some (1 / 2) ∧
    Recall.compute sortNthElement 4 testLabels testScores = none ∧
    Recall.compute sortNthElement 3 testLabels testScores = some 1 :=
  ⟨sortNthElement_pairGreater, by decide, by decide!, by decide!,
    (Recall.compute_ratio_top_k sortNthElement sortNthElement_pairGreater 3 testLabels testScores
      (by decide)).2.2 (by decide!)⟩

theorem precisionAtPositivesFrom_cons {K : Type} [LinearOrderedField K] (rank0 pos0 : Nat)
    (p : K × Bool) (L : List (K × Bool)) :
    precisionAtPositivesFrom rank0 pos0 (p :: L)
      = if p.2 then
          (((pos0 + 1 : Nat) : K) / ((rank0 + 1 : Nat) : K))
            :: precisionAtPositivesFrom (rank0 + 1) (pos0 + 1) L
        else precisionAtPositivesFrom (rank0 + 1) pos0 L := by
  rcases p with ⟨s, b⟩
  unfold precisionAtPositivesFrom
  rw [List.length_cons, List.range_succ_eq_map, List.filterMap_cons, List.filterMap_map]
  cases b
  · simp only [List.getElem?_cons_zero, Bool.false_eq_true, if_false]
    apply List.filterMap_congr
    intro i _
    simp only [Function.comp, List.getElem?_cons_succ, List.take_succ_cons, List.countP_cons,
      Bool.false_eq_true, if_false, Nat.add_zero]
    rw [show rank0 + (i + 1 + 1) = rank0 + 1 + (i + 1) by omega]
  · simp only [List.getElem?_cons_zero, if_true, List.take_succ_cons, List.take_zero,
      List.countP_cons, List.countP_nil, Nat.zero_add]
    congr 1
    apply List.filterMap_congr
    intro i _
    simp only [Function.comp, List.getElem?_cons_succ, List.take_succ_cons, List.countP_cons,
      if_true]
    rw [show rank0 + (i + 1 + 1) = rank0 + 1 + (i + 1) by omega,
      show pos0 + (List.countP (fun p => p.2) (List.take (i + 1) L) + 1)
        = pos0 + 1 + List.countP (fun p => p.2) (List.take (i + 1) L) by omega]

/-- The loop of `AveragePrecision::compute` over any list, from any state. -/
theorem ap_foldl {K : Type} [LinearOrderedField K] (L : List (K × Bool)) (rank0 pos0 : Nat)
    (a0 : K) :
    (List.range L.length).foldl
        (fun (st : K × Nat) i =>
          if (L.getD i (0, false)).2 then
            (st.1 + ((st.2 + 1 : Nat) : K) / ((rank0 + (i + 1) : Nat) : K), st.2 + 1)
          else st)
        (a0, pos0)
      = (a0 + (precisionAtPositivesFrom rank0 pos0 L).sum, pos0 + L.countP (fun p => p.2)) := by
  induction L generalizing rank0 pos0 a0 with
  | nil => simp [precisionAtPositivesFrom]
  | cons p L ih =>
    rw [List.length_cons, List.range_succ_eq_map, List.foldl_cons, List.foldl_map,
      precisionAtPositivesFrom_cons, List.countP_cons]
    have hshift : ∀ st0 : K × Nat, (List.range L.length).foldl
          (fun (st : K × Nat) i =>
            if ((p :: L).getD (Nat.succ i) (0, false)).2 then
              (st.1 + ((st.2 + 1 : Nat) : K) / ((rank0 + (Nat.succ i + 1) : Nat) : K), st.2 + 1)
            else st) st0
        = (List.range L.length).foldl
          (fun (st : K × Nat) i =>
            if (L.getD i (0, false)).2 then
              (st.1 + ((st.2 + 1 : Nat) : K) / ((rank0 + 1 + (i + 1) : Nat) : K), st.2 + 1)
            else st) st0 := by
      intro st0
      apply List.foldl_ext
      intro st i _
      rw [show rank0 + (Nat.succ i + 1) = rank0 + 1 + (i + 1) by omega]
      rfl
    rw [hshift]
    by_cases hp : p.2 = true
    · have h0 : ((p :: L).getD 0 (0, false)).2 = true := hp
      simp only [h0, hp, if_true]
      rw [ih, List.sum_cons, add_assoc, Nat.add_zero]
      congr 1
      omega
    · rw [Bool.not_eq_true] at hp
      have h0 : ((p :: L).getD 0 (0, false)).2 = false := hp
      simp only [h0, hp, Bool.false_eq_true, if_false]
      rw [ih]
      rfl

theorem length_precisionAtPositivesFrom {K : Type} [LinearOrderedField K] (rank0 pos0 : Nat)
    (L : List (K × Bool)) :
    (precisionAtPositivesFrom rank0 pos0 L).length = L.countP (fun p => p.2) := by
  induction L generalizing rank0 pos0 with
  | nil => rfl
  | cons p L ih =>
    rw [precisionAtPositivesFrom_cons, List.countP_cons]
    by_cases hp : p.2 = true
    · simp [hp, ih]
    · simp [hp, ih]

theorem precisionAtPositivesFrom_bounds {K : Type} [LinearOrderedField K] (rank0 pos0 : Nat)
    (hle : pos0 ≤ rank0) (L : List (K × Bool)) :
    ∀ t ∈ precisionAtPositivesFrom rank0 pos0 L, 0 < t ∧ t ≤ 1 := by
  induction L generalizing rank0 pos0 with
  | nil => intro t ht; simp [precisionAtPositivesFrom] at ht
  | cons p L ih =>
    rw [precisionAtPositivesFrom_cons]
    by_cases hp : p.2 = true
    · rw [if_pos hp]
      intro t ht
      rcases List.mem_cons.1 ht with rfl | ht
      · have hr : (0 : K) < ((rank0 + 1 : Nat) : K) := Nat.cast_pos.2 (Nat.succ_pos _)
        have hc : (0 : K) < ((pos0 + 1 : Nat) : K) := Nat.cast_pos.2 (Nat.succ_pos _)
        refine ⟨div_pos hc hr, (div_le_one hr).2 ?_⟩
        exact Nat.cast_le.2 (by omega)
      · exact ih (rank0 + 1) (pos0 + 1) (by omega) t ht
    · rw [if_neg hp]
      exact ih (rank0 + 1) pos0 (by omega)

theorem sum_bounds_of_unit {K : Type} [LinearOrderedField K] (l : List K)
    (h : ∀ t ∈ l, 0 < t ∧ t ≤ 1) (hne : l ≠ []) : 0 < l.sum ∧ l.sum ≤ (l.length : K) := by
  induction l with
  | nil => exact absurd rfl hne
  | cons t l ih =>
    obtain ⟨h0, h1⟩ := h t (List.mem_cons_self _ _)
    rw [List.sum_cons, List.length_cons, Nat.cast_succ]
    by_cases hl : l = []
    · subst hl
      simp only [List.sum_nil, add_zero, List.length_nil, Nat.cast_zero, zero_add]
      exact ⟨h0, h1⟩
    · obtain ⟨i0, i1⟩ := ih (fun t ht => h t (List.mem_cons_of_mem _ ht)) hl
      constructor
      · exact add_pos h0 i0
      · rw [add_comm]
        exact add_le_add i1 h1

/-- When every positive is ranked before every negative, every term is 1. -/
theorem precisionAtPositivesFrom_positives_first {K : Type} [LinearOrderedField K] (c : Nat)
    (L : List (K × Bool)) (hfirst : L.Pairwise (fun x y => x.2 = false → y.2 = false)) :
    precisionAtPositivesFrom c c L = List.replicate (L.countP (fun p => p.2)) (1 : K) := by
  induction L generalizing c with
  | nil => rfl
  | cons p L ih =>
    obtain ⟨hhead, htail⟩ := List.pairwise_cons.1 hfirst
    by_cases hp : p.2 = true
    · rw [precisionAtPositivesFrom_cons, if_pos hp, ih (c + 1) htail, List.countP_cons, if_pos hp,
        List.replicate_succ, div_self (Nat.cast_ne_zero.2 (Nat.succ_ne_zero c))]
    · have hzero : L.countP (fun p => p.2) = 0 := by
        apply List.countP_eq_zero.2
        intro y hy
        rw [hhead y hy (by simpa using hp)]
        simp
      have hnil : precisionAtPositivesFrom (c + 1) c L = [] := by
        apply List.eq_nil_of_length_eq_zero
        rw [length_precisionAtPositivesFrom, hzero]
      rw [precisionAtPositivesFrom_cons, if_neg hp, hnil, List.countP_cons, if_neg hp, hzero]
      rfl

/-- C16: for label and score vectors of one length: with `P ≥ 1` positives,
`AveragePrecision::compute` returns `(1 / P) *` the sum, over the positives at
1-based rank `i` of the descending `(score, label)` order, of (the number of
positives at ranks `≤ i`) / `i`; the value lies in `(0, 1]` and is 1 when every
positive is ranked before every negative; with no positive it fails fatally. -/
theorem AveragePrecision.compute_rank_mean {K : Type} [LinearOrderedField K]
    (stdSort : (K × Bool → K × Bool → Bool) → List (K × Bool) → List (K × Bool))
    (hsort : StdSort pairGreater (stdSort pairGreater)) (labels scores : List K)
    (hlen : labels.length = scores.length) :
    (labels.countP (fun l => decide (0 < l)) = 0 →
      AveragePrecision.compute stdSort labels scores = none) ∧
    (labels.countP (fun l => decide (0 < l)) ≠ 0 →
      ∃ ap, AveragePrecision.compute stdSort labels scores = some ap ∧
        ap = 1 / (labels.countP (fun l => decide (0 < l)) : K)
          * (precisionAtPositives (rankDescending (rankEntries labels scores))).sum ∧
        0 < ap ∧ ap ≤ 1 ∧
        ((rankDescending (rankEntries labels scores)).Pairwise
            (fun x y => x.2 = false → y.2 = false) → ap = 1)) := by
  constructor
  · intro hzero
    unfold AveragePrecision.compute
    rw [if_neg (not_not.2 hlen)]
    simp only
    rw [countPositive_eq, if_pos (by omega)]
  · intro hpos
    obtain ⟨hl, hcp, _⟩ := countP_rankEntries labels scores hlen
    obtain ⟨hperm, _⟩ := insertionStdSort_pairGreater (rankEntries labels scores)
    obtain ⟨ranked, hranked⟩ : ∃ ranked, ranked = rankDescending (rankEntries labels scores) :=
      ⟨_, rfl⟩
    have hcount : ranked.countP (fun p => p.2) = labels.countP (fun l => decide (0 < l)) := by
      rw [hranked]; unfold rankDescending; rw [hperm.countP_eq, hcp]
    have hfold := ap_foldl ranked 0 0 (0 : K)
    simp only [Nat.zero_add, zero_add] at hfold
    have hrun : AveragePrecision.compute stdSort labels scores
        = some ((precisionAtPositives ranked).sum / (labels.countP (fun l => decide (0 < l)) : K)) := by
      unfold AveragePrecision.compute
      rw [if_neg (not_not.2 hlen)]
      simp only
      rw [countPositive_eq, if_neg (not_not.2 (Nat.pos_of_ne_zero hpos)),
        scoredPairs_eq_rankEntries labels scores hlen,
        stdSort_eq_rankDescending stdSort hsort, ← hranked, hfold]
      rfl
    have hP : (0 : K) < (labels.countP (fun l => decide (0 < l)) : K) :=
      Nat.cast_pos.2 (Nat.pos_of_ne_zero hpos)
    have hlenT : (precisionAtPositives ranked).length = labels.countP (fun l => decide (0 < l)) := by
      unfold precisionAtPositives
      rw [length_precisionAtPositivesFrom, hcount]
    have hne : precisionAtPositives ranked ≠ [] := by
      intro h
      rw [h] at hlenT
      exact hpos hlenT.symm
    obtain ⟨hs0, hs1⟩ := sum_bounds_of_unit (precisionAtPositives ranked)
      (precisionAtPositivesFrom_bounds 0 0 (Nat.le_refl 0) ranked) hne
    rw [hlenT] at hs1
    rw [← hranked]
    refine ⟨_, hrun, by rw [div_eq_mul_one_div, mul_comm], div_pos hs0 hP,
      (div_le_one hP).2 hs1, ?_⟩
    intro hfirst
    unfold precisionAtPositives
    rw [precisionAtPositivesFrom_positives_first 0 ranked hfirst, hcount, List.sum_replicate,
      nsmul_eq_mul, mul_one, div_self (ne_of_gt hP)]

theorem AveragePrecision.compute_rank_mean_witness :
    StdSort (pairGreater : ℚ × Bool → ℚ × Bool → Bool) (insertionStdSort pairGreater) ∧
    testLabels.length = testScores.length ∧
    precisionAtPositives (rankDescending (rankEntries testLabels testScores)) = [1, 2 / 3] ∧
    AveragePrecision.compute insertionStdSort testLabels testScores = some (5 / 6) ∧
    AveragePrecision.compute insertionStdSort [0, 0, 0] testScores = none ∧
    ∃ ap, AveragePrecision.compute insertionStdSort testLabels testScores = some ap ∧
      ap = 1 / (testLabels.countP (fun l => decide (0 < l)) : ℚ)
        * (precisionAtPositives (rankDescending (rankEntries testLabels testScores))).sum ∧
      0 < ap ∧ ap ≤ 1 ∧
      ((rankDescending (rankEntries testLabels testScores)).Pairwise
          (fun x y => x.2 = false → y.2 = false) → ap = 1) :=
  ⟨insertionStdSort_pairGreater, by decide, by decide!, by decide!, by decide!,
    (AveragePrecision.compute_rank_mean insertionStdSort insertionStdSort_pairGreater
      testLabels testScores (by decide)).2 (by decide!)⟩

/-! ## Theorems: averaged metrics -/

theorem plusResults_assoc {K : Type} [LinearOrderedField K] (a b c : Option K) :
    plusResults (plusResults a b) c = plusResults a (plusResults b c) := by
  cases a <;> cases b <;> cases c <;> simp [plusResults, add_assoc]

theorem plusResults_comm {K : Type} [LinearOrderedField K] (a b : Option K) :
    plusResults a b = plusResults b a := by
  cases a <;> cases b <;> simp [plusResults, add_comm]

theorem plusResults_zero {K : Type} [LinearOrderedField K] (a : Option K) :
    plusResults a (some 0) = a := by
  cases a <;> simp [plusResults]

/-- The sequential loop `sum += compute(labels[i], scores[i])` as a fold of the
reducer of the parallel version. -/
theorem foldlM_plus_eq_foldl {K : Type} [LinearOrderedField K] (m : Nat → Option K)
    (l : List Nat) (s : K) :
    l.foldlM (fun sum i => (m i).map (fun v => sum + v)) s
      = l.foldl (fun r i => plusResults r (m i)) (some s) := by
  induction l generalizing s with
  | nil => rfl
  | cons i l ih =>
    rw [List.foldlM_cons, List.foldl_cons]
    cases hm : m i with
    | none =>
      have hnone : ∀ l : List Nat, l.foldl (fun r i => plusResults r (m i)) none = none := by
        intro l
        induction l with
        | nil => rfl
        | cons j l ihl => rw [List.foldl_cons]; exact ihl
      simp only [Option.map_none', Option.bind_eq_bind, Option.none_bind, plusResults,
        Option.some_bind]
      exact (hnone l).symm
    | some v =>
      simp only [Option.map_some', Option.bind_eq_bind, Option.some_bind, plusResults]
      exact ih (s + v)

/-- In exact arithmetic the parallel sum of the per-user values is the
sequential one. -/
theorem mapReduce_plusResults {K : Type} [LinearOrderedField K] (p : ParallelExecutor)
    (ntasks : Nat) (m : Nat → Option K) :
    p.mapReduce ntasks m plusResults (some 0)
      = (List.range ntasks).foldl (fun r i => plusResults r (m i)) (some 0) := by
  rw [mapReduce_eq_foldl_execute p ntasks m plusResults (some 0) plusResults_assoc plusResults_zero]
  apply (execute_flatten_perm p ntasks).foldl_eq'
  intro x _ y _ z
  rw [plusResults_assoc, plusResults_assoc, plusResults_comm (m x)]

theorem foldl_plusResults_some {K : Type} [LinearOrderedField K] (m : Nat → Option K)
    (v : Nat → K) (n : Nat) (h : ∀ i, i < n → m i = some (v i)) :
    (List.range n).foldl (fun r i => plusResults r (m i)) (some 0)
      = some (∑ i ∈ Finset.range n, v i) := by
  induction n with
  | zero => simp
  | succ n ih =>
    rw [List.range_succ, List.foldl_append, ih (fun i hi => h i (Nat.lt_succ_of_lt hi)),
      Finset.sum_range_succ]
    simp [plusResults, h n (Nat.lt_succ_self n)]

/-- C17: for every per-user metric, every two lists of per-user vectors and
every executor, the parallel averaged `compute(labels, scores, parallel)`
equals the sequential averaged `compute(labels, scores)` (also when a per-user
computation fails fatally); for lists of one length `n > 0` on which the
per-user metric returns the values `v i`, both return the arithmetic mean
`(1/n) * sum_i v i`, in exact arithmetic; both fail fatally on an empty list
and on lists of different lengths. -/
theorem Metric.computeParallel_eq_compute {K : Type} [LinearOrderedField K]
    (metric : List K → List K → Option K) (labels scores : List (List K))
    (parallel : ParallelExecutor) :
    Metric.computeParallel metric labels scores parallel = Metric.compute metric labels scores ∧
    (∀ v : Nat → K, labels.length = scores.length → labels ≠ [] →
      (∀ i, i < labels.length → metric (labels.getD i []) (scores.getD i []) = some (v i)) →
      Metric.compute metric labels scores
        = some (1 / (labels.length : K) * ∑ i ∈ Finset.range labels.length, v i)) ∧
    (labels = [] ∨ labels.length ≠ scores.length →
      Metric.compute metric labels scores = none ∧
      Metric.computeParallel metric labels scores parallel = none) := by
  have hseq : (List.range labels.length).foldlM
        (fun sum i => (metric (labels.getD i []) (scores.getD i [])).map (fun v => sum + v)) (0 : K)
      = (List.range labels.length).foldl
        (fun r i => plusResults r (metric (labels.getD i []) (scores.getD i []))) (some 0) :=
    foldlM_plus_eq_foldl (fun i => metric (labels.getD i []) (scores.getD i [])) _ 0
  refine ⟨?_, ?_, ?_⟩
  · unfold Metric.computeParallel Metric.compute
    rw [hseq, mapReduce_plusResults]
  · intro v hlen hne hv
    have hpos : labels.length > 0 := List.length_pos.2 hne
    unfold Metric.compute
    rw [if_neg (not_not.2 hlen), if_neg (not_not.2 hpos), hseq,
      foldl_plusResults_some _ v labels.length hv, Option.map_some', div_eq_mul_one_div, mul_comm]
  · intro h
    unfold Metric.computeParallel Metric.compute
    by_cases hlen : labels.length ≠ scores.length
    · rw [if_pos hlen, if_pos hlen]
      exact ⟨rfl, rfl⟩
    · rcases h with h | h
      · have h0 : ¬ labels.length > 0 := by rw [h]; simp
        rw [if_neg hlen, if_neg hlen, if_pos h0, if_pos h0]
        exact ⟨rfl, rfl⟩
      · exact absurd h hlen

theorem Metric.computeParallel_eq_compute_witness :
    Metric.compute MeanSquaredError.compute testAvgLabels testAvgScores = some (5 / 8) ∧
    Metric.computeParallel MeanSquaredError.compute testAvgLabels testAvgScores ⟨3, by decide⟩
      = Metric.compute MeanSquaredError.compute testAvgLabels testAvgScores :=
  ⟨by decide!,
    (Metric.computeParallel_eq_compute MeanSquaredError.compute testAvgLabels testAvgScores
      ⟨3, by decide⟩).1⟩

/-! ## Theorems: metric registry -/

theorem digitChar_spec : ∀ d, d < 10 →
    (Nat.digitChar d).isDigit = true ∧ digitValue (Nat.digitChar d) = d ∧
    isspace (Nat.digitChar d) = false ∧ Nat.digitChar d ≠ '-' ∧ Nat.digitChar d ≠ '+' := by
  decide

theorem foldl_decimal (l : List Char) (v : Nat) :
    l.foldl (fun v c => 10 * v + digitValue c) v
      = v * 10 ^ l.length + l.foldl (fun v c => 10 * v + digitValue c) 0 := by
  induction l generalizing v with
  | nil => simp
  | cons c l ih =>
    rw [List.foldl_cons, ih, List.foldl_cons, ih (10 * 0 + digitValue c), List.length_cons,
      Nat.pow_succ]
    ring

/-- The decimal numeral `Nat.toDigits 10 n`, built with enough fuel: digits only,
not empty, and its value is `n`. -/
theorem toDigitsCore_spec (fuel n : Nat) (ds : List Char) (hfuel : n < fuel)
    (hds : ∀ c ∈ ds, c.isDigit = true) :
    (∀ c ∈ Nat.toDigitsCore 10 fuel n ds, c.isDigit = true) ∧
    Nat.toDigitsCore 10 fuel n ds ≠ [] ∧
    decimalValue (Nat.toDigitsCore 10 fuel n ds) = n * 10 ^ ds.length + decimalValue ds := by
  induction fuel generalizing n ds with
  | zero => omega
  | succ fuel ih =>
    have hd := digitChar_spec (n % 10) (Nat.mod_lt n (by decide))
    have hds2 : ∀ c ∈ Nat.digitChar (n % 10) :: ds, c.isDigit = true := by
      intro c hc
      rcases List.mem_cons.1 hc with rfl | hc
      · exact hd.1
      · exact hds c hc
    have hval : decimalValue (Nat.digitChar (n % 10) :: ds)
        = (n % 10) * 10 ^ ds.length + decimalValue ds := by
      unfold decimalValue
      rw [List.foldl_cons, foldl_decimal, hd.2.1]
      simp
    unfold Nat.toDigitsCore
    simp only
    by_cases h0 : n / 10 = 0
    · rw [if_pos h0]
      refine ⟨hds2, List.cons_ne_nil _ _, ?_⟩
      rw [hval]
      have : n % 10 = n := by omega
      rw [this]
    · rw [if_neg h0]
      obtain ⟨i1, i2, i3⟩ := ih (n / 10) (Nat.digitChar (n % 10) :: ds) (by omega) hds2
      refine ⟨i1, i2, ?_⟩
      rw [i3, hval, List.length_cons, Nat.pow_succ]
      have hn := Nat.div_add_mod n 10
      calc n / 10 * (10 ^ ds.length * 10) + (n % 10 * 10 ^ ds.length + decimalValue ds)
          = (10 * (n / 10) + n % 10) * 10 ^ ds.length + decimalValue ds := by ring
        _ = n * 10 ^ ds.length + decimalValue ds := by rw [hn]

theorem toDigits_spec (n : Nat) :
    (∀ c ∈ Nat.toDigits 10 n, c.isDigit = true) ∧ Nat.toDigits 10 n ≠ [] ∧
    decimalValue (Nat.toDigits 10 n) = n := by
  obtain ⟨h1, h2, h3⟩ := toDigitsCore_spec (n + 1) n [] (Nat.lt_succ_self n)
    (fun c hc => absurd hc (List.not_mem_nil c))
  refine ⟨h1, h2, ?_⟩
  unfold Nat.toDigits
  rw [h3]
  simp [decimalValue]

theorem isDigit_not_space_sign (c : Char) (h : c.isDigit = true) :
    isspace c = false ∧ c ≠ '-' ∧ c ≠ '+' ∧ c ≠ '@' := by
  have h1 : 48 ≤ c.toNat ∧ c.toNat ≤ 57 := by
    simp only [Char.isDigit, Bool.and_eq_true, decide_eq_true_eq] at h
    exact ⟨h.1, h.2⟩
  refine ⟨?_, ?_, ?_, ?_⟩
  · unfold isspace
    simp only [Bool.or_eq_false_iff, Bool.and_eq_false_iff, decide_eq_false_iff_not]
    omega
  · rintro rfl; revert h1; decide
  · rintro rfl; revert h1; decide
  · rintro rfl; revert h1; decide

/-- The function `std::stoul` converts a string of decimal digits within range
to its value. -/
theorem stoul_digits (digits : List Char) (hd : ∀ c ∈ digits, c.isDigit = true)
    (hne : digits ≠ []) (hle : decimalValue digits ≤ ULONG_MAX) :
    stoul digits = some (decimalValue digits) := by
  obtain ⟨c, rest, rfl⟩ := List.exists_cons_of_ne_nil hne
  obtain ⟨hs, hm, hp, _⟩ := isDigit_not_space_sign c (hd c (List.mem_cons_self _ _))
  have hdrop : (c :: rest).dropWhile isspace = c :: rest := by
    rw [List.dropWhile_cons, if_neg (by rw [hs]; simp)]
  have htake : (c :: rest).takeWhile Char.isDigit = c :: rest :=
    List.takeWhile_eq_self_iff.2 hd
  have hsign : (match c :: rest with
      | '-' :: rest => (true, rest)
      | '+' :: rest => (false, rest)
      | _ => (false, c :: rest)) = (false, c :: rest) := by
    split
    · rename_i h; exact absurd (List.cons.inj h).1 hm
    · rename_i h; exact absurd (List.cons.inj h).1 hp
    · rfl
  unfold stoul
  simp only [hdrop]
  rw [hsign]
  simp only [htake]
  rw [if_neg (List.cons_ne_nil _ _), if_neg (by omega)]
  rfl

theorem parseAtKMetric_at (c : Char) (hc : c ≠ '@') (suffix : List Char) :
    parseAtKMetric (c :: '@' :: suffix) = (stoul suffix).map (fun k => ([c], k)) := by
  have hfind : stringFind '@' (c :: '@' :: suffix) = some 1 := by
    simp [stringFind, hc]
  unfold parseAtKMetric
  rw [hfind]
  simp only [Nat.one_ne_zero, if_false, List.take_succ_cons, List.take_zero, List.drop_succ_cons,
    List.drop_zero]
  cases stoul suffix <;> rfl

theorem new_metrics :
    MetricsManager.new.metrics
      = [(['a', 'p'], Metric.AveragePrecision), (['a', 'u', 'c'], Metric.AUC),
          (['m', 's', 'e'], Metric.MeanSquaredError)] := by
  decide

theorem new_lookup_at (c : Char) (suffix : List Char) :
    MetricsManager.new.metrics.lookup (c :: '@' :: suffix) = none := by
  rw [new_metrics]
  simp [List.lookup]

/-- A name found or built by `exists` is in the map afterwards, so `getMetric`
returns its object. -/
theorem exists_then_lookup (m : MetricsManager) (name : List Char)
    (h : (m.exists name).1 = true) : ((m.exists name).2.metrics.lookup name).isSome = true := by
  unfold MetricsManager.exists at h ⊢
  cases hl : m.metrics.lookup name with
  | some metric => simp [hl]
  | none =>
    rw [hl] at h
    simp only at h ⊢
    unfold MetricsManager.initFromName at h ⊢
    cases hp : parseAtKMetric name with
    | none => rw [hp] at h; simp at h
    | some sk =>
      rcases sk with ⟨str, k⟩
      rw [hp] at h
      simp only at h ⊢
      by_cases h1 : str = "p".toList
      · rw [if_pos h1]
        simp [MetricsManager.registerMetric, hl]
      · rw [if_neg h1] at h ⊢
        by_cases h2 : str = "r".toList
        · rw [if_pos h2]
          simp [MetricsManager.registerMetric, hl]
        · rw [if_neg h2] at h
          simp at h

theorem exists_at_digits (c : Char) (hc : c ≠ '@') (k : Nat) (hk : k ≤ ULONG_MAX) :
    MetricsManager.new.initFromName (c :: '@' :: Nat.toDigits 10 k)
      = (if [c] = "p".toList then
          (true, MetricsManager.new.registerMetric (c :: '@' :: Nat.toDigits 10 k)
            (Metric.Precision k))
        else if [c] = "r".toList then
          (true, MetricsManager.new.registerMetric (c :: '@' :: Nat.toDigits 10 k)
            (Metric.Recall k))
        else (false, MetricsManager.new)) := by
  obtain ⟨h1, h2, h3⟩ := toDigits_spec k
  unfold MetricsManager.initFromName
  rw [parseAtKMetric_at c hc, stoul_digits _ h1 h2 (by rw [h3]; exact hk), h3]
  rfl

theorem getMetric_at_digits (c : Char) (metric : Metric) (suffix : List Char)
    (h : MetricsManager.new.initFromName (c :: '@' :: suffix)
      = (true, MetricsManager.new.registerMetric (c :: '@' :: suffix) metric)) :
    (MetricsManager.new.exists (c :: '@' :: suffix)).1 = true ∧
    (MetricsManager.new.getMetric (c :: '@' :: suffix)).1 = some metric := by
  have hl := new_lookup_at c suffix
  have hex : MetricsManager.new.exists (c :: '@' :: suffix)
      = (true, MetricsManager.new.registerMetric (c :: '@' :: suffix) metric) := by
    unfold MetricsManager.exists
    rw [hl]
    exact h
  refine ⟨by rw [hex], ?_⟩
  unfold MetricsManager.getMetric
  simp only
  rw [hex]
  simp [MetricsManager.registerMetric, hl]

/-- C18 (the claim as stated fails): `2^64` is a positive integer, its decimal
numeral is `18446744073709551616`, and `exists("p@18446744073709551616")` is
false on a freshly initialised `MetricsManager`: `std::stoul` throws
`std::out_of_range`, which `parseAtKMetric` catches. -/
theorem exists_rejects_window_out_of_range :
    0 < 2 ^ 64 ∧
    Nat.toDigits 10 (2 ^ 64) = "18446744073709551616".toList ∧
    (MetricsManager.new.exists "p@18446744073709551616".toList).1 = false ∧
    (MetricsManager.new.exists "r@18446744073709551616".toList).1 = false := by
  decide

/-- C18 (amended): on a freshly initialised `MetricsManager`, `exists("mse")`,
`exists("auc")` and `exists("ap")` are true; for every positive integer
`k ≤ ULONG_MAX = 2^64 - 1`, written in decimal, `exists("p@k")` and
`exists("r@k")` are true and `getMetric` returns a `Precision`, resp. `Recall`,
with window `k`; `exists("p5")`, `exists("@5")` and `exists("p@")` are false; and
on every manager, whenever `exists(name)` is true, `getMetric(name)` returns a
non-null metric, before and after that call of `exists`. -/
theorem MetricsManager.exists_builtin_and_windowed :
    (MetricsManager.new.exists "mse".toList).1 = true ∧
    (MetricsManager.new.exists "auc".toList).1 = true ∧
    (MetricsManager.new.exists "ap".toList).1 = true ∧
    (∀ k, 1 ≤ k → k ≤ ULONG_MAX →
      (MetricsManager.new.exists ("p@".toList ++ Nat.toDigits 10 k)).1 = true ∧
      (MetricsManager.new.getMetric ("p@".toList ++ Nat.toDigits 10 k)).1
        = some (Metric.Precision k) ∧
      (MetricsManager.new.exists ("r@".toList ++ Nat.toDigits 10 k)).1 = true ∧
      (MetricsManager.new.getMetric ("r@".toList ++ Nat.toDigits 10 k)).1
        = some (Metric.Recall k)) ∧
    (MetricsManager.new.exists "p5".toList).1 = false ∧
    (MetricsManager.new.exists "@5".toList).1 = false ∧
    (MetricsManager.new.exists "p@".toList).1 = false ∧
    (∀ (m : MetricsManager) (name : List Char), (m.exists name).1 = true →
      ((m.getMetric name).1).isSome = true ∧
      (((m.exists name).2.getMetric name).1).isSome = true) ∧
    ULONG_MAX = 2 ^ 64 - 1 := by
  refine ⟨by decide, by decide, by decide, ?_, by decide, by decide, by decide, ?_, rfl⟩
  · intro k _ hk
    have hp := exists_at_digits 'p' (by decide) k hk
    have hr := exists_at_digits 'r' (by decide) k hk
    rw [if_pos (by decide)] at hp
    rw [if_neg (by decide), if_pos (by decide)] at hr
    obtain ⟨p1, p2⟩ := getMetric_at_digits 'p' (Metric.Precision k) _ hp
    obtain ⟨r1, r2⟩ := getMetric_at_digits 'r' (Metric.Recall k) _ hr
    exact ⟨p1, p2, r1, r2⟩
  · intro m name h
    have hl := exists_then_lookup m name h
    constructor
    · unfold MetricsManager.getMetric
      simp only
      rw [h]
      exact hl
    · have h2 : ((m.exists name).2.exists name) = (true, (m.exists name).2) := by
        obtain ⟨metric, hm⟩ := Option.isSome_iff_exists.1 hl
        generalize (m.exists name).2 = m2 at hm
        unfold MetricsManager.exists
        rw [hm]
      unfold MetricsManager.getMetric
      simp only
      rw [h2]
      exact hl

/-- C19 (evaluation at failing inputs): `parseAtKMetric` returns `true` on
`"p@0"` (with `k = 0`), on `"p@-5"` (with `k = 2^64 - 5`) and on `"p@5x"` (with
`k = 5`), so that `exists` is true for these names and registers a
`Precision(0)`; it does return `false` when `@` is absent or at position 0 and
on an empty suffix. -/
theorem parseAtKMetric_accepts_malformed :
    parseAtKMetric "p@0".toList = some ("p".toList, 0) ∧
    parseAtKMetric "p@-5".toList = some ("p".toList, 2 ^ 64 - 5) ∧
    parseAtKMetric "p@5x".toList = some ("p".toList, 5) ∧
    (MetricsManager.new.exists "p@0".toList).1 = true ∧
    (MetricsManager.new.exists "p@-5".toList).1 = true ∧
    (MetricsManager.new.exists "p@5x".toList).1 = true ∧
    (MetricsManager.new.getMetric "p@0".toList).1 = some (Metric.Precision 0) ∧
    (∀ name, stringFind '@' name = none ∨ stringFind '@' name = some 0 →
      parseAtKMetric name = none) ∧
    parseAtKMetric "p@".toList = none := by
  refine ⟨by decide, by decide, by decide, by decide, by decide, by decide, by decide, ?_,
    by decide⟩
  rintro name (h | h)
  · unfold parseAtKMetric; rw [h]
  · unfold parseAtKMetric; rw [h]; rfl

/-! ## Theorems: Matrix and FactorData accessors -/

/-- Two well-formed matrices of one shape with the same elements are equal. -/
theorem Matrix.ext_get {K : Type} [Zero K] (A B : Matrix K) (hA : A.WF) (hB : B.WF)
    (hr : A.nrows = B.nrows) (hc : A.ncols = B.ncols)
    (h : ∀ i j, i < B.nrows → j < B.ncols → A.get i j = B.get i j) : A = B := by
  rcases A with ⟨an, am, ad⟩
  rcases B with ⟨bn, bm, bd⟩
  simp only at hr hc
  subst hr hc
  have hAl : ad.length = an * am := hA
  have hBl : bd.length = an * am := hB
  have hdata : ad = bd := by
    apply List.ext_getElem (by rw [hAl, hBl])
    intro k h1 h2
    have hk : k < an * am := by rw [← hAl]; exact h1
    have hm : 0 < am := by
      rcases Nat.eq_zero_or_pos am with h0 | h0
      · rw [h0, Nat.mul_zero] at hk; exact absurd hk (Nat.not_lt_zero _)
      · exact h0
    have hi : k / am < an := by
      rw [Nat.div_lt_iff_lt_mul hm]; exact hk
    have hj : k % am < am := Nat.mod_lt k hm
    have hidx : k / am * am + k % am = k := by
      rw [Nat.mul_comm]; exact Nat.div_add_mod k am
    have := h (k / am) (k % am) hi hj
    unfold Matrix.get Matrix.index at this
    simp only [hidx] at this
    rw [List.getD_eq_getElem _ _ h1, List.getD_eq_getElem _ _ h2] at this
    exact this
  rw [hdata]

/-- C21: for every matrix `M` with `n > 0` rows and `m > 0` columns (its `n * m`
elements are in a `std::vector`, so there are fewer than 2^64 of them),
`M.transpose()` has `m` rows and `n` columns with `T(j, i) = M(i, j)` for all
`i < n`, `j < m`, and `M.transpose().transpose()` has the dimensions of `M` and
is equal to `M` element-wise (and, for a matrix whose buffer has `n * m`
elements, as a whole). -/
theorem Matrix.transpose_transpose {K : Type} [Zero K] (M : Matrix K) (hr : 0 < M.nrows)
    (hc : 0 < M.ncols) (hb : M.nrows * M.ncols < 2 ^ 64) :
    ∃ T TT, M.transpose = some T ∧ T.nrows = M.ncols ∧ T.ncols = M.nrows ∧
      (∀ i j, i < M.nrows → j < M.ncols → T.get j i = M.get i j) ∧
      T.transpose = some TT ∧ TT.nrows = M.nrows ∧ TT.ncols = M.ncols ∧
      (∀ i j, i < M.nrows → j < M.ncols → TT.get i j = M.get i j) ∧
      (M.WF → TT = M) := by
  obtain ⟨T, h1, h2, h3, _, h5⟩ := Matrix.transpose_spec M hr hc hb
  obtain ⟨TT, g1, g2, g3, g4, g5⟩ := Matrix.transpose_spec T (by rw [h2]; exact hc)
    (by rw [h3]; exact hr) (by rw [h2, h3, Nat.mul_comm]; exact hb)
  have hget : ∀ i j, i < M.nrows → j < M.ncols → TT.get i j = M.get i j := by
    intro i j hi hj
    rw [g5 j i (by rw [h2]; exact hj) (by rw [h3]; exact hi), h5 i j hi hj]
  refine ⟨T, TT, h1, h2, h3, h5, g1, g2.trans h3, g3.trans h2, hget, ?_⟩
  intro hwf
  exact Matrix.ext_get TT M g4 hwf (g2.trans h3) (g3.trans h2) hget

theorem Matrix.transpose_transpose_witness :
    0 < testY.nrows ∧ 0 < testY.ncols ∧ testY.nrows * testY.ncols < 2 ^ 64 ∧
    testY.transpose = some ⟨3, 2, [1/10, 1/10, 1/10, 1/10, 1/10, 1/10]⟩ ∧
    (⟨2, 3, [1, 2, 3, 4, 5, 6]⟩ : Matrix ℚ).transpose = some ⟨3, 2, [1, 4, 2, 5, 3, 6]⟩ ∧
    ∃ T TT, testY.transpose = some T ∧ T.nrows = testY.ncols ∧ T.ncols = testY.nrows ∧
      (∀ i j, i < testY.nrows → j < testY.ncols → T.get j i = testY.get i j) ∧
      T.transpose = some TT ∧ TT.nrows = testY.nrows ∧ TT.ncols = testY.ncols ∧
      (∀ i j, i < testY.nrows → j < testY.ncols → TT.get i j = testY.get i j) ∧
      (testY.WF → TT = testY) :=
  ⟨by decide, by decide, by decide, by decide!, by decide!,
    Matrix.transpose_transpose testY (by decide) (by decide) (by decide)⟩

/-- The value last written at `idx` by a sequence of writes `(index, value)`,
`d` when there is none. -/
theorem lastWrite_append {K : Type} (writes : List (Nat × K)) (w : Nat × K) (idx : Nat) (d : K) :
    (((writes ++ [w]).filter (fun w => decide (w.1 = idx))).getLast?.map Prod.snd).getD d
      = if idx = w.1 then w.2
        else ((writes.filter (fun w => decide (w.1 = idx))).getLast?.map Prod.snd).getD d := by
  rw [List.filter_append]
  by_cases h : idx = w.1
  · rw [if_pos h, List.filter_cons_of_pos (by simpa using h.symm), List.filter_nil,
      List.getLast?_append, List.getLast?_singleton]
    rfl
  · rw [if_neg h, List.filter_cons_of_neg (by simpa using fun e : w.1 = idx => h e.symm),
      List.filter_nil, List.append_nil]

/-- Writes through the checked accessor of a `FactorData` with biases. -/
theorem FactorData.foldlM_setBiasAt {K : Type} [Zero K] (fd : FactorData K)
    (hb : fd.withBiases = true) (writes : List (Nat × K)) (hw : ∀ w ∈ writes, w.1 < fd.biases.size) :
    ∃ fd2, writes.foldlM (fun (fd : FactorData K) w => fd.setBiasAt w.1 w.2) fd = some fd2 ∧
      fd2.withBiases = true ∧ fd2.factors = fd.factors ∧ fd2.biases.size = fd.biases.size ∧
      ∀ idx,
        fd2.biases.get idx
          = ((writes.filter (fun w => decide (w.1 = idx))).getLast?.map Prod.snd).getD
              (fd.biases.get idx) := by
  induction writes using List.reverseRecOn with
  | nil => exact ⟨fd, rfl, hb, rfl, rfl, fun idx => by simp⟩
  | append_singleton writes w ih =>
    obtain ⟨fd1, h1, h2, h3, h4, h5⟩ := ih (fun x hx => hw x (List.mem_append_left _ hx))
    have hwlt : w.1 < fd1.biases.size := by
      rw [h4]; exact hw w (List.mem_append_right _ (List.mem_singleton_self w))
    refine ⟨{ fd1 with biases := fd1.biases.set w.1 w.2 }, ?_, h2, h3, ?_, ?_⟩
    · rw [List.foldlM_append, h1]
      simp [FactorData.setBiasAt, h2]
    · simp only [Vector.set, Vector.size, List.length_set]
      exact h4
    · intro idx
      simp only
      rw [Vector.get_set_elem fd1.biases w.1 idx w.2 hwlt, lastWrite_append, h5 idx]

/-- C27 (the claim as stated fails): on a `FactorData` constructed with
`withBiases = false`, reading `biasAt(0)` through the const accessor returns
0.0; it is no fatal error. -/
theorem FactorData.const_biasAt_without_biases :
    ∃ fd : FactorData ℚ, FactorData.new 3 2 false = some fd ∧ fd.withBiases = false ∧
      fd.biasAt 0 = 0 ∧ fd.biasAtRef 0 = none := by
  refine ⟨⟨false, ⟨3, 2, [0, 0, 0, 0, 0, 0]⟩, ⟨[]⟩⟩, by decide!, rfl, by decide!, by decide!⟩

/-- The constructor of `FactorData` is fatal exactly when the `size_t` product of
its dimensions is 0, in particular on a zero dimension, and only on a zero
dimension when the product is below 2^64; otherwise it yields the dimensions
asked for. -/
theorem FactorData.new_dims {K : Type} [Zero K] (nelems nfactors : Nat) (withBiases : Bool) :
    ((FactorData.new nelems nfactors withBiases : Option (FactorData K)) = none
      ↔ (nelems * nfactors) % 2 ^ 64 = 0) ∧
    (nelems = 0 ∨ nfactors = 0 →
      (FactorData.new nelems nfactors withBiases : Option (FactorData K)) = none) ∧
    (nelems * nfactors < 2 ^ 64 →
      (FactorData.new nelems nfactors withBiases : Option (FactorData K)) = none →
      nelems = 0 ∨ nfactors = 0) ∧
    ∀ fd : FactorData K, FactorData.new nelems nfactors withBiases = some fd →
      fd.nelems = nelems ∧ fd.nfactors = nfactors ∧ fd.withBiases = withBiases ∧
      fd.biases = Vector.new (if withBiases then nelems else 0) := by
  have hnone : (FactorData.new nelems nfactors withBiases : Option (FactorData K)) = none
      ↔ (nelems * nfactors) % 2 ^ 64 = 0 := by
    unfold FactorData.new Matrix.new
    by_cases h : (nelems * nfactors) % 2 ^ 64 > 0
    · rw [if_pos h]
      exact ⟨fun e => Option.noConfusion e, fun e => absurd e (Nat.pos_iff_ne_zero.1 h)⟩
    · rw [if_neg h]
      exact ⟨fun _ => Nat.eq_zero_of_not_pos h, fun _ => rfl⟩
  refine ⟨hnone, fun h => hnone.2 ?_, fun hb h => ?_, ?_⟩
  · rcases h with h | h <;> simp [h]
  · have := hnone.1 h
    rw [Nat.mod_eq_of_lt hb] at this
    exact Nat.mul_eq_zero.1 this
  · intro fd hfd
    unfold FactorData.new Matrix.new at hfd
    by_cases h : (nelems * nfactors) % 2 ^ 64 > 0
    · rw [if_pos h] at hfd
      simp only [Option.map_some', Option.some.injEq] at hfd
      subst hfd
      exact ⟨rfl, rfl, rfl, rfl⟩
    · rw [if_neg h] at hfd
      exact Option.noConfusion hfd

/-- C27 (amended): for a `FactorData` constructed with `withBiases = false`, every
read or write through the non-const accessor `Double& biasAt(idx)` is a fatal
error, for any `idx`, while the const accessor `biasAt(idx) const` returns 0.0;
for one constructed with `withBiases = true` the bias vector has exactly
`nelems` entries, all 0 at first, and after any sequence of writes through
`biasAt` at indices below `nelems` both accessors read back, at every `idx`, the
value written last at `idx`. The constructor returns such an object whenever
both dimensions are positive and their product is below 2^64. -/
theorem FactorData.bias_access {K : Type} [Zero K] (nelems nfactors : Nat) (hn : 0 < nelems)
    (hk : 0 < nfactors) :
    ((nelems * nfactors < 2 ^ 64 →
        ∃ fd : FactorData K, FactorData.new nelems nfactors false = some fd) ∧
      ∀ fd : FactorData K, FactorData.new nelems nfactors false = some fd →
        fd.nelems = nelems ∧
        ∀ idx x, fd.biasAtRef idx = none ∧ fd.setBiasAt idx x = none ∧ fd.biasAt idx = 0) ∧
    ((nelems * nfactors < 2 ^ 64 →
        ∃ fd : FactorData K, FactorData.new nelems nfactors true = some fd) ∧
      ∀ fd : FactorData K, FactorData.new nelems nfactors true = some fd →
        fd.nelems = nelems ∧ fd.biases.size = nelems ∧
        ∀ writes : List (Nat × K), (∀ w ∈ writes, w.1 < nelems) →
          ∃ fd2, writes.foldlM (fun (fd : FactorData K) w => fd.setBiasAt w.1 w.2) fd = some fd2 ∧
            fd2.biases.size = nelems ∧
            ∀ idx, idx < nelems →
              fd2.biasAt idx
                = ((writes.filter (fun w => decide (w.1 = idx))).getLast?.map Prod.snd).getD 0 ∧
              fd2.biasAtRef idx = some (fd2.biasAt idx)) := by
  have hex : ∀ b : Bool, nelems * nfactors < 2 ^ 64 →
      ∃ fd : FactorData K, FactorData.new nelems nfactors b = some fd := by
    intro b hb
    obtain ⟨M, h0, _⟩ := Matrix.new_spec (K := K) nelems nfactors (Nat.mul_pos hn hk) hb
    exact ⟨⟨b, M, Vector.new (if b then nelems else 0)⟩, by unfold FactorData.new; rw [h0]; rfl⟩
  refine ⟨⟨hex false, fun fd hfd => ?_⟩, ⟨hex true, fun fd hfd => ?_⟩⟩
  · obtain ⟨d1, _, d3, _⟩ := (FactorData.new_dims nelems nfactors false).2.2.2 fd hfd
    refine ⟨d1, ?_⟩
    intro idx x
    simp [FactorData.biasAtRef, FactorData.setBiasAt, FactorData.biasAt, d3]
  · obtain ⟨d1, _, d3, d4⟩ := (FactorData.new_dims nelems nfactors true).2.2.2 fd hfd
    simp only [if_true] at d4
    have hsz : fd.biases.size = nelems := by rw [d4]; exact Vector.size_new nelems
    refine ⟨d1, hsz, ?_⟩
    intro writes hw
    obtain ⟨fd2, g1, g2, _, g4, g5⟩ := FactorData.foldlM_setBiasAt fd d3 writes
      (by intro w hw2; rw [hsz]; exact hw w hw2)
    rw [hsz] at g4
    rw [d4] at g5
    refine ⟨fd2, g1, g4, ?_⟩
    intro idx _
    have hval : fd2.biasAt idx
        = ((writes.filter (fun w => decide (w.1 = idx))).getLast?.map Prod.snd).getD 0 := by
      unfold FactorData.biasAt
      rw [if_pos g2, g5 idx, Vector.get_new]
    refine ⟨hval, ?_⟩
    unfold FactorData.biasAtRef FactorData.biasAt
    rw [if_pos g2, if_pos g2]

theorem FactorData.bias_access_witness :
    (0 < 3 ∧ 0 < 2 ∧ 3 * 2 < 2 ^ 64) ∧
    ((FactorData.new 3 2 true : Option (FactorData ℚ)).bind
      (fun fd => (fd.setBiasAt 2 (-1/2)).map (fun fd => fd.biasAt 2))) = some (-1/2) ∧
    ((FactorData.new 3 2 false : Option (FactorData ℚ)).bind (fun fd => fd.setBiasAt 0 1)) = none ∧
    ∃ fd : FactorData ℚ, FactorData.new 3 2 false = some fd ∧ fd.nelems = 3 ∧
      ∀ idx x, fd.biasAtRef idx = none ∧ fd.setBiasAt idx x = none ∧ fd.biasAt idx = 0 :=
  ⟨⟨by decide, by decide, by decide⟩, by decide!, by decide!,
    ((FactorData.bias_access 3 2 (by decide) (by decide)).1.1 (by decide)).elim
      (fun fd hfd =>
        ⟨fd, hfd, (FactorData.bias_access 3 2 (by decide) (by decide)).1.2 fd hfd⟩)⟩

/-! ## Theorems: Engine::computeTestScores -/

/-- The loop `for fidx: scores[idx] += a(fidx)` on one entry of a vector. -/
theorem foldl_set_add {K : Type} [Field K] (a : Nat → K) (idx n : Nat) (sc : List K)
    (h : idx < sc.length) :
    (List.range n).foldl (fun (sc : List K) f => sc.set idx (sc.getD idx 0 + a f)) sc
      = sc.set idx (sc.getD idx 0 + ∑ f ∈ Finset.range n, a f) := by
  induction n with
  | zero =>
    simp only [List.range_zero, List.foldl_nil, Finset.range_zero, Finset.sum_empty, add_zero]
    apply List.ext_getElem?
    intro k
    rw [List.getElem?_set]
    by_cases hk : idx = k
    · subst hk
      rw [if_pos rfl, if_pos h, List.getD_eq_getElem?_getD, List.getElem?_eq_getElem h]
      rfl
    · rw [if_neg hk]
  | succ n ih =>
    rw [List.range_succ, List.foldl_append, ih]
    simp only [List.foldl_cons, List.foldl_nil]
    rw [List.set_set, getD_set_list, if_pos ⟨rfl, h⟩, Finset.sum_range_succ, add_assoc]

/-- The loop over the items of one task of `computeTestScores`: entry `j` of the
row becomes `b j + sum_f a j f`. -/
theorem foldl_score_row {K : Type} [Field K] (b : Nat → K) (a : Nat → Nat → K) (nf n : Nat)
    (sc : List K) (hn : n ≤ sc.length) :
    ((List.range n).foldl
      (fun (sc : List K) idx =>
        (List.range nf).foldl (fun (sc : List K) f => sc.set idx (sc.getD idx 0 + a idx f))
          (sc.set idx (b idx))) sc).length = sc.length ∧
    ∀ j, ((List.range n).foldl
      (fun (sc : List K) idx =>
        (List.range nf).foldl (fun (sc : List K) f => sc.set idx (sc.getD idx 0 + a idx f))
          (sc.set idx (b idx))) sc).getD j 0
        = if j < n then b j + ∑ f ∈ Finset.range nf, a j f else sc.getD j 0 := by
  induction n with
  | zero => simp
  | succ n ih =>
    obtain ⟨i1, i2⟩ := ih (Nat.le_of_succ_le hn)
    rw [List.range_succ, List.foldl_append]
    simp only [List.foldl_cons, List.foldl_nil]
    generalize (List.range n).foldl
      (fun (sc : List K) idx =>
        (List.range nf).foldl (fun (sc : List K) f => sc.set idx (sc.getD idx 0 + a idx f))
          (sc.set idx (b idx))) sc = R at i1 i2 ⊢
    have hR : n < R.length := by rw [i1]; exact hn
    rw [foldl_set_add (a n) n nf (R.set n (b n)) (by rw [List.length_set]; exact hR),
      List.set_set, getD_set_list, if_pos ⟨rfl, hR⟩]
    refine ⟨by rw [List.length_set]; exact i1, ?_⟩
    intro j
    rw [getD_set_list]
    by_cases hj : n = j
    · subst hj
      rw [if_pos ⟨rfl, hR⟩, if_pos (Nat.lt_succ_self _)]
    · rw [if_neg (fun h => hj h.1), i2 j]
      by_cases hlt : j < n
      · rw [if_pos hlt, if_pos (Nat.lt_succ_of_lt hlt)]
      · rw [if_neg hlt, if_neg (by omega)]

/-- Effect of a loop `for i in l: v[i] = g(i, v[i])` over distinct indices of a
vector of rows. -/
theorem foldl_modify_rows {α : Type} (d : α) (g : Nat → α → α) (l : List Nat) (v : List α)
    (hl : ∀ i ∈ l, i < v.length) (hnd : l.Nodup) :
    (l.foldl (fun (v : List α) i => v.set i (g i (v.getD i d))) v).length = v.length ∧
    ∀ j, (l.foldl (fun (v : List α) i => v.set i (g i (v.getD i d))) v).getD j d
        = if j ∈ l then g j (v.getD j d) else v.getD j d := by
  induction l generalizing v with
  | nil => simp
  | cons i l ih =>
    simp only [List.foldl_cons]
    have hi := hl i (List.mem_cons_self _ _)
    obtain ⟨i1, i2⟩ := ih (v.set i (g i (v.getD i d)))
      (fun j hj => by rw [List.length_set]; exact hl j (List.mem_cons_of_mem _ hj))
      (List.nodup_cons.1 hnd).2
    refine ⟨by rw [i1, List.length_set], ?_⟩
    intro j
    rw [i2 j, getD_set_list]
    by_cases hji : i = j
    · subst hji
      rw [if_neg (List.nodup_cons.1 hnd).1, if_pos ⟨rfl, hi⟩, if_pos (List.mem_cons_self _ _)]
    · rw [if_neg (show ¬ (i = j ∧ i < v.length) from fun h => hji h.1)]
      by_cases hjl : j ∈ l
      · rw [if_pos hjl, if_pos (List.mem_cons_of_mem _ hjl)]
      · rw [if_neg hjl, if_neg (by
          intro h
          rcases List.mem_cons.1 h with h | h
          · exact hji h.symm
          · exact hjl h)]

/-- The tasks of `computeTestScores`, run in any order `order` that names every
task once, leave in every row the scores of its user. -/
theorem computeTestScores_any_order {K : Type} [Field K] (testScores : List (List K))
    (testUsers : List Nat) (userFactors itemFactors : FactorData K) (order : List Nat)
    (horder : order.Perm (List.range testUsers.length))
    (hlen : testScores.length = testUsers.length)
    (hrow : ∀ row ∈ testScores, row.length = itemFactors.nelems) :
    (order.foldl (computeTestScoresTask testUsers userFactors itemFactors) testScores).length
      = testUsers.length ∧
    ∀ s, s < testUsers.length →
      ((order.foldl (computeTestScoresTask testUsers userFactors itemFactors)
        testScores).getD s []).length = itemFactors.nelems ∧
      ∀ i, i < itemFactors.nelems →
        ((order.foldl (computeTestScoresTask testUsers userFactors itemFactors)
          testScores).getD s []).getD i 0
          = (if itemFactors.withBiases then itemFactors.biases.get i else 0)
            + ∑ f ∈ Finset.range userFactors.nfactors,
                userFactors.getAt (testUsers.getD s 0) f * itemFactors.getAt i f := by
  have hmem : ∀ i, i ∈ order ↔ i < testUsers.length := fun i => by
    rw [horder.mem_iff, List.mem_range]
  have hnd : order.Nodup := horder.nodup_iff.2 (List.nodup_range _)
  obtain ⟨h1, h2⟩ := foldl_modify_rows ([] : List K)
    (fun taskId (row : List K) =>
      (List.range itemFactors.nelems).foldl
        (fun (scores : List K) idx =>
          (List.range userFactors.nfactors).foldl
            (fun (scores : List K) fidx =>
              scores.set idx
                (scores.getD idx 0
                  + userFactors.getAt (testUsers.getD taskId 0) fidx * itemFactors.getAt idx fidx))
            (scores.set idx (if itemFactors.withBiases then itemFactors.biasAt idx else 0)))
        row)
    order testScores (fun i hi => by rw [hlen]; exact (hmem i).1 hi) hnd
  have hfun : computeTestScoresTask testUsers userFactors itemFactors
      = fun (v : List (List K)) i => v.set i
          ((fun taskId (row : List K) =>
            (List.range itemFactors.nelems).foldl
              (fun (scores : List K) idx =>
                (List.range userFactors.nfactors).foldl
                  (fun (scores : List K) fidx =>
                    scores.set idx
                      (scores.getD idx 0
                        + userFactors.getAt (testUsers.getD taskId 0) fidx
                          * itemFactors.getAt idx fidx))
                  (scores.set idx (if itemFactors.withBiases then itemFactors.biasAt idx else 0)))
              row) i (v.getD i [])) := rfl
  rw [hfun]
  refine ⟨h1.trans hlen, ?_⟩
  intro s hs
  rw [h2 s, if_pos ((hmem s).2 hs)]
  have hrs : (testScores.getD s []).length = itemFactors.nelems := by
    apply hrow
    rw [List.getD_eq_getElem?_getD, List.getElem?_eq_getElem (by rw [hlen]; exact hs)]
    exact List.getElem_mem _
  obtain ⟨r1, r2⟩ := foldl_score_row
    (fun idx => if itemFactors.withBiases then itemFactors.biasAt idx else 0)
    (fun idx fidx => userFactors.getAt (testUsers.getD s 0) fidx * itemFactors.getAt idx fidx)
    userFactors.nfactors itemFactors.nelems (testScores.getD s []) (Nat.le_of_eq hrs.symm)
  refine ⟨r1.trans hrs, ?_⟩
  intro i hi
  have := r2 i
  rw [if_pos hi] at this
  rw [this]
  unfold FactorData.biasAt
  by_cases hb : itemFactors.withBiases = true
  · simp only [hb, if_true]
  · simp only [hb, if_false]; rfl

/-- C23: for every list `testUsers` of valid user indices, every executor (any
thread count) and every `testScores` with one row of `nelems` entries per test
user, `computeTestScores` returns the scores with, at every slot `s` and item
`i`, `(bias_i if the item factors have biases, else 0) +
sum_f userFactors(testUsers[s], f) * itemFactors(i, f)`, whatever `testScores`
held before; the shape of `testScores` is kept, and the factors, which are read
only, are not part of what is updated. -/
theorem computeTestScores_spec {K : Type} [Field K] (testScores : List (List K))
    (testUsers : List Nat) (userFactors itemFactors : FactorData K) (parallel : ParallelExecutor)
    (hlen : testScores.length = testUsers.length)
    (hrow : ∀ row ∈ testScores, row.length = itemFactors.nelems)
    (_huser : ∀ u ∈ testUsers, u < userFactors.nelems) :
    (computeTestScores testScores testUsers userFactors itemFactors parallel).length
      = testUsers.length ∧
    ∀ s, s < testUsers.length →
      ((computeTestScores testScores testUsers userFactors itemFactors parallel).getD s
        []).length = itemFactors.nelems ∧
      ∀ i, i < itemFactors.nelems →
        ((computeTestScores testScores testUsers userFactors itemFactors parallel).getD s
          []).getD i 0
          = (if itemFactors.withBiases then itemFactors.biases.get i else 0)
            + ∑ f ∈ Finset.range userFactors.nfactors,
                userFactors.getAt (testUsers.getD s 0) f * itemFactors.getAt i f :=
  computeTestScores_any_order testScores testUsers userFactors itemFactors
    (parallel.execute testUsers.length).flatten (execute_flatten_perm parallel testUsers.length)
    hlen hrow

theorem computeTestScores_spec_witness :
    ([[0, 0], [7, 7]] : List (List ℚ)).length = [2, 0].length ∧
    (∀ row ∈ ([[0, 0], [7, 7]] : List (List ℚ)), row.length = testScoreItemFactors.nelems) ∧
    (∀ u ∈ [2, 0], u < testScoreUserFactors.nelems) ∧
    ((computeTestScores [[0, 0], [7, 7]] [2, 0] testScoreUserFactors testScoreItemFactors
      ⟨4, by decide⟩).getD 0 []).getD 1 0 = 20 + (7 * 16 + 8 * 17 + 9 * 18) ∧
    ((computeTestScores [[0, 0], [7, 7]] [2, 0] testScoreUserFactors testScoreItemFactors
      ⟨4, by decide⟩).getD 1 []).getD 0 0 = 19 + (1 * 13 + 2 * 14 + 3 * 15) := by
  have h := computeTestScores_spec [[0, 0], [7, 7]] [2, 0] testScoreUserFactors
    testScoreItemFactors ⟨4, by decide⟩ (by decide) (by decide) (by decide)
  refine ⟨by decide, by decide, by decide, ?_, ?_⟩
  · rw [((h.2 0 (by decide)).2 1 (by decide))]
    decide!
  · rw [((h.2 1 (by decide)).2 0 (by decide))]
    decide!

/-! ## Theorems: Engine::saveFactors -/

/-- The loop over the factors of one row: a space and the value, for each factor
in order, in the formatting state of the stream. -/
theorem foldl_write_factors {K : Type} (showDouble : Bool → Nat → K → List Char) (a : Nat → K)
    (k : Nat) (out : OStream) :
    (List.range k).foldl
      (fun (out : OStream) fidx =>
        (out.write [' ']).write (showDouble out.fixed out.precision (a fidx))) out
      = { out with text := out.text
            ++ ((List.range k).map
                (fun f => ' ' :: showDouble out.fixed out.precision (a f))).flatten } := by
  induction k with
  | zero => simp
  | succ k ih =>
    rw [List.range_succ, List.foldl_append, ih]
    simp [OStream.write, List.append_assoc]

/-- The loop over the rows of `saveFactors` on a stream in fixed notation with
precision 9: the lines of the rows are appended in row order. -/
theorem foldl_write_rows {K : Type} [Zero K] (showInt : Int → List Char)
    (showDouble : Bool → Nat → K → List Char) (factorData : FactorData K) (index : IdIndex)
    (n : Nat) (text : List Char) :
    (List.range n).foldl
      (fun (out : OStream) idx =>
        let id := index.id idx
        let out := out.write (showInt id)
        let out :=
          if factorData.withBiases then
            (out.write [' ']).write (showDouble out.fixed out.precision (factorData.biasAt idx))
          else out
        let out := (List.range factorData.nfactors).foldl
          (fun (out : OStream) fidx =>
            (out.write [' ']).write
              (showDouble out.fixed out.precision (factorData.getAt idx fidx)))
          out
        out.write [Char.ofNat 10])
      ⟨text, true, 9⟩
      = ⟨text ++ ((List.range n).map (savedLine showInt showDouble factorData index)).flatten,
          true, 9⟩ := by
  induction n with
  | zero => simp
  | succ n ih =>
    rw [List.range_succ, List.foldl_append, ih]
    simp only [List.foldl_cons, List.foldl_nil, foldl_write_factors, List.map_append,
      List.map_cons, List.map_nil, List.flatten_append, List.flatten_cons, List.flatten_nil,
      List.append_nil]
    unfold savedLine
    by_cases hb : factorData.withBiases = true
    · simp [hb, OStream.write, List.append_assoc]
    · simp [hb, OStream.write, List.append_assoc]

/-- C26: `saveFactors` fails fatally exactly when `factorData.nelems() !=
index.size()`; otherwise, for a `FactorData` with `n` rows and `k` factors and
an `IdIndex` of size `n`, it appends to the stream exactly `n` lines in row
order, line `r` being `id(r)`, then, iff biases are present, a space and the bias
of row `r`, then for `f = 0..k-1` a space and factor `(r, f)`, every number
written in fixed notation with precision 9, and a newline; the stream is left in
fixed notation with precision 9. -/
theorem saveFactors_lines {K : Type} [Zero K] (showInt : Int → List Char)
    (showDouble : Bool → Nat → K → List Char) (factorData : FactorData K) (index : IdIndex)
    (out : OStream) :
    (saveFactors showInt showDouble factorData index out = none
      ↔ factorData.nelems ≠ index.size) ∧
    (factorData.nelems = index.size →
      ∃ out2, saveFactors showInt showDouble factorData index out = some out2 ∧
        out2.fixed = true ∧ out2.precision = 9 ∧
        out2.text = out.text
          ++ ((List.range factorData.nelems).map
              (savedLine showInt showDouble factorData index)).flatten ∧
        ((List.range factorData.nelems).map
          (savedLine showInt showDouble factorData index)).length = factorData.nelems ∧
        ∀ r, r < factorData.nelems →
          savedLine showInt showDouble factorData index r
            = showInt (index.id r)
              ++ (if factorData.withBiases then ' ' :: showDouble true 9 (factorData.biasAt r)
                  else [])
              ++ ((List.range factorData.nfactors).map
                  (fun f => ' ' :: showDouble true 9 (factorData.getAt r f))).flatten
              ++ [Char.ofNat 10]) := by
  constructor
  · unfold saveFactors
    by_cases h : factorData.nelems ≠ index.size
    · simp [h]
    · rw [if_neg h]
      exact ⟨fun e => Option.noConfusion e, fun e => absurd e h⟩
  · intro h
    unfold saveFactors
    rw [if_neg (not_not.2 h)]
    simp only
    rw [foldl_write_rows]
    exact ⟨_, rfl, rfl, rfl, rfl, by rw [List.length_map, List.length_range], fun r _ => rfl⟩

theorem saveFactors_lines_witness :
    testSaveFactors.nelems = testSaveIndex.size ∧
    (saveFactors testShowInt testShowDouble testSaveFactors testSaveIndex ⟨[], false, 6⟩).map
        (fun out => out.text)
      = some ("3 0.000000000 1.000000000 2.000000000\n".toList
          ++ "5 3.000000000 4.000000000 5.000000000\n".toList) ∧
    (saveFactors testShowInt testShowDouble testSaveFactorsBiased testSaveIndex
        ⟨[], false, 6⟩).map (fun out => out.text)
      = some ("3 5.000000000 0.000000000 1.000000000 2.000000000\n".toList
          ++ "5 6.000000000 3.000000000 4.000000000 5.000000000\n".toList) ∧
    saveFactors testShowInt testShowDouble testSaveFactors (IdIndex.afterCalls [3])
        ⟨[], false, 6⟩ = none ∧
    ∃ out2, saveFactors testShowInt testShowDouble testSaveFactors testSaveIndex ⟨[], false, 6⟩
        = some out2 ∧ out2.fixed = true ∧ out2.precision = 9 := by
  obtain ⟨out2, h1, h2, h3, _⟩ := (saveFactors_lines testShowInt testShowDouble testSaveFactors
    testSaveIndex ⟨[], false, 6⟩).2 (by decide)
  exact ⟨by decide, by decide!, by decide!, by decide!, out2, h1, h2, h3⟩

/-! ## Theorems: Engine::initAvgTestData -/

/-- The loop that fills `userMap`, `testLabels` and `testScores`. -/
theorem initAvgTestData_alloc {K : Type} [Zero K] (testUsers : List Nat) (m n : Nat)
    (L S : List (List K)) :
    (List.range n).foldl
      (fun (st : List (Nat × Nat) × List (List K) × List (List K)) i =>
        ((testUsers.getD i 0, i) :: st.1,
          st.2.1 ++ [List.replicate m 0],
          st.2.2 ++ [List.replicate m 0]))
      ([], L, S)
      = (((List.range n).map (fun i => (testUsers.getD i 0, i))).reverse,
          L ++ List.replicate n (List.replicate m 0),
          S ++ List.replicate n (List.replicate m 0)) := by
  induction n with
  | zero => simp
  | succ n ih =>
    rw [List.range_succ, List.foldl_append, ih]
    simp [List.replicate_succ', List.append_assoc]

/-- The function `initAvgTestData` in terms of its loops. -/
theorem initAvgTestData_eq {K G : Type} [Zero K] (iterOrder : List Nat → List Nat)
    (shuffle : List Nat → G → List Nat) (mt : Mt19937 G)
    (testLabels testScores : List (List K)) (testDataset : List (DatasetElem K))
    (userIndex itemIndex : IdIndex) (numTestUsers : Nat) (seed : Int) :
    initAvgTestData iterOrder shuffle mt testLabels testScores testDataset userIndex itemIndex
        numTestUsers seed
      = (selectTestUsers iterOrder shuffle mt testDataset userIndex itemIndex numTestUsers seed,
          testDataset.foldl
            (labelStep
              (testUserMap (selectTestUsers iterOrder shuffle mt testDataset userIndex itemIndex
                numTestUsers seed))
              userIndex itemIndex)
            (testLabels ++ List.replicate
              (selectTestUsers iterOrder shuffle mt testDataset userIndex itemIndex numTestUsers
                seed).length (List.replicate itemIndex.size 0)),
          testScores ++ List.replicate
            (selectTestUsers iterOrder shuffle mt testDataset userIndex itemIndex numTestUsers
              seed).length (List.replicate itemIndex.size 0)) := by
  unfold initAvgTestData
  simp only [initAvgTestData_alloc]
  rfl

/-- The first loop of `initAvgTestData` from any set `userSet`: a set again,
grown by the user index of every element whose user and item are both indexed. -/
theorem foldl_collect_users {K : Type} (testDataset : List (DatasetElem K))
    (userIndex itemIndex : IdIndex) (userSet : List Nat) (hnd : userSet.Nodup) :
    (testDataset.foldl
      (fun (userSet : List Nat) elem =>
        let uidx := userIndex.idx elem.userId
        let pidx := itemIndex.idx elem.itemId
        if uidx = IdIndex.missingIdx ∨ pidx = IdIndex.missingIdx then userSet
        else userSet.insert uidx)
      userSet).Nodup ∧
    ∀ u, u ∈ testDataset.foldl
      (fun (userSet : List Nat) elem =>
        let uidx := userIndex.idx elem.userId
        let pidx := itemIndex.idx elem.itemId
        if uidx = IdIndex.missingIdx ∨ pidx = IdIndex.missingIdx then userSet
        else userSet.insert uidx)
      userSet
      ↔ u ∈ userSet ∨ ∃ e ∈ testDataset, userIndex.idx e.userId ≠ IdIndex.missingIdx ∧
          itemIndex.idx e.itemId ≠ IdIndex.missingIdx ∧ userIndex.idx e.userId = u := by
  induction testDataset generalizing userSet with
  | nil => simp [hnd]
  | cons e rest ih =>
    simp only [List.foldl_cons]
    by_cases hc : userIndex.idx e.userId = IdIndex.missingIdx
        ∨ itemIndex.idx e.itemId = IdIndex.missingIdx
    · rw [if_pos hc]
      obtain ⟨i1, i2⟩ := ih userSet hnd
      refine ⟨i1, fun u => ?_⟩
      rw [i2 u]
      constructor
      · rintro (h | ⟨x, hx, h⟩)
        · exact Or.inl h
        · exact Or.inr ⟨x, List.mem_cons_of_mem _ hx, h⟩
      · rintro (h | ⟨x, hx, h1, h2, h3⟩)
        · exact Or.inl h
        · rcases List.mem_cons.1 hx with rfl | hx
          · rcases hc with hc | hc
            · exact absurd hc h1
            · exact absurd hc h2
          · exact Or.inr ⟨x, hx, h1, h2, h3⟩
    · rw [if_neg hc]
      obtain ⟨i1, i2⟩ := ih (userSet.insert (userIndex.idx e.userId)) (hnd.insert)
      refine ⟨i1, fun u => ?_⟩
      rw [i2 u, List.mem_insert_iff]
      have hc1 : userIndex.idx e.userId ≠ IdIndex.missingIdx := fun h => hc (Or.inl h)
      have hc2 : itemIndex.idx e.itemId ≠ IdIndex.missingIdx := fun h => hc (Or.inr h)
      constructor
      · rintro ((h | h) | ⟨x, hx, h⟩)
        · exact Or.inr ⟨e, List.mem_cons_self _ _, hc1, hc2, h.symm⟩
        · exact Or.inl h
        · exact Or.inr ⟨x, List.mem_cons_of_mem _ hx, h⟩
      · rintro (h | ⟨x, hx, h1, h2, h3⟩)
        · exact Or.inl (Or.inr h)
        · rcases List.mem_cons.1 hx with rfl | hx
          · exact Or.inl (Or.inl h3.symm)
          · exact Or.inr ⟨x, hx, h1, h2, h3⟩

/-- The set `userSet` of `initAvgTestData`. -/
theorem collectTestUsers_spec {K : Type} (testDataset : List (DatasetElem K))
    (userIndex itemIndex : IdIndex) :
    (collectTestUsers testDataset userIndex itemIndex).Nodup ∧
    ∀ u, u ∈ collectTestUsers testDataset userIndex itemIndex
      ↔ ∃ e ∈ testDataset, userIndex.idx e.userId ≠ IdIndex.missingIdx ∧
          itemIndex.idx e.itemId ≠ IdIndex.missingIdx ∧ userIndex.idx e.userId = u := by
  obtain ⟨h1, h2⟩ := foldl_collect_users testDataset userIndex itemIndex [] List.nodup_nil
  refine ⟨h1, fun u => ?_⟩
  have := h2 u
  simp only [List.not_mem_nil, false_or] at this
  exact this

/-- The vector `testUsers` of `initAvgTestData`: distinct collected users, all of
them unless `numTestUsers` asks for fewer. -/
theorem selectTestUsers_spec {K G : Type} (iterOrder : List Nat → List Nat)
    (shuffle : List Nat → G → List Nat) (mt : Mt19937 G) (testDataset : List (DatasetElem K))
    (userIndex itemIndex : IdIndex) (numTestUsers : Nat) (seed : Int)
    (hiter : ∀ l, (iterOrder l).Perm l) (hshuf : ∀ l g, (shuffle l g).Perm l) :
    (selectTestUsers iterOrder shuffle mt testDataset userIndex itemIndex numTestUsers
      seed).Nodup ∧
    (∀ u, u ∈ selectTestUsers iterOrder shuffle mt testDataset userIndex itemIndex numTestUsers
        seed → u ∈ collectTestUsers testDataset userIndex itemIndex) ∧
    (numTestUsers = 0 →
      ∀ u, u ∈ selectTestUsers iterOrder shuffle mt testDataset userIndex itemIndex numTestUsers
        seed ↔ u ∈ collectTestUsers testDataset userIndex itemIndex) := by
  have hnd := (collectTestUsers_spec testDataset userIndex itemIndex).1
  have hp := hiter (collectTestUsers testDataset userIndex itemIndex)
  unfold selectTestUsers
  simp only
  by_cases hc : numTestUsers > 0
      ∧ numTestUsers < (iterOrder (collectTestUsers testDataset userIndex itemIndex)).length
  · rw [if_pos hc]
    have hs := hshuf (iterOrder (collectTestUsers testDataset userIndex itemIndex)) (mt seed)
    refine ⟨?_, ?_, ?_⟩
    · exact ((hs.trans hp).nodup_iff.2 hnd).sublist (List.take_sublist _ _)
    · intro u hu
      exact (hs.trans hp).mem_iff.1 (List.mem_of_mem_take hu)
    · intro h0
      omega
  · rw [if_neg hc]
    exact ⟨hp.nodup_iff.2 hnd, fun u hu => hp.mem_iff.1 hu, fun _ u => hp.mem_iff⟩

/-- C24 (the claim as stated fails): in `TEST(Engine, initAvgTestData)` the user
with id 1 (index 0) references item 5, which the item index does not hold, and
index 0 is collected all the same, because the element `(1, 4)` is valid. -/
theorem initAvgTestData_collects_partly_indexed_user :
    testEngineAvgData.1 = [1, 0] ∧ testEngineUserIndex.idx 1 = 0 ∧
    (⟨1, 5, 1⟩ : DatasetElem ℚ) ∈ testEngineDataset ∧ ¬ testEngineItemIndex.Present 5 ∧
    ¬ (0 ∈ testEngineAvgData.1 ↔
        (∃ e ∈ testEngineDataset, testEngineUserIndex.idx e.userId = 0) ∧
        testEngineUserIndex.Present 1 ∧
        ∀ e ∈ testEngineDataset, testEngineUserIndex.idx e.userId = 0 →
          testEngineItemIndex.Present e.itemId) := by
  decide!

/-- C24 (amended): with `numTestUsers = 0`, `initAvgTestData` collects each user
index at most once, and a user index is collected exactly when it is the index
of the user of some test element whose user id is present in the training user
index and whose own item id is present in the training item index. -/
theorem initAvgTestData_users {K G : Type} [Zero K] (iterOrder : List Nat → List Nat)
    (shuffle : List Nat → G → List Nat) (mt : Mt19937 G)
    (testLabels testScores : List (List K)) (testDataset : List (DatasetElem K))
    (userIndex itemIndex : IdIndex) (seed : Int)
    (hiter : ∀ l, (iterOrder l).Perm l)
    (hU : userIndex.Inv) (hUs : userIndex.size ≤ IdIndex.missingIdx)
    (hI : itemIndex.Inv) (hIs : itemIndex.size ≤ IdIndex.missingIdx) :
    (initAvgTestData iterOrder shuffle mt testLabels testScores testDataset userIndex itemIndex
      0 seed).1.Nodup ∧
    ∀ u, u ∈ (initAvgTestData iterOrder shuffle mt testLabels testScores testDataset userIndex
        itemIndex 0 seed).1
      ↔ ∃ e ∈ testDataset, userIndex.Present e.userId ∧ itemIndex.Present e.itemId ∧
          userIndex.idx e.userId = u := by
  rw [initAvgTestData_eq]
  simp only
  have hnd := (collectTestUsers_spec testDataset userIndex itemIndex).1
  have hp := hiter (collectTestUsers testDataset userIndex itemIndex)
  have hsel : selectTestUsers iterOrder shuffle mt testDataset userIndex itemIndex 0 seed
      = iterOrder (collectTestUsers testDataset userIndex itemIndex) := by
    unfold selectTestUsers
    simp
  rw [hsel]
  refine ⟨hp.nodup_iff.2 hnd, fun u => ?_⟩
  rw [hp.mem_iff, (collectTestUsers_spec testDataset userIndex itemIndex).2 u]
  constructor
  · rintro ⟨e, he, h1, h2, h3⟩
    exact ⟨e, he, (userIndex.present_iff hU hUs _).2 h1, (itemIndex.present_iff hI hIs _).2 h2, h3⟩
  · rintro ⟨e, he, h1, h2, h3⟩
    exact ⟨e, he, (userIndex.present_iff hU hUs _).1 h1, (itemIndex.present_iff hI hIs _).1 h2, h3⟩

theorem initAvgTestData_users_witness :
    (∀ l : List Nat, (id l).Perm l) ∧ testEngineUserIndex.Inv ∧
    testEngineUserIndex.size ≤ IdIndex.missingIdx ∧ testEngineItemIndex.Inv ∧
    testEngineItemIndex.size ≤ IdIndex.missingIdx ∧
    testEngineAvgData.1 = [1, 0] ∧
    (0 ∈ testEngineAvgData.1 ↔
      ∃ e ∈ testEngineDataset, testEngineUserIndex.Present e.userId ∧
        testEngineItemIndex.Present e.itemId ∧ testEngineUserIndex.idx e.userId = 0) :=
  ⟨fun l => List.Perm.refl l, (IdIndex.afterCalls_spec [1, 2, 3]).1, by decide,
    (IdIndex.afterCalls_spec [1, 2, 4, 3]).1, by decide, by decide!,
    (initAvgTestData_users id (fun l (_ : Nat) => l) testMt [] [] testEngineDataset
      testEngineUserIndex testEngineItemIndex 0 (fun l => List.Perm.refl l)
      (IdIndex.afterCalls_spec [1, 2, 3]).1 (by decide)
      (IdIndex.afterCalls_spec [1, 2, 4, 3]).1 (by decide)).2 0⟩

/-- The last element of a filtered list that grows by one element. -/
theorem getLast?_filter_concat {α β : Type} (p : α → Bool) (f : α → β) (l : List α) (a : α)
    (d : β) :
    (((l ++ [a]).filter p).getLast?.map f).getD d
      = if p a = true then f a else ((l.filter p).getLast?.map f).getD d := by
  rw [List.filter_append]
  by_cases h : p a = true
  · rw [if_pos h, List.filter_cons_of_pos h, List.filter_nil, List.getLast?_append,
      List.getLast?_singleton]
    rfl
  · rw [if_neg h, List.filter_cons_of_neg h, List.filter_nil, List.append_nil]

/-- The map `userMap` one assignment later. -/
theorem testUserMap_step (testUsers : List Nat) (n : Nat) :
    ((List.range (n + 1)).map (fun i => (testUsers.getD i 0, i))).reverse
      = (testUsers.getD n 0, n)
        :: ((List.range n).map (fun i => (testUsers.getD i 0, i))).reverse := by
  rw [List.range_succ, List.map_append, List.reverse_append]
  rfl

/-- An entry of `userMap` points at a slot of `testUsers` that holds its key. -/
theorem testUserMap_lookup_some (testUsers : List Nat) (n u s : Nat)
    (h : (((List.range n).map (fun i => (testUsers.getD i 0, i))).reverse).lookup u = some s) :
    s < n ∧ testUsers.getD s 0 = u := by
  induction n with
  | zero => simp at h
  | succ n ih =>
    rw [testUserMap_step, List.lookup_cons] at h
    by_cases hu : u = testUsers.getD n 0
    · rw [hu, beq_self_eq_true] at h
      have := Option.some.inj h
      subst this
      exact ⟨Nat.lt_succ_self _, hu.symm⟩
    · rw [beq_false_of_ne hu] at h
      obtain ⟨h1, h2⟩ := ih h
      exact ⟨Nat.lt_succ_of_lt h1, h2⟩

/-- With distinct test users, `userMap` sends every test user to its slot. -/
theorem testUserMap_lookup_slot (testUsers : List Nat) (hnd : testUsers.Nodup) (n s : Nat)
    (hn : n ≤ testUsers.length) (hs : s < n) :
    (((List.range n).map (fun i => (testUsers.getD i 0, i))).reverse).lookup
      (testUsers.getD s 0) = some s := by
  induction n with
  | zero => omega
  | succ n ih =>
    rw [testUserMap_step, List.lookup_cons]
    by_cases hsn : s = n
    · subst hsn
      rw [beq_self_eq_true]
    · have hne : testUsers.getD s 0 ≠ testUsers.getD n 0 := by
        have h1 : s < testUsers.length := by omega
        have h2 : n < testUsers.length := by omega
        rw [List.getD_eq_getElem _ _ h1, List.getD_eq_getElem _ _ h2]
        intro e
        exact hsn ((hnd.getElem_inj_iff).1 e)
      rw [beq_false_of_ne hne]
      exact ih (by omega) (by omega)

/-- The last loop of `initAvgTestData`, over any dataset, on distinct test users
and zeroed label vectors: every label is the value of the last element of the
dataset with that user and that item, both indexed, and 0 when there is none. -/
theorem foldl_labelStep_spec {K : Type} [Zero K] (testUsers : List Nat) (hnd : testUsers.Nodup)
    (userIndex itemIndex : IdIndex) (m : Nat) (ds : List (DatasetElem K)) :
    (ds.foldl (labelStep (testUserMap testUsers) userIndex itemIndex)
      (List.replicate testUsers.length (List.replicate m 0))).length = testUsers.length ∧
    ∀ slot, slot < testUsers.length →
      ((ds.foldl (labelStep (testUserMap testUsers) userIndex itemIndex)
        (List.replicate testUsers.length (List.replicate m 0))).getD slot []).length = m ∧
      ∀ i, i < m →
        ((ds.foldl (labelStep (testUserMap testUsers) userIndex itemIndex)
          (List.replicate testUsers.length (List.replicate m 0))).getD slot []).getD i 0
          = (((ds.filter (fun e => decide (userIndex.idx e.userId ≠ IdIndex.missingIdx ∧
                itemIndex.idx e.itemId ≠ IdIndex.missingIdx ∧
                userIndex.idx e.userId = testUsers.getD slot 0 ∧
                itemIndex.idx e.itemId = i))).getLast?).map (fun e => e.value)).getD 0 := by
  induction ds using List.reverseRecOn with
  | nil =>
    refine ⟨List.length_replicate _ _, fun slot hs => ?_⟩
    simp only [List.foldl_nil]
    have hrow : (List.replicate testUsers.length (List.replicate m (0 : K))).getD slot []
        = List.replicate m 0 := by
      rw [List.getD_eq_getElem _ _ (by rw [List.length_replicate]; exact hs),
        List.getElem_replicate]
    rw [hrow]
    refine ⟨List.length_replicate _ _, fun i hi => ?_⟩
    rw [List.getD_eq_getElem _ _ (by rw [List.length_replicate]; exact hi),
      List.getElem_replicate]
    rfl
  | append_singleton ds e ih =>
    obtain ⟨i1, i2⟩ := ih
    rw [List.foldl_append]
    simp only [List.foldl_cons, List.foldl_nil]
    generalize ds.foldl (labelStep (testUserMap testUsers) userIndex itemIndex)
      (List.replicate testUsers.length (List.replicate m 0)) = F at i1 i2 ⊢
    unfold labelStep
    simp only
    by_cases hc : userIndex.idx e.userId = IdIndex.missingIdx
        ∨ itemIndex.idx e.itemId = IdIndex.missingIdx
        ∨ ((testUserMap testUsers).lookup (userIndex.idx e.userId)).isNone = true
    · rw [if_pos hc]
      refine ⟨i1, fun slot hs => ⟨(i2 slot hs).1, fun i hi => ?_⟩⟩
      rw [(i2 slot hs).2 i hi, getLast?_filter_concat]
      have hp : ¬ decide (userIndex.idx e.userId ≠ IdIndex.missingIdx ∧
          itemIndex.idx e.itemId ≠ IdIndex.missingIdx ∧
          userIndex.idx e.userId = testUsers.getD slot 0 ∧
          itemIndex.idx e.itemId = i) = true := by
        rw [decide_eq_true_iff]
        rintro ⟨h1, h2, h3, _⟩
        rcases hc with hc | hc | hc
        · exact h1 hc
        · exact h2 hc
        · have := testUserMap_lookup_slot testUsers hnd testUsers.length slot (Nat.le_refl _) hs
          unfold testUserMap at hc
          rw [h3, this] at hc
          exact Bool.noConfusion hc
      rw [if_neg hp]
    · rw [if_neg hc]
      have hc1 : userIndex.idx e.userId ≠ IdIndex.missingIdx := fun h => hc (Or.inl h)
      have hc2 : itemIndex.idx e.itemId ≠ IdIndex.missingIdx := fun h => hc (Or.inr (Or.inl h))
      obtain ⟨s2, hs2⟩ : ∃ s2, (testUserMap testUsers).lookup (userIndex.idx e.userId) = some s2 := by
        cases hl : (testUserMap testUsers).lookup (userIndex.idx e.userId) with
        | none => exact absurd (Or.inr (Or.inr (by rw [hl]; rfl))) hc
        | some s2 => exact ⟨s2, rfl⟩
      obtain ⟨hs2lt, hs2u⟩ := testUserMap_lookup_some testUsers testUsers.length _ s2 hs2
      rw [hs2]
      simp only [Option.getD_some]
      refine ⟨by rw [List.length_set]; exact i1, fun slot hs => ?_⟩
      rw [getD_set_list]
      by_cases hss : s2 = slot
      · subst hss
        rw [if_pos ⟨rfl, by rw [i1]; exact hs2lt⟩]
        refine ⟨by rw [List.length_set]; exact (i2 s2 hs).1, fun i hi => ?_⟩
        rw [getD_set_list, getLast?_filter_concat, (i2 s2 hs).2 i hi]
        by_cases hpi : itemIndex.idx e.itemId = i
        · rw [if_pos ⟨hpi, by rw [(i2 s2 hs).1, hpi]; exact hi⟩,
            if_pos (decide_eq_true ⟨hc1, hc2, hs2u.symm, hpi⟩)]
        · rw [if_neg (fun h => hpi h.1),
            if_neg (by rw [decide_eq_true_iff]; exact fun h => hpi h.2.2.2)]
      · rw [if_neg (fun h => hss h.1)]
        refine ⟨(i2 slot hs).1, fun i hi => ?_⟩
        rw [getLast?_filter_concat, (i2 slot hs).2 i hi]
        have hp : ¬ decide (userIndex.idx e.userId ≠ IdIndex.missingIdx ∧
            itemIndex.idx e.itemId ≠ IdIndex.missingIdx ∧
            userIndex.idx e.userId = testUsers.getD slot 0 ∧
            itemIndex.idx e.itemId = i) = true := by
          rw [decide_eq_true_iff]
          rintro ⟨_, _, h3, _⟩
          have := testUserMap_lookup_slot testUsers hnd testUsers.length slot (Nat.le_refl _) hs
          unfold testUserMap at hs2
          rw [h3, this] at hs2
          exact hss (Option.some.inj hs2).symm
        rw [if_neg hp]

/-- C25: after `initAvgTestData` on empty `testLabels` and `testScores`, both
hold exactly one vector of length `itemIndex.size()` per selected user, every
score is 0, and in the slot of a selected user `u` the label of item `i` is the
value of the last test element with user index `u` and item index `i` whose user
and item are both indexed, and 0 when there is no such element; so an element
whose user or item is not indexed sets no label. -/
theorem initAvgTestData_labels {K G : Type} [Zero K] (iterOrder : List Nat → List Nat)
    (shuffle : List Nat → G → List Nat) (mt : Mt19937 G) (testDataset : List (DatasetElem K))
    (userIndex itemIndex : IdIndex) (numTestUsers : Nat) (seed : Int)
    (hiter : ∀ l, (iterOrder l).Perm l) (hshuf : ∀ l g, (shuffle l g).Perm l) :
    (initAvgTestData iterOrder shuffle mt [] [] testDataset userIndex itemIndex numTestUsers
      seed).2.1.length
      = (initAvgTestData iterOrder shuffle mt [] [] testDataset userIndex itemIndex numTestUsers
          seed).1.length ∧
    (initAvgTestData iterOrder shuffle mt [] [] testDataset userIndex itemIndex numTestUsers
      seed).2.2.length
      = (initAvgTestData iterOrder shuffle mt [] [] testDataset userIndex itemIndex numTestUsers
          seed).1.length ∧
    ∀ slot, slot < (initAvgTestData iterOrder shuffle mt [] [] testDataset userIndex itemIndex
        numTestUsers seed).1.length →
      ((initAvgTestData iterOrder shuffle mt [] [] testDataset userIndex itemIndex numTestUsers
        seed).2.1.getD slot []).length = itemIndex.size ∧
      (initAvgTestData iterOrder shuffle mt [] [] testDataset userIndex itemIndex numTestUsers
        seed).2.2.getD slot [] = List.replicate itemIndex.size 0 ∧
      ∀ i, i < itemIndex.size →
        ((initAvgTestData iterOrder shuffle mt [] [] testDataset userIndex itemIndex
          numTestUsers seed).2.1.getD slot []).getD i 0
          = (((testDataset.filter (fun e => decide (
                userIndex.idx e.userId ≠ IdIndex.missingIdx ∧
                itemIndex.idx e.itemId ≠ IdIndex.missingIdx ∧
                userIndex.idx e.userId
                  = (initAvgTestData iterOrder shuffle mt [] [] testDataset userIndex itemIndex
                      numTestUsers seed).1.getD slot 0 ∧
                itemIndex.idx e.itemId = i))).getLast?).map (fun e => e.value)).getD 0 := by
  rw [initAvgTestData_eq]
  simp only [List.nil_append]
  obtain ⟨hnd, _, _⟩ := selectTestUsers_spec iterOrder shuffle mt testDataset userIndex itemIndex
    numTestUsers seed hiter hshuf
  generalize selectTestUsers iterOrder shuffle mt testDataset userIndex itemIndex numTestUsers
    seed = users at hnd ⊢
  obtain ⟨h1, h2⟩ := foldl_labelStep_spec users hnd userIndex itemIndex itemIndex.size
    testDataset
  refine ⟨h1, List.length_replicate _ _, fun slot hs => ⟨(h2 slot hs).1, ?_, (h2 slot hs).2⟩⟩
  rw [List.getD_eq_getElem _ _ (by rw [List.length_replicate]; exact hs),
    List.getElem_replicate]

theorem initAvgTestData_labels_witness :
    (∀ l : List Nat, (id l).Perm l) ∧
    (∀ (l : List Nat) (g : Nat), ((fun (l : List Nat) (_ : Nat) => l) l g).Perm l) ∧
    testEngineAvgData = ([1, 0], [[1, 0, 0, 0], [0, 0, 1, 0]], [[0, 0, 0, 0], [0, 0, 0, 0]]) ∧
    testEngineAvgData.2.1.length = testEngineAvgData.1.length :=
  ⟨fun l => List.Perm.refl l, fun l _ => List.Perm.refl l, by decide!,
    (initAvgTestData_labels id (fun (l : List Nat) (_ : Nat) => l) testMt testEngineDataset
      testEngineUserIndex testEngineItemIndex 0 0 (fun l => List.Perm.refl l)
      (fun l _ => List.Perm.refl l)).1⟩

/-! ## Theorems: initialisation of the engines -/

/-- A successful `BPREngine::init` leaves both factor pointers set. -/
theorem BPREngine.init_factors {K G : Type} [LinearOrderedField K] (mt : Mt19937 G)
    (dis : UniformInt G) (unif : UniformReal G K) (fuel : Nat) (s sf : BPREngine K G)
    (dataset : List (DatasetElem K)) (h : s.init mt dis unif fuel dataset = some sf) :
    s.userFactors = none ∧ s.itemFactors = none ∧
    sf.userFactors.isSome = true ∧ sf.itemFactors.isSome = true := by
  unfold BPREngine.init at h
  by_cases hc : s.userFactors.isSome ∨ s.itemFactors.isSome
  · rw [if_pos hc] at h; exact Option.noConfusion h
  · rw [if_neg hc] at h
    have hu : s.userFactors = none := by
      cases hx : s.userFactors with
      | none => rfl
      | some x => exact absurd (Or.inl (by rw [hx]; rfl)) hc
    have hi : s.itemFactors = none := by
      cases hx : s.itemFactors with
      | none => rfl
      | some x => exact absurd (Or.inr (by rw [hx]; rfl)) hc
    simp only at h
    split at h
    · exact Option.noConfusion h
    · split at h
      · have hsf := (Option.some.inj h).symm
        subst hsf
        exact ⟨hu, hi, rfl, rfl⟩
      · exact Option.noConfusion h

/-- On an engine whose factors are set, `BPREngine::init` is fatal. -/
theorem BPREngine.init_none_of_factors {K G : Type} [LinearOrderedField K] (mt : Mt19937 G)
    (dis : UniformInt G) (unif : UniformReal G K) (fuel : Nat) (s : BPREngine K G)
    (dataset : List (DatasetElem K)) (h : s.userFactors.isSome = true) :
    s.init mt dis unif fuel dataset = none := by
  unfold BPREngine.init
  rw [if_pos (Or.inl h)]

/-- A successful `WALSEngine::init` starts from null factor pointers and leaves
both set. -/
theorem WALSEngine.init_sets_factors {K G : Type} [Field K]
    (stdSort : (DatasetElem K → DatasetElem K → Bool) → List (DatasetElem K) →
      List (DatasetElem K))
    (unif : UniformReal G K) (gen0 : G) (s sf : WALSEngine K) (dataset : List (DatasetElem K))
    (h : s.init stdSort unif gen0 dataset = some sf) :
    s.userFactors = none ∧ s.itemFactors = none ∧
    sf.userFactors.isSome = true ∧ sf.itemFactors.isSome = true := by
  unfold WALSEngine.init at h
  by_cases hc : ¬ (s.userFactors.isNone ∧ s.itemFactors.isNone)
  · rw [if_pos hc] at h; exact Option.noConfusion h
  · rw [if_neg hc] at h
    have hc2 := not_not.1 hc
    have hu : s.userFactors = none := Option.isNone_iff_eq_none.1 hc2.1
    have hi : s.itemFactors = none := Option.isNone_iff_eq_none.1 hc2.2
    simp only at h
    split at h
    · exact Option.noConfusion h
    · split at h
      · exact Option.noConfusion h
      · split at h
        · exact Option.noConfusion h
        · split at h
          · exact Option.noConfusion h
          · have hsf := (Option.some.inj h).symm
            subst hsf
            exact ⟨hu, hi, rfl, rfl⟩

/-- On an engine whose factors are set, `WALSEngine::init` is fatal. -/
theorem WALSEngine.init_fatal_of_factors {K G : Type} [Field K]
    (stdSort : (DatasetElem K → DatasetElem K → Bool) → List (DatasetElem K) →
      List (DatasetElem K))
    (unif : UniformReal G K) (gen0 : G) (s : WALSEngine K) (dataset : List (DatasetElem K))
    (h : s.userFactors.isSome = true) :
    s.init stdSort unif gen0 dataset = none := by
  unfold WALSEngine.init
  rw [if_pos]
  intro hc
  have := Option.isNone_iff_eq_none.1 hc.1
  rw [this] at h
  exact Bool.noConfusion h

/-- The method `WALSEngine::initTest` touches only the test data. -/
theorem WALSEngine.initTest_factors {K G : Type} [Zero K] (mt : Mt19937 G)
    (iterOrder : List Nat → List Nat) (shuffle : List Nat → G → List Nat) (s sf : WALSEngine K)
    (testDataset : List (DatasetElem K))
    (h : s.initTest mt iterOrder shuffle testDataset = some sf) :
    sf.userFactors = s.userFactors ∧ sf.itemFactors = s.itemFactors ∧
    sf.userIndex = s.userIndex ∧ sf.itemIndex = s.itemIndex ∧
    sf.userSignals = s.userSignals ∧ sf.itemSignals = s.itemSignals := by
  unfold WALSEngine.initTest at h
  split at h
  · exact Option.noConfusion h
  · split at h
    · have hsf := (Option.some.inj h).symm
      subst hsf
      exact ⟨rfl, rfl, rfl, rfl, rfl, rfl⟩
    · split at h
      · have hsf := (Option.some.inj h).symm
        subst hsf
        exact ⟨rfl, rfl, rfl, rfl, rfl, rfl⟩
      · have hsf := (Option.some.inj h).symm
        subst hsf
        exact ⟨rfl, rfl, rfl, rfl, rfl, rfl⟩

/-- C28: for both `BPREngine` and `WALSEngine`, training initialisation happens
at most once: a successful `init(dataset)` starts from null factors and sets
both factor pointers, and after it every further call of `init` on the engine,
with any dataset, directly or after a successful `initTest`, fails fatally, so no
second set of factors, signals or indexes is built. -/
theorem init_at_most_once {K G : Type} [LinearOrderedField K] :
    (∀ (mt : Mt19937 G) (dis : UniformInt G) (unif : UniformReal G K) (fuel : Nat)
        (s sf : BPREngine K G) (dataset : List (DatasetElem K)),
      s.init mt dis unif fuel dataset = some sf →
        sf.userFactors.isSome = true ∧ sf.itemFactors.isSome = true ∧
        (∀ (mt2 : Mt19937 G) (dis2 : UniformInt G) (unif2 : UniformReal G K) (fuel2 : Nat)
            (dataset2 : List (DatasetElem K)),
          sf.init mt2 dis2 unif2 fuel2 dataset2 = none) ∧
        ∀ (mt1 : Mt19937 G) (dis1 : UniformInt G) (iterOrder : List Nat → List Nat)
            (shuffle : List Nat → G → List Nat) (fuel1 : Nat)
            (testDataset : List (DatasetElem K)) (st : BPREngine K G),
          sf.initTest mt1 dis1 iterOrder shuffle fuel1 testDataset = some st →
          ∀ (mt2 : Mt19937 G) (dis2 : UniformInt G) (unif2 : UniformReal G K) (fuel2 : Nat)
            (dataset2 : List (DatasetElem K)),
          st.init mt2 dis2 unif2 fuel2 dataset2 = none) ∧
    (∀ (stdSort : (DatasetElem K → DatasetElem K → Bool) → List (DatasetElem K) →
          List (DatasetElem K))
        (unif : UniformReal G K) (gen0 : G) (s sf : WALSEngine K)
        (dataset : List (DatasetElem K)),
      s.init stdSort unif gen0 dataset = some sf →
        sf.userFactors.isSome = true ∧ sf.itemFactors.isSome = true ∧
        (∀ (stdSort2 : (DatasetElem K → DatasetElem K → Bool) → List (DatasetElem K) →
              List (DatasetElem K))
            (unif2 : UniformReal G K) (gen2 : G) (dataset2 : List (DatasetElem K)),
          sf.init stdSort2 unif2 gen2 dataset2 = none) ∧
        ∀ (mt1 : Mt19937 G) (iterOrder : List Nat → List Nat)
            (shuffle : List Nat → G → List Nat) (testDataset : List (DatasetElem K))
            (st : WALSEngine K),
          sf.initTest mt1 iterOrder shuffle testDataset = some st →
          ∀ (stdSort2 : (DatasetElem K → DatasetElem K → Bool) → List (DatasetElem K) →
              List (DatasetElem K))
            (unif2 : UniformReal G K) (gen2 : G) (dataset2 : List (DatasetElem K)),
          st.init stdSort2 unif2 gen2 dataset2 = none) := by
  constructor
  · intro mt dis unif fuel s sf dataset h
    obtain ⟨_, _, h3, h4⟩ := BPREngine.init_factors mt dis unif fuel s sf dataset h
    refine ⟨h3, h4, fun mt2 dis2 unif2 fuel2 dataset2 =>
      BPREngine.init_none_of_factors mt2 dis2 unif2 fuel2 sf dataset2 h3, ?_⟩
    intro mt1 dis1 iterOrder shuffle fuel1 testDataset st hst mt2 dis2 unif2 fuel2 dataset2
    obtain ⟨_, g, _, _, _, _, _, _, _, _, hu, _⟩ :=
      BPREngine.initTest_some mt1 dis1 iterOrder shuffle fuel1 sf st testDataset hst
    exact BPREngine.init_none_of_factors mt2 dis2 unif2 fuel2 st dataset2 (by rw [hu]; exact h3)
  · intro stdSort unif gen0 s sf dataset h
    obtain ⟨_, _, h3, h4⟩ := WALSEngine.init_sets_factors stdSort unif gen0 s sf dataset h
    refine ⟨h3, h4, fun stdSort2 unif2 gen2 dataset2 =>
      WALSEngine.init_fatal_of_factors stdSort2 unif2 gen2 sf dataset2 h3, ?_⟩
    intro mt1 iterOrder shuffle testDataset st hst stdSort2 unif2 gen2 dataset2
    obtain ⟨hu, _⟩ := WALSEngine.initTest_factors mt1 iterOrder shuffle sf st testDataset hst
    exact WALSEngine.init_fatal_of_factors stdSort2 unif2 gen2 st dataset2 (by rw [hu]; exact h3)

theorem testBPRInit_isSome : testBPRInit.isSome = true := by decide!

theorem testWALSInit_isSome : testWALSInit.isSome = true := by decide!

theorem init_at_most_once_witness :
    (∃ sf, (BPREngine.new testBPRConfig none 2 42 ⟨16, by decide⟩ 0 0).init
        testMt testUniformInt testUniformReal 10 testTrainDataset = some sf ∧
      sf.init testMt testUniformInt testUniformReal 10 testTrainDataset = none) ∧
    ∃ sf, (WALSEngine.new testWALSConfig none ⟨16, by decide⟩).init insertionStdSort
        testUniformReal (0 : Nat) testWALSDataset = some sf ∧
      sf.init insertionStdSort testUniformReal (0 : Nat) testWALSDataset = none := by
  obtain ⟨s1, h1⟩ := Option.isSome_iff_exists.1 testBPRInit_isSome
  obtain ⟨s2, h2⟩ := Option.isSome_iff_exists.1 testWALSInit_isSome
  exact ⟨⟨s1, h1, ((init_at_most_once (K := ℚ) (G := Nat)).1 testMt testUniformInt
      testUniformReal 10 _ s1 testTrainDataset h1).2.2.1 testMt testUniformInt testUniformReal 10
      testTrainDataset⟩,
    s2, h2, ((init_at_most_once (K := ℚ) (G := Nat)).2 insertionStdSort testUniformReal 0 _ s2
      testWALSDataset h2).2.2.1 insertionStdSort testUniformReal 0 testWALSDataset⟩

/-- C29 (the code misses the claim): a second `initTest` returns normally when
the first one left the guarded vector empty. For `WALSEngine` (guard
`testUsers_.empty()`): with a null metrics engine, and with a metrics engine
when no test element has an indexed user and item. For `BPREngine` (guard
`testEvalSet_.empty()`): when no test element of value at least 1 has an indexed
user and item; with a metrics engine the second call then appends a second set
of rows to `testLabels_` and `testScores_` (2 rows for 1 test user). -/
theorem initTest_twice_returns :
    ((testWALSInit.bind
        (fun s => s.initTest testMt id (fun l (_ : Nat) => l) testEngineDataset)).bind
        (fun s => s.initTest testMt id (fun l (_ : Nat) => l) testEngineDataset)).isSome = true ∧
    ((((WALSEngine.new testWALSConfig (some testMetricsEngine) ⟨16, by decide⟩).init
          insertionStdSort testUniformReal (0 : Nat) testWALSDataset).bind
        (fun s => s.initTest testMt id (fun l (_ : Nat) => l) [⟨4, 2, 1⟩])).bind
        (fun s => s.initTest testMt id (fun l (_ : Nat) => l) [⟨4, 2, 1⟩])).isSome = true ∧
    ((testBPRInit.bind
        (fun s => s.initTest testMt testUniformInt id (fun l _ => l) 10 [⟨8, 13, 1⟩])).bind
        (fun s => s.initTest testMt testUniformInt id (fun l _ => l) 10 [⟨8, 13, 1⟩])).isSome
      = true ∧
    (testBPRInitMetrics.bind
        (fun s => s.initTest testMt testUniformInt id (fun l _ => l) 10
          testLowValueDataset)).map
        (fun s => (s.testEvalSet.length, s.testUsers, s.testLabels, s.testScores))
      = some (0, [0], [[1 / 2, 0, 0]], [[0, 0, 0]]) ∧
    ((testBPRInitMetrics.bind
        (fun s => s.initTest testMt testUniformInt id (fun l _ => l) 10
          testLowValueDataset)).bind
        (fun s => s.initTest testMt testUniformInt id (fun l _ => l) 10
          testLowValueDataset)).map
        (fun s => (s.testEvalSet.length, s.testUsers, s.testLabels, s.testScores))
      = some (0, [0], [[1 / 2, 0, 0], [0, 0, 0]], [[0, 0, 0], [0, 0, 0]]) := by
  refine ⟨by decide!, by decide!, by decide!, by decide!, by decide!⟩

/-! ## Theorems: BPR ingestion -/

/-- The index `getOrSetIdx` returns is the index of the id afterwards. -/
theorem IdIndex.getOrSetIdx_fst (ix : IdIndex) (id : Int) :
    (ix.getOrSetIdx id).1 = (ix.getOrSetIdx id).2.idx id := by
  unfold IdIndex.getOrSetIdx
  cases h : ix.idxMap.lookup id with
  | some pos => exact (ix.idx_of_lookup id pos h).symm
  | none =>
    simp only
    unfold IdIndex.idx
    rw [List.lookup_cons, beq_self_eq_true]

theorem IdIndex.afterCalls_concat (calls : List Int) (id : Int) :
    IdIndex.afterCalls (calls ++ [id]) = ((IdIndex.afterCalls calls).getOrSetIdx id).2 := by
  simp [IdIndex.afterCalls, List.foldl_append]

/-- Every id of the calls is mapped. -/
theorem IdIndex.afterCalls_lookup (calls : List Int) (x : Int) (hx : x ∈ calls) :
    ∃ pos, (IdIndex.afterCalls calls).idxMap.lookup x = some pos := by
  obtain ⟨hinv, hcov, hmem⟩ := IdIndex.afterCalls_spec calls
  exact (IdIndex.mem_ids_iff _ hinv hcov x).1 ((hmem x).2 hx)

/-- A later call leaves the index of an earlier id alone. -/
theorem IdIndex.afterCalls_idx_concat (calls : List Int) (id x : Int) (hx : x ∈ calls) :
    (IdIndex.afterCalls (calls ++ [id])).idx x = (IdIndex.afterCalls calls).idx x := by
  obtain ⟨pos, hpos⟩ := IdIndex.afterCalls_lookup calls x hx
  rw [IdIndex.afterCalls_append, IdIndex.idx_of_lookup _ x pos hpos,
    IdIndex.idx_of_lookup _ x pos (IdIndex.lookup_stable [id] _ x pos hpos)]

/-- The size of the index is the number of distinct ids of the calls. -/
theorem IdIndex.afterCalls_size (calls : List Int) :
    (IdIndex.afterCalls calls).size = calls.toFinset.card := by
  obtain ⟨_, hcov, hmem⟩ := IdIndex.afterCalls_spec calls
  have hnd : (IdIndex.afterCalls calls).ids.Nodup := by
    rw [List.nodup_iff_getElem?_ne_getElem?]
    intro i j hij hj e
    rw [List.getElem?_eq_getElem hj] at e
    have h1 := hcov i _ e
    have h2 := hcov j _ (List.getElem?_eq_getElem hj)
    rw [h1] at h2
    have := Option.some.inj h2
    omega
  unfold IdIndex.size
  rw [← List.toFinset_card_of_nodup hnd]
  congr 1
  ext x
  rw [List.mem_toFinset, List.mem_toFinset]
  exact hmem x

/-- The ids of the calls sit on indices below the size, and `id` inverts `idx`. -/
theorem IdIndex.afterCalls_idx (calls : List Int) (x : Int) (hx : x ∈ calls) :
    (IdIndex.afterCalls calls).idx x < (IdIndex.afterCalls calls).size ∧
    (IdIndex.afterCalls calls).id ((IdIndex.afterCalls calls).idx x) = x := by
  obtain ⟨hinv, _, _⟩ := IdIndex.afterCalls_spec calls
  obtain ⟨pos, hpos⟩ := IdIndex.afterCalls_lookup calls x hx
  rw [IdIndex.idx_of_lookup _ x pos hpos]
  refine ⟨IdIndex.lookup_lt _ hinv x pos hpos, ?_⟩
  unfold IdIndex.id
  rw [List.getD_eq_getElem?_getD, hinv x pos hpos]
  rfl

/-- The ingestion loop of `BPREngine::init` on an engine with empty indexes and no
data: only the elements of value at least 1 count. -/
theorem BPREngine.populate_kept {K G : Type} [LinearOrderedField K] (s : BPREngine K G)
    (hu : s.userIndex = IdIndex.empty) (hi : s.itemIndex = IdIndex.empty) (hd : s.data = [])
    (dataset : List (DatasetElem K)) :
    (s.populate dataset).userIndex
      = IdIndex.afterCalls ((dataset.filter (fun e => decide (1 ≤ e.value))).map
          (fun e => e.userId)) ∧
    (s.populate dataset).itemIndex
      = IdIndex.afterCalls ((dataset.filter (fun e => decide (1 ≤ e.value))).map
          (fun e => e.itemId)) ∧
    (s.populate dataset).data
      = (dataset.filter (fun e => decide (1 ≤ e.value))).map
          (fun e => ⟨(s.populate dataset).userIndex.idx e.userId,
            (s.populate dataset).itemIndex.idx e.itemId⟩) ∧
    (s.populate dataset).itemMap = s.itemMap := by
  induction dataset using List.reverseRecOn with
  | nil => exact ⟨hu, hi, hd, rfl⟩
  | append_singleton ds e ih =>
    obtain ⟨i1, i2, i3, i4⟩ := ih
    have hstep : s.populate (ds ++ [e])
        = if e.value < 1 then s.populate ds
          else
            { s.populate ds with
              userIndex := ((s.populate ds).userIndex.getOrSetIdx e.userId).2,
              itemIndex := ((s.populate ds).itemIndex.getOrSetIdx e.itemId).2,
              data := (s.populate ds).data
                ++ [⟨((s.populate ds).userIndex.getOrSetIdx e.userId).1,
                     ((s.populate ds).itemIndex.getOrSetIdx e.itemId).1⟩] } := by
      unfold BPREngine.populate
      rw [List.foldl_append]
      rfl
    rw [hstep, List.filter_append]
    by_cases hv : e.value < 1
    · rw [if_pos hv, List.filter_cons_of_neg (by simpa using hv), List.filter_nil,
        List.append_nil]
      exact ⟨i1, i2, i3, i4⟩
    · rw [if_neg hv, List.filter_cons_of_pos (by simpa using hv), List.filter_nil]
      simp only [List.map_append, List.map_cons, List.map_nil]
      rw [i1, i2, ← IdIndex.afterCalls_concat, ← IdIndex.afterCalls_concat]
      refine ⟨rfl, rfl, ?_, i4⟩
      rw [i3, i1, i2]
      congr 1
      · apply List.map_congr_left
        intro x hx
        rw [IdIndex.afterCalls_idx_concat _ _ _ (List.mem_map_of_mem (fun e => e.userId) hx),
          IdIndex.afterCalls_idx_concat _ _ _ (List.mem_map_of_mem (fun e => e.itemId) hx)]
      · rw [IdIndex.getOrSetIdx_fst, IdIndex.getOrSetIdx_fst, ← IdIndex.afterCalls_concat,
          ← IdIndex.afterCalls_concat]

/-- What a successful `BPREngine::init` keeps of the ingestion loop. -/
theorem BPREngine.init_data {K G : Type} [LinearOrderedField K] (mt : Mt19937 G)
    (dis : UniformInt G) (unif : UniformReal G K) (fuel : Nat) (s sf : BPREngine K G)
    (dataset : List (DatasetElem K)) (h : s.init mt dis unif fuel dataset = some sf) :
    sf.userIndex = (s.populate dataset).userIndex ∧
    sf.itemIndex = (s.populate dataset).itemIndex ∧
    sf.data = (s.populate dataset).data ∧
    sf.itemMap = (s.populate dataset).data.foldl
      (fun (itemMap : List (List Nat)) (p : PosPair) => insertInto itemMap p.userIdx p.posItemIdx)
      (resizeSets (s.populate dataset).itemMap (s.populate dataset).userIndex.size) := by
  unfold BPREngine.init at h
  by_cases hc : s.userFactors.isSome ∨ s.itemFactors.isSome
  · rw [if_pos hc] at h; exact Option.noConfusion h
  · rw [if_neg hc] at h
    simp only at h
    split at h
    · exact Option.noConfusion h
    · split at h
      · have hsf := (Option.some.inj h).symm
        subst hsf
        exact ⟨rfl, rfl, rfl, rfl⟩
      · exact Option.noConfusion h

/-- The item map after the loop `itemMap_[userIdx].insert(posItemIdx)`: every row
stays a set and holds what it held plus the items paired with its user. -/
theorem foldl_insertInto_iff (data : List PosPair) (sets : List (List Nat))
    (h : ∀ p ∈ data, p.userIdx < sets.length) (hnd : ∀ u, (sets.getD u []).Nodup) :
    (∀ u, ((data.foldl (fun (im : List (List Nat)) (p : PosPair) =>
        insertInto im p.userIdx p.posItemIdx) sets).getD u []).Nodup) ∧
    ∀ u x, x ∈ (data.foldl (fun (im : List (List Nat)) (p : PosPair) =>
        insertInto im p.userIdx p.posItemIdx) sets).getD u []
      ↔ x ∈ sets.getD u [] ∨ (⟨u, x⟩ : PosPair) ∈ data := by
  induction data generalizing sets with
  | nil => exact ⟨hnd, fun u x => by simp⟩
  | cons a data ih =>
    simp only [List.foldl_cons]
    have ha := h a (List.mem_cons_self _ _)
    obtain ⟨i1, i2⟩ := ih (insertInto sets a.userIdx a.posItemIdx)
      (fun p hp => by rw [insertInto_length]; exact h p (List.mem_cons_of_mem _ hp))
      (fun u => by
        rw [insertInto_getD sets _ _ u ha]
        by_cases hu : u = a.userIdx
        · rw [if_pos hu]; exact (hnd a.userIdx).insert
        · rw [if_neg hu]; exact hnd u)
    refine ⟨i1, fun u x => ?_⟩
    rw [i2 u x, insertInto_getD sets _ _ u ha, List.mem_cons]
    by_cases hu : u = a.userIdx
    · rw [if_pos hu, List.mem_insert_iff]
      constructor
      · rintro ((h1 | h1) | h1)
        · exact Or.inr (Or.inl (by rw [hu, h1]))
        · exact Or.inl (hu ▸ h1)
        · exact Or.inr (Or.inr h1)
      · rintro (h1 | h1 | h1)
        · exact Or.inl (Or.inr (hu ▸ h1))
        · exact Or.inl (Or.inl (by rw [← h1]))
        · exact Or.inr h1
    · rw [if_neg hu]
      constructor
      · rintro (h1 | h1)
        · exact Or.inl h1
        · exact Or.inr (Or.inr h1)
      · rintro (h1 | h1 | h1)
        · exact Or.inl h1
        · exact absurd (by rw [← h1]) hu
        · exact Or.inr h1

/-- C30: BPR ingestion, on an engine with empty indexes, data and item map (a new
engine): after a successful `init`, `data` is exactly the sequence, in dataset
order, of the pairs (user index, item index) of the dataset elements with
value at least 1; the indexes are the ones built from these kept elements alone
(an element of value below 1 adds no pair and assigns no index), so `nusers` and
`nitems` count the distinct user and item ids of the kept elements, and every
kept id has an index below the count, which `id` maps back; `item_map` has one
entry per user, and `item_map[u]` is a set that holds exactly the items paired
with `u` in `data`. -/
theorem BPREngine.init_ingestion {K G : Type} [LinearOrderedField K] (mt : Mt19937 G)
    (dis : UniformInt G) (unif : UniformReal G K) (fuel : Nat) (s sf : BPREngine K G)
    (dataset : List (DatasetElem K))
    (hu : s.userIndex = IdIndex.empty) (hi : s.itemIndex = IdIndex.empty) (hd : s.data = [])
    (hm : s.itemMap = []) (h : s.init mt dis unif fuel dataset = some sf) :
    sf.userIndex
      = IdIndex.afterCalls ((dataset.filter (fun e => decide (1 ≤ e.value))).map
          (fun e => e.userId)) ∧
    sf.itemIndex
      = IdIndex.afterCalls ((dataset.filter (fun e => decide (1 ≤ e.value))).map
          (fun e => e.itemId)) ∧
    sf.data
      = (dataset.filter (fun e => decide (1 ≤ e.value))).map
          (fun e => ⟨sf.userIndex.idx e.userId, sf.itemIndex.idx e.itemId⟩) ∧
    (∀ e ∈ dataset.filter (fun e => decide (1 ≤ e.value)),
      sf.userIndex.idx e.userId < sf.nusers ∧
      sf.userIndex.id (sf.userIndex.idx e.userId) = e.userId ∧
      sf.itemIndex.idx e.itemId < sf.nitems ∧
      sf.itemIndex.id (sf.itemIndex.idx e.itemId) = e.itemId) ∧
    sf.nusers
      = ((dataset.filter (fun e => decide (1 ≤ e.value))).map
          (fun e => e.userId)).toFinset.card ∧
    sf.nitems
      = ((dataset.filter (fun e => decide (1 ≤ e.value))).map
          (fun e => e.itemId)).toFinset.card ∧
    sf.itemMap.length = sf.nusers ∧
    ∀ u, u < sf.nusers →
      (sf.itemMap.getD u []).Nodup ∧
      ∀ x, x ∈ sf.itemMap.getD u [] ↔ (⟨u, x⟩ : PosPair) ∈ sf.data := by
  obtain ⟨d1, d2, d3, d4⟩ := BPREngine.init_data mt dis unif fuel s sf dataset h
  obtain ⟨p1, p2, p3, p4⟩ := BPREngine.populate_kept s hu hi hd dataset
  rw [← d1, ← d2, ← d3] at p3
  rw [p1] at d1
  rw [p2] at d2
  rw [p4, hm, ← d3] at d4
  have hidx : ∀ e ∈ dataset.filter (fun e => decide (1 ≤ e.value)),
      sf.userIndex.idx e.userId < sf.nusers ∧
      sf.userIndex.id (sf.userIndex.idx e.userId) = e.userId ∧
      sf.itemIndex.idx e.itemId < sf.nitems ∧
      sf.itemIndex.id (sf.itemIndex.idx e.itemId) = e.itemId := by
    intro e he
    unfold BPREngine.nusers BPREngine.nitems
    rw [d1, d2]
    have hU := IdIndex.afterCalls_idx _ e.userId (List.mem_map_of_mem (fun e => e.userId) he)
    have hI := IdIndex.afterCalls_idx _ e.itemId (List.mem_map_of_mem (fun e => e.itemId) he)
    exact ⟨hU.1, hU.2, hI.1, hI.2⟩
  have hsets : ∀ p ∈ sf.data,
      p.userIdx < (resizeSets [] (s.populate dataset).userIndex.size).length := by
    intro p hp
    rw [resizeSets_length, p1, ← d1]
    rw [p3] at hp
    obtain ⟨e, he, rfl⟩ := List.mem_map.1 hp
    exact (hidx e he).1
  have hempty : ∀ u, (resizeSets [] (s.populate dataset).userIndex.size).getD u [] = [] := by
    intro u
    unfold resizeSets
    simp only [List.take_nil, List.nil_append, List.length_nil, Nat.sub_zero]
    rw [List.getD_eq_getElem?_getD, List.getElem?_replicate]
    by_cases hlt : u < (s.populate dataset).userIndex.size
    · rw [if_pos hlt]; rfl
    · rw [if_neg hlt]; rfl
  obtain ⟨m1, m2⟩ := foldl_insertInto_iff sf.data _ hsets
    (fun u => by rw [hempty u]; exact List.nodup_nil)
  obtain ⟨l1, _, _⟩ := foldl_insertInto_spec sf.data _ hsets
  rw [← d4] at m1 m2 l1
  refine ⟨d1, d2, p3, hidx, ?_, ?_, ?_, ?_⟩
  · unfold BPREngine.nusers; rw [d1]; exact IdIndex.afterCalls_size _
  · unfold BPREngine.nitems; rw [d2]; exact IdIndex.afterCalls_size _
  · rw [l1, resizeSets_length, p1, ← d1]; rfl
  · intro u _
    refine ⟨m1 u, fun x => ?_⟩
    rw [m2 u x, hempty u]
    simp

theorem BPREngine.init_ingestion_witness :
    ∃ sf, (BPREngine.new testBPRConfig none 2 42 ⟨16, by decide⟩ 0 0).init
        testMt testUniformInt testUniformReal 10 (⟨9, 9, 1 / 2⟩ :: testTrainDataset) = some sf ∧
      sf.data = [⟨0, 0⟩, ⟨1, 0⟩, ⟨0, 1⟩, ⟨2, 0⟩, ⟨3, 2⟩] ∧
      sf.itemMap = [[1, 0], [0], [0], [2]] ∧ sf.nusers = 4 ∧ sf.nitems = 3 ∧
      sf.userIndex = IdIndex.afterCalls [3, 5, 3, 6, 7] := by
  have hs : ((BPREngine.new testBPRConfig none 2 42 ⟨16, by decide⟩ 0 0).init
      testMt testUniformInt testUniformReal 10
      (⟨9, 9, 1 / 2⟩ :: testTrainDataset)).isSome = true := by decide!
  obtain ⟨sf, h⟩ := Option.isSome_iff_exists.1 hs
  have hv : ((BPREngine.new testBPRConfig none 2 42 ⟨16, by decide⟩ 0 0).init
      testMt testUniformInt testUniformReal 10 (⟨9, 9, 1 / 2⟩ :: testTrainDataset)).map
      (fun sf => (sf.data, sf.itemMap, sf.nusers, sf.nitems))
      = some ([⟨0, 0⟩, ⟨1, 0⟩, ⟨0, 1⟩, ⟨2, 0⟩, ⟨3, 2⟩], [[1, 0], [0], [0], [2]], 4, 3) := by
    decide!
  rw [h] at hv
  have hv2 := Option.some.inj hv
  simp only [Prod.mk.injEq] at hv2
  have hk : (List.filter (fun e => decide (1 ≤ e.value)) (⟨9, 9, 1 / 2⟩ :: testTrainDataset)).map
      (fun e => e.userId) = [3, 5, 3, 6, 7] := by decide!
  have hi := (BPREngine.init_ingestion testMt testUniformInt testUniformReal 10 _ sf
    (⟨9, 9, 1 / 2⟩ :: testTrainDataset) rfl rfl rfl rfl h).1
  rw [hk] at hi
  exact ⟨sf, h, hv2.1, hv2.2.1, hv2.2.2.1, hv2.2.2.2, hi⟩

/-! ## Theorems: block-partitioned mapReduce -/

/-- The blocks of the first `k` workers, one after the other, are the first
`k * blockSize` elements. -/
theorem elemsBlock_flatten {E : Type} (elems : List E) (nthreads k : Nat) (hk : k ≤ nthreads) :
    ((List.range k).map (elemsBlock elems nthreads)).flatten
      = elems.take (k * (elems.length / nthreads)) := by
  induction k with
  | zero => simp
  | succ k ih =>
    rw [List.range_succ, List.map_append, List.flatten_append, ih (Nat.le_of_succ_le hk)]
    simp only [List.map_cons, List.map_nil, List.flatten_cons, List.flatten_nil, List.append_nil]
    have hle : (k + 1) * (elems.length / nthreads) ≤ elems.length :=
      Nat.le_trans (Nat.mul_le_mul_right _ hk)
        (by rw [Nat.mul_comm]; exact Nat.div_mul_le_self _ _)
    unfold elemsBlock
    simp only
    rw [Nat.min_eq_left hle]
    have hkk : k * (elems.length / nthreads) ≤ (k + 1) * (elems.length / nthreads) :=
      Nat.mul_le_mul_right _ (Nat.le_succ k)
    have ht : elems.take (k * (elems.length / nthreads))
        = (elems.take ((k + 1) * (elems.length / nthreads))).take
            (k * (elems.length / nthreads)) := by
      rw [List.take_take, Nat.min_eq_left hkk]
    rw [ht, List.take_append_drop]

/-- The block-partitioned `mapReduce` is the fold over the first
`nthreads * blockSize` elements. -/
theorem mapReduceElems_eq_foldl_take {T E : Type} (p : ParallelExecutor) (elems : List E)
    (mapper : E → T) (reducer : T → T → T) (neutral : T)
    (hassoc : ∀ a b c, reducer (reducer a b) c = reducer a (reducer b c))
    (hneutral : ∀ a, reducer a neutral = a) :
    p.mapReduceElems elems mapper reducer neutral
      = (elems.take (p.nthreads * (elems.length / p.nthreads))).foldl
          (fun r e => reducer r (mapper e)) neutral := by
  rw [← elemsBlock_flatten elems p.nthreads p.nthreads (Nat.le_refl _),
    ← foldl_partials mapper reducer neutral hassoc hneutral]
  unfold ParallelExecutor.mapReduceElems
  rw [List.foldl_map]

/-- C33: block-partitioned `mapReduce` drops the tail. For every thread count
`N >= 1`, every vector `elems` of length `n` and every associative reducer with
identity `neutral`, with `B = floor(n / N)`, `mapReduce(elems, mapper, reducer,
neutral)` is the left fold of `reducer` over `mapper(elems[0]), ...,
mapper(elems[N*B - 1])`; it is the same for every vector of the same length
that agrees with `elems` on the positions below `N*B`; and it is `neutral`
whenever `n < N`. -/
theorem mapReduceElems_block_fold {T E : Type} (p : ParallelExecutor) (elems : List E)
    (mapper : E → T) (reducer : T → T → T) (neutral : T)
    (hassoc : ∀ a b c, reducer (reducer a b) c = reducer a (reducer b c))
    (hneutral : ∀ a, reducer a neutral = a) :
    p.mapReduceElems elems mapper reducer neutral
      = (elems.take (p.nthreads * (elems.length / p.nthreads))).foldl
          (fun r e => reducer r (mapper e)) neutral ∧
    (∀ elems2 : List E, elems2.length = elems.length →
      elems2.take (p.nthreads * (elems.length / p.nthreads))
        = elems.take (p.nthreads * (elems.length / p.nthreads)) →
      p.mapReduceElems elems2 mapper reducer neutral
        = p.mapReduceElems elems mapper reducer neutral) ∧
    (elems.length < p.nthreads → p.mapReduceElems elems mapper reducer neutral = neutral) := by
  refine ⟨mapReduceElems_eq_foldl_take p elems mapper reducer neutral hassoc hneutral, ?_, ?_⟩
  · intro elems2 hlen htake
    rw [mapReduceElems_eq_foldl_take p elems2 mapper reducer neutral hassoc hneutral,
      mapReduceElems_eq_foldl_take p elems mapper reducer neutral hassoc hneutral, hlen, htake]
  · intro hlt
    rw [mapReduceElems_eq_foldl_take p elems mapper reducer neutral hassoc hneutral,
      Nat.div_eq_of_lt hlt, Nat.mul_zero, List.take_zero]
    rfl

theorem mapReduceElems_block_fold_witness :
    (ParallelExecutor.mk 2 (by decide)).mapReduceElems [1, 2, 3, 4, 5] (fun e => e * e)
        (fun a b => a + b) 0
      = ([1, 2, 3, 4, 5].take (2 * (5 / 2))).foldl (fun r e => r + e * e) 0 ∧
    ([1, 2, 3, 4, 5].take (2 * (5 / 2))).foldl (fun r e => r + e * e) 0 = 30 ∧
    (ParallelExecutor.mk 2 (by decide)).mapReduceElems [1, 2, 3, 4, 77] (fun e => e * e)
        (fun a b => a + b) 0 = 30 :=
  ⟨(mapReduceElems_block_fold (ParallelExecutor.mk 2 (by decide)) [1, 2, 3, 4, 5]
      (fun e => e * e) (fun a b => a + b) 0 (fun a b c => Nat.add_assoc a b c)
      (fun a => Nat.add_zero a)).1, by decide, by decide⟩

/-! ## Theorems: BPR evaluation loss -/

/-- The train loss of `evaluate` on a non-empty evaluation set: the sum of the
losses of the first `nthreads * floor(|set| / nthreads)` triplets, divided by
`|set|`. -/
theorem BPREngine.trainEvalLoss_eq {K G : Type} [LinearOrderedField K] (exp log : K → K)
    (s : BPREngine K G) (hne : s.evalSet ≠ []) :
    s.trainEvalLoss exp log
      = ((s.evalSet.take (s.parallel.nthreads * (s.evalSet.length / s.parallel.nthreads))).foldl
          (fun r t => plusResults r (s.evalLoss exp log t)) (some 0)).map
          (fun sum => sum / (s.evalSet.length : K)) := by
  unfold BPREngine.trainEvalLoss
  rw [if_neg (by simpa [List.isEmpty_iff] using hne),
    mapReduceElems_eq_foldl_take s.parallel s.evalSet (s.evalLoss exp log) plusResults (some 0)
      plusResults_assoc plusResults_zero]

/-- C31 (the code misses the claim): on the engine of `TEST(BPREngine, init)`
(16 threads, `evalNumNeg = 2`, 5 training pairs) the evaluation set has 10
triplets, the block size of `mapReduce(elems)` is `floor(10 / 16) = 0`, and the
train loss of `evaluate` is `0 / 10 = 0` for every `exp` and `log`: no loss is
computed at all. With 4 threads the reported value is the sum of the losses of
the first 8 triplets divided by 10: the last 2 are left out of the sum but
counted in the divisor. -/
theorem BPREngine.trainEvalLoss_skips_tail :
    ∃ s, testBPRInit = some s ∧ s.parallel.nthreads = 16 ∧ s.evalSet.length = 10 ∧
      (∀ exp log : ℚ → ℚ, s.trainEvalLoss exp log = some 0) ∧
      ∀ exp log : ℚ → ℚ,
        ({ s with parallel := ⟨4, by decide⟩ } : BPREngine ℚ Nat).trainEvalLoss exp log
          = ((s.evalSet.take 8).foldl
              (fun r t => plusResults r (s.evalLoss exp log t)) (some 0)).map
              (fun sum => sum / 10) := by
  have hv : testBPRInit.map (fun s => (s.parallel.nthreads, s.evalSet.length))
      = some (16, 10) := by decide!
  obtain ⟨s, hs⟩ := Option.isSome_iff_exists.1 testBPRInit_isSome
  rw [hs] at hv
  have hv2 := Option.some.inj hv
  simp only [Prod.mk.injEq] at hv2
  obtain ⟨h16, h10⟩ := hv2
  have hne : s.evalSet ≠ [] := by
    intro h
    rw [h] at h10
    exact absurd h10 (by decide)
  refine ⟨s, hs, h16, h10, ?_, ?_⟩
  · intro exp log
    rw [BPREngine.trainEvalLoss_eq exp log s hne, h16, h10]
    simp
  · intro exp log
    have h := BPREngine.trainEvalLoss_eq exp log
      ({ s with parallel := ⟨4, by decide⟩ } : BPREngine ℚ Nat) hne
    rw [h]
    simp only [h10, Nat.cast_ofNat]
    rfl

/-! ## Theorems: BPR initTest leaves the training state alone -/

/-- The members of the engine that a successful `initTest` does not assign. -/
theorem BPREngine.initTest_fields {K G : Type} [LinearOrderedField K] (mt : Mt19937 G)
    (dis : UniformInt G) (iterOrder : List Nat → List Nat) (shuffle : List Nat → G → List Nat)
    (fuel : Nat) (s sf : BPREngine K G) (testDataset : List (DatasetElem K))
    (h : s.initTest mt dis iterOrder shuffle fuel testDataset = some sf) :
    sf.config = s.config ∧ sf.learningRate = s.learningRate ∧ sf.gen = s.gen ∧
    sf.userIndex = s.userIndex ∧ sf.itemIndex = s.itemIndex ∧ sf.data = s.data ∧
    sf.itemMap = s.itemMap ∧ sf.evalSet = s.evalSet ∧
    sf.userFactors = s.userFactors ∧ sf.itemFactors = s.itemFactors ∧
    sf.testItemMap = (s.populateTest testDataset).1 := by
  unfold BPREngine.initTest at h
  split at h
  · exact Option.noConfusion h
  · simp only at h
    split at h
    · exact Option.noConfusion h
    · split at h
      · have hsf := (Option.some.inj h).symm
        subst hsf
        exact ⟨rfl, rfl, rfl, rfl, rfl, rfl, rfl, rfl, rfl, rfl, rfl⟩
      · split at h
        · have hsf := (Option.some.inj h).symm
          subst hsf
          exact ⟨rfl, rfl, rfl, rfl, rfl, rfl, rfl, rfl, rfl, rfl, rfl⟩
        · have hsf := (Option.some.inj h).symm
          subst hsf
          exact ⟨rfl, rfl, rfl, rfl, rfl, rfl, rfl, rfl, rfl, rfl, rfl⟩

/-- The first loop of `initTest`, one element later. -/
theorem BPREngine.populateTest_concat {K G : Type} [LinearOrderedField K] (s : BPREngine K G)
    (td : List (DatasetElem K)) (e : DatasetElem K) :
    s.populateTest (td ++ [e])
      = if e.value < 1 then s.populateTest td
        else
          if s.userIndex.idx e.userId = IdIndex.missingIdx
              ∨ s.itemIndex.idx e.itemId = IdIndex.missingIdx then s.populateTest td
          else
            (insertInto (s.populateTest td).1 (s.userIndex.idx e.userId)
                (s.itemIndex.idx e.itemId),
              (s.populateTest td).2 ++ [(s.userIndex.idx e.userId, s.itemIndex.idx e.itemId)]) := by
  unfold BPREngine.populateTest
  rw [List.foldl_append]
  rfl

/-- The test item map built by the first loop of `initTest` from an empty one:
the set of user `u` holds exactly the item indices of the test elements of
value at least 1 of that user whose user and item are both indexed. -/
theorem BPREngine.populateTest_mem {K G : Type} [LinearOrderedField K] (s : BPREngine K G)
    (hU : s.userIndex.Inv) (hI : s.itemIndex.Inv) (htm : s.testItemMap = [])
    (td : List (DatasetElem K)) (u x : Nat) :
    x ∈ (s.populateTest td).1.getD u []
      ↔ ∃ e ∈ td, 1 ≤ e.value ∧ s.userIndex.idx e.userId ≠ IdIndex.missingIdx ∧
          s.itemIndex.idx e.itemId ≠ IdIndex.missingIdx ∧
          s.userIndex.idx e.userId = u ∧ s.itemIndex.idx e.itemId = x := by
  induction td using List.reverseRecOn with
  | nil =>
    have h0 : (s.populateTest ([] : List (DatasetElem K))).1
        = resizeSets [] s.userIndex.size := by
      unfold BPREngine.populateTest
      rw [htm]
      rfl
    rw [h0]
    unfold resizeSets
    simp only [List.take_nil, List.nil_append, List.length_nil, Nat.sub_zero]
    rw [List.getD_eq_getElem?_getD, List.getElem?_replicate]
    by_cases hlt : u < s.userIndex.size
    · rw [if_pos hlt]; simp
    · rw [if_neg hlt]; simp
  | append_singleton td e ih =>
    rw [BPREngine.populateTest_concat]
    have hlen := (s.populateTest_spec hU hI td).1
    by_cases hv : e.value < 1
    · rw [if_pos hv, ih]
      constructor
      · rintro ⟨a, ha, h⟩
        exact ⟨a, List.mem_append_left _ ha, h⟩
      · rintro ⟨a, ha, h1, h⟩
        rcases List.mem_append.1 ha with ha | ha
        · exact ⟨a, ha, h1, h⟩
        · rw [List.mem_singleton] at ha
          subst ha
          exact absurd hv (not_lt.2 h1)
    · rw [if_neg hv]
      by_cases hm : s.userIndex.idx e.userId = IdIndex.missingIdx
          ∨ s.itemIndex.idx e.itemId = IdIndex.missingIdx
      · rw [if_pos hm, ih]
        constructor
        · rintro ⟨a, ha, h⟩
          exact ⟨a, List.mem_append_left _ ha, h⟩
        · rintro ⟨a, ha, h1, h2, h3, h⟩
          rcases List.mem_append.1 ha with ha | ha
          · exact ⟨a, ha, h1, h2, h3, h⟩
          · rw [List.mem_singleton] at ha
            subst ha
            rcases hm with hm | hm
            · exact absurd hm h2
            · exact absurd hm h3
      · rw [if_neg hm]
        have hm1 : s.userIndex.idx e.userId ≠ IdIndex.missingIdx := fun h => hm (Or.inl h)
        have hm2 : s.itemIndex.idx e.itemId ≠ IdIndex.missingIdx := fun h => hm (Or.inr h)
        have hu := (s.userIndex.idx_ne_missing hU e.userId hm1).1
        simp only
        rw [insertInto_getD _ _ _ u (by rw [hlen]; exact hu)]
        by_cases hue : u = s.userIndex.idx e.userId
        · rw [if_pos hue, List.mem_insert_iff, ← hue, ih]
          constructor
          · rintro (h | ⟨a, ha, h⟩)
            · exact ⟨e, List.mem_append_right _ (List.mem_singleton_self e), not_lt.1 hv, hm1, hm2,
                hue.symm, h.symm⟩
            · exact ⟨a, List.mem_append_left _ ha, h⟩
          · rintro ⟨a, ha, h1, h2, h3, h4, h5⟩
            rcases List.mem_append.1 ha with ha | ha
            · exact Or.inr ⟨a, ha, h1, h2, h3, h4, h5⟩
            · rw [List.mem_singleton] at ha
              subst ha
              exact Or.inl h5.symm
        · rw [if_neg hue, ih]
          constructor
          · rintro ⟨a, ha, h⟩
            exact ⟨a, List.mem_append_left _ ha, h⟩
          · rintro ⟨a, ha, h1, h2, h3, h4, h5⟩
            rcases List.mem_append.1 ha with ha | ha
            · exact ⟨a, ha, h1, h2, h3, h4, h5⟩
            · rw [List.mem_singleton] at ha
              subst ha
              exact absurd h4.symm hue

/-- C32: BPR `initTest` does not affect the training state. On an engine
initialised by `init` (training dataset shorter than 2^64), for every test
dataset on which `initTest` returns: the user and item indexes, hence `nusers`
and `nitems`, `data`, `item_map`, `eval_set`, the factors, the configuration,
the learning rate and the generator are the same after `initTest` as before;
`test_item_map` has one entry per training user, and the entry of user `u`
holds exactly the item indices of the test elements with value at least 1
whose user id is present in the training user index, with index `u`, and whose
item id is present in the training item index. -/
theorem BPREngine.initTest_frame {K G : Type} [LinearOrderedField K]
    (mt : Mt19937 G) (dis : UniformInt G) (unif : UniformReal G K)
    (iterOrder : List Nat → List Nat) (shuffle : List Nat → G → List Nat)
    (config : BPRConfig K) (metricsEngine : Option (MetricsEngine K)) (evalNumNeg : Nat)
    (evalSeed : Int) (parallel : ParallelExecutor) (gen0 : G) (lr0 : K)
    (fuel : Nat) (dataset : List (DatasetElem K)) (s1 : BPREngine K G)
    (hlen : dataset.length < 2 ^ 64)
    (hinit : (BPREngine.new config metricsEngine evalNumNeg evalSeed parallel gen0 lr0).init
      mt dis unif fuel dataset = some s1)
    (fuel2 : Nat) (testDataset : List (DatasetElem K)) (s2 : BPREngine K G)
    (htest : s1.initTest mt dis iterOrder shuffle fuel2 testDataset = some s2) :
    s2.userIndex = s1.userIndex ∧ s2.itemIndex = s1.itemIndex ∧
    s2.nusers = s1.nusers ∧ s2.nitems = s1.nitems ∧
    s2.data = s1.data ∧ s2.itemMap = s1.itemMap ∧ s2.evalSet = s1.evalSet ∧
    s2.userFactors = s1.userFactors ∧ s2.itemFactors = s1.itemFactors ∧
    s2.config = s1.config ∧ s2.learningRate = s1.learningRate ∧ s2.gen = s1.gen ∧
    s2.testItemMap.length = s1.nusers ∧
    ∀ u x, x ∈ s2.testItemMap.getD u []
      ↔ ∃ e ∈ testDataset, 1 ≤ e.value ∧ s1.userIndex.Present e.userId ∧
          s1.itemIndex.Present e.itemId ∧ s1.userIndex.idx e.userId = u ∧
          s1.itemIndex.idx e.itemId = x := by
  obtain ⟨n1, n2, n3⟩ := BPREngine.new_inv config metricsEngine evalNumNeg evalSeed parallel gen0 lr0
  obtain ⟨g, hU, hI, hd, hus, his, hdl, _, _, _, _, htm, _, _⟩ := BPREngine.init_some mt dis
    unif fuel _ s1 dataset n1 n2 n3 (Nat.le_refl _) (Nat.le_refl _) hinit
  obtain ⟨f1, f2, f3, f4, f5, f6, f7, f8, f9, f10, f11⟩ := BPREngine.initTest_fields mt dis
    iterOrder shuffle fuel2 s1 s2 testDataset htest
  have hdl2 : s1.data.length ≤ dataset.length := by
    simpa [BPREngine.new] using hdl
  have hmiss : IdIndex.missingIdx = 2 ^ 64 - 1 := rfl
  have htm2 : s1.testItemMap = [] := by rw [htm]; rfl
  refine ⟨f4, f5, by unfold BPREngine.nusers; rw [f4], by unfold BPREngine.nitems; rw [f5],
    f6, f7, f8, f9, f10, f1, f2, f3, ?_, ?_⟩
  · rw [f11]
    exact (s1.populateTest_spec hU hI testDataset).1
  · intro u x
    rw [f11, BPREngine.populateTest_mem s1 hU hI htm2 testDataset u x]
    constructor
    · rintro ⟨e, he, h1, h2, h3, h4, h5⟩
      exact ⟨e, he, h1, (s1.userIndex.present_iff hU (by rw [hmiss]; omega) _).2 h2,
        (s1.itemIndex.present_iff hI (by rw [hmiss]; omega) _).2 h3, h4, h5⟩
    · rintro ⟨e, he, h1, h2, h3, h4, h5⟩
      exact ⟨e, he, h1, (s1.userIndex.present_iff hU (by rw [hmiss]; omega) _).1 h2,
        (s1.itemIndex.present_iff hI (by rw [hmiss]; omega) _).1 h3, h4, h5⟩

theorem BPREngine.initTest_frame_witness :
    testTrainDataset.length < 2 ^ 64 ∧
    ∃ s1 s2, testBPRInit = some s1 ∧
      s1.initTest testMt testUniformInt id (fun l _ => l) 10 testTestDataset = some s2 ∧
      s2.testItemMap = [[2], [1], [], []] ∧
      s2.itemMap = s1.itemMap ∧ s2.data = s1.data ∧ s2.userFactors = s1.userFactors := by
  obtain ⟨s1, s2, h1, h2⟩ := testBPRInitTest_some
  have h := BPREngine.initTest_frame testMt testUniformInt testUniformReal id
    (fun l _ => l) testBPRConfig none 2 42 ⟨16, by decide⟩ 0 0 10
    testTrainDataset s1 (by decide) h1 10 testTestDataset s2 h2
  have hv : testBPRInitTest.map (fun s => s.testItemMap) = some [[2], [1], [], []] := by decide!
  have hb : testBPRInitTest = some s2 := by
    unfold testBPRInitTest
    rw [h1]
    exact h2
  rw [hb] at hv
  exact ⟨by decide, s1, s2, h1, h2, Option.some.inj hv, h.2.2.2.2.2.1, h.2.2.2.2.1,
    h.2.2.2.2.2.2.2.1⟩

/-! ## Theorems: training objective and evaluation scores -/

/-- C40: training objective and evaluation scores agree. For a BPR engine whose
factor matrices are `U` and `Q`, with item biases present iff `useBiases` and
`nfactors` user factors, for every `testScores` of the shape `computeTestScores`
works on, every slot whose test user is `u` and all items `i`, `j` below
`nelems`: `predictDifference(u, i, j) = s(u, i) - s(u, j)`, where `s(u, i)` is
the score `computeTestScores` writes for that slot and item `i`; hence
`predictDifference(u, j, i) = -predictDifference(u, i, j)` and
`predictDifference(u, i, i) = 0`. -/
theorem BPREngine.predictDifference_eq_score_sub {K G : Type} [Field K] (s : BPREngine K G)
    (U Q : FactorData K) (hU : s.userFactors = some U) (hQ : s.itemFactors = some Q)
    (hbias : Q.withBiases = s.config.useBiases) (hnf : U.nfactors = s.config.nfactors)
    (testScores : List (List K)) (testUsers : List Nat) (parallel : ParallelExecutor)
    (hlen : testScores.length = testUsers.length)
    (hrow : ∀ row ∈ testScores, row.length = Q.nelems)
    (slot u i j : Nat) (hslot : slot < testUsers.length) (hu : testUsers.getD slot 0 = u)
    (hi : i < Q.nelems) (hj : j < Q.nelems) :
    s.predictDifference u i j
      = some (((computeTestScores testScores testUsers U Q parallel).getD slot []).getD i 0
          - ((computeTestScores testScores testUsers U Q parallel).getD slot []).getD j 0) ∧
    s.predictDifference u j i
      = some (-(((computeTestScores testScores testUsers U Q parallel).getD slot []).getD i 0
          - ((computeTestScores testScores testUsers U Q parallel).getD slot []).getD j 0)) ∧
    s.predictDifference u i i = some 0 := by
  obtain ⟨_, hsc⟩ := computeTestScores_any_order testScores testUsers U Q
    (parallel.execute testUsers.length).flatten (execute_flatten_perm parallel testUsers.length)
    hlen hrow
  have hsi := (hsc slot hslot).2 i hi
  have hsj := (hsc slot hslot).2 j hj
  have hdef : computeTestScores testScores testUsers U Q parallel
      = (parallel.execute testUsers.length).flatten.foldl
          (computeTestScoresTask testUsers U Q) testScores := rfl
  rw [hdef, hsi, hsj, hu, hnf, hbias]
  rw [BPREngine.predictDifference_eq s U Q u i j hU hQ hbias,
    BPREngine.predictDifference_eq s U Q u j i hU hQ hbias,
    BPREngine.predictDifference_eq s U Q u i i hU hQ hbias]
  have hsum : ∀ a b : Nat,
      ∑ f ∈ Finset.range s.config.nfactors, U.getAt u f * (Q.getAt a f - Q.getAt b f)
        = ∑ f ∈ Finset.range s.config.nfactors, U.getAt u f * Q.getAt a f
          - ∑ f ∈ Finset.range s.config.nfactors, U.getAt u f * Q.getAt b f := by
    intro a b
    rw [← Finset.sum_sub_distrib]
    apply Finset.sum_congr rfl
    intro f _
    ring
  rw [hsum i j, hsum j i, hsum i i]
  refine ⟨?_, ?_, ?_⟩
  · congr 1
    rcases Bool.eq_false_or_eq_true s.config.useBiases with hb | hb
    · simp only [hb, eq_self_iff_true, if_true]; ring
    · simp only [hb, Bool.false_eq_true, if_false]; ring
  · congr 1
    rcases Bool.eq_false_or_eq_true s.config.useBiases with hb | hb
    · simp only [hb, eq_self_iff_true, if_true]; ring
    · simp only [hb, Bool.false_eq_true, if_false]; ring
  · congr 1
    rcases Bool.eq_false_or_eq_true s.config.useBiases with hb | hb
    · simp only [hb, eq_self_iff_true, if_true]; ring
    · simp only [hb, Bool.false_eq_true, if_false]; ring

theorem BPREngine.predictDifference_eq_score_sub_witness :
    testBPREngine.predictDifference 0 0 1
      = some (((computeTestScores [[5, 5]] [0] ⟨false, ⟨1, 2, [0, 0]⟩, ⟨[]⟩⟩
            ⟨true, ⟨2, 2, [1, 0, 0, 1]⟩, ⟨[0, 0]⟩⟩ ⟨4, by decide⟩).getD 0 []).getD 0 0
          - ((computeTestScores [[5, 5]] [0] ⟨false, ⟨1, 2, [0, 0]⟩, ⟨[]⟩⟩
            ⟨true, ⟨2, 2, [1, 0, 0, 1]⟩, ⟨[0, 0]⟩⟩ ⟨4, by decide⟩).getD 0 []).getD 1 0) ∧
    testBPREngine.predictDifference 0 0 1 = some 0 :=
  ⟨(BPREngine.predictDifference_eq_score_sub testBPREngine ⟨false, ⟨1, 2, [0, 0]⟩, ⟨[]⟩⟩
      ⟨true, ⟨2, 2, [1, 0, 0, 1]⟩, ⟨[0, 0]⟩⟩ rfl rfl rfl rfl [[5, 5]] [0] ⟨4, by decide⟩
      (by decide) (by decide) 0 0 0 1 (by decide) (by decide) (by decide) (by decide)).1,
    by decide!⟩

/-! ## Theorems: the unregularised BPR step -/

/-- The cells `update` writes, on an initialised engine and a triplet
`(u, i, j)` with `i ≠ j`; `xhat` is the score difference before the step. -/
theorem BPREngine.update_cells {K G : Type} [Field K] (exp : K → K) (s : BPREngine K G)
    (U Q : FactorData K) (u i j : Nat)
    (hU : s.userFactors = some U) (hQ : s.itemFactors = some Q)
    (hUwf : U.factors.WF) (hQwf : Q.factors.WF)
    (hUc : U.factors.ncols = s.config.nfactors) (hQc : Q.factors.ncols = s.config.nfactors)
    (hu : u < U.factors.nrows) (hi : i < Q.factors.nrows) (hj : j < Q.factors.nrows)
    (hij : i ≠ j) (hbias : Q.withBiases = s.config.useBiases)
    (hbsize : s.config.useBiases = true → Q.biases.size = Q.factors.nrows) :
    ∃ xhat U2 Q2,
      s.predictDifference u i j = some xhat ∧
      xhat = (if s.config.useBiases then Q.biases.get i - Q.biases.get j else 0)
          + ∑ f ∈ Finset.range s.config.nfactors, U.getAt u f * (Q.getAt i f - Q.getAt j f) ∧
      s.update exp ⟨u, i, j⟩ = some { s with userFactors := some U2, itemFactors := some Q2 } ∧
      (∀ f, f < s.config.nfactors → U2.getAt u f = U.getAt u f + s.learningRate
        * (1 / (1 + exp xhat) * (Q.getAt i f - Q.getAt j f) - s.config.userLambda * U.getAt u f)) ∧
      (∀ f, f < s.config.nfactors → Q2.getAt i f = Q.getAt i f + s.learningRate
        * (1 / (1 + exp xhat) * U2.getAt u f - s.config.itemLambda * Q.getAt i f)) ∧
      (∀ f, f < s.config.nfactors → Q2.getAt j f = Q.getAt j f + s.learningRate
        * (-(1 / (1 + exp xhat)) * U2.getAt u f - s.config.itemLambda * Q.getAt j f)) ∧
      (∀ r f, r ≠ u → f < s.config.nfactors → U2.getAt r f = U.getAt r f) ∧
      (∀ r f, r ≠ i → r ≠ j → f < s.config.nfactors → Q2.getAt r f = Q.getAt r f) ∧
      (s.config.useBiases = true →
        Q2.biases.get i = Q.biases.get i + s.learningRate
          * (1 / (1 + exp xhat) - s.config.biasLambda * Q.biases.get i) ∧
        Q2.biases.get j = Q.biases.get j + s.learningRate
          * (-(1 / (1 + exp xhat)) - s.config.biasLambda * Q.biases.get j) ∧
        ∀ r, r ≠ i → r ≠ j → Q2.biases.get r = Q.biases.get r) ∧
      (s.config.useBiases = false → Q2.biases = Q.biases) ∧
      U2.biases = U.biases ∧ U2.withBiases = U.withBiases ∧ Q2.withBiases = Q.withBiases ∧
      Q2.biases.size = Q.biases.size ∧
      U2.factors.nrows = U.factors.nrows ∧ U2.factors.ncols = U.factors.ncols ∧
      U2.factors.data.length = U.factors.data.length ∧
      Q2.factors.nrows = Q.factors.nrows ∧ Q2.factors.ncols = Q.factors.ncols ∧
      Q2.factors.data.length = Q.factors.data.length := by
  have hpd := BPREngine.predictDifference_eq s U Q u i j hU hQ hbias
  obtain ⟨e, he⟩ : ∃ e, e = BPREngine.lossDerivative exp
      ((if s.config.useBiases then Q.biases.get i - Q.biases.get j else 0)
        + ∑ f ∈ Finset.range s.config.nfactors, U.getAt u f * (Q.getAt i f - Q.getAt j f)) :=
    ⟨_, rfl⟩
  have he2 : 1 / (1 + exp ((if s.config.useBiases then Q.biases.get i - Q.biases.get j else 0)
        + ∑ f ∈ Finset.range s.config.nfactors, U.getAt u f * (Q.getAt i f - Q.getAt j f))) = e := by
    rw [he]; rfl
  obtain ⟨q0, hq0, hq0f, hq0w, hq0s, hq0n, hq0b⟩ := BPREngine.updateBiases_spec s.config
    s.learningRate e Q i j hij hbias (fun h => by rw [hbsize h]; exact hi)
    (fun h => by rw [hbsize h]; exact hj)
  have hq0get : ∀ r c, q0.getAt r c = Q.getAt r c := by
    intro r c; unfold FactorData.getAt; rw [hq0f]
  have hq0wf : q0.factors.WF := by rw [hq0f]; exact hQwf
  -- the three loops
  obtain ⟨U2, hU2⟩ : ∃ U2, U2 = (List.range s.config.nfactors).foldl
      (fun (fd : FactorData K) f =>
        fd.setAt u f (fd.getAt u f + s.learningRate
          * (e * (q0.getAt i f - q0.getAt j f) - s.config.userLambda * fd.getAt u f))) U :=
    ⟨_, rfl⟩
  have hu2 := FactorData.foldl_setAt_row
    (fun f x => x + s.learningRate * (e * (q0.getAt i f - q0.getAt j f) - s.config.userLambda * x))
    s.config.nfactors u U hUwf hu (by rw [hUc])
  rw [← hU2] at hu2
  obtain ⟨u1, u2, u3, u4, u5, u6⟩ := hu2
  obtain ⟨Q1, hQ1⟩ : ∃ Q1, Q1 = (List.range s.config.nfactors).foldl
      (fun (fd : FactorData K) f =>
        fd.setAt i f (fd.getAt i f + s.learningRate
          * (e * U2.getAt u f - s.config.itemLambda * fd.getAt i f))) q0 :=
    ⟨_, rfl⟩
  have hq1 := FactorData.foldl_setAt_row
    (fun f x => x + s.learningRate * (e * U2.getAt u f - s.config.itemLambda * x))
    s.config.nfactors i q0 hq0wf (by rw [hq0f]; exact hi) (by rw [hq0f, hQc])
  rw [← hQ1] at hq1
  obtain ⟨a1, a2, a3, a4, a5, a6⟩ := hq1
  obtain ⟨Q2, hQ2⟩ : ∃ Q2, Q2 = (List.range s.config.nfactors).foldl
      (fun (fd : FactorData K) f =>
        fd.setAt j f (fd.getAt j f + s.learningRate
          * (-e * U2.getAt u f - s.config.itemLambda * fd.getAt j f))) Q1 :=
    ⟨_, rfl⟩
  have hq2 := FactorData.foldl_setAt_row
    (fun f x => x + s.learningRate * (-e * U2.getAt u f - s.config.itemLambda * x))
    s.config.nfactors j Q1 a5 (by rw [a3, hq0f]; exact hj) (by rw [a4, hq0f, hQc])
  rw [← hQ2] at hq2
  obtain ⟨b1, b2, b3, b4, b5, b6⟩ := hq2
  refine ⟨_, U2, Q2, hpd, rfl, ?_, ?_, ?_, ?_, ?_, ?_, ?_, ?_, ?_⟩
  all_goals try simp only [he2]
  · unfold BPREngine.update
    simp only [hpd, hU, hQ, ← he, hq0, ← hU2, ← hQ1, ← hQ2]
  · intro f hf
    rw [u6 u f (by rw [hUc]; exact hf), if_pos ⟨rfl, hf⟩]
    simp only [hq0get]
  · intro f hf
    rw [b6 i f (by rw [a4, hq0f, hQc]; exact hf), if_neg (fun h => hij h.1),
      a6 i f (by rw [hq0f, hQc]; exact hf), if_pos ⟨rfl, hf⟩]
    simp only [hq0get]
  · intro f hf
    rw [b6 j f (by rw [a4, hq0f, hQc]; exact hf), if_pos ⟨rfl, hf⟩,
      a6 j f (by rw [hq0f, hQc]; exact hf), if_neg (fun h => hij h.1.symm)]
    simp only [hq0get]
  · intro r f hr hf
    rw [u6 r f (by rw [hUc]; exact hf), if_neg (fun h => hr h.1)]
  · intro r f hri hrj hf
    rw [b6 r f (by rw [a4, hq0f, hQc]; exact hf), if_neg (fun h => hrj h.1),
      a6 r f (by rw [hq0f, hQc]; exact hf), if_neg (fun h => hri h.1), hq0get]
  · intro hb
    rw [b2, a2]
    have h := hq0b hb
    refine ⟨?_, ?_, ?_⟩
    · rw [h i, if_pos rfl]
    · rw [h j, if_neg (fun h => hij h.symm), if_pos rfl]
    · intro r hri hrj
      rw [h r, if_neg hri, if_neg hrj]
  · intro hb
    rw [b2, a2]; exact hq0n hb
  · refine ⟨u2, u1, ?_, ?_, u3, u4, ?_, ?_, ?_, ?_⟩
    · rw [b1, a1, hq0w]
    · rw [b2, a2, hq0s]
    · rw [u5, u3, u4]; exact hUwf.symm
    · rw [b3, a3, hq0f]
    · rw [b4, a4, hq0f]
    · rw [b5, b3, b4, a3, a4, hq0f]; exact hQwf.symm

/-- C36: an unregularised BPR step never lowers the score difference it trains
on. With `biasLambda = userLambda = itemLambda = 0`, learning rate `eta >= 0`,
an `exp` that is positive, and a triplet `(u, i, j)` with `i ≠ j` on an
initialised engine: `update(u, i, j)` returns, and for `xhat` and `xhat2` the
values of `predictDifference(u, i, j)` before and after it and
`e = 1 / (1 + exp(xhat))`: `0 < e < 1`,
`xhat2 - xhat = eta * e * (|q_i - q_j|^2 + 2 * |p'_u|^2)` plus `2 * eta * e`
when biases are used, where `q` are the item factors before the step and `p'_u`
the user factors after it; hence `xhat <= xhat2`. -/
theorem BPREngine.update_raises_difference {K G : Type} [LinearOrderedField K] (exp : K → K)
    (hexp : ∀ x, 0 < exp x) (s : BPREngine K G) (U Q : FactorData K) (u i j : Nat)
    (hU : s.userFactors = some U) (hQ : s.itemFactors = some Q)
    (hUwf : U.factors.WF) (hQwf : Q.factors.WF)
    (hUc : U.factors.ncols = s.config.nfactors) (hQc : Q.factors.ncols = s.config.nfactors)
    (hu : u < U.factors.nrows) (hi : i < Q.factors.nrows) (hj : j < Q.factors.nrows)
    (hij : i ≠ j) (hbias : Q.withBiases = s.config.useBiases)
    (hbsize : s.config.useBiases = true → Q.biases.size = Q.factors.nrows)
    (hbl : s.config.biasLambda = 0) (hul : s.config.userLambda = 0)
    (hil : s.config.itemLambda = 0) (hlr : 0 ≤ s.learningRate) :
    ∃ xhat xhat2 s2 U2,
      s.predictDifference u i j = some xhat ∧
      s.update exp ⟨u, i, j⟩ = some s2 ∧ s2.userFactors = some U2 ∧
      s2.predictDifference u i j = some xhat2 ∧
      0 < 1 / (1 + exp xhat) ∧ 1 / (1 + exp xhat) < 1 ∧
      xhat2 - xhat
        = s.learningRate * (1 / (1 + exp xhat))
            * (∑ f ∈ Finset.range s.config.nfactors, (Q.getAt i f - Q.getAt j f) ^ 2
              + 2 * ∑ f ∈ Finset.range s.config.nfactors, (U2.getAt u f) ^ 2)
          + (if s.config.useBiases then 2 * s.learningRate * (1 / (1 + exp xhat)) else 0) ∧
      xhat ≤ xhat2 := by
  obtain ⟨xhat, U2, Q2, hpd, hx, hupd, hu2, hqi, hqj, _, _, hb2, _, _, _, hw2, _⟩ :=
    BPREngine.update_cells exp s U Q u i j hU hQ hUwf hQwf hUc hQc hu hi hj hij hbias hbsize
  have hpd2 := BPREngine.predictDifference_eq
    ({ s with userFactors := some U2, itemFactors := some Q2 } : BPREngine K G) U2 Q2 u i j
    rfl rfl (by rw [hw2]; exact hbias)
  simp only at hpd2
  have hepos : 0 < 1 / (1 + exp xhat) := by
    apply one_div_pos.2
    linarith [hexp xhat]
  have helt : 1 / (1 + exp xhat) < 1 := by
    rw [div_lt_one (by linarith [hexp xhat])]
    linarith [hexp xhat]
  obtain ⟨e, he⟩ : ∃ e, e = 1 / (1 + exp xhat) := ⟨_, rfl⟩
  rw [← he] at hu2 hqi hqj hb2 hepos helt
  have hterm : ∀ f ∈ Finset.range s.config.nfactors,
      U2.getAt u f * (Q2.getAt i f - Q2.getAt j f)
        = U.getAt u f * (Q.getAt i f - Q.getAt j f)
          + s.learningRate * e * ((Q.getAt i f - Q.getAt j f) ^ 2 + 2 * (U2.getAt u f) ^ 2) := by
    intro f hf
    have hfl := Finset.mem_range.1 hf
    have h1 := hu2 f hfl
    rw [hul] at h1
    have h2 : U2.getAt u f * (Q.getAt i f - Q.getAt j f)
        = U.getAt u f * (Q.getAt i f - Q.getAt j f)
          + s.learningRate * e * (Q.getAt i f - Q.getAt j f) ^ 2 := by
      rw [h1]; ring
    rw [hqi f hfl, hqj f hfl, hil]
    linear_combination h2
  have hsum : ∑ f ∈ Finset.range s.config.nfactors,
        U2.getAt u f * (Q2.getAt i f - Q2.getAt j f)
      = ∑ f ∈ Finset.range s.config.nfactors, U.getAt u f * (Q.getAt i f - Q.getAt j f)
        + s.learningRate * e
          * (∑ f ∈ Finset.range s.config.nfactors, (Q.getAt i f - Q.getAt j f) ^ 2
            + 2 * ∑ f ∈ Finset.range s.config.nfactors, (U2.getAt u f) ^ 2) := by
    rw [Finset.sum_congr rfl hterm, Finset.sum_add_distrib, ← Finset.mul_sum,
      Finset.sum_add_distrib, ← Finset.mul_sum]
  have hbiasdiff : (if s.config.useBiases then Q2.biases.get i - Q2.biases.get j else 0)
      = (if s.config.useBiases then Q.biases.get i - Q.biases.get j else 0)
        + (if s.config.useBiases then 2 * s.learningRate * e else 0) := by
    rcases Bool.eq_false_or_eq_true s.config.useBiases with hb | hb
    · obtain ⟨b1, b2, _⟩ := hb2 hb
      rw [hbl] at b1 b2
      simp only [hb, eq_self_iff_true, if_true]
      rw [b1, b2]; ring
    · simp only [hb, Bool.false_eq_true, if_false, add_zero]
  have hdiff : ((if s.config.useBiases then Q2.biases.get i - Q2.biases.get j else 0)
        + ∑ f ∈ Finset.range s.config.nfactors, U2.getAt u f * (Q2.getAt i f - Q2.getAt j f))
      - xhat
      = s.learningRate * e
          * (∑ f ∈ Finset.range s.config.nfactors, (Q.getAt i f - Q.getAt j f) ^ 2
            + 2 * ∑ f ∈ Finset.range s.config.nfactors, (U2.getAt u f) ^ 2)
        + (if s.config.useBiases then 2 * s.learningRate * e else 0) := by
    rw [hsum, hbiasdiff, hx]; ring
  have hnonneg : 0 ≤ s.learningRate * e
          * (∑ f ∈ Finset.range s.config.nfactors, (Q.getAt i f - Q.getAt j f) ^ 2
            + 2 * ∑ f ∈ Finset.range s.config.nfactors, (U2.getAt u f) ^ 2)
        + (if s.config.useBiases then 2 * s.learningRate * e else 0) := by
    apply add_nonneg
    · apply mul_nonneg (mul_nonneg hlr (le_of_lt hepos))
      apply add_nonneg
      · exact Finset.sum_nonneg (fun f _ => sq_nonneg _)
      · exact mul_nonneg (by norm_num) (Finset.sum_nonneg (fun f _ => sq_nonneg _))
    · split
      · exact mul_nonneg (mul_nonneg (by norm_num) hlr) (le_of_lt hepos)
      · exact le_refl _
  rw [← hdiff] at hnonneg
  subst he
  exact ⟨xhat, _, _, U2, hpd, hupd, rfl, hpd2, hepos, helt, hdiff, by linarith⟩

theorem BPREngine.update_raises_difference_witness :
    (∀ x : ℚ, 0 < testExpPos x) ∧
    testPlainEngine.predictDifference 0 0 1 = some 1 ∧
    (testPlainEngine.update testExpPos ⟨0, 0, 1⟩).bind (fun s2 => s2.predictDifference 0 0 1)
      = some (8131 / 6750) ∧
    ∃ xhat xhat2 s2 U2,
      testPlainEngine.predictDifference 0 0 1 = some xhat ∧
      testPlainEngine.update testExpPos ⟨0, 0, 1⟩ = some s2 ∧ s2.userFactors = some U2 ∧
      s2.predictDifference 0 0 1 = some xhat2 ∧
      0 < 1 / (1 + testExpPos xhat) ∧ 1 / (1 + testExpPos xhat) < 1 ∧
      xhat2 - xhat
        = testPlainEngine.learningRate * (1 / (1 + testExpPos xhat))
            * (∑ f ∈ Finset.range testPlainEngine.config.nfactors,
                ((⟨true, ⟨2, 2, [1, 0, 0, 1]⟩, ⟨[0, 0]⟩⟩ : FactorData ℚ).getAt 0 f
                  - (⟨true, ⟨2, 2, [1, 0, 0, 1]⟩, ⟨[0, 0]⟩⟩ : FactorData ℚ).getAt 1 f) ^ 2
              + 2 * ∑ f ∈ Finset.range testPlainEngine.config.nfactors, (U2.getAt 0 f) ^ 2)
          + (if testPlainEngine.config.useBiases then
              2 * testPlainEngine.learningRate * (1 / (1 + testExpPos xhat)) else 0) ∧
      xhat ≤ xhat2 := by
  have hpos : ∀ x : ℚ, 0 < testExpPos x := by
    intro x
    unfold testExpPos
    split
    · linarith
    · apply one_div_pos.2; linarith
  exact ⟨hpos, by decide!, by decide!,
    BPREngine.update_raises_difference testExpPos hpos testPlainEngine
      ⟨false, ⟨1, 2, [1, 0]⟩, ⟨[]⟩⟩ ⟨true, ⟨2, 2, [1, 0, 0, 1]⟩, ⟨[0, 0]⟩⟩ 0 0 1 rfl rfl
      (by decide) (by decide) rfl rfl (by decide) (by decide) (by decide) (by decide) rfl
      (fun _ => rfl) rfl rfl rfl (by decide!)⟩

/-! ## Theorems: groupSignals keeps the interactions -/

/-- The run of `groupSignals` on an empty `signals` vector and an empty index:
it returns the closed groups of the loop over the sorted dataset, whose source
ids are strictly ascending, and the index built from these source ids. -/
theorem groupSignals_run {K : Type}
    (stdSort : (DatasetElem K → DatasetElem K → Bool) → List (DatasetElem K) → List (DatasetElem K))
    (hsort : StdSort datasetLess (stdSort datasetLess)) (dataset : List (DatasetElem K)) :
    groupSignals stdSort [] IdIndex.empty dataset
      = some (((stdSort datasetLess dataset).foldl groupStep ⟨[], InvalidId, []⟩).closed,
          IdIndex.afterCalls
            ((((stdSort datasetLess dataset).foldl groupStep ⟨[], InvalidId, []⟩).closed).map
              (fun g => g.sourceId)),
          stdSort datasetLess dataset) ∧
    ((((stdSort datasetLess dataset).foldl groupStep ⟨[], InvalidId, []⟩).closed).map
      (fun g => g.sourceId)).Pairwise (fun a b => a < b) := by
  obtain ⟨_, hsorted⟩ := hsort dataset
  obtain ⟨st, hst⟩ : ∃ st : GroupState K,
      st = (stdSort datasetLess dataset).foldl groupStep ⟨[], InvalidId, []⟩ := ⟨_, rfl⟩
  have hinv := groupStep_foldl_inv (stdSort datasetLess dataset) hsorted ⟨[], InvalidId, []⟩
    List.Pairwise.nil (fun g hg => absurd hg (List.not_mem_nil g))
    (fun h => absurd rfl h) List.Pairwise.nil (fun s hs => absurd hs (List.not_mem_nil s))
    (fun g hg => absurd hg (List.not_mem_nil g))
  rw [← hst] at hinv ⊢
  obtain ⟨i1, i2, _, _⟩ := hinv
  have hasc : (st.closed.map (fun g => g.sourceId)).Pairwise (fun a b => a < b) := by
    unfold GroupState.closed
    by_cases hp : st.prevId ≠ InvalidId
    · rw [if_pos hp]
      simp only [List.map_append, List.map_cons, List.map_nil]
      rw [List.pairwise_append]
      refine ⟨i1, List.pairwise_singleton _ _, ?_⟩
      intro a ha b hb
      obtain ⟨g, hg, rfl⟩ := List.mem_map.1 ha
      rw [List.mem_singleton] at hb; subst hb
      exact i2 hp g hg
    · rw [if_neg hp]; exact i1
  have hnd : (st.closed.map (fun g => g.sourceId)).Nodup := hasc.imp (fun h => ne_of_lt h)
  refine ⟨?_, hasc⟩
  unfold groupSignals sortDataset
  simp only
  rw [← hst]
  have hcl : (if st.prevId ≠ InvalidId then st.signals ++ [⟨st.prevId, st.group⟩]
      else st.signals) = st.closed := rfl
  rw [hcl, indexGroups_of_nodup st.closed hnd]
  rfl

/-- One step of the grouping loop adds the triple of its element to the triples
of the closed groups, as long as the user id is not the sentinel `InvalidId`,
and leaves no group empty. -/
theorem groupStep_triples {K : Type} (st : GroupState K) (e : DatasetElem K)
    (hid : e.userId ≠ InvalidId) (hne : ∀ g ∈ st.closed, g.group ≠ []) :
    signalTriples (groupStep st e).closed
      = signalTriples st.closed ++ [(e.userId, e.itemId, e.value)] ∧
    (groupStep st e).prevId ≠ InvalidId ∧
    ∀ g ∈ (groupStep st e).closed, g.group ≠ [] := by
  by_cases hu : e.userId = st.prevId
  · have hp : st.prevId ≠ InvalidId := hu ▸ hid
    have hst : groupStep st e = { st with group := st.group ++ [⟨e.itemId, e.value⟩] } := by
      unfold groupStep
      simp only [if_neg (show ¬ e.userId ≠ st.prevId from not_not.2 hu)]
    rw [hst]
    unfold GroupState.closed at hne ⊢
    simp only [if_pos hp] at hne ⊢
    refine ⟨?_, hp, ?_⟩
    · unfold signalTriples
      simp only [List.flatMap_append, List.flatMap_cons, List.flatMap_nil, List.append_nil,
        List.map_append, List.map_cons, List.map_nil, List.append_assoc, hu]
    · intro g hg
      rcases List.mem_append.1 hg with hg | hg
      · exact hne g (List.mem_append_left _ hg)
      · rw [List.mem_singleton] at hg
        subst hg
        simp
  · by_cases hp : st.prevId = InvalidId
    · have hst : groupStep st e = ⟨st.signals, e.userId, [⟨e.itemId, e.value⟩]⟩ := by
        unfold groupStep
        simp only [if_pos (show e.userId ≠ st.prevId from hu),
          if_neg (show ¬ st.prevId ≠ InvalidId from not_not.2 hp), List.nil_append]
      rw [hst]
      unfold GroupState.closed at hne ⊢
      simp only [if_neg (show ¬ st.prevId ≠ InvalidId from not_not.2 hp)] at hne
      simp only [if_pos hid, if_neg (show ¬ st.prevId ≠ InvalidId from not_not.2 hp)]
      refine ⟨?_, hid, ?_⟩
      · unfold signalTriples
        simp only [List.flatMap_append, List.flatMap_cons, List.flatMap_nil, List.append_nil,
          List.map_cons, List.map_nil]
      · intro g hg
        rcases List.mem_append.1 hg with hg | hg
        · exact hne g hg
        · rw [List.mem_singleton] at hg
          subst hg
          simp
    · have hst : groupStep st e
          = ⟨st.signals ++ [⟨st.prevId, st.group⟩], e.userId, [⟨e.itemId, e.value⟩]⟩ := by
        unfold groupStep
        simp only [if_pos (show e.userId ≠ st.prevId from hu),
          if_pos (show st.prevId ≠ InvalidId from hp), List.nil_append]
      rw [hst]
      unfold GroupState.closed at hne ⊢
      simp only [if_pos (show st.prevId ≠ InvalidId from hp)] at hne
      simp only [if_pos hid, if_pos (show st.prevId ≠ InvalidId from hp)]
      refine ⟨?_, hid, ?_⟩
      · unfold signalTriples
        simp only [List.flatMap_append, List.flatMap_cons, List.flatMap_nil, List.append_nil,
          List.map_cons, List.map_nil]
      · intro g hg
        rcases List.mem_append.1 hg with hg | hg
        · exact hne g hg
        · rw [List.mem_singleton] at hg
          subst hg
          simp

/-- The grouping loop over elements whose user ids differ from `InvalidId`:
the closed groups hold the triples held before followed by the triples of the
elements, in order, and no group is empty. -/
theorem groupStep_foldl_triples {K : Type} (rest : List (DatasetElem K)) (st : GroupState K)
    (hid : ∀ e ∈ rest, e.userId ≠ InvalidId) (hne : ∀ g ∈ st.closed, g.group ≠ []) :
    signalTriples (rest.foldl groupStep st).closed
      = signalTriples st.closed ++ datasetTriples rest ∧
    ∀ g ∈ (rest.foldl groupStep st).closed, g.group ≠ [] := by
  induction rest generalizing st with
  | nil => exact ⟨by simp [datasetTriples], hne⟩
  | cons e rest ih =>
    simp only [List.foldl_cons]
    obtain ⟨h1, _, h3⟩ := groupStep_triples st e (hid e (List.mem_cons_self _ _)) hne
    obtain ⟨i1, i2⟩ := ih (groupStep st e) (fun x hx => hid x (List.mem_cons_of_mem _ hx)) h3
    refine ⟨?_, i2⟩
    rw [i1, h1]
    simp [datasetTriples]

/-- The number of triples is the sum of the group sizes. -/
theorem length_signalTriples {K : Type} (signals : List (SignalGroup K)) :
    (signalTriples signals).length = (signals.map (fun g => g.group.length)).sum := by
  induction signals with
  | nil => rfl
  | cons g signals ih =>
    unfold signalTriples at ih ⊢
    rw [List.flatMap_cons, List.length_append, ih, List.length_map, List.map_cons, List.sum_cons]

/-- A triple of the groups names a group and one of its signals. -/
theorem mem_signalTriples {K : Type} (signals : List (SignalGroup K)) (t : Int × Int × K) :
    t ∈ signalTriples signals
      ↔ ∃ g ∈ signals, ∃ s ∈ g.group, t = (g.sourceId, s.id, s.value) := by
  unfold signalTriples
  rw [List.mem_flatMap]
  constructor
  · rintro ⟨g, hg, ht⟩
    obtain ⟨s, hs, rfl⟩ := List.mem_map.1 ht
    exact ⟨g, hg, s, hs, rfl⟩
  · rintro ⟨g, hg, s, hs, rfl⟩
    exact ⟨g, hg, List.mem_map.2 ⟨s, hs, rfl⟩⟩

/-- What `groupSignals` returns on a dataset without the user id `InvalidId`:
the groups hold the triples of the sorted dataset in order, none is empty, and
their source ids are the user ids of the dataset. -/
theorem groupSignals_groups {K : Type}
    (stdSort : (DatasetElem K → DatasetElem K → Bool) → List (DatasetElem K) → List (DatasetElem K))
    (hsort : StdSort datasetLess (stdSort datasetLess)) (dataset : List (DatasetElem K))
    (hid : ∀ e ∈ dataset, e.userId ≠ InvalidId) :
    ∃ signals,
      groupSignals stdSort [] IdIndex.empty dataset
        = some (signals, IdIndex.afterCalls (signals.map (fun g => g.sourceId)),
            stdSort datasetLess dataset) ∧
      (signals.map (fun g => g.sourceId)).Nodup ∧
      signalTriples signals = datasetTriples (stdSort datasetLess dataset) ∧
      (∀ g ∈ signals, g.group ≠ []) ∧
      ∀ x, x ∈ signals.map (fun g => g.sourceId) ↔ x ∈ dataset.map (fun e => e.userId) := by
  obtain ⟨hrun, hasc⟩ := groupSignals_run stdSort hsort dataset
  obtain ⟨hperm, _⟩ := hsort dataset
  obtain ⟨h1, h2⟩ := groupStep_foldl_triples (stdSort datasetLess dataset) ⟨[], InvalidId, []⟩
    (fun e he => hid e (hperm.mem_iff.1 he))
    (fun g hg => by simp [GroupState.closed] at hg)
  have h0 : signalTriples (⟨[], InvalidId, []⟩ : GroupState K).closed = [] := by
    simp [GroupState.closed, signalTriples]
  rw [h0, List.nil_append] at h1
  refine ⟨_, hrun, hasc.imp (fun h => ne_of_lt h), h1, h2, ?_⟩
  intro x
  constructor
  · intro hx
    obtain ⟨g, hg, rfl⟩ := List.mem_map.1 hx
    obtain ⟨s, hs⟩ := List.exists_mem_of_ne_nil _ (h2 g hg)
    have ht : (g.sourceId, s.id, s.value) ∈ signalTriples
        ((stdSort datasetLess dataset).foldl groupStep ⟨[], InvalidId, []⟩).closed :=
      (mem_signalTriples _ _).2 ⟨g, hg, s, hs, rfl⟩
    rw [h1] at ht
    obtain ⟨e, he, heq⟩ := List.mem_map.1 ht
    exact List.mem_map.2 ⟨e, hperm.mem_iff.1 he, (Prod.mk.inj heq).1⟩
  · intro hx
    obtain ⟨e, he, rfl⟩ := List.mem_map.1 hx
    have ht : (e.userId, e.itemId, e.value) ∈ datasetTriples (stdSort datasetLess dataset) :=
      List.mem_map.2 ⟨e, hperm.mem_iff.2 he, rfl⟩
    rw [← h1] at ht
    obtain ⟨g, hg, s, _, heq⟩ := (mem_signalTriples _ _).1 ht
    exact List.mem_map.2 ⟨g, hg, (Prod.mk.inj heq).1.symm⟩

/-- C37 (the claim as stated fails): `INT64_MIN` is an `int64` user id, and on a
dataset of 3 interactions, one of them with that user id, `groupSignals`
returns one group with 2 signals: the interaction of user `INT64_MIN` is in no
group. -/
theorem groupSignals_drops_sentinel_user :
    InvalidId = -(2 ^ 63) ∧
    (groupSignals insertionStdSort [] IdIndex.empty testSentinelDataset).map (fun r => r.1)
      = some [⟨1, [⟨5, 1⟩, ⟨7, 1⟩]⟩] ∧
    ¬ (signalTriples ([⟨1, [⟨5, 1⟩, ⟨7, 1⟩]⟩] : List (SignalGroup ℚ))).Perm
        (datasetTriples testSentinelDataset) := by
  refine ⟨rfl, by decide!, ?_⟩
  intro h
  exact absurd h.length_eq (by decide)

/-- C37 (amended): `groupSignals` loses no interaction of a dataset in which no
user id is `INT64_MIN` (the sentinel `InvalidId`). For every such dataset (any
item ids, duplicates allowed) and every `std::sort` meeting its contract,
`groupSignals` on an empty `signals` vector and an empty index returns groups
whose triples `(g.sourceId, s.id, s.value)` are, as a multiset, the triples
`(userId, itemId, value)` of the dataset elements; the group sizes sum to the
dataset length and the number of groups is the number of distinct user ids. -/
theorem groupSignals_keeps_interactions {K : Type}
    (stdSort : (DatasetElem K → DatasetElem K → Bool) → List (DatasetElem K) → List (DatasetElem K))
    (hsort : StdSort datasetLess (stdSort datasetLess)) (dataset : List (DatasetElem K))
    (hid : ∀ e ∈ dataset, e.userId ≠ InvalidId) :
    ∃ signals index sorted,
      groupSignals stdSort [] IdIndex.empty dataset = some (signals, index, sorted) ∧
      (signalTriples signals).Perm (datasetTriples dataset) ∧
      (signals.map (fun g => g.group.length)).sum = dataset.length ∧
      signals.length = (dataset.map (fun e => e.userId)).toFinset.card := by
  obtain ⟨signals, hrun, hnd, htr, _, hmem⟩ := groupSignals_groups stdSort hsort dataset hid
  obtain ⟨hperm, _⟩ := hsort dataset
  have hp : (signalTriples signals).Perm (datasetTriples dataset) := by
    rw [htr]
    exact hperm.map _
  refine ⟨signals, _, _, hrun, hp, ?_, ?_⟩
  · rw [← length_signalTriples, hp.length_eq]
    exact List.length_map _ _
  · rw [← List.length_map signals (fun g => g.sourceId), ← List.toFinset_card_of_nodup hnd]
    congr 1
    ext x
    rw [List.mem_toFinset, List.mem_toFinset]
    exact hmem x

theorem groupSignals_keeps_interactions_witness :
    StdSort (datasetLess : DatasetElem ℚ → DatasetElem ℚ → Bool) (insertionStdSort datasetLess) ∧
    (∀ e ∈ testWALSDataset, e.userId ≠ InvalidId) ∧
    ∃ signals index sorted,
      groupSignals insertionStdSort [] IdIndex.empty testWALSDataset
        = some (signals, index, sorted) ∧
      (signalTriples signals).Perm (datasetTriples testWALSDataset) ∧
      (signals.map (fun g => g.group.length)).sum = testWALSDataset.length ∧
      signals.length = (testWALSDataset.map (fun e => e.userId)).toFinset.card :=
  ⟨insertionStdSort_datasetLess, by decide,
    groupSignals_keeps_interactions insertionStdSort insertionStdSort_datasetLess testWALSDataset
      (by decide)⟩

/-! ## Theorems: the state WALSEngine::init builds -/

/-- The method `setFactors` keeps the dimensions. -/
theorem FactorData.setFactors_dims {K G : Type} (fd : FactorData K) (func : G → K × G)
    (gen : G) :
    (fd.setFactors func gen).1.nelems = fd.nelems ∧
    (fd.setFactors func gen).1.nfactors = fd.nfactors := by
  have inner : ∀ (idx : Nat) (l : List Nat) (st : FactorData K × G),
      (l.foldl (fun (st : FactorData K × G) fidx =>
        ((st.1.setAt idx fidx (func st.2).1), (func st.2).2)) st).1.nelems = st.1.nelems ∧
      (l.foldl (fun (st : FactorData K × G) fidx =>
        ((st.1.setAt idx fidx (func st.2).1), (func st.2).2)) st).1.nfactors = st.1.nfactors := by
    intro idx l
    induction l with
    | nil => intro st; exact ⟨rfl, rfl⟩
    | cons a l ih =>
      intro st
      simp only [List.foldl_cons]
      exact ih _
  have outer : ∀ (n : Nat) (l : List Nat) (st : FactorData K × G),
      (l.foldl (fun (st : FactorData K × G) idx =>
        (List.range n).foldl (fun (st : FactorData K × G) fidx =>
          ((st.1.setAt idx fidx (func st.2).1), (func st.2).2)) st) st).1.nelems = st.1.nelems ∧
      (l.foldl (fun (st : FactorData K × G) idx =>
        (List.range n).foldl (fun (st : FactorData K × G) fidx =>
          ((st.1.setAt idx fidx (func st.2).1), (func st.2).2)) st) st).1.nfactors
        = st.1.nfactors := by
    intro n l
    induction l with
    | nil => intro st; exact ⟨rfl, rfl⟩
    | cons a l ih =>
      intro st
      simp only [List.foldl_cons]
      obtain ⟨h1, h2⟩ := ih ((List.range n).foldl (fun (st : FactorData K × G) fidx =>
          ((st.1.setAt a fidx (func st.2).1), (func st.2).2)) st)
      obtain ⟨h3, h4⟩ := inner a (List.range n) st
      exact ⟨h1.trans h3, h2.trans h4⟩
  exact outer fd.nfactors (List.range fd.nelems) (fd, gen)

/-- What a successful `WALSEngine::init` has built on a new engine: the groups
and indexes of the two `groupSignals` calls and factors with one row per index
entry. -/
theorem WALSEngine.init_built {K G : Type} [Field K]
    (stdSort : (DatasetElem K → DatasetElem K → Bool) → List (DatasetElem K) →
      List (DatasetElem K))
    (hsort : StdSort datasetLess (stdSort datasetLess))
    (unif : UniformReal G K) (gen0 : G) (config : WALSConfig K)
    (metricsEngine : Option (MetricsEngine K)) (parallel : ParallelExecutor)
    (dataset : List (DatasetElem K)) (sf : WALSEngine K)
    (h : (WALSEngine.new config metricsEngine parallel).init stdSort unif gen0 dataset
      = some sf) :
    groupSignals stdSort [] IdIndex.empty dataset
      = some (sf.userSignals, sf.userIndex, stdSort datasetLess dataset) ∧
    groupSignals stdSort [] IdIndex.empty
        ((stdSort datasetLess dataset).map
          (fun elem => { elem with userId := elem.itemId, itemId := elem.userId }))
      = some (sf.itemSignals, sf.itemIndex,
          stdSort datasetLess ((stdSort datasetLess dataset).map
            (fun elem => { elem with userId := elem.itemId, itemId := elem.userId }))) ∧
    (∃ userFactors, sf.userFactors = some userFactors ∧ userFactors.nelems = sf.nusers ∧
      userFactors.nfactors = config.nfactors) ∧
    ∃ itemFactors, sf.itemFactors = some itemFactors ∧ itemFactors.nelems = sf.nitems ∧
      itemFactors.nfactors = config.nfactors := by
  obtain ⟨hrun1, _⟩ := groupSignals_run stdSort hsort dataset
  obtain ⟨hrun2, _⟩ := groupSignals_run stdSort hsort
    ((stdSort datasetLess dataset).map
      (fun elem => { elem with userId := elem.itemId, itemId := elem.userId }))
  unfold WALSEngine.init at h
  simp only [WALSEngine.new, Option.isNone_none, and_self, not_true_eq_false, if_false] at h
  rw [hrun1] at h
  simp only at h
  rw [hrun2] at h
  simp only at h
  split at h
  · exact Option.noConfusion h
  · rename_i uf huf
    split at h
    · exact Option.noConfusion h
    · rename_i itf hitf
      have hsf := (Option.some.inj h).symm
      subst hsf
      obtain ⟨u1, u2, _⟩ := (FactorData.new_dims _ _ _).2.2.2 uf huf
      obtain ⟨q1, q2, _⟩ := (FactorData.new_dims _ _ _).2.2.2 itf hitf
      refine ⟨hrun1, hrun2, ⟨uf, rfl, u1, u2⟩, ⟨_, rfl, ?_, ?_⟩⟩
      · rw [(FactorData.setFactors_dims itf _ gen0).1]; exact q1
      · rw [(FactorData.setFactors_dims itf _ gen0).2]; exact q2

/-- The index built from distinct calls has one entry per call. -/
theorem IdIndex.afterCalls_size_of_nodup (calls : List Int) (hnd : calls.Nodup) :
    (IdIndex.afterCalls calls).size = calls.length := by
  unfold IdIndex.size
  rw [IdIndex.afterCalls_ids_of_nodup calls hnd]

/-- The signals of the groups of one `groupSignals` call are indexed by the index
of another call whose dataset has the item ids of the first as user ids. -/
theorem signals_indexed {K : Type} (signals : List (SignalGroup K))
    (sorted : List (DatasetElem K)) (htr : signalTriples signals = datasetTriples sorted)
    (calls : List Int) (hcalls : ∀ e ∈ sorted, e.itemId ∈ calls)
    (hsize : (IdIndex.afterCalls calls).size ≤ IdIndex.missingIdx) :
    ∀ g ∈ signals, ∀ sig ∈ g.group,
      (IdIndex.afterCalls calls).Present sig.id ∧
      (IdIndex.afterCalls calls).idx sig.id ≠ IdIndex.missingIdx ∧
      (IdIndex.afterCalls calls).idx sig.id < (IdIndex.afterCalls calls).size := by
  intro g hg sig hsig
  have ht : (g.sourceId, sig.id, sig.value) ∈ signalTriples signals :=
    (mem_signalTriples _ _).2 ⟨g, hg, sig, hsig, rfl⟩
  rw [htr] at ht
  obtain ⟨e, he, heq⟩ := List.mem_map.1 ht
  have hid : e.itemId = sig.id := (Prod.mk.inj (Prod.mk.inj heq).2).1
  have hmem : sig.id ∈ calls := hid ▸ hcalls e he
  have hlt := (IdIndex.afterCalls_idx calls sig.id hmem).1
  exact ⟨IdIndex.afterCalls_lookup calls sig.id hmem, by omega, hlt⟩

/-- C38 (the claim as stated fails): on a non-empty dataset in which one user id
is `INT64_MIN`, `WALSEngine::init` returns with an item group (item 5) that
holds a signal with that id, and `userIndex_.idx` of it is `missingIdx`, while
the user factors have 1 row. -/
theorem WALSEngine.init_leaves_unindexed_signal :
    ((WALSEngine.new testWALSConfig none ⟨16, by decide⟩).init insertionStdSort testUniformReal
        (0 : Nat) testSentinelDataset).map
        (fun s => (s.itemSignals, s.userIndex.idx InvalidId, s.nusers))
      = some ([⟨5, [⟨InvalidId, 1⟩, ⟨1, 1⟩]⟩, ⟨7, [⟨1, 1⟩]⟩], IdIndex.missingIdx, 1) := by
  decide!

/-- C38 (amended): after `WALSEngine::init` on a dataset (shorter than 2^64) in
which no user id and no item id is `INT64_MIN` (the sentinel `InvalidId`), the
user factors have `nusers` rows and the item factors `nitems` rows; every
signal id inside a user group is present in `item_index`, with an index that
is not `missingIdx` and is below `nitems`; every signal id inside an item group
is present in `user_index`, with an index that is not `missingIdx` and is
below `nusers`; and the index of the source id of every user (item) group is
not `missingIdx` and is below `nusers` (`nitems`). So the lookups of
`updateFactorsForOne` never return `missingIdx` and every row access is in
bounds. -/
theorem WALSEngine.init_signals_indexed {K G : Type} [Field K]
    (stdSort : (DatasetElem K → DatasetElem K → Bool) → List (DatasetElem K) →
      List (DatasetElem K))
    (hsort : StdSort datasetLess (stdSort datasetLess))
    (unif : UniformReal G K) (gen0 : G) (config : WALSConfig K)
    (metricsEngine : Option (MetricsEngine K)) (parallel : ParallelExecutor)
    (dataset : List (DatasetElem K)) (sf : WALSEngine K)
    (hid : ∀ e ∈ dataset, e.userId ≠ InvalidId ∧ e.itemId ≠ InvalidId)
    (hlen : dataset.length < 2 ^ 64)
    (h : (WALSEngine.new config metricsEngine parallel).init stdSort unif gen0 dataset
      = some sf) :
    ∃ userFactors itemFactors,
      sf.userFactors = some userFactors ∧ sf.itemFactors = some itemFactors ∧
      userFactors.nelems = sf.nusers ∧ itemFactors.nelems = sf.nitems ∧
      (∀ g ∈ sf.userSignals,
        sf.userIndex.idx g.sourceId ≠ IdIndex.missingIdx ∧
        sf.userIndex.idx g.sourceId < userFactors.nelems ∧
        ∀ sig ∈ g.group, sf.itemIndex.Present sig.id ∧
          sf.itemIndex.idx sig.id ≠ IdIndex.missingIdx ∧
          sf.itemIndex.idx sig.id < itemFactors.nelems) ∧
      ∀ g ∈ sf.itemSignals,
        sf.itemIndex.idx g.sourceId ≠ IdIndex.missingIdx ∧
        sf.itemIndex.idx g.sourceId < itemFactors.nelems ∧
        ∀ sig ∈ g.group, sf.userIndex.Present sig.id ∧
          sf.userIndex.idx sig.id ≠ IdIndex.missingIdx ∧
          sf.userIndex.idx sig.id < userFactors.nelems := by
  obtain ⟨b1, b2, ⟨uf, huf, hufn, _⟩, ⟨itf, hitf, hitfn, _⟩⟩ := WALSEngine.init_built stdSort hsort
    unif gen0 config metricsEngine parallel dataset sf h
  obtain ⟨hperm, _⟩ := hsort dataset
  obtain ⟨hperm2, _⟩ := hsort ((stdSort datasetLess dataset).map
    (fun elem => { elem with userId := elem.itemId, itemId := elem.userId }))
  obtain ⟨S1, r1, nd1, tr1, _, mem1⟩ := groupSignals_groups stdSort hsort dataset
    (fun e he => (hid e he).1)
  obtain ⟨S2, r2, nd2, tr2, _, mem2⟩ := groupSignals_groups stdSort hsort
    ((stdSort datasetLess dataset).map
      (fun elem => { elem with userId := elem.itemId, itemId := elem.userId }))
    (fun e he => by
      obtain ⟨x, hx, rfl⟩ := List.mem_map.1 he
      exact (hid x (hperm.mem_iff.1 hx)).2)
  rw [b1] at r1
  rw [b2] at r2
  have e1 := Option.some.inj r1
  have e2 := Option.some.inj r2
  simp only [Prod.mk.injEq] at e1 e2
  obtain ⟨hS1, hI1, _⟩ := e1
  obtain ⟨hS2, hI2, _⟩ := e2
  rw [← hS1] at nd1 tr1 mem1 hI1
  rw [← hS2] at nd2 tr2 mem2 hI2
  have hmiss : IdIndex.missingIdx = 2 ^ 64 - 1 := rfl
  have hsize1 : sf.userIndex.size ≤ dataset.length := by
    rw [hI1, IdIndex.afterCalls_size_of_nodup _ nd1]
    have := (nd1.subperm (fun x hx => (mem1 x).1 hx)).length_le
    rw [List.length_map] at this ⊢
    rw [List.length_map] at this
    exact this
  have hsize2 : sf.itemIndex.size ≤ dataset.length := by
    rw [hI2, IdIndex.afterCalls_size_of_nodup _ nd2]
    have := (nd2.subperm (fun x hx => (mem2 x).1 hx)).length_le
    rw [List.length_map, List.length_map, List.length_map, hperm.length_eq] at this
    rw [List.length_map]
    exact this
  have hitem : ∀ e ∈ stdSort datasetLess dataset,
      e.itemId ∈ sf.itemSignals.map (fun g => g.sourceId) := by
    intro e he
    apply (mem2 e.itemId).2
    rw [List.map_map]
    exact List.mem_map.2 ⟨e, he, rfl⟩
  have huser : ∀ e ∈ stdSort datasetLess ((stdSort datasetLess dataset).map
        (fun elem => { elem with userId := elem.itemId, itemId := elem.userId })),
      e.itemId ∈ sf.userSignals.map (fun g => g.sourceId) := by
    intro e he
    apply (mem1 e.itemId).2
    obtain ⟨x, hx, rfl⟩ := List.mem_map.1 (hperm2.mem_iff.1 he)
    exact List.mem_map.2 ⟨x, hperm.mem_iff.1 hx, rfl⟩
  have hsu := signals_indexed sf.userSignals _ tr1 _ hitem
    (by rw [← hI2, hmiss]; omega)
  have hsi := signals_indexed sf.itemSignals _ tr2 _ huser
    (by rw [← hI1, hmiss]; omega)
  rw [← hI2] at hsu
  rw [← hI1] at hsi
  refine ⟨uf, itf, huf, hitf, hufn, hitfn, ?_, ?_⟩
  · intro g hg
    have hlt := (IdIndex.afterCalls_idx _ g.sourceId
      (List.mem_map_of_mem (fun g => g.sourceId) hg)).1
    rw [← hI1] at hlt
    refine ⟨by omega, by rw [hufn]; exact hlt, ?_⟩
    intro sig hsig
    rw [hitfn]
    exact hsu g hg sig hsig
  · intro g hg
    have hlt := (IdIndex.afterCalls_idx _ g.sourceId
      (List.mem_map_of_mem (fun g => g.sourceId) hg)).1
    rw [← hI2] at hlt
    refine ⟨by omega, by rw [hitfn]; exact hlt, ?_⟩
    intro sig hsig
    rw [hufn]
    exact hsi g hg sig hsig

theorem WALSEngine.init_signals_indexed_witness :
    StdSort (datasetLess : DatasetElem ℚ → DatasetElem ℚ → Bool) (insertionStdSort datasetLess) ∧
    (∀ e ∈ testWALSDataset, e.userId ≠ InvalidId ∧ e.itemId ≠ InvalidId) ∧
    testWALSDataset.length < 2 ^ 64 ∧
    ∃ sf userFactors itemFactors, testWALSInit = some sf ∧
      sf.userFactors = some userFactors ∧ sf.itemFactors = some itemFactors ∧
      userFactors.nelems = sf.nusers ∧ itemFactors.nelems = sf.nitems ∧
      ∀ g ∈ sf.userSignals,
        sf.userIndex.idx g.sourceId ≠ IdIndex.missingIdx ∧
        sf.userIndex.idx g.sourceId < userFactors.nelems ∧
        ∀ sig ∈ g.group, sf.itemIndex.Present sig.id ∧
          sf.itemIndex.idx sig.id ≠ IdIndex.missingIdx ∧
          sf.itemIndex.idx sig.id < itemFactors.nelems := by
  obtain ⟨sf, hsf⟩ := Option.isSome_iff_exists.1 testWALSInit_isSome
  obtain ⟨uf, itf, h1, h2, h3, h4, h5, _⟩ := WALSEngine.init_signals_indexed insertionStdSort
    insertionStdSort_datasetLess testUniformReal (0 : Nat) testWALSConfig none ⟨16, by decide⟩
    testWALSDataset sf (by decide) (by decide) hsf
  exact ⟨insertionStdSort_datasetLess, by decide, by decide, sf, uf, itf, hsf, h1, h2, h3, h4, h5⟩

/-! ## Theorems: initialising on no usable data -/

/-- The ingestion loop of `BPREngine::init` assigns the indexes and `data_` only. -/
theorem BPREngine.populate_fields {K G : Type} [LinearOrderedField K] (s : BPREngine K G)
    (dataset : List (DatasetElem K)) :
    (s.populate dataset).config = s.config ∧ (s.populate dataset).evalNumNeg = s.evalNumNeg ∧
    (s.populate dataset).userFactors = s.userFactors ∧
    (s.populate dataset).itemFactors = s.itemFactors := by
  induction dataset using List.reverseRecOn with
  | nil => exact ⟨rfl, rfl, rfl, rfl⟩
  | append_singleton ds e ih =>
    have hstep : s.populate (ds ++ [e])
        = if e.value < 1 then s.populate ds
          else
            { s.populate ds with
              userIndex := ((s.populate ds).userIndex.getOrSetIdx e.userId).2,
              itemIndex := ((s.populate ds).itemIndex.getOrSetIdx e.itemId).2,
              data := (s.populate ds).data
                ++ [⟨((s.populate ds).userIndex.getOrSetIdx e.userId).1,
                     ((s.populate ds).itemIndex.getOrSetIdx e.itemId).1⟩] } := by
      unfold BPREngine.populate
      rw [List.foldl_append]
      rfl
    rw [hstep]
    split
    · exact ih
    · exact ih

/-- When the sampling of the evaluation set does not return, `init` does not
return. -/
theorem BPREngine.init_none_of_initEvalSet {K G : Type} [LinearOrderedField K] (mt : Mt19937 G)
    (dis : UniformInt G) (unif : UniformReal G K) (fuel : Nat) (s : BPREngine K G)
    (dataset : List (DatasetElem K)) (h : s.initEvalSet mt dis fuel dataset = none) :
    s.init mt dis unif fuel dataset = none := by
  unfold BPREngine.init
  split
  · rfl
  · unfold BPREngine.initEvalSet at h
    simp only at h ⊢
    rw [h]

/-- When the constructor of the user factors is fatal, `init` is fatal. -/
theorem BPREngine.init_none_of_userFactors {K G : Type} [LinearOrderedField K] (mt : Mt19937 G)
    (dis : UniformInt G) (unif : UniformReal G K) (fuel : Nat) (s : BPREngine K G)
    (dataset : List (DatasetElem K))
    (h : (FactorData.new (s.populate dataset).nusers (s.populate dataset).config.nfactors false
      : Option (FactorData K)) = none) :
    s.init mt dis unif fuel dataset = none := by
  unfold BPREngine.init
  split
  · rfl
  · simp only
    split
    · rfl
    · have h2 : (FactorData.new (BPREngine.nusers (s.populate dataset))
          (s.populate dataset).config.nfactors false : Option (FactorData K)) = none := h
      simp only [BPREngine.nusers] at h2 ⊢
      rw [h2]

/-- When the guard passes, the sampling returns and both constructors succeed,
`init` returns an engine. -/
theorem BPREngine.init_isSome {K G : Type} [LinearOrderedField K] (mt : Mt19937 G)
    (dis : UniformInt G) (unif : UniformReal G K) (fuel : Nat) (s : BPREngine K G)
    (dataset : List (DatasetElem K)) (hu : s.userFactors = none) (hi : s.itemFactors = none)
    (hs : (s.initEvalSet mt dis fuel dataset).isSome = true)
    (h1 : (FactorData.new (s.populate dataset).nusers (s.populate dataset).config.nfactors false
      : Option (FactorData K)).isSome = true)
    (h2 : (FactorData.new (s.populate dataset).nitems (s.populate dataset).config.nfactors
      (s.populate dataset).config.useBiases : Option (FactorData K)).isSome = true) :
    (s.init mt dis unif fuel dataset).isSome = true := by
  obtain ⟨r, hr⟩ := Option.isSome_iff_exists.1 hs
  obtain ⟨uf, huf⟩ := Option.isSome_iff_exists.1 h1
  obtain ⟨itf, hitf⟩ := Option.isSome_iff_exists.1 h2
  unfold BPREngine.init
  rw [if_neg (by rw [hu, hi]; simp)]
  unfold BPREngine.initEvalSet at hr
  simp only [BPREngine.nusers, BPREngine.nitems] at hr huf hitf ⊢
  rw [hr]
  simp only
  rw [huf, hitf]
  rfl

/-- When the first pair of `data_` belongs to a user whose rejection loop never
accepts a draw, the sampling of at least one negative per pair does not
return. -/
theorem BPREngine.iterate_none_of_first {K G S : Type} (dis : UniformInt G) (fuel : Nat)
    (s : BPREngine K G) (func : S → PosNegTriplet → Option S) (numNeg : Nat) (st : S) (gen : G)
    (p : PosPair) (rest : List PosPair) (userPosSet : List Nat)
    (hdata : s.data = p :: rest) (hset : s.itemMap[p.userIdx]? = some userPosSet)
    (hloop : sampleLoop dis ((s.nitems : Int) - 1) userPosSet fuel gen = none) :
    s.iterate dis fuel func (numNeg + 1) st gen = none := by
  unfold BPREngine.iterate
  rw [hdata, List.foldlM_cons]
  have h1 : BPREngine.sampleTriplets dis fuel s func false p.userIdx p.posItemIdx (numNeg + 1)
      (st, gen) = none := by
    unfold BPREngine.sampleTriplets BPREngine.sampleRandomNegative
    simp only [Bool.false_eq_true, if_false, hset, hloop]
  rw [h1]
  rfl

/-- A distribution over `[0, 0]` only draws 0, which the rejection loop of a
user holding item 0 never accepts. -/
theorem sampleLoop_single_item (fuel : Nat) (gen : Nat) :
    sampleLoop testUniformInt 0 [0] fuel gen = none := by
  induction fuel generalizing gen with
  | zero => rfl
  | succ fuel ih =>
    unfold sampleLoop
    have hd : (testUniformInt 0 0 gen).1.toNat = 0 := by
      unfold testUniformInt
      simp
    simp only [hd, List.mem_singleton, if_true]
    exact ih _

/-- C39 (the claim as stated fails), in both directions. With `nfactors = 0`, the
configuration of `TEST(BPREngine, init)` otherwise (`evalNumNeg = 2`), and the
dataset of the one interaction `(1, 1)`, the only item is a positive of the
only user, so the rejection loop of `sampleRandomNegative` rejects every draw
from `[0, 0]`: for every number of draws the sampling of the evaluation set has
not returned, and `init` never gets to the constructor of the factors. With
`nfactors = 2^63 > 0` and a dataset of 2 users with one interaction of value 1
each, the sampling returns, and the constructor of the user factors is fatal on
the dimension check, because the `size_t` product `2 * 2^63` is 0: `init`
returns no engine. -/
theorem BPREngine.init_check_counterexamples :
    (testZeroConfig.nfactors = 0 ∧
      ((BPREngine.new testZeroConfig none 2 42 ⟨16, by decide⟩ (0 : Nat) 0).populate
          [⟨1, 1, 1⟩]).data = [⟨0, 0⟩] ∧
      ((BPREngine.new testZeroConfig none 2 42 ⟨16, by decide⟩ (0 : Nat) 0).populate
          [⟨1, 1, 1⟩]).nitems = 1 ∧
      ∀ fuel : Nat,
        (BPREngine.new testZeroConfig none 2 42 ⟨16, by decide⟩ (0 : Nat) 0).initEvalSet testMt
          testUniformInt fuel [⟨1, 1, 1⟩] = none) ∧
    (0 < testWideConfig.nfactors ∧ (∃ e ∈ testTwoUsersDataset, 1 ≤ e.value) ∧
      ((BPREngine.new testWideConfig none 2 42 ⟨16, by decide⟩ (0 : Nat) 0).initEvalSet testMt
        testUniformInt 10 testTwoUsersDataset).isSome = true ∧
      ((BPREngine.new testWideConfig none 2 42 ⟨16, by decide⟩ (0 : Nat) 0).populate
        testTwoUsersDataset).nusers = 2 ∧
      (FactorData.new 2 testWideConfig.nfactors false : Option (FactorData ℚ)) = none ∧
      ((BPREngine.new testWideConfig none 2 42 ⟨16, by decide⟩ (0 : Nat) 0).init testMt
        testUniformInt testUniformReal 10 testTwoUsersDataset).isSome = false) := by
  refine ⟨⟨rfl, by decide!, by decide!, ?_⟩, by decide, ⟨⟨1, 1, 1⟩, by decide!, by decide!⟩,
    by decide!, by decide!, ?_, by decide!⟩
  · intro fuel
    unfold BPREngine.initEvalSet
    simp only
    exact BPREngine.iterate_none_of_first testUniformInt fuel _ _ 1 _ _ ⟨0, 0⟩ [] [0]
      (by decide!) (by decide!) (sampleLoop_single_item fuel _)
  · exact (FactorData.new_dims 2 testWideConfig.nfactors false).1.2 (by decide)

/-- C39 (amended): initialising on no usable data is fatal rather than yielding
an empty model. On a new `BPREngine`, for a dataset with no element of value at
least 1 (the empty dataset included) the sampling of the evaluation set
returns and the constructor of the user factors is fatal (0 rows), so `init` is
fatal. On a new `WALSEngine`, for the empty dataset both `groupSignals` calls
return and the constructor of the user factors is fatal. With `nfactors = 0`,
`WALSEngine::init` on any dataset gets through both `groupSignals` calls to
the constructor of the user factors, which is fatal (0 columns), and
`BPREngine::init` never returns an engine: the constructor of the user factors
is fatal whenever the sampling of the evaluation set, which comes first, has
returned. Conversely, with `nfactors > 0`, a dataset with at least one element
of value at least 1, and `nusers * nfactors` and `nitems * nfactors` below 2^64
(`nusers` and `nitems` the numbers of users and items `init` indexes), neither
constructor of `BPREngine::init` is fatal, and `init` returns an engine as soon
as the sampling returns. -/
theorem init_fatal_without_data {K G : Type} [LinearOrderedField K]
    (config : BPRConfig K) (metricsEngine : Option (MetricsEngine K)) (evalNumNeg : Nat)
    (evalSeed : Int) (parallel : ParallelExecutor) (gen0 : G) (lr0 : K)
    (mt : Mt19937 G) (dis : UniformInt G) (unif : UniformReal G K) (fuel : Nat)
    (wconfig : WALSConfig K)
    (stdSort : (DatasetElem K → DatasetElem K → Bool) → List (DatasetElem K) →
      List (DatasetElem K))
    (hsort : StdSort datasetLess (stdSort datasetLess))
    (dataset : List (DatasetElem K)) :
    ((∀ e ∈ dataset, e.value < 1) →
      ((BPREngine.new config metricsEngine evalNumNeg evalSeed parallel gen0 lr0).initEvalSet mt
        dis fuel dataset).isSome = true ∧
      ((BPREngine.new config metricsEngine evalNumNeg evalSeed parallel gen0 lr0).populate
        dataset).nusers = 0 ∧
      (FactorData.new 0 config.nfactors false : Option (FactorData K)) = none ∧
      (BPREngine.new config metricsEngine evalNumNeg evalSeed parallel gen0 lr0).init mt dis unif
        fuel dataset = none) ∧
    (groupSignals stdSort [] IdIndex.empty ([] : List (DatasetElem K))
        = some ([], IdIndex.empty, []) ∧
      (FactorData.new 0 wconfig.nfactors false : Option (FactorData K)) = none ∧
      (WALSEngine.new wconfig metricsEngine parallel).init stdSort unif gen0 [] = none) ∧
    (wconfig.nfactors = 0 →
      (∃ signals index sorted,
        groupSignals stdSort [] IdIndex.empty dataset = some (signals, index, sorted) ∧
        (∃ r, groupSignals stdSort [] IdIndex.empty
          (sorted.map (fun elem => { elem with userId := elem.itemId, itemId := elem.userId }))
          = some r) ∧
        (FactorData.new index.size wconfig.nfactors false : Option (FactorData K)) = none) ∧
      (WALSEngine.new wconfig metricsEngine parallel).init stdSort unif gen0 dataset = none) ∧
    (config.nfactors = 0 →
      (∀ n : Nat, (FactorData.new n config.nfactors false : Option (FactorData K)) = none) ∧
      (BPREngine.new config metricsEngine evalNumNeg evalSeed parallel gen0 lr0).init mt dis unif
        fuel dataset = none) ∧
    (0 < config.nfactors → (∃ e ∈ dataset, 1 ≤ e.value) →
      ((BPREngine.new config metricsEngine evalNumNeg evalSeed parallel gen0 lr0).populate
        dataset).nusers * config.nfactors < 2 ^ 64 →
      ((BPREngine.new config metricsEngine evalNumNeg evalSeed parallel gen0 lr0).populate
        dataset).nitems * config.nfactors < 2 ^ 64 →
      (FactorData.new
        ((BPREngine.new config metricsEngine evalNumNeg evalSeed parallel gen0 lr0).populate
          dataset).nusers config.nfactors false : Option (FactorData K)).isSome = true ∧
      (FactorData.new
        ((BPREngine.new config metricsEngine evalNumNeg evalSeed parallel gen0 lr0).populate
          dataset).nitems config.nfactors config.useBiases : Option (FactorData K)).isSome
        = true ∧
      (((BPREngine.new config metricsEngine evalNumNeg evalSeed parallel gen0 lr0).initEvalSet mt
          dis fuel dataset).isSome = true →
        ((BPREngine.new config metricsEngine evalNumNeg evalSeed parallel gen0 lr0).init mt dis
          unif fuel dataset).isSome = true)) := by
  obtain ⟨s, hs⟩ : ∃ s : BPREngine K G,
      s = BPREngine.new config metricsEngine evalNumNeg evalSeed parallel gen0 lr0 := ⟨_, rfl⟩
  rw [← hs]
  have hcfg : s.config = config := by rw [hs]; rfl
  obtain ⟨p1, p2, p3, _⟩ := BPREngine.populate_kept s (by rw [hs]; rfl) (by rw [hs]; rfl)
    (by rw [hs]; rfl) dataset
  obtain ⟨c1, _, _, _⟩ := BPREngine.populate_fields s dataset
  have hnone : ∀ (n k : Nat) (b : Bool), n = 0 ∨ k = 0 →
      (FactorData.new n k b : Option (FactorData K)) = none :=
    fun n k b h => (FactorData.new_dims n k b).2.1 h
  have hsome : ∀ (n k : Nat) (b : Bool), 0 < n → 0 < k → n * k < 2 ^ 64 →
      (FactorData.new n k b : Option (FactorData K)).isSome = true := by
    intro n k b hn hk hb
    cases hx : (FactorData.new n k b : Option (FactorData K)) with
    | some x => rfl
    | none =>
      rcases (FactorData.new_dims n k b).2.2.1 hb hx with h | h
      · omega
      · omega
  refine ⟨?_, ?_, ?_, ?_, ?_⟩
  · intro hval
    have hkept : dataset.filter (fun e => decide (1 ≤ e.value)) = [] := by
      rw [List.filter_eq_nil_iff]
      intro e he
      simpa using hval e he
    rw [hkept] at p1 p3
    have hn : (s.populate dataset).nusers = 0 := by
      unfold BPREngine.nusers
      rw [p1]
      rfl
    have hd : (s.populate dataset).data = [] := p3
    refine ⟨?_, hn, hnone 0 _ false (Or.inl rfl), ?_⟩
    · unfold BPREngine.initEvalSet BPREngine.iterate
      simp only [hd, List.foldl_nil, List.foldlM_nil]
      rfl
    · apply BPREngine.init_none_of_userFactors
      rw [hn]
      exact hnone 0 _ false (Or.inl rfl)
  · have hnil : stdSort datasetLess ([] : List (DatasetElem K)) = [] :=
      List.Perm.eq_nil (hsort []).1
    have hg : groupSignals stdSort [] IdIndex.empty ([] : List (DatasetElem K))
        = some ([], IdIndex.empty, []) := by
      unfold groupSignals sortDataset
      simp only [hnil, List.foldl_nil]
      rfl
    refine ⟨hg, hnone 0 _ false (Or.inl rfl), ?_⟩
    unfold WALSEngine.init
    simp only [WALSEngine.new, Option.isNone_none, and_self, not_true_eq_false, if_false, hg,
      List.map_nil, WALSEngine.nusers]
    rw [show (IdIndex.empty).size = 0 from rfl, hnone 0 _ false (Or.inl rfl)]
  · intro h0
    obtain ⟨hrun1, _⟩ := groupSignals_run stdSort hsort dataset
    obtain ⟨hrun2, _⟩ := groupSignals_run stdSort hsort
      ((stdSort datasetLess dataset).map
        (fun elem => { elem with userId := elem.itemId, itemId := elem.userId }))
    refine ⟨⟨_, _, _, hrun1, ⟨_, hrun2⟩, hnone _ _ false (Or.inr h0)⟩, ?_⟩
    unfold WALSEngine.init
    simp only [WALSEngine.new, Option.isNone_none, and_self, not_true_eq_false, if_false]
    rw [hrun1]
    simp only
    rw [hrun2]
    simp only [WALSEngine.nusers]
    rw [hnone _ _ false (Or.inr h0)]
  · intro h0
    refine ⟨fun n => hnone n _ false (Or.inr h0), ?_⟩
    apply BPREngine.init_none_of_userFactors
    rw [c1, hcfg]
    exact hnone _ _ false (Or.inr h0)
  · intro hpos ⟨e, he, hv⟩ hbu hbi
    have hmem : e ∈ dataset.filter (fun e => decide (1 ≤ e.value)) :=
      List.mem_filter.2 ⟨he, by simpa using hv⟩
    have hnu : 0 < (s.populate dataset).nusers := by
      unfold BPREngine.nusers
      rw [p1, IdIndex.afterCalls_size]
      exact Finset.card_pos.2 ⟨e.userId, List.mem_toFinset.2
        (List.mem_map_of_mem (fun e => e.userId) hmem)⟩
    have hni : 0 < (s.populate dataset).nitems := by
      unfold BPREngine.nitems
      rw [p2, IdIndex.afterCalls_size]
      exact Finset.card_pos.2 ⟨e.itemId, List.mem_toFinset.2
        (List.mem_map_of_mem (fun e => e.itemId) hmem)⟩
    refine ⟨hsome _ _ false hnu hpos hbu, hsome _ _ _ hni hpos hbi, ?_⟩
    intro hsamp
    apply BPREngine.init_isSome mt dis unif fuel s dataset (by rw [hs]; rfl) (by rw [hs]; rfl)
      hsamp
    · rw [c1, hcfg]; exact hsome _ _ false hnu hpos hbu
    · rw [c1, hcfg]; exact hsome _ _ _ hni hpos hbi

theorem init_fatal_without_data_witness :
    StdSort (datasetLess : DatasetElem ℚ → DatasetElem ℚ → Bool) (insertionStdSort datasetLess) ∧
    (∀ e ∈ testLowValueDataset, e.value < 1) ∧
    (BPREngine.new testBPRConfig none 2 42 ⟨16, by decide⟩ (0 : Nat) 0).init testMt
      testUniformInt testUniformReal 10 testLowValueDataset = none ∧
    (0 < testBPRConfig.nfactors ∧ ∃ e ∈ testTrainDataset, 1 ≤ e.value) ∧
    testBPRInit.isSome = true :=
  ⟨insertionStdSort_datasetLess, by decide!,
    ((init_fatal_without_data testBPRConfig none 2 42 ⟨16, by decide⟩ (0 : Nat) 0 testMt
      testUniformInt testUniformReal 10 testWALSConfig insertionStdSort
      insertionStdSort_datasetLess testLowValueDataset).1 (by decide!)).2.2.2,
    ⟨by decide, ⟨3, 2, 1⟩, by decide!, by decide!⟩,
    ((init_fatal_without_data testBPRConfig none 2 42 ⟨16, by decide⟩ (0 : Nat) 0 testMt
      testUniformInt testUniformReal 10 testWALSConfig insertionStdSort
      insertionStdSort_datasetLess testTrainDataset).2.2.2.2 (by decide)
      ⟨⟨3, 2, 1⟩, by decide!, by decide!⟩ (by decide!) (by decide!)).2.2 (by decide!)⟩

/-! ## Theorems: the Hogwild partition -/

/-- A fold that threads an optional state through `bind` is the monadic fold. -/
theorem foldl_bind_eq_foldlM {σ A : Type} (h : σ → A → Option σ) (l : List A) (x : σ) :
    l.foldl (fun (acc : Option σ) a => acc.bind (fun x => h x a)) (some x) = l.foldlM h x := by
  induction l generalizing x with
  | nil => rfl
  | cons a l ih =>
    rw [List.foldl_cons, List.foldlM_cons]
    cases hx : h x a with
    | none =>
      simp only [Option.some_bind, hx]
      have hnone : ∀ l : List A,
          l.foldl (fun (acc : Option σ) a => acc.bind (fun x => h x a)) none = none := by
        intro l
        induction l with
        | nil => rfl
        | cons b l ihl => rw [List.foldl_cons]; exact ihl
      rw [hnone]
      rfl
    | some y =>
      simp only [Option.some_bind, hx]
      rw [ih y]
      rfl

/-- A monadic fold over concatenated blocks is the fold of the folds of the
blocks. -/
theorem foldlM_flatMap {σ A B : Type} (f : A → List B) (g : σ → B → Option σ) (l : List A)
    (x : σ) :
    (l.flatMap f).foldlM g x = l.foldlM (fun x a => (f a).foldlM g x) x := by
  induction l generalizing x with
  | nil => rfl
  | cons a l ih =>
    rw [List.flatMap_cons, List.foldlM_append, List.foldlM_cons]
    cases hx : (f a).foldlM g x with
    | none => rfl
    | some y => exact ih y

/-- Two step functions that agree on the elements of the list fold alike. -/
theorem foldlM_congr_mem {σ A : Type} (g g2 : σ → A → Option σ) (l : List A) (x : σ)
    (h : ∀ a ∈ l, ∀ x, g x a = g2 x a) : l.foldlM g x = l.foldlM g2 x := by
  induction l generalizing x with
  | nil => rfl
  | cons a l ih =>
    rw [List.foldlM_cons, List.foldlM_cons, h a (List.mem_cons_self _ _) x]
    cases hx : g2 x a with
    | none => rfl
    | some y => exact ih y (fun b hb => h b (List.mem_cons_of_mem _ hb))

/-- The block of a task `taskId < numTasks`: `blockSize` consecutive positions
from `taskId * blockSize`. -/
theorem hogwildBlock_eq (dataSize numTasks taskId : Nat) (ht : taskId < numTasks) :
    hogwildBlock dataSize numTasks taskId
      = List.range' (taskId * (dataSize / numTasks)) (dataSize / numTasks) := by
  unfold hogwildBlock
  simp only
  have hle : (taskId + 1) * (dataSize / numTasks) ≤ dataSize :=
    Nat.le_trans (Nat.mul_le_mul_right _ ht)
      (Nat.mul_div_le _ _)
  rw [Nat.min_eq_right hle, Nat.succ_mul, Nat.add_sub_cancel_left]

/-- The blocks of the tasks `0 .. k - 1`, in task order, are the positions
`0 .. k * blockSize - 1` in order. -/
theorem hogwildBlock_flatMap (dataSize numTasks k : Nat) (hk : k ≤ numTasks) :
    (List.range k).flatMap (hogwildBlock dataSize numTasks)
      = List.range (k * (dataSize / numTasks)) := by
  induction k with
  | zero => simp
  | succ k ih =>
    rw [List.range_succ, List.flatMap_append, ih (Nat.le_of_succ_le hk)]
    simp only [List.flatMap_cons, List.flatMap_nil, List.append_nil]
    rw [hogwildBlock_eq dataSize numTasks k hk, List.range_eq_range', List.range_eq_range',
      Nat.succ_mul]
    have := List.range'_append 0 (k * (dataSize / numTasks)) (dataSize / numTasks) 1
    simp only [Nat.zero_add, Nat.one_mul] at this
    rw [this, Nat.add_comm]

/-- The positions visited by the tasks in any order that runs each task once
are the positions below `numTasks * blockSize`, each once. -/
theorem hogwild_positions_perm (order : List Nat) (dataSize numTasks : Nat)
    (horder : order.Perm (List.range numTasks)) :
    (order.flatMap (hogwildBlock dataSize numTasks)).Perm
      (List.range (numTasks * (dataSize / numTasks))) := by
  rw [← hogwildBlock_flatMap dataSize numTasks numTasks (Nat.le_refl _)]
  exact horder.flatMap_right _

/-- The Hogwild branch of the SGD of an epoch as one loop over the positions the
tasks visit, in the order of the calls. -/
theorem BPREngine.runSGD_hogwild {K G S : Type} (dis : UniformInt G) (fuel : Nat)
    (s : BPREngine K G) (updateOne : S → PosNegTriplet → Option S) (st : S) (gen : G)
    (hT : 1 < s.config.numHogwildThreads) :
    s.runSGD dis fuel updateOne st gen
      = ((s.parallel.execute s.config.numHogwildThreads).flatten.flatMap
          (hogwildBlock s.data.length s.config.numHogwildThreads)).foldlM
          (fun (acc : S × G) i =>
            match s.data[i]? with
            | none => none
            | some elem =>
              BPREngine.sampleTriplets dis fuel s updateOne false elem.userIdx elem.posItemIdx
                s.config.numNegativeSamples acc)
          (st, gen) := by
  unfold BPREngine.runSGD
  rw [if_neg (by omega)]
  simp only
  unfold ParallelExecutor.executeOn
  rw [foldl_bind_eq_foldlM
    (fun (acc : S × G) taskId =>
      s.iterateBlock dis fuel updateOne (taskId * (s.data.length / s.config.numHogwildThreads))
        (min s.data.length ((taskId + 1) * (s.data.length / s.config.numHogwildThreads)))
        s.config.numNegativeSamples acc),
    foldlM_flatMap]
  rfl

/-- C34: the Hogwild partition. With `T = numHogwildThreads > 1`,
`B = floor(|data| / T)` and the blocks `[t*B, min(|data|, (t+1)*B))` of the tasks
`t` in `[0, T)`: block `t` holds the positions from `t*B` to `(t+1)*B - 1`, the
blocks are pairwise disjoint and their union is `[0, T*B)`; whatever the pool
size, the positions visited in one epoch are the positions below `T*B`, each
exactly once, and no position from `T*B` on; the SGD of the epoch is the loop
over these visits of the inner loop that calls `updateOne` on
`numNegativeSamples` sampled triplets of the pair at the position; so the
triplets passed to `updateOne` are `numNegativeSamples` consecutive triplets
of the pair of each visited position. -/
theorem BPREngine.hogwild_partition {K G : Type} (dis : UniformInt G) (fuel : Nat)
    (s : BPREngine K G) (hT : 1 < s.config.numHogwildThreads) :
    (∀ t, t < s.config.numHogwildThreads → ∀ i,
      i ∈ hogwildBlock s.data.length s.config.numHogwildThreads t
        ↔ t * (s.data.length / s.config.numHogwildThreads) ≤ i
          ∧ i < (t + 1) * (s.data.length / s.config.numHogwildThreads)) ∧
    (∀ t1 t2, t1 < s.config.numHogwildThreads → t2 < s.config.numHogwildThreads → t1 ≠ t2 →
      ∀ i, i ∈ hogwildBlock s.data.length s.config.numHogwildThreads t1 →
        i ∉ hogwildBlock s.data.length s.config.numHogwildThreads t2) ∧
    (∀ i, (∃ t, t < s.config.numHogwildThreads
        ∧ i ∈ hogwildBlock s.data.length s.config.numHogwildThreads t)
      ↔ i < s.config.numHogwildThreads * (s.data.length / s.config.numHogwildThreads)) ∧
    ((s.parallel.execute s.config.numHogwildThreads).flatten.flatMap
        (hogwildBlock s.data.length s.config.numHogwildThreads)).Perm
      (List.range (s.config.numHogwildThreads
        * (s.data.length / s.config.numHogwildThreads))) ∧
    (∀ (S : Type) (updateOne : S → PosNegTriplet → Option S) (st : S) (gen : G),
      s.runSGD dis fuel updateOne st gen
        = ((s.parallel.execute s.config.numHogwildThreads).flatten.flatMap
            (hogwildBlock s.data.length s.config.numHogwildThreads)).foldlM
            (fun (acc : S × G) i =>
              match s.data[i]? with
              | none => none
              | some elem =>
                BPREngine.sampleTriplets dis fuel s updateOne false elem.userIdx
                  elem.posItemIdx s.config.numNegativeSamples acc)
            (st, gen)) ∧
    ∀ (gen g : G) (trace : List PosNegTriplet),
      s.runSGD dis fuel (fun (l : List PosNegTriplet) t => some (l ++ [t])) [] gen
        = some (trace, g) →
      trace.map (fun t => (t.userIdx, t.posItemIdx))
        = ((s.parallel.execute s.config.numHogwildThreads).flatten.flatMap
            (hogwildBlock s.data.length s.config.numHogwildThreads)).flatMap
            (fun i => List.replicate s.config.numNegativeSamples
              ((s.data.getD i ⟨0, 0⟩).userIdx, (s.data.getD i ⟨0, 0⟩).posItemIdx)) := by
  have hmem : ∀ t, t < s.config.numHogwildThreads → ∀ i,
      i ∈ hogwildBlock s.data.length s.config.numHogwildThreads t
        ↔ t * (s.data.length / s.config.numHogwildThreads) ≤ i
          ∧ i < (t + 1) * (s.data.length / s.config.numHogwildThreads) := by
    intro t ht i
    rw [hogwildBlock_eq _ _ t ht, List.mem_range'_1, Nat.succ_mul]
  have hperm := hogwild_positions_perm (s.parallel.execute s.config.numHogwildThreads).flatten
    s.data.length s.config.numHogwildThreads
    (execute_flatten_perm s.parallel s.config.numHogwildThreads)
  have hunion : ∀ i, (∃ t, t < s.config.numHogwildThreads
        ∧ i ∈ hogwildBlock s.data.length s.config.numHogwildThreads t)
      ↔ i < s.config.numHogwildThreads * (s.data.length / s.config.numHogwildThreads) := by
    intro i
    rw [← List.mem_range, ← hogwildBlock_flatMap s.data.length s.config.numHogwildThreads
      s.config.numHogwildThreads (Nat.le_refl _), List.mem_flatMap]
    constructor
    · rintro ⟨t, ht, hi⟩
      exact ⟨t, List.mem_range.2 ht, hi⟩
    · rintro ⟨t, ht, hi⟩
      exact ⟨t, List.mem_range.1 ht, hi⟩
  refine ⟨hmem, ?_, hunion, hperm,
    fun S updateOne st gen => BPREngine.runSGD_hogwild dis fuel s updateOne st gen hT, ?_⟩
  · intro t1 t2 h1 h2 hne i hi1 hi2
    obtain ⟨a1, a2⟩ := (hmem t1 h1 i).1 hi1
    obtain ⟨b1, b2⟩ := (hmem t2 h2 i).1 hi2
    rcases Nat.lt_or_gt_of_ne hne with hlt | hlt
    · have : (t1 + 1) * (s.data.length / s.config.numHogwildThreads)
          ≤ t2 * (s.data.length / s.config.numHogwildThreads) :=
        Nat.mul_le_mul_right _ hlt
      omega
    · have : (t2 + 1) * (s.data.length / s.config.numHogwildThreads)
          ≤ t1 * (s.data.length / s.config.numHogwildThreads) :=
        Nat.mul_le_mul_right _ hlt
      omega
  · intro gen g trace hrun
    rw [BPREngine.runSGD_hogwild dis fuel s _ [] gen hT] at hrun
    have hin : ∀ i ∈ (s.parallel.execute s.config.numHogwildThreads).flatten.flatMap
        (hogwildBlock s.data.length s.config.numHogwildThreads), i < s.data.length := by
      intro i hi
      have h1 := List.mem_range.1 (hperm.mem_iff.1 hi)
      exact Nat.lt_of_lt_of_le h1 (Nat.mul_div_le _ _)
    rw [foldlM_congr_mem _
      (fun (acc : List PosNegTriplet × G) i =>
        BPREngine.sampleTriplets dis fuel s
          (fun (l : List PosNegTriplet) t => some (l ++ [t])) false
          (s.data.getD i ⟨0, 0⟩).userIdx (s.data.getD i ⟨0, 0⟩).posItemIdx
          s.config.numNegativeSamples acc) _ _
      (fun i hi acc => by
        have hlt := hin i hi
        beta_reduce
        rw [List.getElem?_eq_getElem hlt, List.getD_eq_getElem _ _ hlt])] at hrun
    obtain ⟨ts, e1, m1, _⟩ := BPREngine.foldlM_sampleTriplets dis fuel s false
      (fun i => (s.data.getD i ⟨0, 0⟩).userIdx) (fun i => (s.data.getD i ⟨0, 0⟩).posItemIdx)
      _ _ _ _ _ _ hrun
    rw [List.nil_append] at e1
    rw [e1, m1]

/-- On an engine with 2 Hogwild threads, a pool of 3 workers, 5 training pairs
and 2 negative samples per pair: the visited positions are 0, 1, 2, 3, the
position 4 is not visited, and the SGD of the epoch passes 2 triplets of each
of the first 4 pairs to `updateOne`. -/
theorem BPREngine.hogwild_partition_witness :
    1 < testHogwildEngine.config.numHogwildThreads ∧
    (testHogwildEngine.parallel.execute 2).flatten.flatMap (hogwildBlock 5 2) = [0, 1, 2, 3] ∧
    (∀ t, t < 2 → 4 ∉ hogwildBlock 5 2 t) ∧
    testHogwildEngine.runSGD testUniformInt 10
        (fun (l : List PosNegTriplet) t => some (l ++ [t])) [] 0
      = some ([⟨0, 0, 2⟩, ⟨0, 0, 2⟩, ⟨1, 0, 1⟩, ⟨1, 0, 2⟩, ⟨0, 1, 2⟩, ⟨0, 1, 2⟩, ⟨2, 0, 1⟩,
          ⟨2, 0, 2⟩], 18) := by
  have hpos : (testHogwildEngine.parallel.execute
        testHogwildEngine.config.numHogwildThreads).flatten.flatMap
        (hogwildBlock testHogwildEngine.data.length
          testHogwildEngine.config.numHogwildThreads) = [0, 1, 2, 3] := by
    show (testHogwildEngine.parallel.execute 2).flatten.flatMap (hogwildBlock 5 2)
      = [0, 1, 2, 3]
    simp only [ParallelExecutor.execute, strideTaskIds_eq]
    decide
  obtain ⟨hmem, _, _, _, hrun, _⟩ :=
    BPREngine.hogwild_partition testUniformInt 10 testHogwildEngine (by decide)
  refine ⟨by decide, hpos, ?_, ?_⟩
  · intro t ht h4
    have := ((hmem t ht 4).1 h4).2
    have hB : testHogwildEngine.data.length / testHogwildEngine.config.numHogwildThreads = 2 :=
      by decide
    rw [hB] at this
    omega
  · rw [hrun, hpos]
    decide!

/-! ## Theorems: the learning rate over the epochs of `BPREngine::optimize` -/

/-- A monadic fold under an invariant of the state: a step function that agrees
with `g` on the states of the invariant gives the same fold, and the result
satisfies the invariant. -/
theorem foldlM_inv {σ A : Type} (g g2 : σ → A → Option σ) (P : σ → Prop)
    (h : ∀ x a, P x → g x a = g2 x a ∧ ∀ y, g x a = some y → P y) (l : List A) (x : σ)
    (hx : P x) :
    l.foldlM g x = l.foldlM g2 x ∧ ∀ y, l.foldlM g x = some y → P y := by
  induction l generalizing x with
  | nil =>
    refine ⟨rfl, fun y hy => ?_⟩
    rw [List.foldlM_nil] at hy
    cases hy
    exact hx
  | cons a l ih =>
    rw [List.foldlM_cons, List.foldlM_cons, ← (h x a hx).1]
    cases hg : g x a with
    | none => exact ⟨rfl, fun y hy => Option.noConfusion hy⟩
    | some z => exact ih z ((h x a hx).2 z hg)

/-- The inner sampling loop under an invariant of the state of `func`. -/
theorem BPREngine.sampleTriplets_inv {K G S : Type} (dis : UniformInt G) (fuel : Nat)
    (s : BPREngine K G) (f f2 : S → PosNegTriplet → Option S) (P : S → Prop)
    (hf : ∀ x t, P x → f x t = f2 x t ∧ ∀ y, f x t = some y → P y)
    (useTest : Bool) (u p numNeg : Nat) (st : S × G) (h0 : P st.1) :
    BPREngine.sampleTriplets dis fuel s f useTest u p numNeg st
        = BPREngine.sampleTriplets dis fuel s f2 useTest u p numNeg st ∧
      ∀ r, BPREngine.sampleTriplets dis fuel s f useTest u p numNeg st = some r → P r.1 := by
  induction numNeg generalizing st with
  | zero =>
    refine ⟨rfl, fun r hr => ?_⟩
    simp only [BPREngine.sampleTriplets, Option.some.injEq] at hr
    rw [← hr]
    exact h0
  | succ n ih =>
    simp only [BPREngine.sampleTriplets]
    cases s.sampleRandomNegative dis fuel u st.2 useTest with
    | none => exact ⟨rfl, fun r hr => Option.noConfusion hr⟩
    | some ng =>
      obtain ⟨negIdx, gen⟩ := ng
      simp only
      rw [← (hf st.1 ⟨u, p, negIdx⟩ h0).1]
      cases hg : f st.1 ⟨u, p, negIdx⟩ with
      | none => exact ⟨rfl, fun r hr => Option.noConfusion hr⟩
      | some st1 => exact ih (st1, gen) ((hf st.1 ⟨u, p, negIdx⟩ h0).2 st1 hg)

/-- The SGD of an epoch under an invariant of the state of `updateOne`. -/
theorem BPREngine.runSGD_inv {K G S : Type} (dis : UniformInt G) (fuel : Nat)
    (s : BPREngine K G) (f f2 : S → PosNegTriplet → Option S) (P : S → Prop)
    (hf : ∀ x t, P x → f x t = f2 x t ∧ ∀ y, f x t = some y → P y)
    (st : S) (gen : G) (h0 : P st) :
    s.runSGD dis fuel f st gen = s.runSGD dis fuel f2 st gen ∧
      ∀ r, s.runSGD dis fuel f st gen = some r → P r.1 := by
  by_cases hT : s.config.numHogwildThreads ≤ 1
  · unfold BPREngine.runSGD BPREngine.iterate
    rw [if_pos hT, if_pos hT]
    exact foldlM_inv _ _ (fun (x : S × G) => P x.1)
      (fun x a hx => BPREngine.sampleTriplets_inv dis fuel s f f2 P hf false _ _ _ x hx)
      s.data (st, gen) h0
  · have hT2 : 1 < s.config.numHogwildThreads := Nat.lt_of_not_le hT
    rw [BPREngine.runSGD_hogwild dis fuel s f st gen hT2,
      BPREngine.runSGD_hogwild dis fuel s f2 st gen hT2]
    refine foldlM_inv _ _ (fun (x : S × G) => P x.1) (fun x i hx => ?_) _ (st, gen) h0
    cases s.data[i]? with
    | none => exact ⟨rfl, fun y hy => Option.noConfusion hy⟩
    | some elem => exact BPREngine.sampleTriplets_inv dis fuel s f f2 P hf false _ _ _ x hx

/-- An update leaves the learning rate and the configuration as they are. -/
theorem BPREngine.update_keeps_rate {K G : Type} [Field K] (exp : K → K) (s s2 : BPREngine K G)
    (t : PosNegTriplet) (h : s.update exp t = some s2) :
    s2.learningRate = s.learningRate ∧ s2.config = s.config := by
  unfold BPREngine.update at h
  simp only at h
  split at h
  · split at h
    · exact Option.noConfusion h
    · have := (Option.some.inj h).symm
      subst this
      exact ⟨rfl, rfl⟩
  · exact Option.noConfusion h

/-- The call of `evaluate` leaves the learning rate and the configuration as they
are. -/
theorem BPREngine.evaluate_keeps_rate {K G : Type} [LinearOrderedField K] (exp log : K → K)
    (stdSort : (K × Bool → K × Bool → Bool) → List (K × Bool) → List (K × Bool))
    (nthElement : (K × Bool → K × Bool → Bool) → Nat → List (K × Bool) → List (K × Bool))
    (s s2 : BPREngine K G) (mm mm2 : MetricsManager) (epoch : Nat)
    (h : s.evaluate exp log stdSort nthElement mm epoch = some (s2, mm2)) :
    s2.learningRate = s.learningRate ∧ s2.config = s.config := by
  unfold BPREngine.evaluate at h
  split at h
  · split at h
    · cases h
      exact ⟨rfl, rfl⟩
    · split at h
      · split at h
        · simp only [Option.map_eq_some', Prod.mk.injEq] at h
          obtain ⟨r, _, hr, _⟩ := h
          rw [← hr]
          exact ⟨rfl, rfl⟩
        · exact Option.noConfusion h
      · cases h
        exact ⟨rfl, rfl⟩
  · exact Option.noConfusion h

/-- The shuffle of the training pairs leaves the learning rate and the
configuration as they are. -/
theorem BPREngine.shuffle_keeps_rate {K G : Type}
    (shuffleData : List PosPair → G → List PosPair × G) (s : BPREngine K G) :
    (s.shuffle shuffleData).learningRate = s.learningRate
      ∧ (s.shuffle shuffleData).config = s.config :=
  ⟨rfl, rfl⟩

/-- The SGD of an epoch leaves the learning rate and the configuration as they
are, and each of its updates runs at the learning rate `r` of the start. -/
theorem BPREngine.runSGD_rate {K G : Type} [Field K] (exp : K → K) (dis : UniformInt G)
    (fuel : Nat) (s st : BPREngine K G) (gen : G) :
    s.runSGD dis fuel (fun (e : BPREngine K G) t => e.update exp t) st gen
        = s.runSGD dis fuel
            (fun (e : BPREngine K G) t =>
              ({ e with learningRate := st.learningRate } : BPREngine K G).update exp t) st gen ∧
      ∀ r, s.runSGD dis fuel (fun (e : BPREngine K G) t => e.update exp t) st gen = some r →
        r.1.learningRate = st.learningRate ∧ r.1.config = st.config := by
  refine BPREngine.runSGD_inv dis fuel s _ _
    (fun e => e.learningRate = st.learningRate ∧ e.config = st.config) ?_ st gen ⟨rfl, rfl⟩
  intro x t hx
  refine ⟨?_, fun y hy => ?_⟩
  · have : ({ x with learningRate := st.learningRate } : BPREngine K G) = x := by
      rw [← hx.1]
    rw [this]
  · have := BPREngine.update_keeps_rate exp x y t hy
    exact ⟨this.1.trans hx.1, this.2.trans hx.2⟩

/-- One epoch: the configuration stays, and the learning rate is multiplied by
`decayRate` when `decayRate < 1` and stays otherwise. -/
theorem BPREngine.epoch_rate {K G : Type} [LinearOrderedField K] (exp log : K → K)
    (dis : UniformInt G) (fuel : Nat)
    (stdSort : (K × Bool → K × Bool → Bool) → List (K × Bool) → List (K × Bool))
    (nthElement : (K × Bool → K × Bool → Bool) → Nat → List (K × Bool) → List (K × Bool))
    (shuffleData : List PosPair → G → List PosPair × G)
    (st st2 : BPREngine K G × MetricsManager) (epoch : Nat)
    (h : BPREngine.epoch exp log dis fuel stdSort nthElement shuffleData st epoch = some st2) :
    st2.1.config = st.1.config ∧
    st2.1.learningRate
      = if st.1.config.decayRate < 1 then st.1.learningRate * st.1.config.decayRate
        else st.1.learningRate := by
  unfold BPREngine.epoch at h
  split at h
  · exact Option.noConfusion h
  · rename_i s1 gen hsgd
    have h1 := (BPREngine.runSGD_rate exp dis fuel st.1 st.1 st.1.gen).2 _ hsgd
    simp only at h1
    split at h
    · exact Option.noConfusion h
    · rename_i s2 mm hev
      have h2 := BPREngine.evaluate_keeps_rate exp log stdSort nthElement _ _ _ _ _ hev
      simp only at h2
      have hc : s2.config = st.1.config := h2.2.trans h1.2
      have hl : s2.learningRate = st.1.learningRate := h2.1.trans h1.1
      have h3 := (Option.some.inj h).symm
      subst h3
      by_cases hd : st.1.config.decayRate < 1 <;>
        by_cases hsh : st.1.config.shuffleTrainingSet = true <;>
        simp [hc, hl, hd, hsh, BPREngine.shuffle]

/-- The first `k + 1` epochs are the first `k` epochs and then the epoch `k + 1`. -/
theorem BPREngine.runEpochs_succ {K G : Type} [LinearOrderedField K] (exp log : K → K)
    (dis : UniformInt G) (fuel : Nat)
    (stdSort : (K × Bool → K × Bool → Bool) → List (K × Bool) → List (K × Bool))
    (nthElement : (K × Bool → K × Bool → Bool) → Nat → List (K × Bool) → List (K × Bool))
    (shuffleData : List PosPair → G → List PosPair × G)
    (s : BPREngine K G) (mm : MetricsManager) (k : Nat) :
    s.runEpochs exp log dis fuel stdSort nthElement shuffleData mm (k + 1)
      = (s.runEpochs exp log dis fuel stdSort nthElement shuffleData mm k).bind
          (fun st => BPREngine.epoch exp log dis fuel stdSort nthElement shuffleData st (k + 1)) := by
  have hstep : ∀ x, List.foldlM (BPREngine.epoch exp log dis fuel stdSort nthElement shuffleData)
      x [1 + k] = BPREngine.epoch exp log dis fuel stdSort nthElement shuffleData x (k + 1) := by
    intro x
    rw [List.foldlM_cons, Nat.add_comm 1 k]
    cases BPREngine.epoch exp log dis fuel stdSort nthElement shuffleData x (k + 1) <;> rfl
  unfold BPREngine.runEpochs
  rw [List.range'_1_concat, List.foldlM_append]
  simp only [hstep]
  rfl

/-- After `k` epochs the configuration is the initial one and the learning rate
is the initial one times `decayRate^k` when `decayRate < 1`, and the initial one
otherwise. -/
theorem BPREngine.runEpochs_rate {K G : Type} [LinearOrderedField K] (exp log : K → K)
    (dis : UniformInt G) (fuel : Nat)
    (stdSort : (K × Bool → K × Bool → Bool) → List (K × Bool) → List (K × Bool))
    (nthElement : (K × Bool → K × Bool → Bool) → Nat → List (K × Bool) → List (K × Bool))
    (shuffleData : List PosPair → G → List PosPair × G)
    (s : BPREngine K G) (mm : MetricsManager) (k : Nat) (st : BPREngine K G × MetricsManager)
    (h : s.runEpochs exp log dis fuel stdSort nthElement shuffleData mm k = some st) :
    st.1.config = s.config ∧
    st.1.learningRate
      = if s.config.decayRate < 1 then s.learningRate * s.config.decayRate ^ k
        else s.learningRate := by
  induction k generalizing st with
  | zero =>
    unfold BPREngine.runEpochs at h
    rw [List.range'_zero, List.foldlM_nil] at h
    cases h
    simp
  | succ k ih =>
    rw [BPREngine.runEpochs_succ] at h
    cases hk : s.runEpochs exp log dis fuel stdSort nthElement shuffleData mm k with
    | none => rw [hk] at h; exact Option.noConfusion h
    | some sk =>
      rw [hk] at h
      have h1 := ih sk hk
      have h2 := BPREngine.epoch_rate exp log dis fuel stdSort nthElement shuffleData sk st
        (k + 1) h
      refine ⟨h2.1.trans h1.1, ?_⟩
      rw [h2.2, h1.1, h1.2]
      by_cases hd : s.config.decayRate < 1
      · simp only [if_pos hd, pow_succ, mul_assoc]
      · simp only [if_neg hd]

/-- After `init` the learning rate is `initLearningRate`. -/
theorem BPREngine.init_learningRate {K G : Type} [LinearOrderedField K] (mt : Mt19937 G)
    (dis : UniformInt G) (unif : UniformReal G K) (fuel : Nat) (s sf : BPREngine K G)
    (dataset : List (DatasetElem K)) (h : s.init mt dis unif fuel dataset = some sf) :
    sf.learningRate = sf.config.initLearningRate := by
  unfold BPREngine.init at h
  split at h
  · exact Option.noConfusion h
  · simp only at h
    split at h
    · exact Option.noConfusion h
    · split at h
      · have := (Option.some.inj h).symm
        subst this
        rfl
      · exact Option.noConfusion h

/-- C35: the learning-rate schedule. Let `s` be the engine after `init`, or after
`init` and `initTest`, let `1 ≤ e ≤ nepochs`, and let the first `e - 1` epochs
of `optimize` have returned, with the engine `sk`. Then `optimize` goes on from
`sk` with the epochs `e, ..., nepochs`; the learning rate of `sk` is the
scheduled rate of the epoch `e`: `initLearningRate * decayRate^(e-1)` when
`decayRate < 1`, and `initLearningRate` when `decayRate ≥ 1`; the SGD of the
epoch `e` is the SGD in which every update runs at that rate; the SGD and the
call of `evaluate` leave the rate as it is, and the epoch ends with the rate
scheduled for the epoch `e + 1`. -/
theorem BPREngine.learningRate_schedule {K G : Type} [LinearOrderedField K] (mt : Mt19937 G)
    (dis : UniformInt G) (unif : UniformReal G K) (exp log : K → K) (fuel fuelT : Nat)
    (iterOrder : List Nat → List Nat) (shuffle : List Nat → G → List Nat)
    (stdSort : (K × Bool → K × Bool → Bool) → List (K × Bool) → List (K × Bool))
    (nthElement : (K × Bool → K × Bool → Bool) → Nat → List (K × Bool) → List (K × Bool))
    (shuffleData : List PosPair → G → List PosPair × G)
    (s0 s1 s sk : BPREngine K G) (dataset testDataset : List (DatasetElem K))
    (mm mmk : MetricsManager) (e : Nat)
    (hinit : s0.init mt dis unif fuel dataset = some s1)
    (hs : s = s1 ∨ s1.initTest mt dis iterOrder shuffle fuelT testDataset = some s)
    (he1 : 1 ≤ e) (he2 : e ≤ s.config.nepochs)
    (hrun : s.runEpochs exp log dis fuel stdSort nthElement shuffleData mm (e - 1)
      = some (sk, mmk)) :
    s.optimize exp log dis fuel stdSort nthElement shuffleData mm
      = (List.range' e (s.config.nepochs - (e - 1))).foldlM
          (BPREngine.epoch exp log dis fuel stdSort nthElement shuffleData) (sk, mmk) ∧
    sk.config = s.config ∧
    sk.learningRate = s.config.scheduledRate e ∧
    (s.config.decayRate < 1 →
      sk.learningRate = s.config.initLearningRate * s.config.decayRate ^ (e - 1)) ∧
    (1 ≤ s.config.decayRate → sk.learningRate = s.config.initLearningRate) ∧
    (∀ gen, sk.runSGD dis fuel (fun (x : BPREngine K G) t => x.update exp t) sk gen
      = sk.runSGD dis fuel
          (fun (x : BPREngine K G) t =>
            ({ x with learningRate := s.config.scheduledRate e } : BPREngine K G).update exp t)
          sk gen) ∧
    (∀ x gen, sk.runSGD dis fuel (fun (x : BPREngine K G) t => x.update exp t) sk sk.gen
        = some (x, gen) →
      x.learningRate = sk.learningRate ∧
      ∀ s2 mm2, ({ x with gen := gen } : BPREngine K G).evaluate exp log stdSort nthElement
          mmk e = some (s2, mm2) →
        s2.learningRate = sk.learningRate) ∧
    ∀ st2, BPREngine.epoch exp log dis fuel stdSort nthElement shuffleData (sk, mmk) e = some st2 →
      st2.1.learningRate = s.config.scheduledRate (e + 1) := by
  have hbase : s.learningRate = s.config.initLearningRate ∧ s.userFactors.isSome = true
      ∧ s.itemFactors.isSome = true := by
    have h1 := BPREngine.init_learningRate mt dis unif fuel s0 s1 dataset hinit
    have h2 := BPREngine.init_factors mt dis unif fuel s0 s1 dataset hinit
    rcases hs with hs | hs
    · rw [hs]
      exact ⟨h1, h2.2.2.1, h2.2.2.2⟩
    · obtain ⟨c1, c2, _, _, _, _, _, _, c3, c4, _⟩ :=
        BPREngine.initTest_fields mt dis iterOrder shuffle fuelT s1 s testDataset hs
      rw [c1, c2, c3, c4]
      exact ⟨h1, h2.2.2.1, h2.2.2.2⟩
  obtain ⟨hlr, hU, hQ⟩ := hbase
  have hk := BPREngine.runEpochs_rate exp log dis fuel stdSort nthElement shuffleData s mm
    (e - 1) (sk, mmk) hrun
  simp only at hk
  obtain ⟨hcfg, hrate⟩ := hk
  rw [hlr] at hrate
  have hsched : sk.learningRate = s.config.scheduledRate e := hrate
  have hsgd := BPREngine.runSGD_rate exp dis fuel sk sk
  refine ⟨?_, hcfg, hsched, ?_, ?_, ?_, ?_, ?_⟩
  · unfold BPREngine.optimize
    rw [if_neg (fun h => h ⟨hU, hQ⟩)]
    have hsplit : List.range' 1 s.config.nepochs
        = List.range' 1 (e - 1) ++ List.range' e (s.config.nepochs - (e - 1)) := by
      have := List.range'_append 1 (e - 1) (s.config.nepochs - (e - 1)) 1
      rw [Nat.one_mul, show 1 + (e - 1) = e by omega,
        show s.config.nepochs - (e - 1) + (e - 1) = s.config.nepochs by omega] at this
      exact this.symm
    unfold BPREngine.runEpochs at hrun ⊢
    rw [hsplit, List.foldlM_append, hrun]
    rfl
  · intro hd
    rw [hrate, if_pos hd]
  · intro hd
    rw [hrate, if_neg (not_lt.2 hd)]
  · intro gen
    rw [← hsched]
    exact (hsgd gen).1
  · intro x gen hx
    have h1 := (hsgd sk.gen).2 _ hx
    refine ⟨h1.1, fun s2 mm2 hev => ?_⟩
    have h2 := BPREngine.evaluate_keeps_rate exp log stdSort nthElement _ _ _ _ _ hev
    exact h2.1.trans h1.1
  · intro st2 hst
    have h1 := BPREngine.epoch_rate exp log dis fuel stdSort nthElement shuffleData (sk, mmk) st2
      e hst
    simp only at h1
    rw [h1.2, hcfg, hrate]
    unfold BPRConfig.scheduledRate
    by_cases hd : s.config.decayRate < 1
    · simp only [if_pos hd, Nat.add_sub_cancel]
      obtain ⟨k, rfl⟩ : ∃ k, e = k + 1 := ⟨e - 1, by omega⟩
      simp only [Nat.add_sub_cancel, pow_succ, mul_assoc]
    · simp only [if_neg hd]

/-- On the engine of `TEST(BPREngine, init)` with 2 epochs, learning rate 1/10 and
decay rate 1/2: the first epoch returns and the second epoch starts at the
rate 1/20. -/
theorem BPREngine.learningRate_schedule_witness :
    ∃ s sk mmk, testDecayInit = some s ∧ 2 ≤ s.config.nepochs ∧
      s.runEpochs testExp testLog testUniformInt 10 insertionStdSort sortNthElement
        (fun l g => (l, g)) MetricsManager.new 1 = some (sk, mmk) ∧
      sk.learningRate = 1 / 20 := by
  have h : (testDecayInit.bind (fun s =>
      s.runEpochs testExp testLog testUniformInt 10 insertionStdSort sortNthElement
        (fun l g => (l, g)) MetricsManager.new 1)).isSome = true := by decide!
  have hn : testDecayInit.map (fun s => (s.config.nepochs, s.config.scheduledRate 2))
      = some (2, 1 / 20) := by decide!
  cases hs : testDecayInit with
  | none =>
    rw [hs] at h
    exact absurd h (by decide)
  | some s =>
    rw [hs] at h hn
    simp only [Option.map_some', Option.some.injEq, Prod.mk.injEq] at hn
    cases hk : s.runEpochs testExp testLog testUniformInt 10 insertionStdSort sortNthElement
        (fun l g => (l, g)) MetricsManager.new 1 with
    | none =>
      rw [Option.some_bind, hk] at h
      exact absurd h (by decide)
    | some r =>
      obtain ⟨sk, mmk⟩ := r
      have hmain := BPREngine.learningRate_schedule testMt testUniformInt testUniformReal testExp
        testLog 10 10 id (fun l _ => l) insertionStdSort sortNthElement (fun l g => (l, g))
        (BPREngine.new testDecayConfig none 2 42 ⟨16, by decide⟩ 0 0) s s sk testTrainDataset []
        MetricsManager.new mmk 2 hs (Or.inl rfl) (by decide) (le_of_eq hn.1.symm) hk
      exact ⟨s, sk, mmk, rfl, le_of_eq hn.1.symm, hk, hmain.2.2.1.trans hn.2⟩

end qmf
